import Mathlib

/-!
# LSM: a shallow embedding of the dispatch core of `lsm::MachineImpl`

The definitions below follow `include/lsm/detail/machine_impl.hpp`,
`include/lsm/detail/types.hpp`, `include/lsm/detail/handlers.hpp`, the
`ReturnOutput` specialisation of `include/lsm/detail/effect.hpp`, and, for the
asynchronous adapter, `include/lsm/cosm.hpp`.

Modelling conventions.

* `State_t`, `Input_t`, `Output_t`, `Ctx_t` are the type parameters `S I O C`.
* A `std::unordered_map<K, V>` is an association list `List (K × V)` with at most
  one entry per key; `find` is `Tbl.find`, `operator[]` followed by an update is
  `Tbl.modify`.  Only key lookups are ever performed, so the position of an entry
  is not observable.
* A user callable that receives `Ctx_t&` is a function returning the context it
  leaves behind together with an `Except Exn`: it returned normally (`ok`) or it
  threw (`error`).  An empty callable is `none`.
* A member function returns the machine it leaves behind together with a `Ret`: it
  returned normally (`ok`), an exception left it (`raised`), or the process was
  terminated by a failed `assert` (`aborted`; assertions are taken as enabled).
* Guards are pure total predicates (`const Ctx_t&`).
* A callable reaches the machine only through the context it is given.  The one
  exception that is modelled is a callable that calls `enqueue` on the machine through a
  captured reference: see "Callables that enqueue" after the member functions.
* `MachineImpl.trace` is a ghost field.  Every invocation of a user callable (the
  asynchronous effect bound in the adapter included), every assignment to `current_`
  and every entry into `apply_completion` appends one `Call` to it, in program order.
  No operation reads it.
* The deferral drain and the `dispatch_all` loop are the unbounded loops.  They take a
  fuel argument and return `none` when the fuel runs out; every function that does not
  reach them is total, and the completion loop is bounded by `completion_limit_`.
-/

namespace LSM

/-- The payload of a thrown C++ exception. -/
abbrev Exn := Int

/-- How a call ended: normal return with a value, a thrown exception, or process
termination by a failed assertion. -/
inductive Ret (α : Type) where
  | ok : α → Ret α
  | raised : Exn → Ret α
  | aborted : Ret α
deriving DecidableEq, Repr

/-- The outcome of a user callable as the outcome of the member function calling it. -/
def Ret.ofExcept {α : Type} : Except Exn α → Ret α
  | Except.ok a => Ret.ok a
  | Except.error x => Ret.raised x

/-- Ghost record of one observable step of the machine. -/
inductive Call (S I : Type) where
  | on_exit (from_ to_ : S) (ev : Option I)
  | on_enter (from_ to_ : S) (ev : Option I)
  | action (to_ : S) (ev : I)
  | completion (from_ to_ : S)
  | completion_action (from_ to_ : S)
  | set_state (s : S)
  | on_unhandled_state (s : S) (ev : I)
  | on_unhandled_machine (s : S) (ev : I)
  | on_do (s : S)
  | co_action (from_ to_ : S) (ev : I)
deriving DecidableEq, Repr

/-! ## Tables (`std::unordered_map`) -/

namespace Tbl

/-- Lookup `map.find(k)`: the value stored under `k`, if any. -/
def find {K V : Type} [DecidableEq K] : List (K × V) → K → Option V
  | [], _ => none
  | (k', v) :: rest, k => if k' = k then some v else find rest k

/-- Update `f(map[k])`: the entry under `k` is created from `dflt` when absent, then
updated in place with `f`. -/
def modify {K V : Type} [DecidableEq K] (dflt : V) (f : V → V) :
    List (K × V) → K → List (K × V)
  | [], k => [(k, f dflt)]
  | (k', v) :: rest, k =>
      if k' = k then (k', f v) :: rest else (k', v) :: modify dflt f rest k

end Tbl

/-! ## Records (`types.hpp`, `handlers.hpp`) -/

/-- Enter and exit hooks: `void(Ctx_t&, const State_t&, const State_t&, const Input_t*)`. -/
abbrev EnterExitSig (S I C : Type) := C → S → S → Option I → C × Except Exn Unit

/-- Unhandled hooks: `void(Ctx_t&, const State_t&, const Input_t&)`. -/
abbrev UnhandledSig (S I C : Type) := C → S → I → C × Except Exn Unit

/-- Record `detail::Transition`. -/
structure Transition (S I O C : Type) where
  from_ : S
  to_ : S
  suppress_enter_exit : Bool := true
  priority : Int := 0
  defer : Bool := false
  guard : Option (I → C → Bool) := none
  action : Option (I → C → C × Except Exn (Option O)) := none

/-- Record `detail::CompletionTransition`. -/
structure Completion (S O C : Type) where
  from_ : S
  to_ : S
  suppress_enter_exit : Bool := true
  priority : Int := 0
  guard : Option (C → Bool) := none
  action : Option (C → C × Except Exn (Option O)) := none

/-- Record `detail::StateHandlers`. -/
structure StateHandlers (S I O C : Type) where
  on_enter : Option (EnterExitSig S I C) := none
  on_exit : Option (EnterExitSig S I C) := none
  on_do : Option (C → S → C × Except Exn (Option O)) := none
  on_unhandled : Option (UnhandledSig S I C) := none

/-- The data members of `MachineImpl`, plus the ghost `trace`.  The publisher is the
stateless `NullPublisher` under the `ReturnOutput` policy and is left out. -/
structure MachineImpl (S I O C : Type) where
  current_ : S
  handlers_ : List (S × StateHandlers S I O C) := []
  transitions_ : List (S × List (Transition S I O C)) := []
  any_transitions_ : List (Transition S I O C) := []
  completion_transitions_ : List (S × List (Completion S O C)) := []
  pending_inputs_ : List I := []
  ctx_ : C
  machine_unhandled_ : Option (UnhandledSig S I C) := none
  deferrals_ : List (S × List I) := []
  deferral_enabled_ : Bool := false
  draining_deferrals_ : Bool := false
  completion_limit_ : Nat := 0
  processing_completions_ : Bool := false
  async_inflight_ : Bool := false
  trace : List (Call S I) := []

/-- Class `MachineImpl::Selection`.  Its only constructors set `valid_` to
`t != nullptr` and `deferred_` to `t ? t->defer : false`, so both are functions of the
pointer. -/
structure Selection (S I O C : Type) where
  transition_ : Option (Transition S I O C) := none

namespace Selection

variable {S I O C : Type}

/-- Conversion `explicit operator bool`. -/
def valid_ (sel : Selection S I O C) : Bool := sel.transition_.isSome

/-- Accessor `deferred()`. -/
def deferred_ (sel : Selection S I O C) : Bool :=
  match sel.transition_ with
  | some t => t.defer
  | none => false

/-- Accessor `get()`. -/
def get (sel : Selection S I O C) : Option (Transition S I O C) := sel.transition_

end Selection

/-! ## Sequencing of effects -/

/-- Sequential composition of two steps on a machine value: the second step runs
only when the first returned normally; a thrown exception or a termination passes
through with the machine as the first step left it. -/
def andThen {M α β : Type} (r : M × Ret α) (k : M → α → M × Ret β) : M × Ret β :=
  match r with
  | (m, Ret.ok a) => k m a
  | (m, Ret.raised x) => (m, Ret.raised x)
  | (m, Ret.aborted) => (m, Ret.aborted)

/-- Sequential composition for steps that may run out of fuel (`none`). -/
def andThenF {M α β : Type} (r : Option (M × Ret α))
    (k : M → α → Option (M × Ret β)) : Option (M × Ret β) :=
  match r with
  | none => none
  | some (m, Ret.ok a) => k m a
  | some (m, Ret.raised x) => some (m, Ret.raised x)
  | some (m, Ret.aborted) => some (m, Ret.aborted)

/-- A `try { body } catch(...) { cleanup; throw; } cleanup;` block: `cleanup` runs
when `body` returns or throws, not when the process is terminated. -/
def tryFinally {M α : Type} (r : M × Ret α) (cleanup : M → M) : M × Ret α :=
  match r with
  | (m, Ret.ok a) => (cleanup m, Ret.ok a)
  | (m, Ret.raised x) => (cleanup m, Ret.raised x)
  | (m, Ret.aborted) => (m, Ret.aborted)

/-- The fuel-aware form of `tryFinally`. -/
def tryFinallyF {M α : Type} (r : Option (M × Ret α)) (cleanup : M → M) :
    Option (M × Ret α) :=
  match r with
  | none => none
  | some p => some (tryFinally p cleanup)

/-- A `try { body } catch(...) { }` block around a body without a result: a thrown
exception is swallowed. -/
def trySwallow {M : Type} (r : M × Ret Unit) : M × Ret Unit :=
  match r with
  | (m, Ret.ok a) => (m, Ret.ok a)
  | (m, Ret.raised _) => (m, Ret.ok ())
  | (m, Ret.aborted) => (m, Ret.aborted)

/-! ## `MachineImpl` member functions -/

namespace MachineImpl

variable {S I O C : Type} [DecidableEq S]

/-- Accessor `state()`. -/
def state (m : MachineImpl S I O C) : S := m.current_

/-- Accessor `context()`. -/
def context (m : MachineImpl S I O C) : C := m.ctx_

/-- Member `set_state_direct`: assigns `current_` (and records it in the trace). -/
def set_state_direct (m : MachineImpl S I O C) (next : S) : MachineImpl S I O C :=
  { m with current_ := next, trace := m.trace ++ [Call.set_state next] }

/-- Members `begin_async_effect`, `end_async_effect`, `async_state`. -/
def begin_async_effect (m : MachineImpl S I O C) : MachineImpl S I O C :=
  { m with async_inflight_ := true }

/-- See `begin_async_effect`. -/
def end_async_effect (m : MachineImpl S I O C) : MachineImpl S I O C :=
  { m with async_inflight_ := false }

/-- See `begin_async_effect`. -/
def async_state (m : MachineImpl S I O C) : Bool := m.async_inflight_

/-- The test `!candidate.guard || candidate.guard(input, ctx)` of `find_transition`. -/
def guard_passes (candidate : Transition S I O C) (input : I) (ctx : C) : Bool :=
  match candidate.guard with
  | none => true
  | some g => g input ctx

/-- The test `!candidate.guard || candidate.guard(ctx)` of `find_completion`. -/
def completion_guard_passes (candidate : Completion S O C) (ctx : C) : Bool :=
  match candidate.guard with
  | none => true
  | some g => g ctx

/-- Member `find_transition`: the first candidate of the current state's list whose
guard is absent or holds; failing that, the first such candidate of the any-source
list; failing that, `nullptr`. -/
def find_transition (m : MachineImpl S I O C) (input : I) : Option (Transition S I O C) :=
  let ctx := m.context
  let current := m.state
  let own : Option (Transition S I O C) :=
    match Tbl.find m.transitions_ current with
    | some vec => vec.find? (fun candidate => guard_passes candidate input ctx)
    | none => none
  match own with
  | some candidate => some candidate
  | none => m.any_transitions_.find? (fun candidate => guard_passes candidate input ctx)

/-- Member `select`. -/
def select (m : MachineImpl S I O C) (input : I) : Selection S I O C :=
  { transition_ := m.find_transition input }

/-- The `on_exit` callable registered for `s` in a handlers table: set when the table
has an entry for `s` and that entry's `on_exit` is non-empty. -/
def exit_hook (handlers : List (S × StateHandlers S I O C)) (s : S) :
    Option (EnterExitSig S I C) :=
  match Tbl.find handlers s with
  | some h => h.on_exit
  | none => none

/-- The `on_enter` callable registered for `s` in a handlers table, as `exit_hook`. -/
def enter_hook (handlers : List (S × StateHandlers S I O C)) (s : S) :
    Option (EnterExitSig S I C) :=
  match Tbl.find handlers s with
  | some h => h.on_enter
  | none => none

/-- The block `if(it != table.end()) if(it->second.on_exit) it->second.on_exit(ctx, from, to, input)`. -/
def call_exit (m : MachineImpl S I O C) (from_ to_ : S) (input : Option I) :
    MachineImpl S I O C × Ret Unit :=
  match exit_hook m.handlers_ from_ with
  | none => (m, Ret.ok ())
  | some h =>
      let r := h m.ctx_ from_ to_ input
      ({ m with ctx_ := r.1, trace := m.trace ++ [Call.on_exit from_ to_ input] }, Ret.ofExcept r.2)

/-- The block `if(it != table.end()) if(it->second.on_enter) it->second.on_enter(ctx, from, to, input)`,
looked up under the key `key` (`to` in `apply_transition`, `current_` in the constructor). -/
def call_enter (m : MachineImpl S I O C) (key from_ to_ : S) (input : Option I) :
    MachineImpl S I O C × Ret Unit :=
  match enter_hook m.handlers_ key with
  | none => (m, Ret.ok ())
  | some h =>
      let r := h m.ctx_ from_ to_ input
      ({ m with ctx_ := r.1, trace := m.trace ++ [Call.on_enter from_ to_ input] }, Ret.ofExcept r.2)

/-- Function `Effect::invoke_transition_action` (ReturnOutput policy):
`if(action) return action(in, ctx); return std::nullopt;`. -/
def invoke_transition_action (m : MachineImpl S I O C) (transition : Transition S I O C)
    (input : I) : MachineImpl S I O C × Ret (Option O) :=
  match transition.action with
  | none => (m, Ret.ok none)
  | some act =>
      let r := act input m.ctx_
      ({ m with ctx_ := r.1, trace := m.trace ++ [Call.action transition.to_ input] }, Ret.ofExcept r.2)

/-- Function `Effect::invoke_completion_action` (ReturnOutput policy). -/
def invoke_completion_action (m : MachineImpl S I O C) (completion : Completion S O C) :
    MachineImpl S I O C × Ret (Option O) :=
  match completion.action with
  | none => (m, Ret.ok none)
  | some act =>
      let r := act m.ctx_
      ({ m with ctx_ := r.1,
                trace := m.trace ++ [Call.completion_action m.current_ completion.to_] }, Ret.ofExcept r.2)

/-- Member `apply_transition`. -/
def apply_transition (m : MachineImpl S I O C) (transition : Transition S I O C)
    (input : Option I) (invoke_action : Bool) : MachineImpl S I O C × Ret (Option O) :=
  let from_ := m.state
  let to_ := transition.to_
  let skip_hooks := transition.suppress_enter_exit && decide (to_ = from_)
  andThen (if skip_hooks then (m, Ret.ok ()) else m.call_exit from_ to_ input) fun m1 _ =>
  andThen (match invoke_action, input with
           | true, some i => m1.invoke_transition_action transition i
           | _, _ => (m1, Ret.ok none)) fun m2 output =>
  let m3 := m2.set_state_direct to_
  andThen (if skip_hooks then (m3, Ret.ok ()) else m3.call_enter to_ from_ to_ input) fun m4 _ =>
  (m4, Ret.ok output)

/-- Member `find_completion`. -/
def find_completion (m : MachineImpl S I O C) : Option (Completion S O C) :=
  let ctx := m.context
  let current := m.state
  match Tbl.find m.completion_transitions_ current with
  | some vec => vec.find? (fun candidate => completion_guard_passes candidate ctx)
  | none => none

/-- Member `apply_completion`. -/
def apply_completion (m : MachineImpl S I O C) (completion : Completion S O C) :
    MachineImpl S I O C × Ret (Option O) :=
  let from_ := m.state
  let to_ := completion.to_
  let skip_hooks := completion.suppress_enter_exit && decide (to_ = from_)
  let m0 := { m with trace := m.trace ++ [Call.completion from_ to_] }
  andThen (if skip_hooks then (m0, Ret.ok ()) else m0.call_exit from_ to_ none) fun m1 _ =>
  andThen (m1.invoke_completion_action completion) fun m2 output =>
  let m3 := m2.set_state_direct to_
  andThen (if skip_hooks then (m3, Ret.ok ()) else m3.call_enter to_ from_ to_ none) fun m4 _ =>
  (m4, Ret.ok output)

/-- The `while` loop of `process_completions`, entered with the local variables
`output` and `steps`.  The loop leaves through `break` as soon as `steps` exceeds
`completion_limit_`, so it runs its body at most `completion_limit_ + 1 - steps`
times; `bound` is a structural upper bound on the number of remaining loop tests
(`process_completions` passes `completion_limit_ + 2`). -/
def completion_loop (output : Option O) (steps : Nat) :
    Nat → MachineImpl S I O C → MachineImpl S I O C × Ret (Option O)
  | 0, m => (m, Ret.ok output)
  | bound + 1, m =>
      match m.find_completion with
      | none => (m, Ret.ok output)
      | some completion =>
          if steps > m.completion_limit_ then (m, Ret.ok output)
          else
            andThen (m.apply_completion completion) fun m1 result =>
              completion_loop (if result.isSome then result else output) (steps + 1) bound m1

/-- Member `process_completions`.  A failed `assert(!async_inflight_)` terminates the
process. -/
def process_completions (m : MachineImpl S I O C) : MachineImpl S I O C × Ret (Option O) :=
  if m.completion_limit_ = 0 || m.processing_completions_ then (m, Ret.ok none)
  else if m.async_inflight_ then (m, Ret.aborted)
  else
    tryFinally
      (completion_loop none 0 (m.completion_limit_ + 2)
        { m with processing_completions_ := true })
      (fun m1 => { m1 with processing_completions_ := false })

/-- The state-level `on_unhandled` callable of the current state, when the handlers
table has an entry for it and that entry's `on_unhandled` is non-empty. -/
def state_unhandled_hook (m : MachineImpl S I O C) : Option (UnhandledSig S I C) :=
  match Tbl.find m.handlers_ m.current_ with
  | some h => h.on_unhandled
  | none => none

/-- A call `hook(ctx_, current_, in)` of an unhandled hook, recorded as `entry`. -/
def call_unhandled (m : MachineImpl S I O C) (hook : UnhandledSig S I C)
    (entry : Call S I) (input : I) : MachineImpl S I O C × Ret Unit :=
  ({ m with ctx_ := (hook m.ctx_ m.current_ input).1, trace := m.trace ++ [entry] },
    Ret.ofExcept (hook m.ctx_ m.current_ input).2)

/-- The body of the `try` block shared by `dispatch` and `handle_input` when no
transition was found: the state-level `on_unhandled` if the current state has one,
otherwise the machine-level one if it is set. -/
def unhandled_body (m : MachineImpl S I O C) (input : I) : MachineImpl S I O C × Ret Unit :=
  match m.state_unhandled_hook with
  | some f => m.call_unhandled f (Call.on_unhandled_state m.current_ input) input
  | none =>
      match m.machine_unhandled_ with
      | some f => m.call_unhandled f (Call.on_unhandled_machine m.current_ input) input
      | none => (m, Ret.ok ())

/-- The tail `try { ... } catch(...) { } return std::nullopt;` of `dispatch` and
`handle_input`. -/
def notify_unhandled (m : MachineImpl S I O C) (input : I) :
    MachineImpl S I O C × Ret (Option O) :=
  andThen (trySwallow (m.unhandled_body input)) fun m1 _ => (m1, Ret.ok none)

/-- Member `finalize_transition`, with the deferral drain passed in as `drain`. -/
def finalize_transition_with
    (drain : MachineImpl S I O C → Option (MachineImpl S I O C × Ret Unit))
    (m : MachineImpl S I O C) (result : Option O) :
    Option (MachineImpl S I O C × Ret (Option O)) :=
  andThenF (some m.process_completions) fun m1 completion_out =>
  let result1 := if result.isNone && completion_out.isSome then completion_out else result
  andThenF (drain m1) fun m2 _ => some (m2, Ret.ok result1)

/-- The statement `deferrals_[to].push_back(in)`. -/
def push_deferral (m : MachineImpl S I O C) (to_ : S) (input : I) : MachineImpl S I O C :=
  { m with deferrals_ := Tbl.modify [] (fun q => q ++ [input]) m.deferrals_ to_ }

/-- Member `handle_input`, with the deferral drain passed in as `drain`. -/
def handle_input_with
    (drain : MachineImpl S I O C → Option (MachineImpl S I O C × Ret Unit))
    (m : MachineImpl S I O C) (input : I) :
    Option (MachineImpl S I O C × Ret (Option O)) :=
  match m.find_transition input with
  | some transition =>
      if m.deferral_enabled_ && transition.defer then
        andThenF (some ((m.push_deferral transition.to_ input).apply_transition
                    transition (some input) false)) fun m1 _ =>
          finalize_transition_with drain m1 none
      else
        andThenF (some (m.apply_transition transition (some input) true)) fun m1 out =>
          finalize_transition_with drain m1 out
  | none => some (m.notify_unhandled input)

/-- The guard and the `try`/`catch` frame of `drain_deferrals_for_current_state`
around its `for(;;)` loop, which is passed in as `loop`. -/
def drain_with
    (loop : MachineImpl S I O C → Option (MachineImpl S I O C × Ret Unit))
    (m : MachineImpl S I O C) : Option (MachineImpl S I O C × Ret Unit) :=
  if !m.deferral_enabled_ || m.draining_deferrals_ then some (m, Ret.ok ())
  else
    tryFinallyF (loop { m with draining_deferrals_ := true })
      (fun m1 => { m1 with draining_deferrals_ := false })

/-- The `for(;;)` loop of `drain_deferrals_for_current_state`.  One unit of fuel is
spent per loop test; the `handle_input` it calls runs with the remaining fuel. -/
def drain_loop : Nat → MachineImpl S I O C → Option (MachineImpl S I O C × Ret Unit)
  | 0, _ => none
  | fuel + 1, m =>
      match Tbl.find m.deferrals_ m.current_ with
      | none => some (m, Ret.ok ())
      | some [] => some (m, Ret.ok ())
      | some (next :: _) =>
          let m1 := { m with deferrals_ := Tbl.modify [] List.tail m.deferrals_ m.current_ }
          andThenF (handle_input_with (drain_with (drain_loop fuel)) m1 next) fun m2 _ =>
            drain_loop fuel m2

/-- Member `drain_deferrals_for_current_state`. -/
def drain_deferrals_for_current_state (fuel : Nat) (m : MachineImpl S I O C) :
    Option (MachineImpl S I O C × Ret Unit) :=
  drain_with (drain_loop fuel) m

/-- Member `finalize_transition`. -/
def finalize_transition (fuel : Nat) (m : MachineImpl S I O C) (result : Option O) :
    Option (MachineImpl S I O C × Ret (Option O)) :=
  finalize_transition_with (drain_deferrals_for_current_state fuel) m result

/-- Member `handle_input`. -/
def handle_input (fuel : Nat) (m : MachineImpl S I O C) (input : I) :
    Option (MachineImpl S I O C × Ret (Option O)) :=
  handle_input_with (drain_deferrals_for_current_state fuel) m input

/-- Member `commit`; `inptr` is the possibly null event pointer. -/
def commit (fuel : Nat) (m : MachineImpl S I O C) (sel : Selection S I O C)
    (inptr : Option I) : Option (MachineImpl S I O C × Ret (Option O)) :=
  match sel.get with
  | none => some (m, Ret.ok none)
  | some t =>
      match inptr with
      | some input =>
          if m.deferral_enabled_ && t.defer then
            andThenF (some ((m.push_deferral t.to_ input).apply_transition t inptr false))
              fun m1 _ => finalize_transition fuel m1 none
          else
            andThenF (some (m.apply_transition t inptr true)) fun m1 out =>
              finalize_transition fuel m1 out
      | none =>
          andThenF (some (m.apply_transition t inptr true)) fun m1 out =>
            finalize_transition fuel m1 out

/-- Member `dispatch`. -/
def dispatch (fuel : Nat) (m : MachineImpl S I O C) (input : I) :
    Option (MachineImpl S I O C × Ret (Option O)) :=
  let sel := m.select input
  if sel.valid_ then m.commit fuel sel (some input)
  else some (m.notify_unhandled input)

/-- Member `enqueue`. -/
def enqueue (m : MachineImpl S I O C) (input : I) : MachineImpl S I O C :=
  { m with pending_inputs_ := m.pending_inputs_ ++ [input] }

/-- The `while(!pending_inputs_.empty())` loop of `dispatch_all`, entered with the
local vector `outputs`; one unit of `rounds` is spent per loop test. -/
def dispatch_all_loop (fuel : Nat) :
    Nat → MachineImpl S I O C → List O → Option (MachineImpl S I O C × Ret (List O))
  | 0, _, _ => none
  | rounds + 1, m, outputs =>
      match m.pending_inputs_ with
      | [] => some (m, Ret.ok outputs)
      | next :: rest =>
          andThenF (handle_input fuel { m with pending_inputs_ := rest } next) fun m1 out =>
            dispatch_all_loop fuel rounds m1
              (match out with
               | some o => outputs ++ [o]
               | none => outputs)

/-- Member `dispatch_all`. -/
def dispatch_all (fuel : Nat) (m : MachineImpl S I O C) :
    Option (MachineImpl S I O C × Ret (List O)) :=
  dispatch_all_loop fuel fuel m []

/-- Member `update`. -/
def update (m : MachineImpl S I O C) : MachineImpl S I O C × Ret (Option O) :=
  match Tbl.find m.handlers_ m.current_ with
  | some h =>
      match h.on_do with
      | some act =>
          let r := act m.ctx_ m.current_
          ({ m with ctx_ := r.1, trace := m.trace ++ [Call.on_do m.current_] }, Ret.ofExcept r.2)
      | none => (m, Ret.ok none)
  | none => (m, Ret.ok none)

/-- The body of the private constructor of `MachineImpl`, run on the object left by
the member initialisers: `on_enter` of the initial state with a null event, the
computation of `completion_limit_`, and `finalize_transition(std::nullopt)`. -/
def construct_body (fuel : Nat) (m0 : MachineImpl S I O C) :
    Option (MachineImpl S I O C × Ret Unit) :=
  andThenF (some (m0.call_enter m0.current_ m0.current_ m0.current_ none)) fun m1 _ =>
  let total := (m1.completion_transitions_.map (fun entry => entry.2.length)).sum
  let m2 := { m1 with completion_limit_ := if total = 0 then 0 else total + 1 }
  andThenF (finalize_transition fuel m2 none) fun m3 _ => some (m3, Ret.ok ())

/-- The private constructor of `MachineImpl`: the member initialisers followed by
`construct_body`.  A constructor that throws yields no machine; the machine value
returned with `raised` is the partially built object. -/
def construct (fuel : Nat) (init : S)
    (handlers : List (S × StateHandlers S I O C))
    (transitions : List (S × List (Transition S I O C)))
    (any : List (Transition S I O C))
    (completions : List (S × List (Completion S O C)))
    (ctx : C) (unhandled : Option (UnhandledSig S I C)) (deferral_enabled : Bool) :
    Option (MachineImpl S I O C × Ret Unit) :=
  construct_body fuel
    { current_ := init, handlers_ := handlers, transitions_ := transitions,
      any_transitions_ := any, completion_transitions_ := completions, ctx_ := ctx,
      machine_unhandled_ := unhandled, deferral_enabled_ := deferral_enabled }

/-! ### Callables that enqueue

A callable can hold a reference to the machine and call `enqueue` on it while an event
is handled, as the actions of `examples/processing_queue.cpp` do through
`ctx.schedule_tick`.  For such a machine the context is a pair whose second component
lists the events that callables have passed to `enqueue` and that are not in
`pending_inputs_` yet, in call order.  `enqueue` only appends to `pending_inputs_`, which
no member function reads or writes while an event is handled (the loop of `dispatch_all`
reads it between two events), so these events are appended to `pending_inputs_` when the
handling of the event ends, whether it returned or threw. -/

/-- The call `machine.enqueue(e)` that a callable makes through its reference to the
machine. -/
def enqueue_from_callable (ctx : C × List I) (e : I) : C × List I :=
  (ctx.1, ctx.2 ++ [e])

/-- The events that callables enqueued reach `pending_inputs_`, in call order. -/
def deliver_enqueued (m : MachineImpl S I O (C × List I)) : MachineImpl S I O (C × List I) :=
  { m with pending_inputs_ := m.pending_inputs_ ++ m.ctx_.2, ctx_ := (m.ctx_.1, []) }

/-- The outcome of a member function, with the events its callables enqueued in
`pending_inputs_`. -/
def delivered {α : Type} (r : Option (MachineImpl S I O (C × List I) × Ret α)) :
    Option (MachineImpl S I O (C × List I) × Ret α) :=
  r.map (fun p => (p.1.deliver_enqueued, p.2))

/-- Member `dispatch`, on a machine whose callables enqueue. -/
def dispatch_enqueuing (fuel : Nat) (m : MachineImpl S I O (C × List I)) (input : I) :
    Option (MachineImpl S I O (C × List I) × Ret (Option O)) :=
  delivered (m.dispatch fuel input)

/-- Member `handle_input`, on a machine whose callables enqueue. -/
def handle_input_enqueuing (fuel : Nat) (m : MachineImpl S I O (C × List I)) (input : I) :
    Option (MachineImpl S I O (C × List I) × Ret (Option O)) :=
  delivered (m.handle_input fuel input)

/-- The `while(!pending_inputs_.empty())` loop of `dispatch_all`, on a machine whose
callables enqueue: an event enqueued while `next` is handled is in `pending_inputs_` at
the next loop test. -/
def dispatch_all_loop_enqueuing (fuel : Nat) :
    Nat → MachineImpl S I O (C × List I) → List O →
      Option (MachineImpl S I O (C × List I) × Ret (List O))
  | 0, _, _ => none
  | rounds + 1, m, outputs =>
      match m.pending_inputs_ with
      | [] => some (m, Ret.ok outputs)
      | next :: rest =>
          andThenF (handle_input_enqueuing fuel { m with pending_inputs_ := rest } next)
            fun m1 out =>
              dispatch_all_loop_enqueuing fuel rounds m1
                (match out with
                 | some o => outputs ++ [o]
                 | none => outputs)

/-- Member `dispatch_all`, on a machine whose callables enqueue. -/
def dispatch_all_enqueuing (fuel : Nat) (m : MachineImpl S I O (C × List I)) :
    Option (MachineImpl S I O (C × List I) × Ret (List O)) :=
  dispatch_all_loop_enqueuing fuel fuel m []

end MachineImpl

/-! ## `MachineImpl::Builder` -/

/-- Insertion of `x` into a list already ordered by the comparator
`cmp(a, b) = a.priority > b.priority`, in front of the first element that is not
ordered before `x`. -/
def insert_by_priority {T : Type} (prio : T → Int) (x : T) : List T → List T
  | [] => [x]
  | y :: ys => if prio y > prio x then y :: insert_by_priority prio x ys else x :: y :: ys

/-- Call `std::stable_sort(vec.begin(), vec.end(), cmp)` with
`cmp(a, b) = a.priority > b.priority`: the result of a stable sort is determined by
the comparator, and is computed here by insertion from the back. -/
def stable_sort {T : Type} (prio : T → Int) : List T → List T
  | [] => []
  | x :: xs => insert_by_priority prio x (stable_sort prio xs)

/-- The data members of `MachineImpl::Builder` (the publisher left out, as in
`MachineImpl`). -/
structure Builder (S I O C : Type) where
  initial_ : S
  states_ : List (S × StateHandlers S I O C) := []
  trans_ : List (S × List (Transition S I O C)) := []
  any_ : List (Transition S I O C) := []
  completions_ : List (S × List (Completion S O C)) := []
  unhandled_ : Option (UnhandledSig S I C) := none
  deferral_enabled_ : Bool := false

namespace Builder

variable {S I O C : Type} [DecidableEq S]

/-- Member `set_initial`. -/
def set_initial (b : Builder S I O C) (s : S) : Builder S I O C :=
  { b with initial_ := s }

/-- Member `enable_deferral`. -/
def enable_deferral (b : Builder S I O C) (v : Bool) : Builder S I O C :=
  { b with deferral_enabled_ := v }

/-- Member `on_enter`: `states_[s].on_enter = fn`. -/
def on_enter (b : Builder S I O C) (s : S) (fn : Option (EnterExitSig S I C)) :
    Builder S I O C :=
  { b with states_ := Tbl.modify {} (fun h => { h with on_enter := fn }) b.states_ s }

/-- Member `on_exit`: `states_[s].on_exit = fn`. -/
def on_exit (b : Builder S I O C) (s : S) (fn : Option (EnterExitSig S I C)) :
    Builder S I O C :=
  { b with states_ := Tbl.modify {} (fun h => { h with on_exit := fn }) b.states_ s }

/-- Member `on_do`: `states_[s].on_do = fn`. -/
def on_do (b : Builder S I O C) (s : S) (fn : Option (C → S → C × Except Exn (Option O))) :
    Builder S I O C :=
  { b with states_ := Tbl.modify {} (fun h => { h with on_do := fn }) b.states_ s }

/-- Member `on_unhandled(fn)`: the machine-level hook. -/
def on_unhandled (b : Builder S I O C) (fn : Option (UnhandledSig S I C)) :
    Builder S I O C :=
  { b with unhandled_ := fn }

/-- Member `on_unhandled(s, fn)`: the state-level hook. -/
def on_unhandled_state (b : Builder S I O C) (s : S) (fn : Option (UnhandledSig S I C)) :
    Builder S I O C :=
  { b with states_ := Tbl.modify {} (fun h => { h with on_unhandled := fn }) b.states_ s }

/-- Member `add_transition(Transition)`: `trans_[t.from].push_back(t)`. -/
def add_transition (b : Builder S I O C) (t : Transition S I O C) : Builder S I O C :=
  { b with trans_ := Tbl.modify [] (fun vec => vec ++ [t]) b.trans_ t.from_ }

/-- Member `add_transition(AnyState_t, Transition)`: `any_.push_back(t)`. -/
def add_transition_any (b : Builder S I O C) (t : Transition S I O C) : Builder S I O C :=
  { b with any_ := b.any_ ++ [t] }

/-- Member `add_completion`: `completions_[t.from].push_back(t)`. -/
def add_completion (b : Builder S I O C) (t : Completion S O C) : Builder S I O C :=
  { b with completions_ := Tbl.modify [] (fun vec => vec ++ [t]) b.completions_ t.from_ }

/-- Static member `make_transition`. -/
def make_transition (from_ to_ : S) (priority : Int) (suppress_enter_exit defer : Bool) :
    Transition S I O C :=
  { from_ := from_, to_ := to_, priority := priority,
    suppress_enter_exit := suppress_enter_exit, defer := defer }

/-- Static member `make_variant_guard<Event>`: the guard
`std::holds_alternative<Event>(in)`.  The alternative `Event` of the variant `Input_t`
is given by `alt`, which yields the value of an input that holds it. -/
def make_variant_guard {T : Type} (alt : I → Option T) : Option (I → C → Bool) :=
  some (fun input _ => (alt input).isSome)

/-- Static member `make_value_guard`: the guard `in == value`. -/
def make_value_guard [DecidableEq I] (value : I) : Option (I → C → Bool) :=
  some (fun input _ => decide (input = value))

/-- Static member `combine_guards`: the conjunction `primary(in, ctx) && extra(in, ctx)`
when both are set, otherwise the one that is set, if any. -/
def combine_guards (primary extra : Option (I → C → Bool)) : Option (I → C → Bool) :=
  match primary, extra with
  | some p, some x => some (fun input ctx => p input ctx && x input ctx)
  | some p, none => some p
  | none, x => x

/-- The exception `std::bad_variant_access` that `std::get<Event>(in)` throws on an
input that does not hold `Event`, as the exception value that stands for it. -/
def bad_variant_access : Exn := -2

/-- Static member `lift_variant_action<Event>` (`effect.hpp`): empty for an empty
action, otherwise the action `act(std::get<Event>(in), ctx)`. -/
def lift_variant_action {T : Type} (alt : I → Option T)
    (action : Option (T → C → C × Except Exn (Option O))) :
    Option (I → C → C × Except Exn (Option O)) :=
  match action with
  | none => none
  | some act =>
      some (fun input ctx =>
        match alt input with
        | some ev => act ev ctx
        | none => (ctx, Except.error bad_variant_access))

/-- The record `tr` that `on<T>(from, to, action_fn, guard_fn, priority,
suppress_enter_exit, defer)` builds; an omitted `action_fn` or `guard_fn` is `none`. -/
def variant_transition {T : Type} (alt : I → Option T) (from_ to_ : S)
    (action_fn : Option (T → C → C × Except Exn (Option O)))
    (guard_fn : Option (I → C → Bool)) (priority : Int)
    (suppress_enter_exit defer : Bool) : Transition S I O C :=
  { (make_transition from_ to_ priority suppress_enter_exit defer : Transition S I O C) with
    guard := combine_guards (make_variant_guard alt) guard_fn,
    action := lift_variant_action alt action_fn }

/-- The record `tr` that `on_value(from, to, value, action_fn, guard_fn, priority,
suppress_enter_exit, defer)` builds. -/
def value_transition [DecidableEq I] (from_ to_ : S) (value : I)
    (action_fn : Option (I → C → C × Except Exn (Option O)))
    (guard_fn : Option (I → C → Bool)) (priority : Int)
    (suppress_enter_exit defer : Bool) : Transition S I O C :=
  { (make_transition from_ to_ priority suppress_enter_exit defer : Transition S I O C) with
    guard := combine_guards (make_value_guard value) guard_fn,
    action := action_fn }

/-- Member `on<T>` (`on` is a keyword here). -/
def on_ {T : Type} (b : Builder S I O C) (alt : I → Option T) (from_ to_ : S)
    (action_fn : Option (T → C → C × Except Exn (Option O)))
    (guard_fn : Option (I → C → Bool)) (priority : Int)
    (suppress_enter_exit defer : Bool) : Builder S I O C :=
  b.add_transition
    (variant_transition alt from_ to_ action_fn guard_fn priority suppress_enter_exit defer)

/-- Member `on_value`. -/
def on_value [DecidableEq I] (b : Builder S I O C) (from_ to_ : S) (value : I)
    (action_fn : Option (I → C → C × Except Exn (Option O)))
    (guard_fn : Option (I → C → Bool)) (priority : Int)
    (suppress_enter_exit defer : Bool) : Builder S I O C :=
  b.add_transition
    (value_transition from_ to_ value action_fn guard_fn priority suppress_enter_exit defer)

/-- Static member `make_any_transition`: `tr.from` keeps its initialiser `State_t{}`. -/
def make_any_transition [Inhabited S] (to_ : S) (priority : Int)
    (suppress_enter_exit defer : Bool) : Transition S I O C :=
  { from_ := default, to_ := to_, priority := priority,
    suppress_enter_exit := suppress_enter_exit, defer := defer }

/-- The record `tr` that `on_any<T>(to, action_fn, guard_fn, priority,
suppress_enter_exit, defer)` builds. -/
def variant_any_transition [Inhabited S] {T : Type} (alt : I → Option T) (to_ : S)
    (action_fn : Option (T → C → C × Except Exn (Option O)))
    (guard_fn : Option (I → C → Bool)) (priority : Int)
    (suppress_enter_exit defer : Bool) : Transition S I O C :=
  { (make_any_transition to_ priority suppress_enter_exit defer : Transition S I O C) with
    guard := combine_guards (make_variant_guard alt) guard_fn,
    action := lift_variant_action alt action_fn }

/-- Member `on_any<T>`: `any_.push_back(tr)`. -/
def on_any [Inhabited S] {T : Type} (b : Builder S I O C) (alt : I → Option T) (to_ : S)
    (action_fn : Option (T → C → C × Except Exn (Option O)))
    (guard_fn : Option (I → C → Bool)) (priority : Int)
    (suppress_enter_exit defer : Bool) : Builder S I O C :=
  { b with
    any_ := b.any_ ++
      [variant_any_transition alt to_ action_fn guard_fn priority suppress_enter_exit defer] }

/-- Member `on_completion`. -/
def on_completion (b : Builder S I O C) (from_ to_ : S)
    (action_fn : Option (C → C × Except Exn (Option O))) (suppress_enter_exit : Bool)
    (priority : Int) (guard : Option (C → Bool)) : Builder S I O C :=
  b.add_completion
    { from_ := from_, to_ := to_, suppress_enter_exit := suppress_enter_exit,
      priority := priority, action := action_fn, guard := guard }

/-- The two loops `for(auto& [st, vec] : map) std::stable_sort(vec...)` of `build`. -/
def sort_each {T : Type} (prio : T → Int) (tbl : List (S × List T)) : List (S × List T) :=
  tbl.map (fun entry => (entry.1, stable_sort prio entry.2))

/-- Member `build`: sorts every list and runs the `MachineImpl` constructor. -/
def build (fuel : Nat) (b : Builder S I O C) (initial_ctx : C) :
    Option (MachineImpl S I O C × Ret Unit) :=
  MachineImpl.construct fuel b.initial_ b.states_
    (sort_each Transition.priority b.trans_)
    (stable_sort Transition.priority b.any_)
    (sort_each Completion.priority b.completions_)
    initial_ctx b.unhandled_ b.deferral_enabled_

end Builder

/-! ## The asynchronous adapter (`cosm.hpp`)

A `co::Task` is modelled by what it has done when it has run to completion.  An asynchronous
effect is a function of the event, of the machine state it can read through a captured
reference when it starts (as `tests/coroutine_semantics.cpp` does), of the context and
of the cancel source; it returns the context and the cancel source it leaves and its
outcome.  Whatever happens to the cancel source while the effect is suspended is part
of that function.  One intermediate point of a `Task` is modelled besides:
`Adapter.dispatch_async_suspended` gives the adapter at the first suspension of a bound
effect. -/

/-- Struct `co::CancelSource`: the stop flag. -/
structure CancelSource where
  stop : Bool := false
deriving DecidableEq, Repr

namespace CancelSource

/-- Member `request_stop`. -/
def request_stop (_ : CancelSource) : CancelSource := { stop := true }

/-- Member `reset`. -/
def reset (_ : CancelSource) : CancelSource := { stop := false }

end CancelSource

/-- Struct `co::CancelToken`; `src` tells whether the token points at a source
(`src != nullptr`). -/
structure CancelToken where
  src : Bool := false
deriving DecidableEq, Repr

/-- Member `CancelToken::stop_requested`: `src && src->stop.load()`, with `source` the
source the token points at, as it is now. -/
def CancelToken.stop_requested (tok : CancelToken) (source : CancelSource) : Bool :=
  tok.src && source.stop

/-- Struct `co::cancelled_error`, as the exception value that stands for it. -/
def cancelled_error : Exn := -1

/-- Function `co::throw_if_cancelled`. -/
def throw_if_cancelled (tok : CancelToken) (source : CancelSource) : Except Exn Unit :=
  if tok.stop_requested source then Except.error cancelled_error else Except.ok ()

/-- Type `types<CoMachine>::CoAction`:
`Task<std::optional<Output>>(const Input&, Context&, CancelToken, Publisher&)`, run to
completion.  The second argument is `machine.state()` as the effect can read it when
it starts; the last is the cancel source the token points at.  The `Publisher&`
argument is left out: under the `ReturnOutput` policy it is the stateless
`NullPublisher`. -/
abbrev CoAction (S I O C : Type) :=
  I → S → C → CancelToken → CancelSource → (C × CancelSource) × Except Exn (Option O)

/-- Class `co::Registry`: the map from `Key{from, to}` to the vector of bound actions. -/
structure Registry (S I O C : Type) where
  map_ : List ((S × S) × List (CoAction S I O C)) := []

namespace Registry

variable {S I O C : Type} [DecidableEq S]

/-- Member `add`: `map_[Key{from, to}].push_back(action)`. -/
def add (r : Registry S I O C) (from_ to_ : S) (action : CoAction S I O C) :
    Registry S I O C :=
  { map_ := Tbl.modify [] (fun v => v ++ [action]) r.map_ (from_, to_) }

/-- Member `find`: the vector stored under `Key{from, to}`, or `nullptr`. -/
def find (r : Registry S I O C) (from_ to_ : S) : Option (List (CoAction S I O C)) :=
  Tbl.find r.map_ (from_, to_)

end Registry

/-- Class `co::Adapter`.  `machine_` is the machine the adapter refers to and
`global_cancel_` the cancel source it points at (`none` for `nullptr`), both as they
are now. -/
structure Adapter (S I O C : Type) where
  machine_ : MachineImpl S I O C
  registry_ : Registry S I O C := {}
  global_cancel_ : Option CancelSource := none

namespace Adapter

variable {S I O C : Type} [DecidableEq S]

/-- Member `bind_async`. -/
def bind_async (a : Adapter S I O C) (from_ to_ : S) (action : CoAction S I O C) :
    Adapter S I O C :=
  { a with registry_ := a.registry_.add from_ to_ action }

/-- The result of a member function of the machine, as a result of the adapter that
refers to that machine. -/
def with_machine {α : Type} (a : Adapter S I O C)
    (r : Option (MachineImpl S I O C × Ret α)) : Option (Adapter S I O C × Ret α) :=
  match r with
  | none => none
  | some p => some ({ a with machine_ := p.1 }, p.2)

/-- The expression `co_await (*actions)[0](in, machine_.context(), token, publisher)`
with `token = CancelToken{global_cancel_}`, for the binding under `(from, to)`. -/
def await_action (a : Adapter S I O C) (action : CoAction S I O C) (from_ to_ : S)
    (input : I) : Adapter S I O C × Ret (Option O) :=
  ({ a with
      machine_ :=
        { a.machine_ with
          ctx_ := (action input a.machine_.state a.machine_.ctx_
            { src := a.global_cancel_.isSome } (a.global_cancel_.getD {})).1.1,
          trace := a.machine_.trace ++ [Call.co_action from_ to_ input] },
      global_cancel_ := a.global_cancel_.map (fun _ =>
        (action input a.machine_.state a.machine_.ctx_
          { src := a.global_cancel_.isSome } (a.global_cancel_.getD {})).1.2) },
    Ret.ofExcept (action input a.machine_.state a.machine_.ctx_
      { src := a.global_cancel_.isSome } (a.global_cancel_.getD {})).2)

/-- Member `dispatch_async`, as the `Task` it returns run to completion: the outcome is
what `await_resume` on the `Task` returns or rethrows. -/
def dispatch_async (fuel : Nat) (a : Adapter S I O C) (input : I) :
    Option (Adapter S I O C × Ret (Option O)) :=
  let sel := a.machine_.select input
  match sel.get with
  | none => some (a, Ret.ok none)
  | some t =>
      let from_ := a.machine_.state
      let to_ := t.to_
      match a.registry_.find from_ to_ with
      | some (action :: _) =>
          andThenF (a.with_machine (a.machine_.commit fuel sel (some input)))
            fun a1 completion_out =>
              andThenF
                (some (tryFinally
                  (await_action { a1 with machine_ := a1.machine_.begin_async_effect }
                    action from_ to_ input)
                  (fun a2 => { a2 with machine_ := a2.machine_.end_async_effect })))
                fun a3 effect_out =>
                  some (a3, Ret.ok (if effect_out.isSome then effect_out else completion_out))
      | _ => a.with_machine (a.machine_.commit fuel sel (some input))

/-- Member `dispatch_async`, as the `Task` it returns run only as far as the first
suspension of a bound effect that suspends before it has written to the context or to
the cancel source, as the effect of `test_cancellation_propagates` in
`tests/coroutine_semantics.cpp` does at `co_await gate`.  At that point `select`,
`commit` and `begin_async_effect` have run and `end_async_effect` has not: the result is
the adapter the client finds when it goes on while the `Task` is suspended there, or
after it has destroyed the `Task` there.  A `Task` without a bound effect has no such
point and runs to its end. -/
def dispatch_async_suspended (fuel : Nat) (a : Adapter S I O C) (input : I) :
    Option (Adapter S I O C × Ret Unit) :=
  let sel := a.machine_.select input
  match sel.get with
  | none => some (a, Ret.ok ())
  | some t =>
      let from_ := a.machine_.state
      let to_ := t.to_
      match a.registry_.find from_ to_ with
      | some (_ :: _) =>
          andThenF (a.with_machine (a.machine_.commit fuel sel (some input)))
            fun a1 _ =>
              some ({ a1 with machine_ := a1.machine_.begin_async_effect }, Ret.ok ())
      | _ =>
          andThenF (a.with_machine (a.machine_.commit fuel sel (some input)))
            fun a1 _ => some (a1, Ret.ok ())

end Adapter

/-! ## The fragment pipeline (`Adapter::ToStage`)

A fragment has the type of a bound action and is modelled as one.  When a step of a
pipeline has returned, `tok.stop_requested()` reads the cancel source as that step left
it. -/

/-- The `backoff` callable of `retry`:
`Task<void>(int, const Input&, Context&, CancelToken, Publisher&)`, run to completion;
the arguments are as for `CoAction`, after the attempt number.  It is taken to be a
non-empty callable. -/
abbrev Backoff (S I C : Type) :=
  Int → I → S → C → CancelToken → CancelSource → (C × CancelSource) × Except Exn Unit

/-- How the inner `for(auto& step : sequence)` loop of a retry fragment ends when no
step throws: through `co_return` on a stop request, or at the end of the sequence with
the local `result`. -/
inductive Attempt (O : Type) where
  | cancelled
  | finished (result : Option O)
deriving DecidableEq, Repr

/-- Class `Adapter::ToStage`; `adapter_` is the adapter it refers to, as it is now. -/
structure ToStage (S I O C : Type) where
  adapter_ : Adapter S I O C
  from_ : S
  to_ : S
  fragments_ : List (CoAction S I O C) := []

namespace ToStage

variable {S I O C : Type} [DecidableEq S]

/-- The fragment that `await(fn)` pushes: `co_await fn(...); co_return std::nullopt;`. -/
def await_fragment
    (fn : I → S → C → CancelToken → CancelSource → (C × CancelSource) × Except Exn Unit) :
    CoAction S I O C :=
  fun input s ctx tok source =>
    match fn input s ctx tok source with
    | (cs, Except.ok _) => (cs, Except.ok none)
    | (cs, Except.error x) => (cs, Except.error x)

/-- Member `await`. -/
def await (st : ToStage S I O C)
    (fn : I → S → C → CancelToken → CancelSource → (C × CancelSource) × Except Exn Unit) :
    ToStage S I O C :=
  { st with fragments_ := st.fragments_ ++ [await_fragment fn] }

/-- The fragment that `emit(fn)` pushes:
`co_return std::optional<Output>{fn(in, ctx, publisher)}`, with `fn` an ordinary function
that may write the context. -/
def emit_fragment (fn : I → C → C × Except Exn O) : CoAction S I O C :=
  fun input _ ctx _ source =>
    match fn input ctx with
    | (c1, Except.ok v) => ((c1, source), Except.ok (some v))
    | (c1, Except.error x) => ((c1, source), Except.error x)

/-- Member `emit`. -/
def emit (st : ToStage S I O C) (fn : I → C → C × Except Exn O) : ToStage S I O C :=
  { st with fragments_ := st.fragments_ ++ [emit_fragment fn] }

/-- Member `then` (`then` is a keyword here): pushes the fragment
`co_return co_await fn(...)`. -/
def then_ (st : ToStage S I O C) (fn : CoAction S I O C) : ToStage S I O C :=
  { st with fragments_ := st.fragments_ ++ [fn] }

/-- The inner loop `for(auto& step : sequence)` of the fragment that `retry` builds,
entered with the local `result`. -/
def retry_steps (input : I) (s : S) (tok : CancelToken) :
    List (CoAction S I O C) → Option O → C → CancelSource →
      (C × CancelSource) × Except Exn (Attempt O)
  | [], result, ctx, source => ((ctx, source), Except.ok (Attempt.finished result))
  | step :: rest, result, ctx, source =>
      match step input s ctx tok source with
      | (cs, Except.error x) => (cs, Except.error x)
      | ((c1, s1), Except.ok value) =>
          if tok.stop_requested s1 then ((c1, s1), Except.ok Attempt.cancelled)
          else retry_steps input s tok rest (if value.isSome then value else result) c1 s1

/-- The outer loop `for(int attempt = 1; attempt <= attempts; ++attempt)` of the
fragment that `retry` builds, entered with `attempt`; `remaining` is the number of
values of `attempt` that still pass the loop test. -/
def retry_loop (sequence : List (CoAction S I O C)) (backoff : Backoff S I C)
    (attempts : Int) (input : I) (s : S) (tok : CancelToken) :
    Nat → Int → C → CancelSource → (C × CancelSource) × Except Exn (Option O)
  | 0, _, ctx, source => ((ctx, source), Except.ok none)
  | remaining + 1, attempt, ctx, source =>
      match retry_steps input s tok sequence none ctx source with
      | (cs, Except.error x) => (cs, Except.error x)
      | (cs, Except.ok Attempt.cancelled) => (cs, Except.ok none)
      | ((c1, s1), Except.ok (Attempt.finished result)) =>
          if result.isSome then ((c1, s1), Except.ok result)
          else
            match (if attempt < attempts then backoff attempt input s c1 tok s1
                   else ((c1, s1), Except.ok ())) with
            | (cs, Except.error x) => (cs, Except.error x)
            | ((c2, s2), Except.ok _) =>
                if tok.stop_requested s2 then ((c2, s2), Except.ok none)
                else retry_loop sequence backoff attempts input s tok remaining (attempt + 1)
                  c2 s2

/-- The fragment that `retry(attempts, backoff)` builds around `sequence`. -/
def retry_fragment (sequence : List (CoAction S I O C)) (attempts : Int)
    (backoff : Backoff S I C) : CoAction S I O C :=
  fun input s ctx tok source =>
    retry_loop sequence backoff attempts input s tok attempts.toNat 1 ctx source

/-- Member `retry`: the fragments pushed so far become the sequence of one retry
fragment, which replaces them. -/
def retry (st : ToStage S I O C) (attempts : Int) (backoff : Backoff S I C) :
    ToStage S I O C :=
  { st with fragments_ := [retry_fragment st.fragments_ attempts backoff] }

/-- The loop `for(auto& fragment : fragments)` of the effect that `attach` builds,
entered with the local `output`. -/
def attach_loop (input : I) (s : S) (tok : CancelToken) :
    List (CoAction S I O C) → Option O → C → CancelSource →
      (C × CancelSource) × Except Exn (Option O)
  | [], output, ctx, source => ((ctx, source), Except.ok output)
  | fragment :: rest, output, ctx, source =>
      match fragment input s ctx tok source with
      | (cs, Except.error x) => (cs, Except.error x)
      | ((c1, s1), Except.ok value) =>
          if tok.stop_requested s1 then
            ((c1, s1), Except.ok (if value.isSome then value else output))
          else attach_loop input s tok rest (if value.isSome then value else output) c1 s1

/-- The effect `composed` that `attach` builds from the fragments. -/
def composed (fragments : List (CoAction S I O C)) : CoAction S I O C :=
  fun input s ctx tok source => attach_loop input s tok fragments none ctx source

/-- Member `attach`: binds `composed` to `(from_, to_)`; the result is the adapter. -/
def attach (st : ToStage S I O C) : Adapter S I O C :=
  st.adapter_.bind_async st.from_ st.to_ (composed st.fragments_)

end ToStage

/-- The chain `adapter.from(from).on<Event>().to(to)`: `FromStage` and `OnStage` only
carry the adapter and the states on to the `ToStage`. -/
def Adapter.to_stage {S I O C : Type} (a : Adapter S I O C) (from_ to_ : S) :
    ToStage S I O C :=
  { adapter_ := a, from_ := from_, to_ := to_ }

/-! ## Example machines

Small machines taken from the test programs; they supply concrete inputs. -/

namespace Examples

/-- States of `tests/selection_priority.cpp`. -/
inductive PState where
  | Start | Mid | High | Low | Any
deriving DecidableEq, Repr

/-- Events of `tests/selection_priority.cpp`. -/
inductive PInput where
  | Alpha | Beta | Other | Reset
deriving DecidableEq, Repr

/-- The guard built by `make_variant_guard<T>`: the event holds alternative `alt`. -/
def holds (alt : PInput) : PInput → Unit → Bool := fun input _ => decide (input = alt)

/-- An action returning the constant `out`, as `create_action<Output, Input, Ctx>(out)`. -/
def constant_action (out : String) : PInput → Unit → Unit × Except Exn (Option String) :=
  fun _ c => (c, Except.ok (some out))

/-- Transition `on<Alpha>(Start, Low, "low")`. -/
def alphaLow : Transition PState PInput String Unit :=
  { from_ := PState.Start, to_ := PState.Low, suppress_enter_exit := false,
    guard := some (holds PInput.Alpha), action := some (constant_action "low") }

/-- Transition `on<Alpha>(Start, High, "high", nullptr, 5)`. -/
def alphaHigh : Transition PState PInput String Unit :=
  { from_ := PState.Start, to_ := PState.High, suppress_enter_exit := false, priority := 5,
    guard := some (holds PInput.Alpha), action := some (constant_action "high") }

/-- Transition `any().on<Other>().to(Any)`. -/
def otherAny : Transition PState PInput String Unit :=
  { from_ := PState.Start, to_ := PState.Any, suppress_enter_exit := false,
    guard := some (holds PInput.Other) }

/-- The builder of `tests/selection_priority.cpp`, restricted to the `Start` state and
the any-source transition. -/
def priorityBuilder : Builder PState PInput String Unit :=
  ((({ initial_ := PState.Start } : Builder PState PInput String Unit).add_transition
    alphaLow).add_transition alphaHigh).add_transition_any otherAny

/-- The machine `priorityBuilder` builds. -/
def priorityMachine : MachineImpl PState PInput String Unit :=
  { current_ := PState.Start, ctx_ := (),
    transitions_ := [(PState.Start, [alphaHigh, alphaLow])],
    any_transitions_ := [otherAny] }

/-- States of `tests/enter_exit.cpp`. -/
inductive HState where
  | Idle | Active
deriving DecidableEq, Repr

/-- Events of `tests/enter_exit.cpp`. -/
inductive HInput where
  | Go | Loop
deriving DecidableEq, Repr

/-- A hook that appends `line` to the log kept in the context. -/
def log_hook (line : String) : EnterExitSig HState HInput (List String) :=
  fun ctx _ _ _ => (ctx ++ [line], Except.ok ())

/-- The handlers of `tests/enter_exit.cpp`. -/
def hookHandlers : List (HState × StateHandlers HState HInput String (List String)) :=
  [(HState.Idle, { on_enter := some (log_hook "enter:Idle"),
                   on_exit := some (log_hook "exit:Idle") }),
   (HState.Active, { on_enter := some (log_hook "enter:Active"),
                     on_exit := some (log_hook "exit:Active") })]

/-- Transition `on<Go>(Idle, Active, ...)`, here with an action that logs and returns
an output. -/
def goActive : Transition HState HInput String (List String) :=
  { from_ := HState.Idle, to_ := HState.Active, suppress_enter_exit := false,
    guard := some (fun input _ => decide (input = HInput.Go)),
    action := some (fun _ ctx => (ctx ++ ["action:Go"], Except.ok (some "went"))) }

/-- Transition `on<Loop>(Active, Active, ..., nullptr, 0, true)`: a self-loop with
`suppress_enter_exit` set. -/
def loopActive : Transition HState HInput String (List String) :=
  { from_ := HState.Active, to_ := HState.Active, suppress_enter_exit := true,
    guard := some (fun input _ => decide (input = HInput.Loop)),
    action := some (fun _ ctx => (ctx ++ ["action:Loop"], Except.ok none)) }

/-- The machine of `tests/enter_exit.cpp` in state `s` with log `log`. -/
def hookMachine (s : HState) (log : List String) :
    MachineImpl HState HInput String (List String) :=
  { current_ := s, ctx_ := log, handlers_ := hookHandlers,
    transitions_ := [(HState.Idle, [goActive]), (HState.Active, [loopActive])] }

/-- States of `tests/deferral.cpp`. -/
inductive DState where
  | Idle | Stage | Active
deriving DecidableEq, Repr

/-- Events of `tests/deferral.cpp`. -/
inductive DInput where
  | Job (id : Nat)
  | Reset
deriving DecidableEq, Repr

/-- The type guard of `on<Job>`. -/
def isJob : DInput → List Nat → Bool
  | DInput.Job _, _ => true
  | DInput.Reset, _ => false

/-- The type guard of `on<Reset>`. -/
def isReset : DInput → List Nat → Bool
  | DInput.Job _, _ => false
  | DInput.Reset, _ => true

/-- Transition `on<Job>(Idle, Stage, create_action(), nullptr, 0, false, true)`. -/
def idleStage : Transition DState DInput String (List Nat) :=
  { from_ := DState.Idle, to_ := DState.Stage, suppress_enter_exit := false, defer := true,
    guard := some isJob, action := some (fun _ ctx => (ctx, Except.ok none)) }

/-- Transition `on<Job>(Stage, Active, ...)`, whose action records `job.id`. -/
def stageActive : Transition DState DInput String (List Nat) :=
  { from_ := DState.Stage, to_ := DState.Active, suppress_enter_exit := false,
    guard := some isJob,
    action := some (fun input ctx =>
      match input with
      | DInput.Job id => (ctx ++ [id], Except.ok none)
      | DInput.Reset => (ctx, Except.ok none)) }

/-- Transition `on<Job>(Active, Stage, create_action(), nullptr, 0, false, true)`. -/
def activeStage : Transition DState DInput String (List Nat) :=
  { from_ := DState.Active, to_ := DState.Stage, suppress_enter_exit := false, defer := true,
    guard := some isJob, action := some (fun _ ctx => (ctx, Except.ok none)) }

/-- Transition `on<Reset>(Active, Idle, create_action())`. -/
def activeIdle : Transition DState DInput String (List Nat) :=
  { from_ := DState.Active, to_ := DState.Idle, suppress_enter_exit := false,
    guard := some isReset, action := some (fun _ ctx => (ctx, Except.ok none)) }

/-- The machine of `tests/deferral.cpp` in state `s` with context `order`. -/
def deferralMachine (s : DState) (order : List Nat) :
    MachineImpl DState DInput String (List Nat) :=
  { current_ := s, ctx_ := order, deferral_enabled_ := true,
    transitions_ := [(DState.Idle, [idleStage]), (DState.Stage, [stageActive]),
                     (DState.Active, [activeStage, activeIdle])] }

/-- The builder of `tests/deferral.cpp`. -/
def deferralBuilder : Builder DState DInput String (List Nat) :=
  ((((({ initial_ := DState.Idle } : Builder DState DInput String (List Nat)).enable_deferral
    true).add_transition idleStage).add_transition stageActive).add_transition
    activeStage).add_transition activeIdle

/-- The trace entries of a deferred `Job{id}`: the state change to `Stage` without the
action, then the replay there, which runs the action of `Stage -> Active`. -/
def replayedJob (id : Nat) : List (Call DState DInput) :=
  [Call.set_state DState.Stage, Call.action DState.Active (DInput.Job id),
   Call.set_state DState.Active]

/-- The machine of `tests/deferral.cpp` in state `s` with context `order`, after
dispatches that left the trace `trace` and the deferral queue of `Stage` empty. -/
def deferralAfter (s : DState) (order : List Nat) (trace : List (Call DState DInput)) :
    MachineImpl DState DInput String (List Nat) :=
  { deferralMachine s order with deferrals_ := [(DState.Stage, [])], trace := trace }

/-- The machine of `tests/deferral.cpp` about to settle in `Stage` with `Job{1}` and
`Job{2}` waiting there, in this order. -/
def queuedMachine : MachineImpl DState DInput String (List Nat) :=
  { deferralMachine DState.Stage [] with
    deferrals_ := [(DState.Stage, [DInput.Job 1, DInput.Job 2])] }

/-- The machine `queuedMachine` after `finalize_transition`: `Job{1}` was replayed, which
led to `Active`, and `Job{2}` still waits for `Stage`. -/
def drainedMachine : MachineImpl DState DInput String (List Nat) :=
  { deferralMachine DState.Active [1] with
    deferrals_ := [(DState.Stage, [DInput.Job 2])],
    trace := [Call.action DState.Active (DInput.Job 1), Call.set_state DState.Active] }

/-- States of `tests/value_completion_sort.cpp`. -/
inductive VState where
  | Idle | BranchA | BranchB | Finish
deriving DecidableEq, Repr

/-- Events of `tests/value_completion_sort.cpp`. -/
inductive VInput where
  | Token | Switch
deriving DecidableEq, Repr

/-- Transition `on_value(Idle, BranchA, Token, ctx = 1 "first", true, 2)`. -/
def tokenA : Transition VState VInput String Int :=
  { from_ := VState.Idle, to_ := VState.BranchA, suppress_enter_exit := false, priority := 2,
    guard := some (fun input _ => decide (input = VInput.Token) && true),
    action := some (fun _ _ => (1, Except.ok (some "first"))) }

/-- Transition `on_value(Idle, BranchB, Token, ctx = 2 "second", true, 5)`. -/
def tokenB : Transition VState VInput String Int :=
  { from_ := VState.Idle, to_ := VState.BranchB, suppress_enter_exit := false, priority := 5,
    guard := some (fun input _ => decide (input = VInput.Token) && true),
    action := some (fun _ _ => (2, Except.ok (some "second"))) }

/-- Completion `BranchB -> Finish`, priority 1, `ctx += 10`, output "B-complete". -/
def completeB : Completion VState String Int :=
  { from_ := VState.BranchB, to_ := VState.Finish, suppress_enter_exit := false, priority := 1,
    action := some (fun ctx => (ctx + 10, Except.ok (some "B-complete"))) }

/-- Completion `BranchB -> BranchA`, priority 0, `ctx += 100`, output "B-late". -/
def lateB : Completion VState String Int :=
  { from_ := VState.BranchB, to_ := VState.BranchA, suppress_enter_exit := false,
    action := some (fun ctx => (ctx + 100, Except.ok (some "B-late"))) }

/-- Completion `BranchA -> Finish`, priority 3, `ctx = 200`, output "A-top". -/
def topA : Completion VState String Int :=
  { from_ := VState.BranchA, to_ := VState.Finish, suppress_enter_exit := false, priority := 3,
    action := some (fun _ => (200, Except.ok (some "A-top"))) }

/-- Completion `BranchA -> Idle`, priority 1, `ctx = -50`, output "A-low". -/
def lowA : Completion VState String Int :=
  { from_ := VState.BranchA, to_ := VState.Idle, suppress_enter_exit := false, priority := 1,
    action := some (fun _ => (-50, Except.ok (some "A-low"))) }

/-- The machine of `tests/value_completion_sort.cpp` as built, in state `Idle` with
context `0`. -/
def valueMachine : MachineImpl VState VInput String Int :=
  { current_ := VState.Idle, ctx_ := 0,
    transitions_ := [(VState.Idle, [tokenB, tokenA])],
    completion_transitions_ :=
      [(VState.BranchB, [completeB, lateB]), (VState.BranchA, [topA, lowA])],
    completion_limit_ := 5 }

/-- States of `tests/unhandled_hooks.cpp`. -/
inductive UState where
  | X | Y
deriving DecidableEq, Repr

/-- Events of `tests/unhandled_hooks.cpp`. -/
inductive UInput where
  | E | U
deriving DecidableEq, Repr

/-- Transition `on<E>(X, Y, "ok")`. -/
def xToY : Transition UState UInput String (Nat × Nat) :=
  { from_ := UState.X, to_ := UState.Y, suppress_enter_exit := false,
    guard := some (fun input _ => decide (input = UInput.E)),
    action := some (fun _ ctx => (ctx, Except.ok (some "ok"))) }

/-- The machine-level hook `++c.m`. -/
def countMachine : UnhandledSig UState UInput (Nat × Nat) :=
  fun c _ _ => ((c.1 + 1, c.2), Except.ok ())

/-- The hook `++c.s` of state `Y`. -/
def countState : UnhandledSig UState UInput (Nat × Nat) :=
  fun c _ _ => ((c.1, c.2 + 1), Except.ok ())

/-- The hook `throw 42`. -/
def throw42 : UnhandledSig UState UInput (Nat × Nat) :=
  fun c _ _ => (c, Except.error 42)

/-- The first machine of `tests/unhandled_hooks.cpp` in state `s`; the context is the
pair of counters `(m, s)`. -/
def unhandledMachine (s : UState) (ctx : Nat × Nat) :
    MachineImpl UState UInput String (Nat × Nat) :=
  { current_ := s, ctx_ := ctx,
    handlers_ := [(UState.Y, { on_unhandled := some countState })],
    transitions_ := [(UState.X, [xToY])],
    machine_unhandled_ := some countMachine }

/-- The second machine of `tests/unhandled_hooks.cpp`: its machine-level hook is
`throw 42`. -/
def throwingMachine : MachineImpl UState UInput String (Nat × Nat) :=
  { current_ := UState.X, ctx_ := (0, 0), machine_unhandled_ := some throw42 }

/-- A transition `Idle -> Active` on `Go` whose action logs and then throws `7`. -/
def goThrows : Transition HState HInput String (List String) :=
  { from_ := HState.Idle, to_ := HState.Active, suppress_enter_exit := false,
    guard := some (fun input _ => decide (input = HInput.Go)),
    action := some (fun _ ctx => (ctx ++ ["action:throw"], Except.error 7)) }

/-- The handlers of `hookMachine` around the throwing transition, in state `Idle` with
an empty log. -/
def throwingActionMachine : MachineImpl HState HInput String (List String) :=
  { current_ := HState.Idle, ctx_ := [], handlers_ := hookHandlers,
    transitions_ := [(HState.Idle, [goThrows])] }

/-- The builder of `tests/enter_exit.cpp`. -/
def hookBuilder : Builder HState HInput String (List String) :=
  { initial_ := HState.Idle, states_ := hookHandlers,
    trans_ := [(HState.Idle, [goActive]), (HState.Active, [loopActive])] }

/-- States of `make_loop` in `tests/completion_order.cpp`. -/
inductive LState where
  | LoopA | LoopB
deriving DecidableEq, Repr

/-- Completion `completion(LoopA).to(LoopB)`. -/
def loopAB : Completion LState Unit Unit :=
  { from_ := LState.LoopA, to_ := LState.LoopB, suppress_enter_exit := false }

/-- Completion `completion(LoopB).to(LoopA)`. -/
def loopBA : Completion LState Unit Unit :=
  { from_ := LState.LoopB, to_ := LState.LoopA, suppress_enter_exit := false }

/-- A transition `from(LoopA).on<std::monostate>().to(LoopA)` added to `make_loop`. -/
def kick : Transition LState Unit Unit Unit :=
  { from_ := LState.LoopA, to_ := LState.LoopA, suppress_enter_exit := false,
    guard := some (fun _ _ => true) }

/-- The builder of `make_loop`, with the transition `kick` added. -/
def loopBuilder : Builder LState Unit Unit Unit :=
  ((({ initial_ := LState.LoopA } : Builder LState Unit Unit Unit).add_completion
    loopAB).add_completion loopBA).add_transition kick

/-- The four completion applications that one completion cascade of the loop machine
records before the step bound stops it. -/
def loopCascade : List (Call LState Unit) :=
  [Call.completion LState.LoopA LState.LoopB, Call.set_state LState.LoopB,
   Call.completion LState.LoopB LState.LoopA, Call.set_state LState.LoopA,
   Call.completion LState.LoopA LState.LoopB, Call.set_state LState.LoopB,
   Call.completion LState.LoopB LState.LoopA, Call.set_state LState.LoopA]

/-- The machine `loopBuilder` builds: in `LoopA`, with `completion_limit_ == 3`. -/
def loopMachine : MachineImpl LState Unit Unit Unit :=
  { current_ := LState.LoopA, ctx_ := (),
    transitions_ := [(LState.LoopA, [kick])],
    completion_transitions_ := [(LState.LoopA, [loopAB]), (LState.LoopB, [loopBA])],
    completion_limit_ := 3,
    trace := loopCascade }

/-- States of `tests/cosm_adapter_pipeline.cpp` and `tests/coroutine_semantics.cpp`. -/
inductive CState where
  | Idle | Active | Done
deriving DecidableEq, Repr

/-- Events of `tests/cosm_adapter_pipeline.cpp` (`Kick`, `Unknown`) and of
`tests/coroutine_semantics.cpp` (`Start`). -/
inductive CInput where
  | Kick | Unknown | Start
deriving DecidableEq, Repr

/-- The type guard of `on<T>` for the alternative `alt`. -/
def isAlt (alt : CInput) : CInput → Int → Bool := fun input _ => decide (input = alt)

/-- Transition `on<Kick>(Idle, Active, create_action())` of `make_machine`. -/
def kickActive : Transition CState CInput Int Int :=
  { from_ := CState.Idle, to_ := CState.Active, suppress_enter_exit := false,
    guard := some (isAlt CInput.Kick), action := some (fun _ ctx => (ctx, Except.ok none)) }

/-- Transition `on<Unknown>(Idle, Idle, create_action())` of `make_machine`. -/
def unknownIdle : Transition CState CInput Int Int :=
  { from_ := CState.Idle, to_ := CState.Idle, suppress_enter_exit := false,
    guard := some (isAlt CInput.Unknown), action := some (fun _ ctx => (ctx, Except.ok none)) }

/-- Completion `completion(Active).to(Done)` of `make_machine`. -/
def activeDone : Completion CState Int Int :=
  { from_ := CState.Active, to_ := CState.Done, suppress_enter_exit := false }

/-- The builder of `make_machine` in `tests/cosm_adapter_pipeline.cpp`.  None of its
callables reads or writes the context, which is taken here to be the `value` of
`tests/coroutine_semantics.cpp`. -/
def pipelineBuilder : Builder CState CInput Int Int :=
  ((({ initial_ := CState.Idle } : Builder CState CInput Int Int).add_transition
    kickActive).add_transition unknownIdle).add_completion activeDone

/-- The machine `pipelineBuilder` builds: in `Idle`, with `completion_limit_ == 2`. -/
def pipelineMachine : MachineImpl CState CInput Int Int :=
  { current_ := CState.Idle, ctx_ := 0,
    transitions_ := [(CState.Idle, [kickActive, unknownIdle])],
    completion_transitions_ := [(CState.Active, [activeDone])],
    completion_limit_ := 2 }

/-- Transition `on<Start>(Idle, Active, create_action())` of `make_basic_machine`. -/
def startActive : Transition CState CInput Int Int :=
  { from_ := CState.Idle, to_ := CState.Active, suppress_enter_exit := false,
    guard := some (isAlt CInput.Start), action := some (fun _ ctx => (ctx, Except.ok none)) }

/-- The machine of `make_basic_machine` in `tests/coroutine_semantics.cpp`. -/
def basicMachine : MachineImpl CState CInput Int Int :=
  { current_ := CState.Idle, ctx_ := 0,
    transitions_ := [(CState.Idle, [startActive])] }

/-- The effect of `test_commit_before_effect`:
`ctx.value = (machine.state() == State::Active) ? 1 : -1; co_return std::nullopt`. -/
def observeActive : CoAction CState CInput Int Int :=
  fun _ st _ _ source => ((if st = CState.Active then 1 else -1, source), Except.ok none)

/-- The effect of `test_cancellation_propagates`, resumed after `source.request_stop()`:
`ctx.value = 7; throw_if_cancelled(token); co_return std::nullopt`. -/
def stopThenThrow : CoAction CState CInput Int Int :=
  fun _ _ _ tok source =>
    ((7, source.request_stop),
      match throw_if_cancelled tok source.request_stop with
      | Except.error x => Except.error x
      | Except.ok _ => Except.ok none)

/-- An effect that returns `value` and leaves the context alone, as the `emit` stage of
`tests/cosm_branch_coverage.cpp` does. -/
def emitValue (value : Int) : CoAction CState CInput Int Int :=
  fun _ _ ctx _ source => ((ctx, source), Except.ok (some value))

/-- The adapter of `tests/cosm_adapter_pipeline.cpp` on `pipelineMachine`, with the
effect `action` bound to `(Idle, Active)`. -/
def pipelineAdapter (action : CoAction CState CInput Int Int) :
    Adapter CState CInput Int Int :=
  ({ machine_ := pipelineMachine, global_cancel_ := some {} } :
    Adapter CState CInput Int Int).bind_async CState.Idle CState.Active action

/-- The adapter of `tests/coroutine_semantics.cpp` on `basicMachine`, with the effect
`action` bound to `(Idle, Active)` and the cancel source `source`. -/
def basicAdapter (action : CoAction CState CInput Int Int) (source : Option CancelSource) :
    Adapter CState CInput Int Int :=
  ({ machine_ := basicMachine, global_cancel_ := source } :
    Adapter CState CInput Int Int).bind_async CState.Idle CState.Active action

/-- A completion `completion(Idle).action(...).to(Active)` whose action returns `7`. -/
def idleActive7 : Completion CState Int Int :=
  { from_ := CState.Idle, to_ := CState.Active, suppress_enter_exit := false,
    action := some (fun ctx => (ctx, Except.ok (some 7))) }

/-- A machine in `Idle` with the completions `Idle -> Active`, which returns `7`, and
`Active -> Done`, which has no action. -/
def cascadeMachine : MachineImpl CState CInput Int Int :=
  { current_ := CState.Idle, ctx_ := 0,
    completion_transitions_ := [(CState.Idle, [idleActive7]), (CState.Active, [activeDone])],
    completion_limit_ := 3 }

/-- The builder of `make_loop` in `tests/completion_order.cpp`, as it is there. -/
def makeLoopBuilder : Builder LState Unit Unit Unit :=
  (({ initial_ := LState.LoopA } : Builder LState Unit Unit Unit).add_completion
    loopAB).add_completion loopBA

/-- The machine `makeLoopBuilder` builds: back in `LoopA` after the four completion
applications of `loopCascade`, with `completion_limit_ == 3`. -/
def madeLoopMachine : MachineImpl LState Unit Unit Unit :=
  { current_ := LState.LoopA, ctx_ := (),
    completion_transitions_ := [(LState.LoopA, [loopAB]), (LState.LoopB, [loopBA])],
    completion_limit_ := 3,
    trace := loopCascade }

/-- States of `tests/guard_combined.cpp`. -/
inductive GState where
  | Idle | Next
deriving DecidableEq, Repr

/-- Events of `tests/guard_combined.cpp`: the variant with the one alternative
`Trigger`. -/
inductive GInput where
  | Trigger
deriving DecidableEq, Repr

/-- The alternative `Trigger` of `GInput`. -/
def asTrigger : GInput → Option Unit
  | GInput.Trigger => some ()

/-- The transition that `on<Trigger>(Idle, Next, action, guard)` declares in
`tests/guard_combined.cpp`: the action returns `std::nullopt`, the guard is
`ctx.allow`. -/
def triggerNext : Transition GState GInput Int Bool :=
  Builder.variant_transition asTrigger GState.Idle GState.Next
    (some (fun _ ctx => (ctx, Except.ok none))) (some (fun _ ctx => ctx)) 0 false false

/-- The builder of `tests/guard_combined.cpp`. -/
def guardBuilder : Builder GState GInput Int Bool :=
  ({ initial_ := GState.Idle } : Builder GState GInput Int Bool).on_ asTrigger
    GState.Idle GState.Next (some (fun _ ctx => (ctx, Except.ok none)))
    (some (fun _ ctx => ctx)) 0 false false

/-- The machine of `tests/guard_combined.cpp` in state `s` with `ctx.allow == allow`. -/
def guardMachine (s : GState) (allow : Bool) : MachineImpl GState GInput Int Bool :=
  { current_ := s, ctx_ := allow, transitions_ := [(GState.Idle, [triggerNext])] }

/-- States of `tests/select_commit.cpp`. -/
inductive SState where
  | A | B
deriving DecidableEq, Repr

/-- The transition that `on<Go>(A, B, create_action("ok"))` declares in
`tests/select_commit.cpp`, the input variant having the one alternative `Go`. -/
def goB : Transition SState Unit String Unit :=
  Builder.variant_transition (fun _ => some ()) SState.A SState.B
    (some (fun _ ctx => (ctx, Except.ok (some "ok")))) none 0 false false

/-- The machine of `tests/select_commit.cpp` in state `s`. -/
def selectMachine (s : SState) : MachineImpl SState Unit String Unit :=
  { current_ := s, ctx_ := (), transitions_ := [(SState.A, [goB])] }

/-- States of a machine with deferral enabled in which one event is deferred twice in
a row. -/
inductive RState where
  | A | B | C | D
deriving DecidableEq, Repr

/-- Transition `on<X>(A, B, create_action(), nullptr, 0, false, true)`: deferred. -/
def relayAB : Transition RState Unit String (List String) :=
  { from_ := RState.A, to_ := RState.B, suppress_enter_exit := false, defer := true,
    guard := some (fun _ _ => true), action := some (fun _ ctx => (ctx, Except.ok none)) }

/-- Transition `on<X>(B, C, create_action(), nullptr, 0, false, true)`: deferred. -/
def relayBC : Transition RState Unit String (List String) :=
  { from_ := RState.B, to_ := RState.C, suppress_enter_exit := false, defer := true,
    guard := some (fun _ _ => true), action := some (fun _ ctx => (ctx, Except.ok none)) }

/-- Transition `on<X>(C, D, action)`, whose action logs that it ran. -/
def relayCD : Transition RState Unit String (List String) :=
  { from_ := RState.C, to_ := RState.D, suppress_enter_exit := false,
    guard := some (fun _ _ => true),
    action := some (fun _ ctx => (ctx ++ ["C->D"], Except.ok none)) }

/-- The builder of the relay machine. -/
def relayBuilder : Builder RState Unit String (List String) :=
  (((({ initial_ := RState.A } : Builder RState Unit String (List String)).enable_deferral
    true).add_transition relayAB).add_transition relayBC).add_transition relayCD

/-- The machine `relayBuilder` builds, in `A`. -/
def relayMachine : MachineImpl RState Unit String (List String) :=
  { current_ := RState.A, ctx_ := [], deferral_enabled_ := true,
    transitions_ := [(RState.A, [relayAB]), (RState.B, [relayBC]), (RState.C, [relayCD])] }

/-- The relay machine as `dispatch(X)` in `A` hands it to the deferral drain: settled in
`B`, with the event queued for `B`. -/
def relaySettled : MachineImpl RState Unit String (List String) :=
  { relayMachine with
    current_ := RState.B, deferrals_ := [(RState.B, [()])],
    trace := [Call.set_state RState.B] }

/-- The relay machine when that drain has returned: in `D`, the action of `C -> D` has
run, and the queues of `B` and `C` are empty. -/
def relayDone : MachineImpl RState Unit String (List String) :=
  { relayMachine with
    current_ := RState.D, ctx_ := ["C->D"],
    deferrals_ := [(RState.B, []), (RState.C, [])],
    trace := [Call.set_state RState.B, Call.set_state RState.C,
              Call.action RState.D (), Call.set_state RState.D] }

/-- Struct `Context` of `tests/cosm_adapter_pipeline.cpp`. -/
structure PipeCtx where
  attempts : Int := 0
  awaited : Int := 0
  emitted : Int := 0
  backoffs : List Int := []
deriving DecidableEq, Repr

/-- The machine of `make_machine` in `tests/cosm_adapter_pipeline.cpp`, with the context
of that test. -/
def pipeMachine : MachineImpl CState CInput Int PipeCtx :=
  { current_ := CState.Idle, ctx_ := {},
    transitions_ :=
      [(CState.Idle,
        [{ from_ := CState.Idle, to_ := CState.Active, suppress_enter_exit := false,
           guard := some (fun input _ => decide (input = CInput.Kick)),
           action := some (fun _ ctx => (ctx, Except.ok none)) },
         { from_ := CState.Idle, to_ := CState.Idle, suppress_enter_exit := false,
           guard := some (fun input _ => decide (input = CInput.Unknown)),
           action := some (fun _ ctx => (ctx, Except.ok none)) }])],
    completion_transitions_ :=
      [(CState.Active,
        [{ from_ := CState.Active, to_ := CState.Done, suppress_enter_exit := false }])],
    completion_limit_ := 2 }

/-- The `await` callable of the pipeline test: `ctx.awaited += 1`, then suspensions that
change nothing. -/
def pipeAwait : CInput → CState → PipeCtx → CancelToken → CancelSource →
    (PipeCtx × CancelSource) × Except Exn Unit :=
  fun _ _ ctx _ source => (({ ctx with awaited := ctx.awaited + 1 }, source), Except.ok ())

/-- The `then` callable of the pipeline test: `ctx.attempts += 1`, and `42` from the
third attempt on. -/
def pipeThen : CoAction CState CInput Int PipeCtx :=
  fun _ _ ctx _ source =>
    (({ ctx with attempts := ctx.attempts + 1 }, source),
      Except.ok (if ctx.attempts + 1 < 3 then none else some 42))

/-- The `backoff` callable of the pipeline test: `ctx.backoffs.push_back(attempt)`. -/
def pipeBackoff : Backoff CState CInput PipeCtx :=
  fun attempt _ _ ctx _ source =>
    (({ ctx with backoffs := ctx.backoffs ++ [attempt] }, source), Except.ok ())

/-- The `emit` callable of the pipeline test: `ctx.emitted = 99; return 99;`. -/
def pipeEmit : CInput → PipeCtx → PipeCtx × Except Exn Int :=
  fun _ ctx => ({ ctx with emitted := 99 }, Except.ok 99)

/-- The stage of `tests/cosm_adapter_pipeline.cpp` before `attach()`:
`adapter.from(Idle).on<Kick>().to(Active).await(..).then(..).retry(3, ..).emit(..)`. -/
def pipeStage : ToStage CState CInput Int PipeCtx :=
  (((((({ machine_ := pipeMachine, global_cancel_ := some {} } :
    Adapter CState CInput Int PipeCtx).to_stage CState.Idle CState.Active).await
    pipeAwait).then_ pipeThen).retry 3 pipeBackoff).emit pipeEmit)

/-- Struct `Context` of `tests/cosm_branch_coverage.cpp` (the fields its pipeline
reads or writes). -/
structure BranchCtx where
  attempts : Int := 0
  awaited : Int := 0
  emit_value : Int := 0
  produce_emit : Bool := false
  throw_in_then : Bool := false
  stop_in_await : Bool := false
  stop_in_backoff : Bool := false
deriving DecidableEq, Repr

/-- The exception `std::logic_error("effect explosion")` of the branch test, as the
exception value that stands for it. -/
def effect_explosion : Exn := 3

/-- The `await` callable of `attach_pipeline`: `ctx.awaited += 1`, and
`source.request_stop()` when `ctx.stop_in_await`. -/
def branchAwait : CInput → CState → BranchCtx → CancelToken → CancelSource →
    (BranchCtx × CancelSource) × Except Exn Unit :=
  fun _ _ ctx _ source =>
    (({ ctx with awaited := ctx.awaited + 1 },
      if ctx.stop_in_await then source.request_stop else source), Except.ok ())

/-- The `then` callable of `attach_pipeline`. -/
def branchThen : CoAction CState CInput Int BranchCtx :=
  fun _ _ ctx _ source =>
    (({ ctx with attempts := ctx.attempts + 1 }, source),
      if ctx.throw_in_then then Except.error effect_explosion
      else if ctx.produce_emit then Except.ok (some ctx.emit_value)
      else Except.ok none)

/-- The `backoff` callable of `attach_pipeline`: `source.request_stop()` when
`ctx.stop_in_backoff && attempt == 1`. -/
def branchBackoff : Backoff CState CInput BranchCtx :=
  fun attempt _ _ ctx _ source =>
    ((ctx, if ctx.stop_in_backoff && decide (attempt = 1) then source.request_stop
           else source), Except.ok ())

/-- The stage that `attach_pipeline` builds before `attach()`:
`await(..).then(..).retry(2, ..)`, on any adapter.  The two states of the binding play
no part in the composition of the fragments. -/
def branchStage (a : Adapter CState CInput Int BranchCtx) :
    ToStage CState CInput Int BranchCtx :=
  (((a.to_stage CState.Idle CState.Active).await branchAwait).then_ branchThen).retry 2
    branchBackoff

/-- An adapter with a cancel source on a machine with the context of the branch test. -/
def branchAdapter (ctx : BranchCtx) : Adapter CState CInput Int BranchCtx :=
  { machine_ := { current_ := CState.Idle, ctx_ := ctx }, global_cancel_ := some {} }

/-- States of `make_router` in `tests/completion_order.cpp`. -/
inductive QState where
  | Start | Setup | PathA | PathB
deriving DecidableEq, Repr

/-- Completion `completion(Setup).guard(true).priority(5).action("A").to(PathA)`. -/
def setupA : Completion QState String Unit :=
  { from_ := QState.Setup, to_ := QState.PathA, suppress_enter_exit := false, priority := 5,
    guard := some (fun _ => true),
    action := some (fun ctx => (ctx, Except.ok (some "A"))) }

/-- Completion `completion(Setup).guard(true).priority(0).action("B").to(PathB)`. -/
def setupB : Completion QState String Unit :=
  { from_ := QState.Setup, to_ := QState.PathB, suppress_enter_exit := false, priority := 0,
    guard := some (fun _ => true),
    action := some (fun ctx => (ctx, Except.ok (some "B"))) }

/-- The builder of `make_router`; the input variant has the one alternative `Begin`. -/
def routerBuilder : Builder QState Unit String Unit :=
  ((({ initial_ := QState.Start } : Builder QState Unit String Unit).on_
    (fun (_ : Unit) => some ()) QState.Start QState.Setup none none 0 false false).add_completion
    setupA).add_completion setupB

/-- States of `tests/machine_deferral_replay.cpp`. -/
inductive WState where
  | Idle | Working
deriving DecidableEq, Repr

/-- Events of `tests/machine_deferral_replay.cpp`. -/
inductive WInput where
  | Start (id : Int)
  | Tick
  | Unknown (code : Int)
deriving DecidableEq, Repr

/-- Struct `Context` of `tests/machine_deferral_replay.cpp`. -/
structure WCtx where
  replayed : List Int := []
  outputs : List Int := []
  idle_unhandled : Nat := 0
  machine_unhandled : Nat := 0
deriving DecidableEq, Repr

/-- The alternative `Start` of the input variant, as its `id`. -/
def asStart : WInput → Option Int
  | WInput.Start id => some id
  | _ => none

/-- The alternative `Tick` of the input variant. -/
def asTick : WInput → Option Unit
  | WInput.Tick => some ()
  | _ => none

/-- The action of `on<Start>(Working, Working, ...)`: records `start.id` and returns it. -/
def workingStart : Int → WCtx → WCtx × Except Exn (Option Int) :=
  fun id ctx =>
    ({ ctx with replayed := ctx.replayed ++ [id], outputs := ctx.outputs ++ [id] },
      Except.ok (some id))

/-- The action of `on<Tick>(Working, Idle, ...)`: records `99` and returns it. -/
def workingTick : Unit → WCtx → WCtx × Except Exn (Option Int) :=
  fun _ ctx =>
    ({ ctx with replayed := ctx.replayed ++ [99], outputs := ctx.outputs ++ [99] },
      Except.ok (some 99))

/-- The exception `std::runtime_error{"machine-level"}`, as the exception value that
stands for it. -/
def machine_level : Exn := 5

/-- The builder of `tests/machine_deferral_replay.cpp`. -/
def replayBuilder : Builder WState WInput Int WCtx :=
  (((((({ initial_ := WState.Idle } : Builder WState WInput Int WCtx).enable_deferral
    true).on_ asStart WState.Idle WState.Working (some (fun _ ctx => (ctx, Except.ok none)))
      none 0 false true).on_ asStart WState.Working WState.Working (some workingStart)
      none 0 true false).on_ asTick WState.Working WState.Idle (some workingTick)
      none 0 false false).on_unhandled_state WState.Idle
      (some (fun ctx _ _ =>
        ({ ctx with idle_unhandled := ctx.idle_unhandled + 1 }, Except.ok ())))).on_unhandled
      (some (fun ctx _ _ =>
        ({ ctx with machine_unhandled := ctx.machine_unhandled + 1 },
          Except.error machine_level)))

/-- The events that `tests/machine_deferral_replay.cpp` enqueues, in order. -/
def replayEvents : List WInput :=
  [WInput.Unknown 7, WInput.Start 3, WInput.Unknown 9, WInput.Tick]

/-- An `await` callable that requests a stop on the cancel source and returns. -/
def requestStop :
    CInput → CState → Int → CancelToken → CancelSource → (Int × CancelSource) × Except Exn Unit :=
  fun _ _ ctx _ source => ((ctx, source.request_stop), Except.ok ())

/-- A stage `emit(7).await(requestStop).emit(9)` on the machine of
`tests/cosm_adapter_pipeline.cpp`, before `attach()`: the stop is requested while the
second fragment runs, after the first has produced `7`. -/
def stoppedStage : ToStage CState CInput Int Int :=
  (((({ machine_ := pipelineMachine, global_cancel_ := some {} } :
    Adapter CState CInput Int Int).to_stage CState.Idle CState.Active).emit
    (fun _ ctx => (ctx, Except.ok 7))).await requestStop).emit
    (fun _ ctx => (ctx, Except.ok 9))

/-- The machine of `tests/deferral.cpp` in `Idle`, with an `on_exit` hook added to `Idle`
that throws `9`. -/
def exitThrowsMachine : MachineImpl DState DInput String (List Nat) :=
  { deferralMachine DState.Idle [] with
    handlers_ := [(DState.Idle, { on_exit := some (fun ctx _ _ _ => (ctx, Except.error 9)) })] }

/-- States of a machine with deferral enabled in which a completion leads back from the
state an event was deferred for, so that the event stays stored while the machine is
elsewhere. -/
inductive BState where
  | A | B | C | D
deriving DecidableEq, Repr

/-- Events of that machine. -/
inductive BInput where
  | X | Y
deriving DecidableEq, Repr

/-- Transition `on_value(A, B, X, nullptr, nullptr, 0, false, true)`: deferred. -/
def holdAB : Transition BState BInput String Nat :=
  Builder.value_transition BState.A BState.B BInput.X none none 0 false true

/-- Transition `on_value(A, B, Y, action)`, not deferred; its action returns `"go"`. -/
def goAB : Transition BState BInput String Nat :=
  Builder.value_transition BState.A BState.B BInput.Y
    (some (fun _ ctx => (ctx, Except.ok (some "go")))) none 0 false false

/-- Transition `on_value(B, C, X, nullptr, nullptr, 0, false, true)`: deferred. -/
def holdBC : Transition BState BInput String Nat :=
  Builder.value_transition BState.B BState.C BInput.X none none 0 false true

/-- Completion `completion(B).guard(ctx == 0).action(ctx = 1).to(A)`: it applies once. -/
def backBA : Completion BState String Nat :=
  { from_ := BState.B, to_ := BState.A, suppress_enter_exit := false,
    guard := some (fun ctx => decide (ctx = 0)),
    action := some (fun _ => (1, Except.ok none)) }

/-- Completion `completion(C).to(D)`. -/
def doneCD : Completion BState String Nat :=
  { from_ := BState.C, to_ := BState.D, suppress_enter_exit := false }

/-- The builder of the machine with these five records, deferral enabled, initial
state `A`. -/
def bounceBuilder : Builder BState BInput String Nat :=
  (((((({ initial_ := BState.A } : Builder BState BInput String Nat).enable_deferral
    true).add_transition holdAB).add_transition goAB).add_transition holdBC).add_completion
    backBA).add_completion doneCD

/-- The machine `bounceBuilder` builds with the context `0`, after `dispatch(X)`: the
event was stored for `B`, the completion led back to `A`, and the event is still stored
for `B`. -/
def bounceHeld : MachineImpl BState BInput String Nat :=
  { current_ := BState.A, ctx_ := 1, deferral_enabled_ := true, completion_limit_ := 3,
    transitions_ := [(BState.A, [holdAB, goAB]), (BState.B, [holdBC])],
    completion_transitions_ := [(BState.B, [backBA]), (BState.C, [doneCD])],
    deferrals_ := [(BState.B, [BInput.X])],
    trace := [Call.set_state BState.B, Call.completion BState.B BState.A,
              Call.completion_action BState.B BState.A, Call.set_state BState.A] }

/-- An any-source transition to `B`, not deferred, without a guard; its action adds `10`
to the context and returns `"any"`. -/
def anyB : Transition BState BInput String Nat :=
  { from_ := BState.A, to_ := BState.B,
    action := some (fun _ ctx => (ctx + 10, Except.ok (some "any"))) }

/-- The builder of a machine with `holdAB`, the any-source `anyB` and `backBA`, deferral
enabled, initial state `A`. -/
def bounceAnyBuilder : Builder BState BInput String Nat :=
  (((({ initial_ := BState.A } : Builder BState BInput String Nat).enable_deferral
    true).add_transition holdAB).add_transition_any anyB).add_completion backBA

/-- The machine `bounceAnyBuilder` builds with the context `0`, after `dispatch(X)`: in
`A` again, with the event stored for `B`. -/
def bounceAnyHeld : MachineImpl BState BInput String Nat :=
  { current_ := BState.A, ctx_ := 1, deferral_enabled_ := true, completion_limit_ := 2,
    transitions_ := [(BState.A, [holdAB])], any_transitions_ := [anyB],
    completion_transitions_ := [(BState.B, [backBA])],
    deferrals_ := [(BState.B, [BInput.X])],
    trace := [Call.set_state BState.B, Call.completion BState.B BState.A,
              Call.completion_action BState.B BState.A, Call.set_state BState.A] }

/-- States of a machine that enters the completion loop of `make_loop` through a
deferred transition. -/
inductive OState where
  | Start | OrbitA | OrbitB
deriving DecidableEq, Repr

/-- Completion `completion(OrbitA).to(OrbitB)`. -/
def orbitAB : Completion OState Unit Unit :=
  { from_ := OState.OrbitA, to_ := OState.OrbitB, suppress_enter_exit := false }

/-- Completion `completion(OrbitB).to(OrbitA)`. -/
def orbitBA : Completion OState Unit Unit :=
  { from_ := OState.OrbitB, to_ := OState.OrbitA, suppress_enter_exit := false }

/-- A deferred transition from `Start` to `OrbitA`. -/
def orbitEnter : Transition OState Unit Unit Unit :=
  { from_ := OState.Start, to_ := OState.OrbitA, suppress_enter_exit := false, defer := true }

/-- A transition from `OrbitA` to itself, not deferred. -/
def orbitKick : Transition OState Unit Unit Unit :=
  { from_ := OState.OrbitA, to_ := OState.OrbitA, suppress_enter_exit := false }

/-- The builder of the orbit machine: deferral enabled, initial state `Start`. -/
def orbitBuilder : Builder OState Unit Unit Unit :=
  ((((({ initial_ := OState.Start } : Builder OState Unit Unit Unit).enable_deferral
    true).add_completion orbitAB).add_completion orbitBA).add_transition
    orbitEnter).add_transition orbitKick

/-- The object the member initialisers of the constructor leave for `orbitBuilder`. -/
def orbitInitial : MachineImpl OState Unit Unit Unit :=
  { current_ := OState.Start, ctx_ := (), deferral_enabled_ := true,
    transitions_ := [(OState.Start, [orbitEnter]), (OState.OrbitA, [orbitKick])],
    completion_transitions_ := [(OState.OrbitA, [orbitAB]), (OState.OrbitB, [orbitBA])] }

/-- The machine `orbitBuilder` builds: in `Start`, with `completion_limit_ == 3`. -/
def orbitMachine : MachineImpl OState Unit Unit Unit :=
  { orbitInitial with completion_limit_ := 3 }

/-- The four completion applications that one completion cascade of the orbit machine
records before the step bound stops it. -/
def orbitCascade : List (Call OState Unit) :=
  [Call.completion OState.OrbitA OState.OrbitB, Call.set_state OState.OrbitB,
   Call.completion OState.OrbitB OState.OrbitA, Call.set_state OState.OrbitA,
   Call.completion OState.OrbitA OState.OrbitB, Call.set_state OState.OrbitB,
   Call.completion OState.OrbitB OState.OrbitA, Call.set_state OState.OrbitA]

/-- The orbit machine as the commit step of `dispatch(e)` in `Start` hands it to
`finalize_transition`: in `OrbitA`, with the event stored for `OrbitA`. -/
def orbitCommitted : MachineImpl OState Unit Unit Unit :=
  { orbitMachine with
    current_ := OState.OrbitA, deferrals_ := [(OState.OrbitA, [()])],
    trace := [Call.set_state OState.OrbitA] }

/-- The orbit machine when that `finalize_transition` has returned: one cascade, the
replay of the stored event through `orbitKick`, and the cascade of that replay. -/
def orbitSettled : MachineImpl OState Unit Unit Unit :=
  { orbitMachine with
    current_ := OState.OrbitA, deferrals_ := [(OState.OrbitA, [])],
    trace := [Call.set_state OState.OrbitA] ++ orbitCascade ++
      [Call.set_state OState.OrbitA] ++ orbitCascade }

/-- The adapter of `tests/cosm_adapter_pipeline.cpp` on `pipelineMachine`, with the
effect of `test_cancellation_propagates`, which starts with `co_await gate`, bound to
`(Idle, Idle)`. -/
def gateAdapter : Adapter CState CInput Int Int :=
  ({ machine_ := pipelineMachine, global_cancel_ := some {} } :
    Adapter CState CInput Int Int).bind_async CState.Idle CState.Idle stopThenThrow

/-- That adapter when the `Task` of `dispatch_async(Unknown)` is suspended at the gate:
the transition `Idle -> Idle` is committed and the async-inflight flag is set. -/
def gateSuspended : Adapter CState CInput Int Int :=
  { gateAdapter with
    machine_ :=
      { pipelineMachine with
        async_inflight_ := true,
        trace := [Call.action CState.Idle CInput.Unknown, Call.set_state CState.Idle] } }

/-- States of `examples/processing_queue.cpp`. -/
inductive JState where
  | Idle | Processing | Done
deriving DecidableEq, Repr

/-- Events of `examples/processing_queue.cpp`. -/
inductive JInput where
  | Start (jobs : Int)
  | Tick
deriving DecidableEq, Repr

/-- The alternative `Start` of the input variant, as its `jobs`. -/
def asJobs : JInput → Option Int
  | JInput.Start jobs => some jobs
  | _ => none

/-- The member `schedule_tick` of the context of `examples/processing_queue.cpp`, as
`main` sets it: `[&machine]() { machine.enqueue(Tick{}); }`.  The first component of the
context is `pending`. -/
def schedule_tick (ctx : Int × List JInput) : Int × List JInput :=
  MachineImpl.enqueue_from_callable ctx JInput.Tick

/-- The action of `on<Start>(Idle, Processing, ...)`: `ctx.pending = s.jobs;
if(ctx.pending > 0 && ctx.schedule_tick) ctx.schedule_tick(); return "Started"`. -/
def jobStart : Int → Int × List JInput → (Int × List JInput) × Except Exn (Option String) :=
  fun jobs ctx =>
    (if jobs > 0 then schedule_tick (jobs, ctx.2) else (jobs, ctx.2), Except.ok (some "Started"))

/-- The action of `on<Start>(Done, Processing, ...)`, which returns `"Restart batch"`. -/
def jobRestart : Int → Int × List JInput → (Int × List JInput) × Except Exn (Option String) :=
  fun jobs ctx =>
    (if jobs > 0 then schedule_tick (jobs, ctx.2) else (jobs, ctx.2),
      Except.ok (some "Restart batch"))

/-- The self-loop on `Tick` in `Processing`, taken while `ctx.pending > 1`: its action
decrements `pending`, schedules the next `Tick` when work remains, and returns
`"Processed one"`. -/
def tickLoop : Transition JState JInput String (Int × List JInput) :=
  { from_ := JState.Processing, to_ := JState.Processing, suppress_enter_exit := true,
    guard := some (fun input ctx => decide (input = JInput.Tick) && decide (ctx.1 > 1)),
    action := some (fun _ ctx =>
      (if ctx.1 - 1 > 0 then schedule_tick (ctx.1 - 1, ctx.2) else (ctx.1 - 1, ctx.2),
        Except.ok (some "Processed one"))) }

/-- The transition on `Tick` from `Processing` to `Done`, of priority `1`, taken when
`ctx.pending <= 1`: its action decrements a positive `pending` and returns
`"All jobs complete"`. -/
def tickDone : Transition JState JInput String (Int × List JInput) :=
  { from_ := JState.Processing, to_ := JState.Done, priority := 1,
    guard := some (fun input ctx => decide (input = JInput.Tick) && decide (ctx.1 ≤ 1)),
    action := some (fun _ ctx =>
      ((if ctx.1 > 0 then ctx.1 - 1 else ctx.1, ctx.2), Except.ok (some "All jobs complete"))) }

/-- The builder of `examples/processing_queue.cpp`.  The `on_enter` hooks of `Processing`
and `Done` only print; that of `Idle` resets `pending`. -/
def jobBuilder : Builder JState JInput String (Int × List JInput) :=
  (((((((({ initial_ := JState.Idle } : Builder JState JInput String (Int × List JInput)).set_initial
    JState.Idle).on_enter JState.Processing (some (fun ctx _ _ _ => (ctx, Except.ok ())))).on_enter
    JState.Done (some (fun ctx _ _ _ => (ctx, Except.ok ())))).on_enter
    JState.Idle (some (fun ctx _ _ _ => ((0, ctx.2), Except.ok ())))).on_
    asJobs JState.Idle JState.Processing (some jobStart) none 0 false false).add_transition
    tickLoop).add_transition tickDone).on_
    asJobs JState.Done JState.Processing (some jobRestart) none 0 false false

/-- The machine `jobBuilder` builds with the context `pending == 0`, nothing enqueued:
in `Idle`, the `on_enter` hook of `Idle` called by the constructor. -/
def jobMachine : MachineImpl JState JInput String (Int × List JInput) :=
  { current_ := JState.Idle, ctx_ := (0, []), handlers_ := jobBuilder.states_,
    transitions_ := Builder.sort_each Transition.priority jobBuilder.trans_,
    trace := [Call.on_enter JState.Idle JState.Idle none] }

end Examples

/-! ## Specification vocabulary -/

/-- The selection rule of the specification over a declaration list `decl`, for a
priority `prio` and a qualification test `q`.  `none` is the choice when no declared
record qualifies.  `some t` is the choice when `t` is declared, qualifies, every
qualifying record declared before it has strictly lower priority, and every
qualifying record declared after it has lower or equal priority: `t` has the highest
priority among the qualifying records and is the earliest declared of those. -/
def IsChoice {T : Type} (prio : T → Int) (q : T → Bool) (decl : List T) : Option T → Prop
  | none => ∀ u ∈ decl, q u = false
  | some t =>
      q t = true ∧ ∃ pre post, decl = pre ++ t :: post ∧
        (∀ u ∈ pre, q u = true → prio u < prio t) ∧
        (∀ u ∈ post, q u = true → prio u ≤ prio t)

/-- What an optional enter or exit hook does to the context `c` when the machine
reaches its call site: an empty callable is not called and leaves `c` as it is. -/
def run_hook {S I C : Type} (h : Option (EnterExitSig S I C)) (c : C) (from_ to_ : S)
    (ev : Option I) : C × Except Exn Unit :=
  match h with
  | none => (c, Except.ok ())
  | some f => f c from_ to_ ev

/-- What an optional transition action does to the context `c` on event `e`: an empty
callable is not called, leaves `c` as it is and yields no output. -/
def run_action {I O C : Type} (a : Option (I → C → C × Except Exn (Option O))) (e : I)
    (c : C) : C × Except Exn (Option O) :=
  match a with
  | none => (c, Except.ok none)
  | some f => f e c

/-- What an optional completion action does to the context `c`. -/
def run_completion_action {O C : Type} (a : Option (C → C × Except Exn (Option O)))
    (c : C) : C × Except Exn (Option O) :=
  match a with
  | none => (c, Except.ok none)
  | some f => f c

/-- The trace left by reaching the call site of an optional callable: one `entry` when
the callable is set, nothing when it is empty. -/
def calls_of {S I F : Type} (h : Option F) (entry : Call S I) : List (Call S I) :=
  match h with
  | none => []
  | some _ => [entry]

/-- A relation between a machine and a later machine that every elementary update
made while one transition or completion is applied respects: it is reflexive and
transitive, and it holds across an update of the context or of the current state
together with an extension of the trace. -/
structure CommitFrame {S I O C : Type}
    (P : MachineImpl S I O C → MachineImpl S I O C → Prop) : Prop where
  refl : ∀ m, P m m
  trans : ∀ a b c, P a b → P b c → P a c
  ctx_trace : ∀ m c l, P m { m with ctx_ := c, trace := m.trace ++ l }
  state_trace : ∀ m s l, P m { m with current_ := s, trace := m.trace ++ l }

/-- A `CommitFrame` that also holds across an update of the completion re-entrancy
flag, hence across everything completion processing does. -/
structure CompletionFrame {S I O C : Type}
    (P : MachineImpl S I O C → MachineImpl S I O C → Prop) extends CommitFrame P : Prop where
  processing : ∀ m v, P m { m with processing_completions_ := v }

/-- A `CompletionFrame` that also holds across an update of the drain re-entrancy flag
and of the two event queues, hence across every elementary update made by the member
functions. -/
structure Frame {S I O C : Type}
    (P : MachineImpl S I O C → MachineImpl S I O C → Prop)
    extends CompletionFrame P : Prop where
  draining : ∀ m v, P m { m with draining_deferrals_ := v }
  deferrals : ∀ m d, P m { m with deferrals_ := d }
  pending : ∀ m p, P m { m with pending_inputs_ := p }

/-- A `CompletionFrame` that also holds across `deferrals_[s].push_back(e)`, hence across
everything `handle_input` does outside the deferral drain. -/
structure PushFrame {S I O C : Type} [DecidableEq S]
    (P : MachineImpl S I O C → MachineImpl S I O C → Prop)
    extends CompletionFrame P : Prop where
  push : ∀ m s e, P m (m.push_deferral s e)

/-- A `PushFrame` that also holds across an update of the drain re-entrancy flag and
across the `pop_front` of the current state's deferral queue, hence across everything
`dispatch` does. -/
structure DispatchFrame {S I O C : Type} [DecidableEq S]
    (P : MachineImpl S I O C → MachineImpl S I O C → Prop)
    extends PushFrame P : Prop where
  draining : ∀ m v, P m { m with draining_deferrals_ := v }
  pop : ∀ m, P m { m with deferrals_ := Tbl.modify [] List.tail m.deferrals_ m.current_ }

/-- The event queues and the drain re-entrancy flag are the same in both machines. -/
def SameDeferrals {S I O C : Type} (m m' : MachineImpl S I O C) : Prop :=
  m'.deferrals_ = m.deferrals_ ∧ m'.pending_inputs_ = m.pending_inputs_ ∧
  m'.draining_deferrals_ = m.draining_deferrals_

/-- The event queues and the re-entrancy flags are the same in both machines. -/
def SameQueues {S I O C : Type} (m m' : MachineImpl S I O C) : Prop :=
  m'.deferrals_ = m.deferrals_ ∧ m'.pending_inputs_ = m.pending_inputs_ ∧
  m'.draining_deferrals_ = m.draining_deferrals_ ∧
  m'.processing_completions_ = m.processing_completions_

/-- A step that may run out of fuel respects `P` whenever it returns. -/
def RespectsF {S I O C : Type} (P : MachineImpl S I O C → MachineImpl S I O C → Prop)
    {α : Type} (f : MachineImpl S I O C → Option (MachineImpl S I O C × Ret α)) : Prop :=
  ∀ m r, f m = some r → P m r.1

/-- The configuration frozen at construction is the same in both machines. -/
def SameConfig {S I O C : Type} (m m' : MachineImpl S I O C) : Prop :=
  m'.handlers_ = m.handlers_ ∧ m'.transitions_ = m.transitions_ ∧
  m'.any_transitions_ = m.any_transitions_ ∧
  m'.completion_transitions_ = m.completion_transitions_ ∧
  m'.machine_unhandled_ = m.machine_unhandled_ ∧
  m'.deferral_enabled_ = m.deferral_enabled_ ∧
  m'.completion_limit_ = m.completion_limit_ ∧
  m'.async_inflight_ = m.async_inflight_

/-- The trace of the later machine extends the trace of the earlier one. -/
def TraceGrows {S I O C : Type} (m m' : MachineImpl S I O C) : Prop :=
  m.trace <+: m'.trace

/-- The trace entry marks the application of a completion transition. -/
def Call.is_completion {S I : Type} : Call S I → Bool
  | Call.completion _ _ => true
  | _ => false

/-- The trace entry is a call of an `on_unhandled` hook. -/
def Call.is_unhandled {S I : Type} : Call S I → Bool
  | Call.on_unhandled_state _ _ => true
  | Call.on_unhandled_machine _ _ => true
  | _ => false

/-- A stretch of trace in which at most `limit` completions were applied and no
`on_unhandled` hook was called. -/
def Quiet {S I : Type} (limit : Nat) (l : List (Call S I)) : Prop :=
  l.countP Call.is_completion ≤ limit ∧ ∀ c ∈ l, Call.is_unhandled c = false

/-- The machine is outside completion processing, and its `completion_limit_` is zero
only if no completion is declared, as the constructor computes it. -/
def AtRest {S I O C : Type} (m : MachineImpl S I O C) : Prop :=
  m.processing_completions_ = false ∧
  (m.completion_limit_ = 0 → ∀ entry ∈ m.completion_transitions_, entry.2 = [])

/-- The later machine has the configuration and the completion re-entrancy flag of the
earlier one, and a trace that extends the earlier one's. -/
def Moves {S I O C : Type} (m m' : MachineImpl S I O C) : Prop :=
  SameConfig m m' ∧ m'.processing_completions_ = m.processing_completions_ ∧
  TraceGrows m m'

/-- A step after which no completion qualifies, provided the stretch of trace it added
is quiet. -/
def Settles {S I O C : Type} [DecidableEq S] (m m' : MachineImpl S I O C) : Prop :=
  Moves m m' ∧
  ∀ l, m'.trace = m.trace ++ l → Quiet m.completion_limit_ l → m'.find_completion = none

/-- A step that keeps the machine free of qualifying completions, provided the stretch
of trace it added is quiet. -/
def Keeps {S I O C : Type} [DecidableEq S] (m m' : MachineImpl S I O C) : Prop :=
  Moves m m' ∧
  ∀ l, m'.trace = m.trace ++ l → Quiet m.completion_limit_ l →
    m.find_completion = none → m'.find_completion = none

/-- The pending queue is the same in both machines. -/
def SamePending {S I O C : Type} (m m' : MachineImpl S I O C) : Prop :=
  m'.pending_inputs_ = m.pending_inputs_

/-- The events waiting in `deferrals_[s]` (none when the table has no entry for `s`). -/
def MachineImpl.waiting {S I O C : Type} [DecidableEq S] (m : MachineImpl S I O C) (s : S) :
    List I :=
  (Tbl.find m.deferrals_ s).getD []

/-- The calls `handle_input(next)` that the `for(;;)` loop of
`drain_deferrals_for_current_state` makes, in the order in which it makes them, each
listed as the state from whose deferral queue `next` was taken, with `next`.  The loop
ends when the current state has no event waiting, or when a call throws. -/
def replay_order {S I O C : Type} [DecidableEq S] :
    Nat → MachineImpl S I O C → Option (List (S × I))
  | 0, _ => none
  | fuel + 1, m =>
      match Tbl.find m.deferrals_ m.current_ with
      | none => some []
      | some [] => some []
      | some (next :: _) =>
          match MachineImpl.handle_input (O := O) fuel
              { m with deferrals_ := Tbl.modify [] List.tail m.deferrals_ m.current_ } next with
          | none => none
          | some (m2, Ret.ok _) => (replay_order fuel m2).map (fun l => (m.current_, next) :: l)
          | some (_, _) => some [(m.current_, next)]

/-- The events of a list of replays that were taken from the deferral queue of `s`, in
the order of the list. -/
def replayed_for {S I : Type} [DecidableEq S] (s : S) (log : List (S × I)) : List I :=
  (log.filter (fun p => decide (p.1 = s))).map Prod.snd

/-- While the drain re-entrancy flag is set it stays set and no event leaves a deferral
queue: every queue of the later machine is the queue of the earlier one with some
events appended at its back. -/
def OnlyAppends {S I O C : Type} [DecidableEq S] (m m' : MachineImpl S I O C) : Prop :=
  m.draining_deferrals_ = true →
    m'.draining_deferrals_ = true ∧ ∀ s, ∃ added : List I, m'.waiting s = m.waiting s ++ added

/-- What the specification says `dispatch_all()` does with the pending queue
`[e1, ..., en]`: it takes `e1` off the queue and dispatches it, then does the same with
the rest on the machine this leaves, and returns the outputs that were produced, in
that order; an exception ends the run where it is thrown. -/
def dispatch_in_order {S I O C : Type} [DecidableEq S] (fuel : Nat) :
    MachineImpl S I O C → List I → Option (MachineImpl S I O C × Ret (List O))
  | m, [] => some (m, Ret.ok [])
  | m, e :: es =>
      andThenF (MachineImpl.dispatch fuel { m with pending_inputs_ := es } e) fun m1 out =>
        andThenF (dispatch_in_order fuel m1 es) fun m2 outs =>
          some (m2, Ret.ok (out.toList ++ outs))

/-- The last output that is set in a list of outputs, `none` when none is set. -/
def last_some {O : Type} : List (Option O) → Option O
  | [] => none
  | x :: xs =>
      match last_some xs with
      | some v => some v
      | none => x

/-- The results of the calls `apply_completion(*completion)` that the `while` loop of
`process_completions` makes, in the order in which it makes them, for a loop that is
entered with `steps` on the machine `m`.  A call that throws ends the list. -/
def cascade_outputs {S I O C : Type} [DecidableEq S] (steps : Nat) :
    Nat → MachineImpl S I O C → List (Option O)
  | 0, _ => []
  | bound + 1, m =>
      match m.find_completion with
      | none => []
      | some completion =>
          if steps > m.completion_limit_ then []
          else
            match m.apply_completion completion with
            | (m1, Ret.ok result) => result :: cascade_outputs (steps + 1) bound m1
            | _ => []

/-- The number of completion transitions applied in a stretch of trace. -/
def applied_completions {S I : Type} (l : List (Call S I)) : Nat :=
  l.countP Call.is_completion

/-- The later trace is the earlier one followed by entries none of which marks the
application of a completion transition. -/
def NoCompletionApplied {S I O C : Type} (m m' : MachineImpl S I O C) : Prop :=
  ∃ l, m'.trace = m.trace ++ l ∧ applied_completions l = 0

/-- The three flags are the same in both machines. -/
def FlagsKept {S I O C : Type} (m m' : MachineImpl S I O C) : Prop :=
  m'.async_inflight_ = m.async_inflight_ ∧
  m'.processing_completions_ = m.processing_completions_ ∧
  m'.draining_deferrals_ = m.draining_deferrals_

/-- A step that did not terminate the process and left the three flags as they were,
whether it returned or threw. -/
def Calm {S I O C α : Type} (m : MachineImpl S I O C) (r : MachineImpl S I O C × Ret α) :
    Prop :=
  r.2 ≠ Ret.aborted ∧ FlagsKept m r.1

/-- A step that is `Calm` whenever it starts with no asynchronous effect in flight. -/
def Unwinds {S I O C α : Type} (m : MachineImpl S I O C)
    (r : MachineImpl S I O C × Ret α) : Prop :=
  m.async_inflight_ = false → Calm m r

/-- The form of `Unwinds` for a step that may run out of fuel. -/
def UnwindsF {S I O C α : Type} (m : MachineImpl S I O C)
    (r : Option (MachineImpl S I O C × Ret α)) : Prop :=
  ∀ p, r = some p → Unwinds m p

/-- What the specification says a sequence of fragments does when nothing is cancelled:
each fragment runs once, in declaration order, on the context and the cancel source the
previous one left, and yields its output; a fragment that throws ends the run. -/
def run_fragments {S I O C : Type} (input : I) (s : S) (tok : CancelToken) :
    List (CoAction S I O C) → C → CancelSource →
      (C × CancelSource) × Except Exn (List (Option O))
  | [], ctx, source => ((ctx, source), Except.ok [])
  | f :: rest, ctx, source =>
      match f input s ctx tok source with
      | (cs, Except.error x) => (cs, Except.error x)
      | ((c1, s1), Except.ok v) =>
          match run_fragments input s tok rest c1 s1 with
          | (cs, Except.ok outs) => (cs, Except.ok (v :: outs))
          | (cs, Except.error x) => (cs, Except.error x)

/-- What the specification says `retry(n, backoff)` does when nothing is cancelled, from
attempt number `attempt` with `left` attempts to go: the sequence runs; if it yielded
an output, the last one is returned; otherwise, if this was not the last attempt,
`backoff(attempt)` runs and the next attempt follows; after the last attempt the result
is `None`. -/
def retry_in_order {S I O C : Type} (sequence : List (CoAction S I O C))
    (backoff : Backoff S I C) (input : I) (s : S) (tok : CancelToken) :
    Nat → Int → C → CancelSource → (C × CancelSource) × Except Exn (Option O)
  | 0, _, ctx, source => ((ctx, source), Except.ok none)
  | left + 1, attempt, ctx, source =>
      match run_fragments input s tok sequence ctx source with
      | (cs, Except.error x) => (cs, Except.error x)
      | ((c1, s1), Except.ok outs) =>
          match last_some outs with
          | some v => ((c1, s1), Except.ok (some v))
          | none =>
              if left = 0 then ((c1, s1), Except.ok none)
              else
                match backoff attempt input s c1 tok s1 with
                | (cs, Except.error x) => (cs, Except.error x)
                | ((c2, s2), Except.ok _) =>
                    retry_in_order sequence backoff input s tok left (attempt + 1) c2 s2

/-- No cancellation is requested while `f` runs: if the token does not report a stop
before, it does not report one when `f` has finished. -/
def KeepsRunning {S I C α : Type} (tok : CancelToken)
    (f : I → S → C → CancelToken → CancelSource → (C × CancelSource) × α) : Prop :=
  ∀ input s ctx source, tok.stop_requested source = false →
    tok.stop_requested (f input s ctx tok source).1.2 = false

/-- One call that adds a record to a builder: `add_transition(t)`, in which `on<T>` and
`on_value` end; `add_transition(any_state, t)`, which pushes onto the any-source list
as `on_any<T>` does; or `add_completion(c)`, in which `on_completion` and
`completion(s)...to(s1)` end. -/
inductive Declaration (S I O C : Type) where
  | transition (t : Transition S I O C)
  | any_transition (t : Transition S I O C)
  | completion (c : Completion S O C)

/-- The builder after the call `d`. -/
def Builder.declare {S I O C : Type} [DecidableEq S] (b : Builder S I O C) :
    Declaration S I O C → Builder S I O C
  | Declaration.transition t => b.add_transition t
  | Declaration.any_transition t => b.add_transition_any t
  | Declaration.completion c => b.add_completion c

/-- The builder after the calls `decls`, made in the order of the list. -/
def Builder.declare_all {S I O C : Type} [DecidableEq S] (b : Builder S I O C)
    (decls : List (Declaration S I O C)) : Builder S I O C :=
  decls.foldl Builder.declare b

/-- The transitions with source `s` that the calls `decls` add, in the order of the
calls. -/
def declared_transitions {S I O C : Type} [DecidableEq S] (s : S) :
    List (Declaration S I O C) → List (Transition S I O C)
  | [] => []
  | Declaration.transition t :: rest =>
      if t.from_ = s then t :: declared_transitions s rest else declared_transitions s rest
  | _ :: rest => declared_transitions s rest

/-- The any-source transitions that the calls `decls` add, in the order of the calls. -/
def declared_any {S I O C : Type} : List (Declaration S I O C) → List (Transition S I O C)
  | [] => []
  | Declaration.any_transition t :: rest => t :: declared_any rest
  | _ :: rest => declared_any rest

/-- The completions with source `s` that the calls `decls` add, in the order of the
calls. -/
def declared_completions {S I O C : Type} [DecidableEq S] (s : S) :
    List (Declaration S I O C) → List (Completion S O C)
  | [] => []
  | Declaration.completion c :: rest =>
      if c.from_ = s then c :: declared_completions s rest else declared_completions s rest
  | _ :: rest => declared_completions s rest

/-- The list `sorted` holds the records of `added`, each as often, ordered by
non-increasing priority, and the records of any one priority stand in it in the order in
which they stand in `added`. -/
def IsStableSort {T : Type} (prio : T → Int) (added sorted : List T) : Prop :=
  sorted.Perm added ∧ sorted.Pairwise (fun a b => prio b ≤ prio a) ∧
  ∀ p : Int, sorted.filter (fun u => decide (prio u = p)) =
    added.filter (fun u => decide (prio u = p))

/-- The trace entry is a call of a transition action. -/
def Call.is_action {S I : Type} : Call S I → Bool
  | Call.action _ _ => true
  | _ => false

/-- The number of events held in the deferral store, over all states. -/
def MachineImpl.stored {S I O C : Type} (m : MachineImpl S I O C) : Nat :=
  (m.deferrals_.map (fun entry => entry.2.length)).sum

/-- The call `handle_input(e)` up to the deferral drain it ends in: what the call does
when that drain returns at once, as it does while another drain is in progress. -/
def MachineImpl.handle_input_undrained {S I O C : Type} [DecidableEq S]
    (m : MachineImpl S I O C) (e : I) : Option (MachineImpl S I O C × Ret (Option O)) :=
  MachineImpl.handle_input_with (fun m0 => some (m0, Ret.ok ())) m e

/-- None of the first `n` events that the drain loop replays when it is entered on `m`
selects a transition with `defer` set.  The loop follows the current state: each replay
takes the front event of the current state's queue, and the next one is taken on the
machine that replay leaves; a replay that throws ends the loop. -/
def MachineImpl.replays_undeferred {S I O C : Type} [DecidableEq S] :
    Nat → MachineImpl S I O C → Bool
  | 0, _ => true
  | n + 1, m =>
      match Tbl.find m.deferrals_ m.current_ with
      | some (next :: _) =>
          (match MachineImpl.find_transition
              { m with deferrals_ := Tbl.modify [] List.tail m.deferrals_ m.current_ } next with
           | some t => !t.defer
           | none => true) &&
          (match MachineImpl.handle_input_undrained (O := O)
              { m with deferrals_ := Tbl.modify [] List.tail m.deferrals_ m.current_ } next with
           | some (m2, Ret.ok _) => replays_undeferred n m2
           | _ => true)
      | _ => true

/-- The machines a client reaches from `Builder::build` by calls of `dispatch`,
`enqueue`, `dispatch_all`, `update` and `commit` that return normally. -/
inductive Reachable {S I O C : Type} [DecidableEq S] (b : Builder S I O C) (ctx0 : C) :
    MachineImpl S I O C → Prop where
  | build (fuel : Nat) (m : MachineImpl S I O C) :
      b.build fuel ctx0 = some (m, Ret.ok ()) → Reachable b ctx0 m
  | dispatch (fuel : Nat) (m m1 : MachineImpl S I O C) (e : I) (out : Option O) :
      Reachable b ctx0 m → m.dispatch fuel e = some (m1, Ret.ok out) → Reachable b ctx0 m1
  | enqueue (m : MachineImpl S I O C) (e : I) :
      Reachable b ctx0 m → Reachable b ctx0 (m.enqueue e)
  | dispatch_all (fuel : Nat) (m m1 : MachineImpl S I O C) (outs : List O) :
      Reachable b ctx0 m → m.dispatch_all fuel = some (m1, Ret.ok outs) →
      Reachable b ctx0 m1
  | update (m m1 : MachineImpl S I O C) (out : Option O) :
      Reachable b ctx0 m → m.update = (m1, Ret.ok out) → Reachable b ctx0 m1
  | commit (fuel : Nat) (m m1 : MachineImpl S I O C) (sel : Selection S I O C)
      (inptr : Option I) (out : Option O) :
      Reachable b ctx0 m → m.commit fuel sel inptr = some (m1, Ret.ok out) →
      Reachable b ctx0 m1

/-- The adapters a client reaches from `a0` by calls of `dispatch`, `dispatch_all` and
`commit` on the machine the adapter refers to, of `bind_async` and of `dispatch_async`,
whether a call returns or throws (the client may catch the exception and go on), when
the client runs every `Task` that `dispatch_async` returns to its end, to its result or
to its exception, before it makes its next call: in such a run a `dispatch_async` is
one step, and no `Task` is left suspended in its effect or destroyed there.  The client
never calls `begin_async_effect` itself, the effects do not call back into the machine,
and a call that terminated the process has no successor.  The runs in which a `Task` is
left suspended are those of `DrivenLazily`. -/
inductive Driven {S I O C : Type} [DecidableEq S] (a0 : Adapter S I O C) :
    Adapter S I O C → Prop where
  | start : Driven a0 a0
  | dispatch (fuel : Nat) (a : Adapter S I O C) (e : I) (m1 : MachineImpl S I O C)
      (r : Ret (Option O)) :
      Driven a0 a → a.machine_.dispatch fuel e = some (m1, r) → r ≠ Ret.aborted →
      Driven a0 { a with machine_ := m1 }
  | dispatch_all (fuel : Nat) (a : Adapter S I O C) (m1 : MachineImpl S I O C)
      (r : Ret (List O)) :
      Driven a0 a → a.machine_.dispatch_all fuel = some (m1, r) → r ≠ Ret.aborted →
      Driven a0 { a with machine_ := m1 }
  | commit (fuel : Nat) (a : Adapter S I O C) (sel : Selection S I O C) (inptr : Option I)
      (m1 : MachineImpl S I O C) (r : Ret (Option O)) :
      Driven a0 a → a.machine_.commit fuel sel inptr = some (m1, r) → r ≠ Ret.aborted →
      Driven a0 { a with machine_ := m1 }
  | bind_async (a : Adapter S I O C) (from_ to_ : S) (action : CoAction S I O C) :
      Driven a0 a → Driven a0 (a.bind_async from_ to_ action)
  | dispatch_async (fuel : Nat) (a a1 : Adapter S I O C) (e : I) (r : Ret (Option O)) :
      Driven a0 a → a.dispatch_async fuel e = some (a1, r) → r ≠ Ret.aborted →
      Driven a0 a1

/-- The adapters a client reaches from `a0` when it does not wait for every `Task`:
stretches of calls as in `Driven`, and in between calls of `dispatch_async` whose `Task`
is started and then left suspended in its effect, or destroyed there, while the client
goes on.  The client still never calls `begin_async_effect` itself, and the effects
still do not call back into the machine. -/
inductive DrivenLazily {S I O C : Type} [DecidableEq S] (a0 : Adapter S I O C) :
    Adapter S I O C → Prop where
  | start : DrivenLazily a0 a0
  | awaited (a a1 : Adapter S I O C) : DrivenLazily a0 a → Driven a a1 → DrivenLazily a0 a1
  | suspended (fuel : Nat) (a a1 : Adapter S I O C) (e : I) :
      DrivenLazily a0 a → a.dispatch_async_suspended fuel e = some (a1, Ret.ok ()) →
      DrivenLazily a0 a1

/-- The fragments of `fs` run in order from `(ctx, source)`, each to its end and
without the token reporting a stop after it: the context and the cancel source they
leave, with their outputs in order.  `none` when a fragment throws or the token reports
a stop after one of them. -/
def runs_unstopped {S I O C : Type} (input : I) (s : S) (tok : CancelToken) :
    List (CoAction S I O C) → C → CancelSource →
      Option ((C × CancelSource) × List (Option O))
  | [], ctx, source => some ((ctx, source), [])
  | f :: rest, ctx, source =>
      match f input s ctx tok source with
      | (_, Except.error _) => none
      | ((c1, s1), Except.ok v) =>
          if tok.stop_requested s1 then none
          else (runs_unstopped input s tok rest c1 s1).map (fun p => (p.1, v :: p.2))

/-- The calls of `tests/value_completion_sort.cpp` that add records, in its order. -/
def Examples.valueDecls :
    List (Declaration Examples.VState Examples.VInput String Int) :=
  [Declaration.transition Examples.tokenA, Declaration.transition Examples.tokenB,
   Declaration.completion Examples.completeB, Declaration.completion Examples.lateB,
   Declaration.completion Examples.topA, Declaration.completion Examples.lowA]

/-- No drain is in progress, no event waits for the current state, and with deferral
disabled the deferral store is empty. -/
def MachineImpl.QueueSettled {S I O C : Type} [DecidableEq S] (m : MachineImpl S I O C) :
    Prop :=
  m.draining_deferrals_ = false ∧ m.waiting m.current_ = [] ∧
  (m.deferral_enabled_ = false → m.deferrals_ = [])

/-- The later trace is the earlier one followed by entries none of which is a call of a
transition action. -/
def NoActionCalled {S I O C : Type} (m m' : MachineImpl S I O C) : Prop :=
  ∃ l, m'.trace = m.trace ++ l ∧ ∀ c ∈ l, Call.is_action c = false

/-- The events held in the deferral store, queue after queue in the order of the
table. -/
def MachineImpl.stored_events {S I O C : Type} (m : MachineImpl S I O C) : List I :=
  (m.deferrals_.map (fun entry => entry.2)).flatten

/-- The later machine stores no new event: the events in its deferral store are, counted
with multiplicity, among the events in the store of the earlier machine. -/
def StoresNothingNew {S I O C : Type} (m m' : MachineImpl S I O C) : Prop :=
  m'.stored_events.Subperm m.stored_events

/-- The later trace is the earlier one followed by entries of which at most `k` mark the
application of a completion transition. -/
def AppliesAtMost {S I O C : Type} (k : Nat) (m m' : MachineImpl S I O C) : Prop :=
  ∃ l, m'.trace = m.trace ++ l ∧ applied_completions l ≤ k

/-- The number of loop bodies the `while` loop of `process_completions` can run under
`completion_limit_ == limit`: none when the limit is zero, where the function returns
before the loop, and `limit + 1` otherwise, the loop being left when `steps++ > limit`. -/
def completion_cap (limit : Nat) : Nat :=
  if limit = 0 then 0 else limit + 1

/-- The calls `handle_input(next)` that the deferral drain of one `finalize_transition`
call on `m` makes, in order.  There is none when completion processing throws, or when
the drain returns at once (deferral disabled, or the call is nested in a drain);
otherwise they are those of the drain loop entered on the machine completion processing
leaves. -/
def MachineImpl.finalize_replays {S I O C : Type} [DecidableEq S] (fuel : Nat)
    (m : MachineImpl S I O C) : Option (List (S × I)) :=
  match (m.process_completions : MachineImpl S I O C × Ret (Option O)) with
  | (m1, Ret.ok _) =>
      if !m1.deferral_enabled_ || m1.draining_deferrals_ then some []
      else replay_order (O := O) fuel { m1 with draining_deferrals_ := true }
  | _ => some []

/-! # Theorems -/

set_option linter.unusedSectionVars false

section Sequencing

variable {M α β : Type}

@[simp] theorem andThen_ok (m : M) (a : α) (k : M → α → M × Ret β) :
    andThen (m, Ret.ok a) k = k m a := rfl

@[simp] theorem andThen_raised (m : M) (x : Exn) (k : M → α → M × Ret β) :
    andThen (m, (Ret.raised x : Ret α)) k = (m, Ret.raised x) := rfl

@[simp] theorem andThen_aborted (m : M) (k : M → α → M × Ret β) :
    andThen (m, (Ret.aborted : Ret α)) k = (m, Ret.aborted) := rfl

@[simp] theorem andThenF_none (k : M → α → Option (M × Ret β)) :
    andThenF none k = none := rfl

@[simp] theorem andThenF_ok (m : M) (a : α) (k : M → α → Option (M × Ret β)) :
    andThenF (some (m, Ret.ok a)) k = k m a := rfl

@[simp] theorem andThenF_raised (m : M) (x : Exn) (k : M → α → Option (M × Ret β)) :
    andThenF (some (m, (Ret.raised x : Ret α))) k = some (m, Ret.raised x) := rfl

@[simp] theorem andThenF_aborted (m : M) (k : M → α → Option (M × Ret β)) :
    andThenF (some (m, (Ret.aborted : Ret α))) k = some (m, Ret.aborted) := rfl

theorem andThen_rel (P : M → M → Prop) (m : M) (r : M × Ret α) (k : M → α → M × Ret β)
    (h1 : P m r.1) (h2 : ∀ m1 a, P m m1 → P m (k m1 a).1) : P m (andThen r k).1 := by
  obtain ⟨m1, o⟩ := r
  cases o with
  | ok a => exact h2 m1 a h1
  | raised x => exact h1
  | aborted => exact h1

theorem andThenF_rel (P : M → M → Prop) (m : M) (r : Option (M × Ret α))
    (k : M → α → Option (M × Ret β)) (res : M × Ret β)
    (h1 : ∀ r0, r = some r0 → P m r0.1)
    (h2 : ∀ m1 a r1, P m m1 → k m1 a = some r1 → P m r1.1)
    (h : andThenF r k = some res) : P m res.1 := by
  cases r with
  | none => simp at h
  | some r0 =>
    obtain ⟨m1, o⟩ := r0
    have h0 := h1 (m1, o) rfl
    cases o with
    | ok a => exact h2 m1 a res h0 h
    | raised x => simp at h; subst h; exact h0
    | aborted => simp at h; subst h; exact h0

theorem tryFinally_rel (P : M → M → Prop) (m : M) (r : M × Ret α) (cleanup : M → M)
    (h1 : P m r.1) (h2 : ∀ m1, P m m1 → P m (cleanup m1)) :
    P m (tryFinally r cleanup).1 := by
  obtain ⟨m1, o⟩ := r
  cases o with
  | ok a => exact h2 m1 h1
  | raised x => exact h2 m1 h1
  | aborted => exact h1

end Sequencing

namespace MachineImpl

section FrameLemmas

variable {S I O C : Type} [DecidableEq S]
variable {P : MachineImpl S I O C → MachineImpl S I O C → Prop}

theorem call_exit_rel (hP : CommitFrame P) (m : MachineImpl S I O C) (f t : S) (i : Option I) :
    P m (m.call_exit f t i).1 := by
  unfold call_exit
  cases exit_hook m.handlers_ f with
  | none => exact hP.refl m
  | some h => exact hP.ctx_trace m _ _

theorem call_enter_rel (hP : CommitFrame P) (m : MachineImpl S I O C) (k f t : S) (i : Option I) :
    P m (m.call_enter k f t i).1 := by
  unfold call_enter
  cases enter_hook m.handlers_ k with
  | none => exact hP.refl m
  | some h => exact hP.ctx_trace m _ _

theorem invoke_transition_action_rel (hP : CommitFrame P) (m : MachineImpl S I O C)
    (t : Transition S I O C) (i : I) : P m (m.invoke_transition_action t i).1 := by
  unfold invoke_transition_action
  cases t.action with
  | none => exact hP.refl m
  | some h => exact hP.ctx_trace m _ _

theorem invoke_completion_action_rel (hP : CommitFrame P) (m : MachineImpl S I O C)
    (c : Completion S O C) : P m (m.invoke_completion_action c).1 := by
  unfold invoke_completion_action
  cases c.action with
  | none => exact hP.refl m
  | some h => exact hP.ctx_trace m _ _

theorem set_state_direct_rel (hP : CommitFrame P) (m : MachineImpl S I O C) (s : S) :
    P m (m.set_state_direct s) := hP.state_trace m s _

theorem apply_transition_rel (hP : CommitFrame P) (m : MachineImpl S I O C)
    (t : Transition S I O C) (i : Option I) (inv : Bool) :
    P m (m.apply_transition t i inv).1 := by
  unfold apply_transition
  refine andThen_rel P m _ _ ?_ ?_
  · split
    · exact hP.refl m
    · exact call_exit_rel hP m _ _ _
  · intro m1 _ h1
    refine andThen_rel P m _ _ ?_ ?_
    · split
      · exact hP.trans _ _ _ h1 (invoke_transition_action_rel hP m1 t _)
      · exact h1
    · intro m2 out h2
      refine andThen_rel P m _ _ ?_ ?_
      · have h3 := hP.trans _ _ _ h2 (set_state_direct_rel hP m2 t.to_)
        split
        · exact h3
        · exact hP.trans _ _ _ h3 (call_enter_rel hP _ _ _ _ _)
      · intro m4 _ h4
        exact h4

theorem apply_completion_rel (hP : CommitFrame P) (m : MachineImpl S I O C)
    (c : Completion S O C) : P m (m.apply_completion c).1 := by
  unfold apply_completion
  have h0 : P m { m with trace := m.trace ++ [Call.completion m.state c.to_] } :=
    hP.ctx_trace m m.ctx_ _
  refine andThen_rel P m _ _ ?_ ?_
  · split
    · exact h0
    · exact hP.trans _ _ _ h0 (call_exit_rel hP _ _ _ _)
  · intro m1 _ h1
    refine andThen_rel P m _ _ ?_ ?_
    · exact hP.trans _ _ _ h1 (invoke_completion_action_rel hP m1 c)
    · intro m2 out h2
      refine andThen_rel P m _ _ ?_ ?_
      · have h3 := hP.trans _ _ _ h2 (set_state_direct_rel hP m2 c.to_)
        split
        · exact h3
        · exact hP.trans _ _ _ h3 (call_enter_rel hP _ _ _ _ _)
      · intro m4 _ h4
        exact h4

theorem completion_loop_rel (hP : CommitFrame P) (bound : Nat) :
    ∀ (output : Option O) (steps : Nat) (m : MachineImpl S I O C),
      P m (completion_loop output steps bound m).1 := by
  induction bound with
  | zero => intro output steps m; exact hP.refl m
  | succ n ih =>
    intro output steps m
    unfold completion_loop
    cases m.find_completion with
    | none => exact hP.refl m
    | some c =>
      simp only
      split
      · exact hP.refl m
      · refine andThen_rel P m _ _ (apply_completion_rel hP m c) ?_
        intro m1 result h1
        exact hP.trans _ _ _ h1 (ih _ _ m1)

theorem process_completions_rel (hP : CompletionFrame P) (m : MachineImpl S I O C) :
    P m m.process_completions.1 := by
  unfold process_completions
  split
  · exact hP.refl m
  · split
    · exact hP.refl m
    · refine tryFinally_rel P m _ _ ?_ ?_
      · exact hP.trans _ _ _ (hP.processing m true) (completion_loop_rel hP.toCommitFrame _ _ _ _)
      · intro m1 h1
        exact hP.trans _ _ _ h1 (hP.processing m1 false)

theorem call_unhandled_rel (hP : CommitFrame P) (m : MachineImpl S I O C)
    (f : UnhandledSig S I C) (entry : Call S I) (i : I) :
    P m (m.call_unhandled f entry i).1 := hP.ctx_trace m _ _

theorem unhandled_body_rel (hP : CommitFrame P) (m : MachineImpl S I O C) (i : I) :
    P m (m.unhandled_body i).1 := by
  unfold unhandled_body
  split
  · exact call_unhandled_rel hP m _ _ _
  · split
    · exact call_unhandled_rel hP m _ _ _
    · exact hP.refl m

theorem notify_unhandled_rel (hP : CommitFrame P) (m : MachineImpl S I O C) (i : I) :
    P m (m.notify_unhandled i : MachineImpl S I O C × Ret (Option O)).1 := by
  unfold notify_unhandled
  have h := unhandled_body_rel hP m i
  generalize m.unhandled_body i = r at h
  obtain ⟨m1, o⟩ := r
  cases o <;> exact h

theorem dispatchFrame_of_frame (hP : Frame P) : DispatchFrame P where
  toCompletionFrame := hP.toCompletionFrame
  draining := hP.draining
  push := fun m _ _ => hP.deferrals m _
  pop := fun m => hP.deferrals m _

theorem finalize_transition_with_rel (hP : PushFrame P)
    (drain : MachineImpl S I O C → Option (MachineImpl S I O C × Ret Unit))
    (hd : RespectsF P drain) (result : Option O) :
    RespectsF P (fun m => finalize_transition_with drain m result) := by
  intro m r h
  unfold finalize_transition_with at h
  refine andThenF_rel P m _ _ r ?_ ?_ h
  · intro r0 h0
    cases h0
    exact process_completions_rel hP.toCompletionFrame m
  · intro m1 cout r1 h1 h2
    refine andThenF_rel P m _ _ r1 ?_ ?_ h2
    · intro r0 h0
      exact hP.trans _ _ _ h1 (hd m1 r0 h0)
    · intro m2 _ r2 h3 h4
      cases h4
      exact h3

theorem push_deferral_rel (hP : PushFrame P) (m : MachineImpl S I O C) (t : S) (i : I) :
    P m (m.push_deferral t i) := hP.push m t i

theorem handle_input_with_rel (hP : PushFrame P)
    (drain : MachineImpl S I O C → Option (MachineImpl S I O C × Ret Unit))
    (hd : RespectsF P drain) (i : I) :
    RespectsF P (fun m => handle_input_with drain m i) := by
  intro m r h
  simp only [handle_input_with] at h
  split at h
  · rename_i t ht
    split at h
    · refine andThenF_rel P m _ _ r ?_ ?_ h
      · intro r0 h0
        cases h0
        exact hP.trans _ _ _ (push_deferral_rel hP m _ _) (apply_transition_rel hP.toCompletionFrame.toCommitFrame _ _ _ _)
      · intro m1 _ r1 h1 h2
        exact hP.trans _ _ _ h1 (finalize_transition_with_rel hP drain hd none m1 r1 h2)
    · refine andThenF_rel P m _ _ r ?_ ?_ h
      · intro r0 h0
        cases h0
        exact apply_transition_rel hP.toCompletionFrame.toCommitFrame _ _ _ _
      · intro m1 out r1 h1 h2
        exact hP.trans _ _ _ h1 (finalize_transition_with_rel hP drain hd out m1 r1 h2)
  · cases h
    exact notify_unhandled_rel hP.toCompletionFrame.toCommitFrame m i

theorem drain_with_rel (hP : DispatchFrame P)
    (loop : MachineImpl S I O C → Option (MachineImpl S I O C × Ret Unit))
    (hl : RespectsF P loop) : RespectsF P (drain_with loop) := by
  intro m r h
  unfold drain_with at h
  split at h
  · cases h
    exact hP.refl m
  · unfold tryFinallyF at h
    split at h
    · simp at h
    · rename_i p hp
      cases h
      refine tryFinally_rel P m p _ ?_ ?_
      · exact hP.trans _ _ _ (hP.draining m true) (hl _ p hp)
      · intro m1 h1
        exact hP.trans _ _ _ h1 (hP.draining m1 false)

theorem drain_loop_rel (hP : DispatchFrame P) (fuel : Nat) :
    RespectsF P (drain_loop (S := S) (I := I) (O := O) (C := C) fuel) := by
  induction fuel with
  | zero => intro m r h; simp [drain_loop] at h
  | succ n ih =>
    intro m r h
    unfold drain_loop at h
    split at h
    · cases h; exact hP.refl m
    · cases h; exact hP.refl m
    · rename_i next rest hq
      refine andThenF_rel P m _ _ r ?_ ?_ h
      · intro r0 h0
        exact hP.trans _ _ _ (hP.pop m)
          (handle_input_with_rel hP.toPushFrame _ (drain_with_rel hP _ ih) next _ r0 h0)
      · intro m2 _ r1 h1 h2
        exact hP.trans _ _ _ h1 (ih m2 r1 h2)

theorem drain_deferrals_rel (hP : DispatchFrame P) (fuel : Nat) :
    RespectsF P (drain_deferrals_for_current_state (S := S) (I := I) (O := O) (C := C) fuel) :=
  drain_with_rel hP _ (drain_loop_rel hP fuel)

theorem finalize_transition_rel (hP : DispatchFrame P) (fuel : Nat) (result : Option O) :
    RespectsF P (fun m : MachineImpl S I O C => finalize_transition fuel m result) :=
  finalize_transition_with_rel hP.toPushFrame _ (drain_deferrals_rel hP fuel) result

theorem handle_input_rel (hP : DispatchFrame P) (fuel : Nat) (i : I) :
    RespectsF P (fun m : MachineImpl S I O C => handle_input (O := O) fuel m i) :=
  handle_input_with_rel hP.toPushFrame _ (drain_deferrals_rel hP fuel) i

theorem commit_rel (hP : DispatchFrame P) (fuel : Nat) (sel : Selection S I O C) (inptr : Option I) :
    RespectsF P (fun m : MachineImpl S I O C => commit fuel m sel inptr) := by
  intro m r h
  simp only [commit] at h
  split at h
  · cases h; exact hP.refl m
  · rename_i t ht
    split at h
    · rename_i input
      split at h
      · refine andThenF_rel P m _ _ r ?_ ?_ h
        · intro r0 h0
          cases h0
          exact hP.trans _ _ _ (push_deferral_rel hP.toPushFrame m _ _) (apply_transition_rel hP.toPushFrame.toCompletionFrame.toCommitFrame _ _ _ _)
        · intro m1 _ r1 h1 h2
          exact hP.trans _ _ _ h1 (finalize_transition_rel hP fuel none m1 r1 h2)
      · refine andThenF_rel P m _ _ r ?_ ?_ h
        · intro r0 h0
          cases h0
          exact apply_transition_rel hP.toPushFrame.toCompletionFrame.toCommitFrame _ _ _ _
        · intro m1 out r1 h1 h2
          exact hP.trans _ _ _ h1 (finalize_transition_rel hP fuel out m1 r1 h2)
    · refine andThenF_rel P m _ _ r ?_ ?_ h
      · intro r0 h0
        cases h0
        exact apply_transition_rel hP.toPushFrame.toCompletionFrame.toCommitFrame _ _ _ _
      · intro m1 out r1 h1 h2
        exact hP.trans _ _ _ h1 (finalize_transition_rel hP fuel out m1 r1 h2)

theorem dispatch_rel (hP : DispatchFrame P) (fuel : Nat) (i : I) :
    RespectsF P (fun m : MachineImpl S I O C => dispatch (O := O) fuel m i) := by
  intro m r h
  simp only [dispatch] at h
  split at h
  · exact commit_rel hP fuel _ _ m r h
  · cases h
    exact notify_unhandled_rel hP.toPushFrame.toCompletionFrame.toCommitFrame m i

theorem sameConfig_frame : Frame (SameConfig (S := S) (I := I) (O := O) (C := C)) where
  refl := fun m => ⟨rfl, rfl, rfl, rfl, rfl, rfl, rfl, rfl⟩
  trans := by
    intro a b c ⟨h1, h2, h3, h4, h5, h6, h7, h8⟩ ⟨g1, g2, g3, g4, g5, g6, g7, g8⟩
    exact ⟨g1.trans h1, g2.trans h2, g3.trans h3, g4.trans h4, g5.trans h5, g6.trans h6,
      g7.trans h7, g8.trans h8⟩
  ctx_trace := fun _ _ _ => ⟨rfl, rfl, rfl, rfl, rfl, rfl, rfl, rfl⟩
  state_trace := fun _ _ _ => ⟨rfl, rfl, rfl, rfl, rfl, rfl, rfl, rfl⟩
  processing := fun _ _ => ⟨rfl, rfl, rfl, rfl, rfl, rfl, rfl, rfl⟩
  draining := fun _ _ => ⟨rfl, rfl, rfl, rfl, rfl, rfl, rfl, rfl⟩
  deferrals := fun _ _ => ⟨rfl, rfl, rfl, rfl, rfl, rfl, rfl, rfl⟩
  pending := fun _ _ => ⟨rfl, rfl, rfl, rfl, rfl, rfl, rfl, rfl⟩

theorem traceGrows_frame : Frame (TraceGrows (S := S) (I := I) (O := O) (C := C)) where
  refl := fun _ => List.prefix_refl _
  trans := fun _ _ _ h1 h2 => List.IsPrefix.trans h1 h2
  ctx_trace := fun m _ l => List.prefix_append m.trace l
  state_trace := fun m _ l => List.prefix_append m.trace l
  processing := fun _ _ => List.prefix_refl _
  draining := fun _ _ => List.prefix_refl _
  deferrals := fun _ _ => List.prefix_refl _
  pending := fun _ _ => List.prefix_refl _

theorem sameDeferrals_completionFrame :
    CompletionFrame (SameDeferrals (S := S) (I := I) (O := O) (C := C)) where
  refl := fun _ => ⟨rfl, rfl, rfl⟩
  trans := by
    intro a b c ⟨h1, h2, h3⟩ ⟨g1, g2, g3⟩
    exact ⟨g1.trans h1, g2.trans h2, g3.trans h3⟩
  ctx_trace := fun _ _ _ => ⟨rfl, rfl, rfl⟩
  state_trace := fun _ _ _ => ⟨rfl, rfl, rfl⟩
  processing := fun _ _ => ⟨rfl, rfl, rfl⟩

theorem sameQueues_commitFrame :
    CommitFrame (SameQueues (S := S) (I := I) (O := O) (C := C)) where
  refl := fun _ => ⟨rfl, rfl, rfl, rfl⟩
  trans := by
    intro a b c ⟨h1, h2, h3, h4⟩ ⟨g1, g2, g3, g4⟩
    exact ⟨g1.trans h1, g2.trans h2, g3.trans h3, g4.trans h4⟩
  ctx_trace := fun _ _ _ => ⟨rfl, rfl, rfl, rfl⟩
  state_trace := fun _ _ _ => ⟨rfl, rfl, rfl, rfl⟩

end FrameLemmas

end MachineImpl

section Sorting

variable {T : Type} (prio : T → Int) (q : T → Bool)

theorem mem_insert_by_priority (x : T) (ys : List T) (u : T) :
    u ∈ insert_by_priority prio x ys ↔ u = x ∨ u ∈ ys := by
  induction ys with
  | nil => simp [insert_by_priority]
  | cons y ys ih =>
    unfold insert_by_priority
    split
    · simp only [List.mem_cons, ih]
      tauto
    · simp only [List.mem_cons]

theorem mem_stable_sort (l : List T) (u : T) : u ∈ stable_sort prio l ↔ u ∈ l := by
  induction l with
  | nil => simp [stable_sort]
  | cons x xs ih => simp [stable_sort, mem_insert_by_priority, ih]

theorem insert_by_priority_sorted (x : T) (ys : List T)
    (h : ys.Pairwise (fun a b => prio b ≤ prio a)) :
    (insert_by_priority prio x ys).Pairwise (fun a b => prio b ≤ prio a) := by
  induction ys with
  | nil => simp [insert_by_priority]
  | cons y ys ih =>
    rw [List.pairwise_cons] at h
    unfold insert_by_priority
    split
    · rename_i hgt
      rw [List.pairwise_cons]
      refine ⟨?_, ih h.2⟩
      intro u hu
      rcases (mem_insert_by_priority prio x ys u).1 hu with rfl | hu
      · exact le_of_lt hgt
      · exact h.1 u hu
    · rename_i hle
      have hle' : prio y ≤ prio x := not_lt.1 hle
      rw [List.pairwise_cons, List.pairwise_cons]
      refine ⟨?_, h⟩
      intro u hu
      rcases List.mem_cons.1 hu with rfl | hu
      · exact hle'
      · exact le_trans (h.1 u hu) hle'

theorem stable_sort_sorted (l : List T) :
    (stable_sort prio l).Pairwise (fun a b => prio b ≤ prio a) := by
  induction l with
  | nil => simp [stable_sort]
  | cons x xs ih => exact insert_by_priority_sorted prio x _ ih

theorem find_insert_by_priority (x : T) (ys : List T)
    (h : ys.Pairwise (fun a b => prio b ≤ prio a)) :
    (insert_by_priority prio x ys).find? q =
      if q x then
        (match ys.find? q with
         | some y => if prio y > prio x then some y else some x
         | none => some x)
      else ys.find? q := by
  induction ys with
  | nil => cases hx : q x <;> simp [insert_by_priority, hx]
  | cons y ys ih =>
    rw [List.pairwise_cons] at h
    unfold insert_by_priority
    by_cases hgt : prio y > prio x
    · rw [if_pos hgt]
      cases hy : q y
      · simp only [List.find?_cons, hy]
        exact ih h.2
      · cases hx : q x <;> simp [List.find?_cons, hy, hgt]
    · rw [if_neg hgt]
      have hle : prio y ≤ prio x := not_lt.1 hgt
      cases hx : q x
      · simp [List.find?_cons, hx]
      · simp only [List.find?_cons, hx, if_true]
        cases hy : q y
        · simp only
          cases hf : ys.find? q with
          | none => rfl
          | some z =>
            have hz : z ∈ ys := List.mem_of_find?_eq_some hf
            have : ¬ prio z > prio x := not_lt.2 (le_trans (h.1 z hz) hle)
            simp [this]
        · simp [hgt]

theorem isChoice_cons_skip (x : T) (xs : List T) (r : Option T) (hx : q x = false)
    (h : IsChoice prio q xs r) : IsChoice prio q (x :: xs) r := by
  cases r with
  | none =>
    intro u hu
    rcases List.mem_cons.1 hu with rfl | hu
    · exact hx
    · exact h u hu
  | some t =>
    obtain ⟨hq, pre, post, hsplit, hpre, hpost⟩ := h
    refine ⟨hq, x :: pre, post, by simp [hsplit], ?_, hpost⟩
    intro u hu hqu
    rcases List.mem_cons.1 hu with rfl | hu
    · rw [hx] at hqu; cases hqu
    · exact hpre u hu hqu

theorem isChoice_stable_sort (l : List T) :
    IsChoice prio q l ((stable_sort prio l).find? q) := by
  induction l with
  | nil => intro u hu; cases hu
  | cons x xs ih =>
    simp only [stable_sort]
    rw [find_insert_by_priority prio q x _ (stable_sort_sorted prio xs)]
    cases hx : q x
    · simp only [Bool.false_eq_true, if_false]
      exact isChoice_cons_skip prio q x xs _ hx ih
    · simp only [if_true]
      cases hf : (stable_sort prio xs).find? q with
      | none =>
        rw [hf] at ih
        refine ⟨hx, [], xs, rfl, ?_, ?_⟩
        · intro u hu; cases hu
        · intro u hu hqu
          rw [ih u hu] at hqu; cases hqu
      | some y =>
        rw [hf] at ih
        obtain ⟨hq, pre, post, hsplit, hpre, hpost⟩ := ih
        by_cases hgt : prio y > prio x
        · simp only [hgt, if_true]
          refine ⟨hq, x :: pre, post, by simp [hsplit], ?_, hpost⟩
          intro u hu hqu
          rcases List.mem_cons.1 hu with rfl | hu
          · exact hgt
          · exact hpre u hu hqu
        · simp only [hgt, if_false]
          have hle : prio y ≤ prio x := not_lt.1 hgt
          refine ⟨hx, [], xs, rfl, ?_, ?_⟩
          · intro u hu; cases hu
          · intro u hu hqu
            rw [hsplit] at hu
            rcases List.mem_append.1 hu with hu | hu
            · exact le_trans (le_of_lt (hpre u hu hqu)) hle
            · rcases List.mem_cons.1 hu with rfl | hu
              · exact hle
              · exact le_trans (hpost u hu hqu) hle

theorem isChoice_some_of_exists (decl : List T) (r : Option T)
    (h : IsChoice prio q decl r) (hex : ∃ u ∈ decl, q u = true) : ∃ t, r = some t := by
  cases r with
  | some t => exact ⟨t, rfl⟩
  | none =>
    obtain ⟨u, hu, hqu⟩ := hex
    rw [h u hu] at hqu; cases hqu

end Sorting

section Selection

variable {S I O C : Type} [DecidableEq S]

theorem tbl_find_sort_each {T : Type} (prio : T → Int) (tbl : List (S × List T)) (s : S) :
    Tbl.find (Builder.sort_each prio tbl) s = (Tbl.find tbl s).map (stable_sort prio) := by
  induction tbl with
  | nil => rfl
  | cons entry rest ih =>
    obtain ⟨k, v⟩ := entry
    simp only [Builder.sort_each, List.map_cons, Tbl.find] at ih ⊢
    split
    · rfl
    · exact ih

theorem MachineImpl.construct_body_tables (fuel : Nat) (m0 m : MachineImpl S I O C)
    (r : Ret Unit) (h : MachineImpl.construct_body fuel m0 = some (m, r)) :
    m.handlers_ = m0.handlers_ ∧ m.transitions_ = m0.transitions_ ∧
    m.any_transitions_ = m0.any_transitions_ ∧
    m.completion_transitions_ = m0.completion_transitions_ ∧
    m.machine_unhandled_ = m0.machine_unhandled_ ∧
    m.deferral_enabled_ = m0.deferral_enabled_ := by
  let Q : MachineImpl S I O C → MachineImpl S I O C → Prop := fun a b =>
    b.handlers_ = a.handlers_ ∧ b.transitions_ = a.transitions_ ∧
    b.any_transitions_ = a.any_transitions_ ∧
    b.completion_transitions_ = a.completion_transitions_ ∧
    b.machine_unhandled_ = a.machine_unhandled_ ∧
    b.deferral_enabled_ = a.deferral_enabled_
  have weaken : ∀ a b : MachineImpl S I O C, SameConfig a b → Q a b := by
    intro a b ⟨h1, h2, h3, h4, h5, h6, _, _⟩
    exact ⟨h1, h2, h3, h4, h5, h6⟩
  unfold MachineImpl.construct_body at h
  refine andThenF_rel Q m0 _ _ (m, r) ?_ ?_ h
  · intro r0 hr0
    cases hr0
    exact weaken _ _ (MachineImpl.call_enter_rel MachineImpl.sameConfig_frame.toCompletionFrame.toCommitFrame m0 _ _ _ _)
  · intro m1 _ r1 h1 h2
    refine andThenF_rel Q m0 _ _ r1 ?_ ?_ h2
    · intro r0 hr0
      obtain ⟨e1, e2, e3, e4, e5, e6⟩ :=
        weaken _ _ (MachineImpl.finalize_transition_rel
          (MachineImpl.dispatchFrame_of_frame MachineImpl.sameConfig_frame)
          fuel none _ r0 hr0)
      obtain ⟨g1, g2, g3, g4, g5, g6⟩ := h1
      exact ⟨e1.trans g1, e2.trans g2, e3.trans g3, e4.trans g4, e5.trans g5, e6.trans g6⟩
    · intro m3 _ r3 h3 h4
      cases h4
      exact h3

/-- C1: for a machine produced by `Builder::build`, in any current state `s` and context
`c`, `select(e)` is `find_transition(e)`, and `dispatch(e)` commits exactly that
selection.  When some transition declared with source `s` qualifies (guard absent or
true on `(e, c)`), the selection is the qualifying source-`s` transition of highest
priority, earliest declared among equals, whatever the any-source list holds.  When no
source-`s` transition qualifies, the selection follows the same rule over the
any-source list, and is empty when that list has no qualifying transition either. -/
theorem select_chooses_by_priority (b : Builder S I O C) (ctx0 : C) (fuel : Nat)
    (m : MachineImpl S I O C) (hb : b.build fuel ctx0 = some (m, Ret.ok ()))
    (s : S) (c : C) (e : I) :
    (({ m with current_ := s, ctx_ := c } : MachineImpl S I O C).select e).get =
        MachineImpl.find_transition { m with current_ := s, ctx_ := c } e ∧
    (∀ fuel1 : Nat,
      MachineImpl.dispatch fuel1 { m with current_ := s, ctx_ := c } e =
        match MachineImpl.find_transition { m with current_ := s, ctx_ := c } e with
        | some t =>
            MachineImpl.commit fuel1 { m with current_ := s, ctx_ := c }
              { transition_ := some t } (some e)
        | none => some (MachineImpl.notify_unhandled { m with current_ := s, ctx_ := c } e)) ∧
    ((∃ u ∈ (Tbl.find b.trans_ s).getD [], MachineImpl.guard_passes u e c = true) →
      (∃ t, MachineImpl.find_transition { m with current_ := s, ctx_ := c } e = some t) ∧
      IsChoice Transition.priority (fun u => MachineImpl.guard_passes u e c)
        ((Tbl.find b.trans_ s).getD [])
        (MachineImpl.find_transition { m with current_ := s, ctx_ := c } e)) ∧
    ((∀ u ∈ (Tbl.find b.trans_ s).getD [], MachineImpl.guard_passes u e c = false) →
      IsChoice Transition.priority (fun u => MachineImpl.guard_passes u e c) b.any_
        (MachineImpl.find_transition { m with current_ := s, ctx_ := c } e)) := by
  obtain ⟨_, ht, ha, _, _, _⟩ := MachineImpl.construct_body_tables _ _ m _ hb
  have hown : ∀ decl : List (Transition S I O C),
      (Tbl.find b.trans_ s).getD [] = decl →
      (match Tbl.find (Builder.sort_each Transition.priority b.trans_) s with
        | some vec => vec.find? (fun u => MachineImpl.guard_passes u e c)
        | none => none) =
      (stable_sort Transition.priority decl).find? (fun u => MachineImpl.guard_passes u e c) := by
    intro decl hd
    rw [tbl_find_sort_each]
    cases hf : Tbl.find b.trans_ s with
    | none => rw [hf] at hd; subst hd; rfl
    | some vec => rw [hf] at hd; simp at hd; subst hd; rfl
  have hfind : MachineImpl.find_transition { m with current_ := s, ctx_ := c } e =
      match (stable_sort Transition.priority ((Tbl.find b.trans_ s).getD [])).find?
          (fun u => MachineImpl.guard_passes u e c) with
      | some t => some t
      | none => (stable_sort Transition.priority b.any_).find?
          (fun u => MachineImpl.guard_passes u e c) := by
    simp only [MachineImpl.find_transition, MachineImpl.context, MachineImpl.state, ht, ha]
    rw [hown _ rfl]
  refine ⟨rfl, ?_, ?_, ?_⟩
  · intro fuel1
    simp only [MachineImpl.dispatch, MachineImpl.select, Selection.valid_]
    cases MachineImpl.find_transition { m with current_ := s, ctx_ := c } e <;> rfl
  · intro hex
    have hc := isChoice_stable_sort Transition.priority
      (fun u => MachineImpl.guard_passes u e c) ((Tbl.find b.trans_ s).getD [])
    obtain ⟨t, ht'⟩ := isChoice_some_of_exists _ _ _ _ hc hex
    rw [hfind, ht']
    rw [ht'] at hc
    exact ⟨⟨t, rfl⟩, hc⟩
  · intro hall
    have hnone : (stable_sort Transition.priority ((Tbl.find b.trans_ s).getD [])).find?
        (fun u => MachineImpl.guard_passes u e c) = none := by
      rw [List.find?_eq_none]
      intro u hu
      rw [mem_stable_sort] at hu
      simp [hall u hu]
    rw [hfind, hnone]
    exact isChoice_stable_sort Transition.priority
      (fun u => MachineImpl.guard_passes u e c) b.any_

theorem select_chooses_by_priority_witness :
    Examples.priorityBuilder.build 1 () = some (Examples.priorityMachine, Ret.ok ()) ∧
    MachineImpl.find_transition
      { Examples.priorityMachine with current_ := Examples.PState.Start, ctx_ := () }
      Examples.PInput.Alpha = some Examples.alphaHigh ∧
    IsChoice Transition.priority
      (fun u => MachineImpl.guard_passes u Examples.PInput.Alpha ())
      ((Tbl.find Examples.priorityBuilder.trans_ Examples.PState.Start).getD [])
      (MachineImpl.find_transition
        { Examples.priorityMachine with current_ := Examples.PState.Start, ctx_ := () }
        Examples.PInput.Alpha) :=
  ⟨rfl, rfl,
    ((select_chooses_by_priority Examples.priorityBuilder () 1 Examples.priorityMachine rfl
      Examples.PState.Start () Examples.PInput.Alpha).2.2.1
        ⟨Examples.alphaLow, by simp [Examples.priorityBuilder, Builder.add_transition,
          Builder.add_transition_any, Tbl.modify, Tbl.find, Examples.alphaLow], rfl⟩).2⟩

end Selection

namespace MachineImpl

section Commit

variable {S I O C : Type} [DecidableEq S]

theorem call_exit_eq (m : MachineImpl S I O C) (f t : S) (i : Option I) :
    m.call_exit f t i =
      ({ m with ctx_ := (run_hook (exit_hook m.handlers_ f) m.ctx_ f t i).1,
                trace := m.trace ++ calls_of (exit_hook m.handlers_ f) (Call.on_exit f t i) },
        Ret.ofExcept (run_hook (exit_hook m.handlers_ f) m.ctx_ f t i).2) := by
  unfold call_exit
  cases exit_hook m.handlers_ f with
  | none => simp [run_hook, calls_of, Ret.ofExcept]
  | some h => rfl

theorem call_enter_eq (m : MachineImpl S I O C) (k f t : S) (i : Option I) :
    m.call_enter k f t i =
      ({ m with ctx_ := (run_hook (enter_hook m.handlers_ k) m.ctx_ f t i).1,
                trace := m.trace ++ calls_of (enter_hook m.handlers_ k) (Call.on_enter f t i) },
        Ret.ofExcept (run_hook (enter_hook m.handlers_ k) m.ctx_ f t i).2) := by
  unfold call_enter
  cases enter_hook m.handlers_ k with
  | none => simp [run_hook, calls_of, Ret.ofExcept]
  | some h => rfl

theorem invoke_transition_action_eq (m : MachineImpl S I O C) (t : Transition S I O C)
    (i : I) :
    m.invoke_transition_action t i =
      ({ m with ctx_ := (run_action t.action i m.ctx_).1,
                trace := m.trace ++ calls_of t.action (Call.action t.to_ i) },
        Ret.ofExcept (run_action t.action i m.ctx_).2) := by
  unfold invoke_transition_action
  cases t.action with
  | none => simp [run_action, calls_of, Ret.ofExcept]
  | some h => rfl

theorem invoke_completion_action_eq (m : MachineImpl S I O C) (c : Completion S O C) :
    m.invoke_completion_action c =
      ({ m with ctx_ := (run_completion_action c.action m.ctx_).1,
                trace := m.trace ++
                  calls_of c.action (Call.completion_action m.current_ c.to_) },
        Ret.ofExcept (run_completion_action c.action m.ctx_).2) := by
  unfold invoke_completion_action
  cases c.action with
  | none => simp [run_completion_action, calls_of, Ret.ofExcept]
  | some h => rfl

theorem dispatch_of_selected (fuel : Nat) (m : MachineImpl S I O C) (e : I)
    (t : Transition S I O C) (hsel : m.find_transition e = some t) :
    m.dispatch fuel e =
      if m.deferral_enabled_ && t.defer then
        andThenF (some ((m.push_deferral t.to_ e).apply_transition t (some e) false))
          fun m1 _ => finalize_transition fuel m1 none
      else
        andThenF (some (m.apply_transition t (some e) true)) fun m1 out =>
          finalize_transition fuel m1 out := by
  simp [dispatch, select, Selection.valid_, commit, Selection.get, hsel]

theorem apply_transition_normal (m : MachineImpl S I O C) (e : I) (t : Transition S I O C)
    (c1 c2 c3 : C) (out : Option O)
    (hskip : (t.suppress_enter_exit && decide (t.to_ = m.current_)) = false)
    (hexit : run_hook (exit_hook m.handlers_ m.current_) m.ctx_ m.current_ t.to_ (some e)
      = (c1, Except.ok ()))
    (hact : run_action t.action e c1 = (c2, Except.ok out))
    (henter : run_hook (enter_hook m.handlers_ t.to_) c2 m.current_ t.to_ (some e)
      = (c3, Except.ok ())) :
    m.apply_transition t (some e) true =
      ({ m with
          current_ := t.to_, ctx_ := c3,
          trace := m.trace ++
            (calls_of (exit_hook m.handlers_ m.current_) (Call.on_exit m.current_ t.to_ (some e)) ++
             calls_of t.action (Call.action t.to_ e) ++
             [Call.set_state t.to_] ++
             calls_of (enter_hook m.handlers_ t.to_) (Call.on_enter m.current_ t.to_ (some e))) },
        Ret.ok out) := by
  simp only [apply_transition, state, hskip, call_exit_eq, call_enter_eq,
    invoke_transition_action_eq, set_state_direct]
  simp [hexit, hact, henter, Ret.ofExcept, andThen]

/-- C2: when `dispatch(e)` in state `from` selects a transition `t` to `to` that is not
deferred and whose hooks are not suppressed, and the exit hook, the action and the
enter hook return normally, the machine handed to completion processing is the
original one after exactly these steps, in this order: `on_exit` of `from` called with
`(ctx, from, to, e)`, `t`'s action called on `(e, ctx)`, `current_` set to `to`,
`on_enter` of `to` called with `(ctx, from, to, e)` (each callable once if it is set).
Completion processing runs on that machine and the deferral drain on the machine
completion processing leaves; both only append to the trace. -/
theorem dispatch_effect_order (fuel : Nat) (m : MachineImpl S I O C) (e : I)
    (t : Transition S I O C) (c1 c2 c3 : C) (out : Option O)
    (hsel : m.find_transition e = some t)
    (hdefer : (m.deferral_enabled_ && t.defer) = false)
    (hskip : (t.suppress_enter_exit && decide (t.to_ = m.current_)) = false)
    (hexit : run_hook (exit_hook m.handlers_ m.current_) m.ctx_ m.current_ t.to_ (some e)
      = (c1, Except.ok ()))
    (hact : run_action t.action e c1 = (c2, Except.ok out))
    (henter : run_hook (enter_hook m.handlers_ t.to_) c2 m.current_ t.to_ (some e)
      = (c3, Except.ok ())) :
    ∃ m1 : MachineImpl S I O C,
      m1 = { m with
              current_ := t.to_, ctx_ := c3,
              trace := m.trace ++
                (calls_of (exit_hook m.handlers_ m.current_) (Call.on_exit m.current_ t.to_ (some e)) ++
                 calls_of t.action (Call.action t.to_ e) ++
                 [Call.set_state t.to_] ++
                 calls_of (enter_hook m.handlers_ t.to_) (Call.on_enter m.current_ t.to_ (some e))) } ∧
      m.apply_transition t (some e) true = (m1, Ret.ok out) ∧
      m.dispatch fuel e =
        andThenF (some m1.process_completions) (fun m2 completion_out =>
          andThenF (m2.drain_deferrals_for_current_state fuel) (fun m3 _ =>
            some (m3, Ret.ok
              (if out.isNone && completion_out.isSome then completion_out else out)))) ∧
      TraceGrows m1 m1.process_completions.1 ∧
      ∀ r, m1.process_completions.1.drain_deferrals_for_current_state fuel = some r →
        TraceGrows m1.process_completions.1 r.1 := by
  refine ⟨_, rfl, apply_transition_normal m e t c1 c2 c3 out hskip hexit hact henter, ?_,
    process_completions_rel traceGrows_frame.toCompletionFrame _, ?_⟩
  · rw [dispatch_of_selected fuel m e t hsel, hdefer,
      apply_transition_normal m e t c1 c2 c3 out hskip hexit hact henter]
    rfl
  · intro r hr
    exact drain_deferrals_rel (dispatchFrame_of_frame traceGrows_frame) fuel _ r hr

/-- The `enter_exit` machine, dispatching `Go` in `Idle`: the log reads exit, action,
enter, and the trace reads exit, action, state change, enter. -/
theorem dispatch_effect_order_witness :
    MachineImpl.dispatch 1 (Examples.hookMachine Examples.HState.Idle []) Examples.HInput.Go =
      some ({ Examples.hookMachine Examples.HState.Active
                ["exit:Idle", "action:Go", "enter:Active"] with
              trace := [Call.on_exit Examples.HState.Idle Examples.HState.Active
                          (some Examples.HInput.Go),
                        Call.action Examples.HState.Active Examples.HInput.Go,
                        Call.set_state Examples.HState.Active,
                        Call.on_enter Examples.HState.Idle Examples.HState.Active
                          (some Examples.HInput.Go)] },
            Ret.ok (some "went")) := by
  obtain ⟨m1, h1, _, h3, _, _⟩ := dispatch_effect_order 1
    (Examples.hookMachine Examples.HState.Idle []) Examples.HInput.Go Examples.goActive
    ["exit:Idle"] ["exit:Idle", "action:Go"] ["exit:Idle", "action:Go", "enter:Active"]
    (some "went") (by rfl) (by rfl) (by rfl) (by rfl) (by rfl) (by rfl)
  rw [h3, h1]
  rfl

theorem tbl_find_modify_self {K V : Type} [DecidableEq K] (dflt : V) (f : V → V)
    (tbl : List (K × V)) (k : K) :
    Tbl.find (Tbl.modify dflt f tbl k) k = some (f ((Tbl.find tbl k).getD dflt)) := by
  induction tbl with
  | nil => simp [Tbl.modify, Tbl.find]
  | cons entry rest ih =>
    obtain ⟨k', v⟩ := entry
    by_cases hk : k' = k
    · simp [Tbl.modify, Tbl.find, hk]
    · simp [Tbl.modify, Tbl.find, hk, ih]

theorem tbl_find_modify_other {K V : Type} [DecidableEq K] (dflt : V) (f : V → V)
    (tbl : List (K × V)) (k k1 : K) (hne : k1 ≠ k) :
    Tbl.find (Tbl.modify dflt f tbl k) k1 = Tbl.find tbl k1 := by
  induction tbl with
  | nil =>
    have : ¬ k = k1 := fun h => hne h.symm
    simp [Tbl.modify, Tbl.find, this]
  | cons entry rest ih =>
    obtain ⟨k', v⟩ := entry
    by_cases hk : k' = k
    · have : ¬ k = k1 := fun h => hne h.symm
      subst hk
      simp [Tbl.modify, Tbl.find, this]
    · by_cases hk1 : k' = k1
      · subst hk1
        simp [Tbl.modify, Tbl.find, hk]
      · simp [Tbl.modify, Tbl.find, hk, hk1, ih]

theorem apply_transition_no_action (m : MachineImpl S I O C) (t : Transition S I O C)
    (input : Option I) :
    ∃ l, (m.apply_transition t input false).1.trace = m.trace ++ l ∧
      ∀ c ∈ l, ∀ to_ ev, c ≠ Call.action to_ ev := by
  have hcalls : ∀ (h : Option (EnterExitSig S I C)) (entry : Call S I),
      (∀ to_ ev, entry ≠ Call.action to_ ev) →
      ∀ c ∈ calls_of h entry, ∀ to_ ev, c ≠ Call.action to_ ev := by
    intro h entry hne c hc
    cases h with
    | none => simp [calls_of] at hc
    | some f => simp [calls_of] at hc; subst hc; exact hne
  have hx := hcalls (exit_hook m.handlers_ m.current_) (Call.on_exit m.current_ t.to_ input)
    (by intro _ _ h; cases h)
  have hn := hcalls (enter_hook m.handlers_ t.to_) (Call.on_enter m.current_ t.to_ input)
    (by intro _ _ h; cases h)
  have hs : ∀ to_ ev, (Call.set_state t.to_ : Call S I) ≠ Call.action to_ ev := by
    intro _ _ h; cases h
  simp only [apply_transition, state, call_exit_eq, call_enter_eq, set_state_direct]
  generalize calls_of (exit_hook m.handlers_ m.current_) (Call.on_exit m.current_ t.to_ input)
    = lx at hx ⊢
  generalize run_hook (exit_hook m.handlers_ m.current_) m.ctx_ m.current_ t.to_ input = X
  obtain ⟨cx, rx⟩ := X
  cases hskip : (t.suppress_enter_exit && decide (t.to_ = m.current_))
  · simp only [Bool.false_eq_true, if_false]
    cases rx with
    | error x => exact ⟨lx, by simp [andThen, Ret.ofExcept], hx⟩
    | ok u =>
      simp only [andThen, Ret.ofExcept]
      generalize calls_of (enter_hook m.handlers_ t.to_)
        (Call.on_enter m.current_ t.to_ input) = ln at hn ⊢
      generalize run_hook (enter_hook m.handlers_ t.to_) cx m.current_ t.to_ input = N
      obtain ⟨cn, rn⟩ := N
      refine ⟨lx ++ [Call.set_state t.to_] ++ ln, ?_, ?_⟩
      · cases rn <;> simp
      · intro c hc
        simp only [List.mem_append, List.mem_singleton] at hc
        rcases hc with (hc | hc) | hc
        · exact hx c hc
        · subst hc; exact hs
        · exact hn c hc
  · refine ⟨[Call.set_state t.to_], by simp [andThen], ?_⟩
    intro c hc
    simp only [List.mem_singleton] at hc
    subst hc
    exact hs

theorem apply_transition_deferred_normal (m : MachineImpl S I O C) (e : I)
    (t : Transition S I O C) (c1 c3 : C)
    (hskip : (t.suppress_enter_exit && decide (t.to_ = m.current_)) = false)
    (hexit : run_hook (exit_hook m.handlers_ m.current_) m.ctx_ m.current_ t.to_ (some e)
      = (c1, Except.ok ()))
    (henter : run_hook (enter_hook m.handlers_ t.to_) c1 m.current_ t.to_ (some e)
      = (c3, Except.ok ())) :
    (m.push_deferral t.to_ e).apply_transition t (some e) false =
      (({ m with
          current_ := t.to_, ctx_ := c3,
          deferrals_ := Tbl.modify [] (fun q => q ++ [e]) m.deferrals_ t.to_,
          trace := m.trace ++
            (calls_of (exit_hook m.handlers_ m.current_) (Call.on_exit m.current_ t.to_ (some e)) ++
             [Call.set_state t.to_] ++
             calls_of (enter_hook m.handlers_ t.to_) (Call.on_enter m.current_ t.to_ (some e))) } :
          MachineImpl S I O C),
        (Ret.ok none : Ret (Option O))) := by
  simp only [apply_transition, state, push_deferral, hskip, call_exit_eq, call_enter_eq,
    set_state_direct]
  simp [hexit, henter, Ret.ofExcept, andThen]

theorem apply_transition_reaches_action (m : MachineImpl S I O C) (e : I)
    (t : Transition S I O C) (f : I → C → C × Except Exn (Option O))
    (hact : t.action = some f)
    (hexit : ∀ x, (run_hook (exit_hook m.handlers_ m.current_) m.ctx_ m.current_ t.to_
      (some e)).2 ≠ Except.error x) :
    ∃ l1 l2, (m.apply_transition t (some e) true).1.trace =
      m.trace ++ l1 ++ Call.action t.to_ e :: l2 := by
  simp only [apply_transition, state, call_exit_eq, call_enter_eq, set_state_direct,
    invoke_transition_action_eq, hact]
  generalize calls_of (exit_hook m.handlers_ m.current_)
    (Call.on_exit m.current_ t.to_ (some e)) = lx
  generalize run_hook (exit_hook m.handlers_ m.current_) m.ctx_ m.current_ t.to_ (some e)
    = X at hexit ⊢
  obtain ⟨cx, rx⟩ := X
  cases hskip : (t.suppress_enter_exit && decide (t.to_ = m.current_))
  · simp only [Bool.false_eq_true, if_false]
    cases rx with
    | error x => exact absurd rfl (hexit x)
    | ok u =>
      simp only [andThen, Ret.ofExcept]
      generalize run_action (some f) e cx = A
      obtain ⟨ca, ra⟩ := A
      cases ra with
      | error x => exact ⟨lx, [], by simp [calls_of]⟩
      | ok out =>
        simp only
        generalize calls_of (enter_hook m.handlers_ t.to_)
          (Call.on_enter m.current_ t.to_ (some e)) = ln
        generalize run_hook (enter_hook m.handlers_ t.to_) ca m.current_ t.to_ (some e) = N
        obtain ⟨cn, rn⟩ := N
        refine ⟨lx, Call.set_state t.to_ :: ln, ?_⟩
        cases rn <;> simp [calls_of]
  · simp only [if_true, andThen]
    generalize run_action (some f) e m.ctx_ = A
    obtain ⟨ca, ra⟩ := A
    cases ra with
    | error x => exact ⟨[], [], by simp [Ret.ofExcept, calls_of]⟩
    | ok out => exact ⟨[], [Call.set_state t.to_], by simp [Ret.ofExcept, calls_of]⟩

theorem apply_transition_output (m m1 : MachineImpl S I O C) (e : I)
    (t : Transition S I O C) (inv : Bool) (out : Option O)
    (h : m.apply_transition t (some e) inv = (m1, Ret.ok out)) :
    (inv = false → out = none) ∧ (t.action = none → out = none) ∧
    (inv = true → ∀ f, t.action = some f → ∃ c1, (f e c1).2 = Except.ok out) := by
  simp only [apply_transition, state, call_exit_eq, call_enter_eq, set_state_direct,
    invoke_transition_action_eq] at h
  generalize (if (t.suppress_enter_exit && decide (t.to_ = m.current_)) = true then
      (m, Ret.ok ())
    else
      ({ m with
          ctx_ := (run_hook (exit_hook m.handlers_ m.current_) m.ctx_ m.current_ t.to_
            (some e)).1,
          trace := m.trace ++ calls_of (exit_hook m.handlers_ m.current_)
            (Call.on_exit m.current_ t.to_ (some e)) },
        Ret.ofExcept (run_hook (exit_hook m.handlers_ m.current_) m.ctx_ m.current_ t.to_
            (some e)).2)) = X at h
  obtain ⟨mx, rx⟩ := X
  cases rx with
  | raised x => simp [andThen] at h
  | aborted => simp [andThen] at h
  | ok u =>
    simp only [andThen_ok] at h
    cases inv with
    | false =>
      simp only [andThen_ok] at h
      have hout : out = none := by
        split at h
        · simp [andThen] at h; exact h.2.symm
        · generalize run_hook (enter_hook mx.handlers_ t.to_) mx.ctx_ m.current_ t.to_
            (some e) = N at h
          obtain ⟨cn, rn⟩ := N
          cases rn <;> simp [andThen, Ret.ofExcept] at h
          exact h.2.symm
      exact ⟨fun _ => hout, fun _ => hout, fun hc => by cases hc⟩
    | true =>
      simp only at h
      generalize hA : run_action t.action e mx.ctx_ = A at h
      obtain ⟨ca, ra⟩ := A
      cases ra with
      | error x => simp [andThen, Ret.ofExcept] at h
      | ok o =>
        have hout : out = o := by
          simp only [Ret.ofExcept, andThen_ok] at h
          split at h
          · simp [andThen] at h; exact h.2.symm
          · generalize run_hook (enter_hook mx.handlers_ t.to_) ca m.current_ t.to_
              (some e) = N at h
            obtain ⟨cn, rn⟩ := N
            cases rn <;> simp [andThen, Ret.ofExcept] at h
            exact h.2.symm
        subst hout
        refine ⟨fun hc => (by cases hc), ?_, ?_⟩
        · intro hnone
          rw [hnone] at hA
          simp [run_action] at hA
          exact hA.2.symm
        · intro _ f hf
          rw [hf] at hA
          exact ⟨mx.ctx_, by simp only [run_action] at hA; rw [hA]⟩

/-- C4: when `dispatch(e)` selects `t`, the call is the commit step followed by completion
processing and the deferral drain, and when all three return normally the value
returned is the commit step's output if that is set and the completion output
otherwise (hence `none` when both are unset).  The commit step's output is unset when
the action is suppressed by deferral or `t` has no action, and is otherwise the value
`t`'s action returned. -/
theorem dispatch_result (fuel : Nat) (m : MachineImpl S I O C) (e : I)
    (t : Transition S I O C) (hsel : m.find_transition e = some t) :
    ∃ step : MachineImpl S I O C × Ret (Option O),
      step = (if m.deferral_enabled_ && t.defer then
                (m.push_deferral t.to_ e).apply_transition t (some e) false
              else m.apply_transition t (some e) true) ∧
      m.dispatch fuel e =
        andThenF (some step) (fun m1 out =>
          andThenF (some m1.process_completions) (fun m2 completion_out =>
            andThenF (m2.drain_deferrals_for_current_state fuel) (fun m3 _ =>
              some (m3, Ret.ok
                (match out with
                 | some o => some o
                 | none => completion_out))))) ∧
      ∀ m1 out, step = (m1, Ret.ok out) →
        ((m.deferral_enabled_ && t.defer) = true → out = none) ∧
        (t.action = none → out = none) ∧
        ((m.deferral_enabled_ && t.defer) = false → ∀ f, t.action = some f →
          ∃ c1, (f e c1).2 = Except.ok out) := by
  refine ⟨_, rfl, ?_, ?_⟩
  · rw [dispatch_of_selected fuel m e t hsel]
    have hfin : ∀ (m1 : MachineImpl S I O C) (out : Option O),
        finalize_transition fuel m1 out =
          andThenF (some m1.process_completions) (fun m2 completion_out =>
            andThenF (m2.drain_deferrals_for_current_state fuel) (fun m3 _ =>
              some (m3, Ret.ok
                (match out with
                 | some o => some o
                 | none => completion_out)))) := by
      intro m1 out
      simp only [finalize_transition, finalize_transition_with]
      congr 1
      funext m2 cout
      congr 1
      funext m3 _
      cases out <;> cases cout <;> rfl
    cases hd : (m.deferral_enabled_ && t.defer)
    · simp only [Bool.false_eq_true, if_false]
      congr 1
      funext m1 out
      exact hfin m1 out
    · simp only [if_true]
      generalize hs : (m.push_deferral t.to_ e).apply_transition t (some e) false = step
      obtain ⟨m1, r⟩ := step
      cases r with
      | raised x => rfl
      | aborted => rfl
      | ok out =>
        have := (apply_transition_output _ m1 e t false out hs).1 rfl
        subst this
        simp only [andThenF_ok]
        exact hfin m1 none
  · intro m1 out hstep
    cases hd : (m.deferral_enabled_ && t.defer)
    · rw [hd] at hstep
      simp only [Bool.false_eq_true, if_false] at hstep
      have h := apply_transition_output m m1 e t true out hstep
      exact ⟨fun hc => (by cases hc), h.2.1, fun _ => h.2.2 rfl⟩
    · rw [hd] at hstep
      simp only [if_true] at hstep
      have h := apply_transition_output _ m1 e t false out hstep
      exact ⟨fun _ => h.1 rfl, h.2.1, fun hc => (by cases hc)⟩

/-- The `value_completion_sort` machine, dispatching `Token`: the action's "second" is
returned although the completion that follows produces "B-complete". -/
theorem dispatch_result_witness :
    Examples.valueMachine.find_transition Examples.VInput.Token = some Examples.tokenB ∧
    (Examples.valueMachine.dispatch 0 Examples.VInput.Token).map
        (fun r => (r.1.current_, r.1.ctx_, r.2))
      = some (Examples.VState.Finish, 12, Ret.ok (some "second")) := by
  obtain ⟨step, h1, h2, _⟩ := dispatch_result 0 Examples.valueMachine Examples.VInput.Token
    Examples.tokenB (by rfl)
  refine ⟨by rfl, ?_⟩
  rw [h2, h1]
  rfl

theorem dispatch_of_unselected (fuel : Nat) (m : MachineImpl S I O C) (e : I)
    (hsel : m.find_transition e = none) :
    m.dispatch fuel e = some (m.notify_unhandled e) := by
  simp [dispatch, select, Selection.valid_, hsel]

theorem notify_unhandled_call (m : MachineImpl S I O C) (e : I) (f : UnhandledSig S I C)
    (entry : Call S I) :
    andThen (trySwallow (m.call_unhandled f entry e))
        (fun m1 _ => (m1, (Ret.ok none : Ret (Option O)))) =
      ({ m with ctx_ := (f m.ctx_ m.current_ e).1, trace := m.trace ++ [entry] },
        Ret.ok none) := by
  simp only [call_unhandled]
  cases (f m.ctx_ m.current_ e).2 <;> rfl

theorem notify_unhandled_state (m : MachineImpl S I O C) (e : I) (f : UnhandledSig S I C)
    (hf : m.state_unhandled_hook = some f) :
    (m.notify_unhandled e : MachineImpl S I O C × Ret (Option O)) =
      ({ m with ctx_ := (f m.ctx_ m.current_ e).1,
                trace := m.trace ++ [Call.on_unhandled_state m.current_ e] },
        Ret.ok none) := by
  unfold notify_unhandled unhandled_body
  split
  · rename_i g hg
    rw [hf] at hg
    injection hg with hg
    subst hg
    exact notify_unhandled_call m e f _
  · rename_i hn
    rw [hf] at hn
    cases hn

theorem notify_unhandled_machine (m : MachineImpl S I O C) (e : I)
    (f : UnhandledSig S I C) (hs : m.state_unhandled_hook = none)
    (hf : m.machine_unhandled_ = some f) :
    (m.notify_unhandled e : MachineImpl S I O C × Ret (Option O)) =
      ({ m with ctx_ := (f m.ctx_ m.current_ e).1,
                trace := m.trace ++ [Call.on_unhandled_machine m.current_ e] },
        Ret.ok none) := by
  unfold notify_unhandled unhandled_body
  split
  · rename_i g hg
    rw [hs] at hg
    cases hg
  · split
    · rename_i g hg
      rw [hf] at hg
      injection hg with hg
      subst hg
      exact notify_unhandled_call m e f _
    · rename_i hn
      rw [hf] at hn
      cases hn

theorem notify_unhandled_nothing (m : MachineImpl S I O C) (e : I)
    (hs : m.state_unhandled_hook = none) (hm : m.machine_unhandled_ = none) :
    (m.notify_unhandled e : MachineImpl S I O C × Ret (Option O)) = (m, Ret.ok none) := by
  unfold notify_unhandled unhandled_body
  split
  · rename_i g hg
    rw [hs] at hg
    cases hg
  · split
    · rename_i g hg
      rw [hm] at hg
      cases hg
    · rfl

/-- C7: when `dispatch(e)` selects no transition, the result is `none` and the current
state is unchanged.  If the current state has a state-level `on_unhandled` hook, that
hook is called once with `(ctx, state, e)` and nothing else is called; otherwise, if a
machine-level hook is registered, it is called once with `(ctx, state, e)`; if neither
exists the machine is returned as it was. -/
theorem dispatch_unhandled (fuel : Nat) (m : MachineImpl S I O C) (e : I)
    (hsel : m.find_transition e = none) :
    (∀ f, m.state_unhandled_hook = some f →
      m.dispatch fuel e =
        some ({ m with ctx_ := (f m.ctx_ m.current_ e).1,
                       trace := m.trace ++ [Call.on_unhandled_state m.current_ e] },
              Ret.ok none)) ∧
    (m.state_unhandled_hook = none → ∀ f, m.machine_unhandled_ = some f →
      m.dispatch fuel e =
        some ({ m with ctx_ := (f m.ctx_ m.current_ e).1,
                       trace := m.trace ++ [Call.on_unhandled_machine m.current_ e] },
              Ret.ok none)) ∧
    (m.state_unhandled_hook = none → m.machine_unhandled_ = none →
      m.dispatch fuel e = some (m, Ret.ok none)) := by
  rw [dispatch_of_unselected fuel m e hsel]
  refine ⟨?_, ?_, ?_⟩
  · intro f hf
    rw [notify_unhandled_state m e f hf]
  · intro hs f hf
    rw [notify_unhandled_machine m e f hs hf]
  · intro hs hm
    rw [notify_unhandled_nothing m e hs hm]

/-- C8: when `dispatch(e)` selects no transition and the `on_unhandled` hook that is
called (the state-level one, or the machine-level one when the current state has none)
throws `x`, the `try` body ends with `x` but `dispatch` returns `none` normally; the
current state is unchanged and the context is as the hook left it. -/
theorem dispatch_unhandled_hook_raises (fuel : Nat) (m : MachineImpl S I O C) (e : I)
    (f : UnhandledSig S I C) (x : Exn)
    (hsel : m.find_transition e = none)
    (hhook : m.state_unhandled_hook = some f ∨
      (m.state_unhandled_hook = none ∧ m.machine_unhandled_ = some f))
    (hraise : (f m.ctx_ m.current_ e).2 = Except.error x) :
    ∃ m1, m.unhandled_body e = (m1, Ret.raised x) ∧
      m.dispatch fuel e = some (m1, Ret.ok none) ∧ m1.current_ = m.current_ ∧
      m1.ctx_ = (f m.ctx_ m.current_ e).1 := by
  rw [dispatch_of_unselected fuel m e hsel]
  rcases hhook with hf | ⟨hs, hf⟩
  · rw [notify_unhandled_state m e f hf]
    refine ⟨_, ?_, rfl, rfl, rfl⟩
    simp only [unhandled_body, hf, call_unhandled, hraise, Ret.ofExcept]
  · rw [notify_unhandled_machine m e f hs hf]
    refine ⟨_, ?_, rfl, rfl, rfl⟩
    unfold unhandled_body
    rw [hs]
    simp only
    split
    · rename_i g hg
      rw [hf] at hg
      injection hg with hg
      subst hg
      simp only [call_unhandled, hraise, Ret.ofExcept]
    · rename_i hn
      rw [hf] at hn
      cases hn

/-- C9: when `dispatch(e)` selects a transition `t` that is not deferred, the exit hook (if
it runs) returns normally and `t`'s action throws `x`, then `dispatch` ends with the
exception `x`; the machine it leaves is the original one with the context as the
action left it and a trace extended by the exit hook call and the action call only:
the current state is still the source state and neither the state change nor
`on_enter` happened. -/
theorem dispatch_action_raises (fuel : Nat) (m : MachineImpl S I O C) (e : I)
    (t : Transition S I O C) (f : I → C → C × Except Exn (Option O)) (c1 c2 : C) (x : Exn)
    (hsel : m.find_transition e = some t)
    (hdefer : (m.deferral_enabled_ && t.defer) = false)
    (hact : t.action = some f)
    (hexit : (if (t.suppress_enter_exit && decide (t.to_ = m.current_)) = true then
        (m.ctx_, Except.ok ())
      else run_hook (exit_hook m.handlers_ m.current_) m.ctx_ m.current_ t.to_ (some e))
      = (c1, Except.ok ()))
    (hraise : f e c1 = (c2, Except.error x)) :
    m.dispatch fuel e =
      some ({ m with
              ctx_ := c2,
              trace := m.trace ++
                ((if (t.suppress_enter_exit && decide (t.to_ = m.current_)) = true then []
                  else calls_of (exit_hook m.handlers_ m.current_)
                    (Call.on_exit m.current_ t.to_ (some e))) ++
                 [Call.action t.to_ e]) },
            Ret.raised x) := by
  rw [dispatch_of_selected fuel m e t hsel, hdefer]
  simp only [Bool.false_eq_true, if_false, apply_transition, state, call_exit_eq,
    call_enter_eq, set_state_direct, invoke_transition_action_eq, hact]
  cases hskip : (t.suppress_enter_exit && decide (t.to_ = m.current_))
  · rw [hskip] at hexit
    simp only [Bool.false_eq_true, if_false] at hexit ⊢
    simp [hexit, Ret.ofExcept, andThen, run_action, hraise, calls_of, andThenF]
  · rw [hskip] at hexit
    simp only [if_true] at hexit ⊢
    have hc : m.ctx_ = c1 := by injection hexit
    subst hc
    simp [Ret.ofExcept, andThen, run_action, hraise, calls_of, andThenF]

/-- The first `unhandled_hooks` machine, dispatching `U` in `X`: only the machine-level
counter is incremented. -/
theorem dispatch_unhandled_witness :
    (Examples.unhandledMachine Examples.UState.X (0, 0)).find_transition Examples.UInput.U
      = none ∧
    (Examples.unhandledMachine Examples.UState.X (0, 0)).dispatch 0 Examples.UInput.U =
      some ({ Examples.unhandledMachine Examples.UState.X (1, 0) with
              trace := [Call.on_unhandled_machine Examples.UState.X Examples.UInput.U] },
            Ret.ok none) :=
  ⟨by rfl,
    ((dispatch_unhandled 0 (Examples.unhandledMachine Examples.UState.X (0, 0))
      Examples.UInput.U (by rfl)).2.1 (by rfl) Examples.countMachine (by rfl))⟩

/-- The second `unhandled_hooks` machine, whose hook throws `42`: `dispatch` returns
`none`. -/
theorem dispatch_unhandled_hook_raises_witness :
    ∃ m1, Examples.throwingMachine.unhandled_body Examples.UInput.U = (m1, Ret.raised 42) ∧
      Examples.throwingMachine.dispatch 0 Examples.UInput.U = some (m1, Ret.ok none) ∧
      m1.current_ = Examples.UState.X ∧ m1.ctx_ = (0, 0) :=
  dispatch_unhandled_hook_raises 0 Examples.throwingMachine Examples.UInput.U
    Examples.throw42 42 (by rfl) (Or.inr ⟨by rfl, by rfl⟩) (by rfl)

/-- A machine whose `Go` action throws `7` after the exit hook of `Idle` has run:
`dispatch` ends with `7` in state `Idle`, and `enter:Active` is not logged. -/
theorem dispatch_action_raises_witness :
    Examples.throwingActionMachine.dispatch 0 Examples.HInput.Go =
      some ({ Examples.throwingActionMachine with
              ctx_ := ["exit:Idle", "action:throw"],
              trace := [Call.on_exit Examples.HState.Idle Examples.HState.Active
                          (some Examples.HInput.Go),
                        Call.action Examples.HState.Active Examples.HInput.Go] },
            Ret.raised 7) :=
  dispatch_action_raises 0 Examples.throwingActionMachine Examples.HInput.Go
    Examples.goThrows _ ["exit:Idle"] ["exit:Idle", "action:throw"] 7
    (by rfl) (by rfl) (by rfl) (by rfl) (by rfl)

theorem apply_transition_skip_no_hooks (m : MachineImpl S I O C) (t : Transition S I O C)
    (input : Option I) (inv : Bool) (hs : t.suppress_enter_exit = true)
    (hto : t.to_ = m.current_) :
    ∃ l, (m.apply_transition t input inv).1.trace = m.trace ++ l ∧
      ∀ c ∈ l, ∀ a b ev, c ≠ Call.on_exit a b ev ∧ c ≠ Call.on_enter a b ev := by
  have hskip : (t.suppress_enter_exit && decide (t.to_ = m.current_)) = true := by
    simp [hs, hto]
  have hset : ∀ a b ev, (Call.set_state t.to_ : Call S I) ≠ Call.on_exit a b ev ∧
      (Call.set_state t.to_ : Call S I) ≠ Call.on_enter a b ev :=
    fun _ _ _ => ⟨fun h => (by cases h), fun h => (by cases h)⟩
  have hact : ∀ i a b ev, (Call.action t.to_ i : Call S I) ≠ Call.on_exit a b ev ∧
      (Call.action t.to_ i : Call S I) ≠ Call.on_enter a b ev :=
    fun _ _ _ _ => ⟨fun h => (by cases h), fun h => (by cases h)⟩
  simp only [apply_transition, state, hskip, if_true, andThen_ok, set_state_direct]
  have hplain : ∃ l, (andThen ((m, Ret.ok none) : MachineImpl S I O C × Ret (Option O))
      fun m2 output =>
        andThen (({ m2 with current_ := t.to_, trace := m2.trace ++ [Call.set_state t.to_] },
          Ret.ok ()) : MachineImpl S I O C × Ret Unit) fun m4 _ => (m4, Ret.ok output)).1.trace
        = m.trace ++ l ∧
      ∀ c ∈ l, ∀ a b ev, c ≠ Call.on_exit a b ev ∧ c ≠ Call.on_enter a b ev := by
    refine ⟨[Call.set_state t.to_], rfl, ?_⟩
    intro c hc
    simp only [List.mem_singleton] at hc
    subst hc
    exact hset
  cases inv with
  | false => exact hplain
  | true =>
    cases input with
    | none => exact hplain
    | some i =>
      simp only [invoke_transition_action_eq]
      cases ha : t.action with
      | none =>
        refine ⟨[Call.set_state t.to_], by simp [run_action, calls_of, Ret.ofExcept], ?_⟩
        intro c hc
        simp only [List.mem_singleton] at hc
        subst hc
        exact hset
      | some f =>
        generalize hA : run_action (some f) i m.ctx_ = A
        obtain ⟨ca, ra⟩ := A
        cases ra with
        | error x =>
          refine ⟨[Call.action t.to_ i], by simp [calls_of, Ret.ofExcept], ?_⟩
          intro c hc
          simp only [List.mem_singleton] at hc
          subst hc
          exact hact i
        | ok out =>
          refine ⟨[Call.action t.to_ i, Call.set_state t.to_],
            by simp [calls_of, Ret.ofExcept], ?_⟩
          intro c hc
          simp only [List.mem_cons, List.mem_singleton, List.mem_nil_iff, or_false] at hc
          rcases hc with hc | hc
          · subst hc; exact hact i
          · subst hc; exact hset

theorem apply_transition_unsuppressed (m : MachineImpl S I O C) (t : Transition S I O C)
    (input : Option I) (inv : Bool)
    (h : t.suppress_enter_exit = false ∨ t.to_ ≠ m.current_) :
    m.apply_transition t input inv =
      m.apply_transition { t with suppress_enter_exit := false } input inv := by
  have hskip : (t.suppress_enter_exit && decide (t.to_ = m.current_)) = false := by
    rcases h with h | h <;> simp [h]
  simp only [apply_transition, state, hskip, Bool.false_and, invoke_transition_action]

theorem apply_completion_skip_no_hooks (m : MachineImpl S I O C) (c : Completion S O C)
    (hs : c.suppress_enter_exit = true) (hto : c.to_ = m.current_) :
    ∃ l, (m.apply_completion c).1.trace = m.trace ++ l ∧
      ∀ x ∈ l, ∀ a b ev, x ≠ Call.on_exit a b ev ∧ x ≠ Call.on_enter a b ev := by
  have hskip : (c.suppress_enter_exit && decide (c.to_ = m.current_)) = true := by
    simp [hs, hto]
  have hset : ∀ a b ev, (Call.set_state c.to_ : Call S I) ≠ Call.on_exit a b ev ∧
      (Call.set_state c.to_ : Call S I) ≠ Call.on_enter a b ev :=
    fun _ _ _ => ⟨fun h => (by cases h), fun h => (by cases h)⟩
  have hmark : ∀ a b ev, (Call.completion m.current_ c.to_ : Call S I) ≠ Call.on_exit a b ev ∧
      (Call.completion m.current_ c.to_ : Call S I) ≠ Call.on_enter a b ev :=
    fun _ _ _ => ⟨fun h => (by cases h), fun h => (by cases h)⟩
  have hact : ∀ a b ev,
      (Call.completion_action m.current_ c.to_ : Call S I) ≠ Call.on_exit a b ev ∧
      (Call.completion_action m.current_ c.to_ : Call S I) ≠ Call.on_enter a b ev :=
    fun _ _ _ => ⟨fun h => (by cases h), fun h => (by cases h)⟩
  simp only [apply_completion, state, hskip, if_true, andThen_ok, set_state_direct,
    invoke_completion_action_eq]
  cases ha : c.action with
  | none =>
    refine ⟨[Call.completion m.current_ c.to_, Call.set_state c.to_],
      by simp [run_completion_action, calls_of, Ret.ofExcept], ?_⟩
    intro x hx
    simp only [List.mem_cons, List.mem_singleton, List.mem_nil_iff, or_false] at hx
    rcases hx with hx | hx
    · subst hx; exact hmark
    · subst hx; exact hset
  | some f =>
    generalize hA : run_completion_action (some f) m.ctx_ = A
    obtain ⟨ca, ra⟩ := A
    cases ra with
    | error x =>
      refine ⟨[Call.completion m.current_ c.to_, Call.completion_action m.current_ c.to_],
        by simp [calls_of, Ret.ofExcept], ?_⟩
      intro x hx
      simp only [List.mem_cons, List.mem_singleton, List.mem_nil_iff, or_false] at hx
      rcases hx with hx | hx
      · subst hx; exact hmark
      · subst hx; exact hact
    | ok out =>
      refine ⟨[Call.completion m.current_ c.to_, Call.completion_action m.current_ c.to_,
        Call.set_state c.to_], by simp [calls_of, Ret.ofExcept], ?_⟩
      intro x hx
      simp only [List.mem_cons, List.mem_singleton, List.mem_nil_iff, or_false] at hx
      rcases hx with hx | hx | hx
      · subst hx; exact hmark
      · subst hx; exact hact
      · subst hx; exact hset

theorem apply_completion_unsuppressed (m : MachineImpl S I O C) (c : Completion S O C)
    (h : c.suppress_enter_exit = false ∨ c.to_ ≠ m.current_) :
    m.apply_completion c = m.apply_completion { c with suppress_enter_exit := false } := by
  have hskip : (c.suppress_enter_exit && decide (c.to_ = m.current_)) = false := by
    rcases h with h | h <;> simp [h]
  simp only [apply_completion, state, hskip, Bool.false_and, invoke_completion_action]

theorem apply_completion_normal (m : MachineImpl S I O C) (c : Completion S O C)
    (c1 c2 c3 : C) (out : Option O)
    (hskip : (c.suppress_enter_exit && decide (c.to_ = m.current_)) = false)
    (hexit : run_hook (exit_hook m.handlers_ m.current_) m.ctx_ m.current_ c.to_
      (none : Option I) = (c1, Except.ok ()))
    (hact : run_completion_action c.action c1 = (c2, Except.ok out))
    (henter : run_hook (enter_hook m.handlers_ c.to_) c2 m.current_ c.to_
      (none : Option I) = (c3, Except.ok ())) :
    m.apply_completion c =
      ({ m with
          current_ := c.to_, ctx_ := c3,
          trace := m.trace ++
            ([Call.completion m.current_ c.to_] ++
             calls_of (exit_hook m.handlers_ m.current_)
               (Call.on_exit m.current_ c.to_ none) ++
             calls_of c.action (Call.completion_action m.current_ c.to_) ++
             [Call.set_state c.to_] ++
             calls_of (enter_hook m.handlers_ c.to_)
               (Call.on_enter m.current_ c.to_ none)) },
        Ret.ok out) := by
  simp only [apply_completion, state, hskip, call_exit_eq, call_enter_eq,
    invoke_completion_action_eq, set_state_direct]
  simp [hexit, hact, henter, Ret.ofExcept, andThen]

/-- C10: for a transition or completion with target `to` applied in current state `from`.
When `suppress_enter_exit` is set and `to == from`, the application records no
`on_exit` and no `on_enter` call, whatever the callables do.  When the flag is unset or
`to != from`, the application is that of the same record with the flag unset, and when
the callables return normally it calls `on_exit` of `from` first and `on_enter` of
`to` last (each if registered), around the action and the state change. -/
theorem hooks_skipped_iff_suppressed_self_loop (m : MachineImpl S I O C) :
    (∀ (t : Transition S I O C) (input : Option I) (inv : Bool),
      t.suppress_enter_exit = true → t.to_ = m.current_ →
      ∃ l, (m.apply_transition t input inv).1.trace = m.trace ++ l ∧
        ∀ c ∈ l, ∀ a b ev, c ≠ Call.on_exit a b ev ∧ c ≠ Call.on_enter a b ev) ∧
    (∀ (t : Transition S I O C) (input : Option I) (inv : Bool),
      (t.suppress_enter_exit = false ∨ t.to_ ≠ m.current_) →
      m.apply_transition t input inv =
        m.apply_transition { t with suppress_enter_exit := false } input inv) ∧
    (∀ (t : Transition S I O C) (e : I) (c1 c2 c3 : C) (out : Option O),
      (t.suppress_enter_exit = false ∨ t.to_ ≠ m.current_) →
      run_hook (exit_hook m.handlers_ m.current_) m.ctx_ m.current_ t.to_ (some e)
        = (c1, Except.ok ()) →
      run_action t.action e c1 = (c2, Except.ok out) →
      run_hook (enter_hook m.handlers_ t.to_) c2 m.current_ t.to_ (some e)
        = (c3, Except.ok ()) →
      m.apply_transition t (some e) true =
        ({ m with
            current_ := t.to_, ctx_ := c3,
            trace := m.trace ++
              (calls_of (exit_hook m.handlers_ m.current_)
                 (Call.on_exit m.current_ t.to_ (some e)) ++
               calls_of t.action (Call.action t.to_ e) ++
               [Call.set_state t.to_] ++
               calls_of (enter_hook m.handlers_ t.to_)
                 (Call.on_enter m.current_ t.to_ (some e))) },
          Ret.ok out)) ∧
    (∀ (c : Completion S O C),
      c.suppress_enter_exit = true → c.to_ = m.current_ →
      ∃ l, (m.apply_completion c).1.trace = m.trace ++ l ∧
        ∀ x ∈ l, ∀ a b ev, x ≠ Call.on_exit a b ev ∧ x ≠ Call.on_enter a b ev) ∧
    (∀ (c : Completion S O C),
      (c.suppress_enter_exit = false ∨ c.to_ ≠ m.current_) →
      m.apply_completion c = m.apply_completion { c with suppress_enter_exit := false }) ∧
    (∀ (c : Completion S O C) (c1 c2 c3 : C) (out : Option O),
      (c.suppress_enter_exit = false ∨ c.to_ ≠ m.current_) →
      run_hook (exit_hook m.handlers_ m.current_) m.ctx_ m.current_ c.to_ (none : Option I)
        = (c1, Except.ok ()) →
      run_completion_action c.action c1 = (c2, Except.ok out) →
      run_hook (enter_hook m.handlers_ c.to_) c2 m.current_ c.to_ (none : Option I)
        = (c3, Except.ok ()) →
      m.apply_completion c =
        ({ m with
            current_ := c.to_, ctx_ := c3,
            trace := m.trace ++
              ([Call.completion m.current_ c.to_] ++
               calls_of (exit_hook m.handlers_ m.current_)
                 (Call.on_exit m.current_ c.to_ none) ++
               calls_of c.action (Call.completion_action m.current_ c.to_) ++
               [Call.set_state c.to_] ++
               calls_of (enter_hook m.handlers_ c.to_)
                 (Call.on_enter m.current_ c.to_ none)) },
          Ret.ok out)) := by
  refine ⟨?_, ?_, ?_, ?_, ?_, ?_⟩
  · intro t input inv hs hto
    exact apply_transition_skip_no_hooks m t input inv hs hto
  · intro t input inv h
    exact apply_transition_unsuppressed m t input inv h
  · intro t e c1 c2 c3 out h hexit hact henter
    have hskip : (t.suppress_enter_exit && decide (t.to_ = m.current_)) = false := by
      rcases h with h | h <;> simp [h]
    exact apply_transition_normal m e t c1 c2 c3 out hskip hexit hact henter
  · intro c hs hto
    exact apply_completion_skip_no_hooks m c hs hto
  · intro c h
    exact apply_completion_unsuppressed m c h
  · intro c c1 c2 c3 out h hexit hact henter
    have hskip : (c.suppress_enter_exit && decide (c.to_ = m.current_)) = false := by
      rcases h with h | h <;> simp [h]
    exact apply_completion_normal m c c1 c2 c3 out hskip hexit hact henter

end Commit

section Construction

variable {S I O C : Type} [DecidableEq S]

theorem drain_nothing_queued (fuel : Nat) (m : MachineImpl S I O C) (hfuel : 0 < fuel)
    (hq : Tbl.find m.deferrals_ m.current_ = none ∨ Tbl.find m.deferrals_ m.current_ = some [])
    (hf : m.draining_deferrals_ = false) :
    m.drain_deferrals_for_current_state fuel = some (m, Ret.ok ()) := by
  obtain ⟨n, rfl⟩ : ∃ n, fuel = n + 1 := ⟨fuel - 1, by omega⟩
  unfold drain_deferrals_for_current_state drain_with
  split
  · rfl
  · have hback : ({ m with draining_deferrals_ := false } : MachineImpl S I O C) = m := by
      cases m
      simp only at hf
      subst hf
      rfl
    have hloop : drain_loop (n + 1) { m with draining_deferrals_ := true }
        = some ({ m with draining_deferrals_ := true }, Ret.ok ()) := by
      unfold drain_loop
      rcases hq with hq | hq
      · simp only [hq]
      · simp only [hq]
    rw [hloop]
    simp only [tryFinallyF, tryFinally]
    rw [hback]

theorem process_completions_at_rest (m : MachineImpl S I O C)
    (ha : m.async_inflight_ = false) (hn : m.find_completion = none) :
    m.process_completions = (m, Ret.ok none) := by
  unfold process_completions
  split
  · rfl
  · rename_i hc
    split
    · rename_i hai
      rw [ha] at hai
      cases hai
    · have hp : m.processing_completions_ = false := by
        cases hpc : m.processing_completions_
        · rfl
        · simp [hpc] at hc
      have hfind : find_completion { m with processing_completions_ := true } = none := hn
      have hback : ({ m with processing_completions_ := false } : MachineImpl S I O C) = m := by
        cases m
        simp only at hp
        subst hp
        rfl
      rw [completion_loop, hfind]
      simp only [tryFinally]
      rw [hback]

theorem finalize_at_construction (fuel : Nat) (m2 : MachineImpl S I O C) (hfuel : 0 < fuel)
    (hd : m2.deferrals_ = []) (hf : m2.draining_deferrals_ = false) :
    andThenF (finalize_transition fuel m2 (none : Option O))
        (fun m3 _ => some (m3, Ret.ok ())) =
      some (m2.process_completions.1,
        match m2.process_completions.2 with
        | Ret.ok _ => Ret.ok ()
        | Ret.raised x => Ret.raised x
        | Ret.aborted => Ret.aborted) := by
  simp only [finalize_transition, finalize_transition_with]
  have hsd : SameDeferrals m2 m2.process_completions.1 :=
    process_completions_rel sameDeferrals_completionFrame m2
  generalize m2.process_completions = pc at hsd ⊢
  obtain ⟨m3, r⟩ := pc
  cases r with
  | raised x => rfl
  | aborted => rfl
  | ok out =>
    simp only [andThenF_ok]
    have hq : Tbl.find m3.deferrals_ m3.current_ = none := by
      rw [hsd.1]
      simp only [hd]
      rfl
    have hfl : m3.draining_deferrals_ = false := by
      rw [hsd.2.2]
      exact hf
    rw [drain_nothing_queued fuel m3 hfuel (Or.inl hq) hfl]
    rfl

theorem construct_body_of_enter (fuel : Nat) (m0 : MachineImpl S I O C) (hfuel : 0 < fuel)
    (hd : m0.deferrals_ = []) (hf : m0.draining_deferrals_ = false) (c1 : C)
    (henter : run_hook (enter_hook m0.handlers_ m0.current_) m0.ctx_ m0.current_ m0.current_
      (none : Option I) = (c1, Except.ok ())) :
    construct_body fuel m0 =
      some ((process_completions
          { m0 with
            ctx_ := c1,
            completion_limit_ :=
              (if (m0.completion_transitions_.map (fun entry => entry.2.length)).sum = 0 then 0
               else (m0.completion_transitions_.map (fun entry => entry.2.length)).sum + 1),
            trace := m0.trace ++ calls_of (enter_hook m0.handlers_ m0.current_)
              (Call.on_enter m0.current_ m0.current_ none) }).1,
        match (process_completions
          { m0 with
            ctx_ := c1,
            completion_limit_ :=
              (if (m0.completion_transitions_.map (fun entry => entry.2.length)).sum = 0 then 0
               else (m0.completion_transitions_.map (fun entry => entry.2.length)).sum + 1),
            trace := m0.trace ++ calls_of (enter_hook m0.handlers_ m0.current_)
              (Call.on_enter m0.current_ m0.current_ none) }).2 with
        | Ret.ok _ => Ret.ok ()
        | Ret.raised x => Ret.raised x
        | Ret.aborted => Ret.aborted) := by
  simp only [construct_body, call_enter_eq, henter, Ret.ofExcept, andThenF_ok]
  exact finalize_at_construction fuel _ hfuel hd hf

/-- C6: `build(ctx0)` with fuel for one drain test, when `on_enter` of the initial state
returns normally.  The machine on which completion processing starts is the freshly
initialised one after the single call `on_enter(ctx, initial, initial, nullptr)` (made
if that hook is registered) and nothing else; `build` then returns the machine that
completion processing leaves (whose trace extends that single call), so with no event
dispatched `state()` is the state the cascade reached, and it is the initial state when
no completion qualifies there. -/
theorem build_enters_then_completes (fuel : Nat) (b : Builder S I O C) (ctx0 c1 : C)
    (hfuel : 0 < fuel)
    (henter : run_hook (enter_hook b.states_ b.initial_) ctx0 b.initial_ b.initial_
      (none : Option I) = (c1, Except.ok ())) :
    ∃ (m2 m3 : MachineImpl S I O C) (r : Ret (Option O)),
      m2 = { current_ := b.initial_, handlers_ := b.states_,
             transitions_ := Builder.sort_each Transition.priority b.trans_,
             any_transitions_ := stable_sort Transition.priority b.any_,
             completion_transitions_ := Builder.sort_each Completion.priority b.completions_,
             ctx_ := c1, machine_unhandled_ := b.unhandled_,
             deferral_enabled_ := b.deferral_enabled_,
             completion_limit_ :=
               (if ((Builder.sort_each Completion.priority b.completions_).map
                     (fun entry => entry.2.length)).sum = 0 then 0
                else ((Builder.sort_each Completion.priority b.completions_).map
                     (fun entry => entry.2.length)).sum + 1),
             trace := calls_of (enter_hook b.states_ b.initial_)
               (Call.on_enter b.initial_ b.initial_ none) } ∧
      m2.process_completions = (m3, r) ∧
      b.build fuel ctx0 =
        some (m3, match r with
                  | Ret.ok _ => Ret.ok ()
                  | Ret.raised x => Ret.raised x
                  | Ret.aborted => Ret.aborted) ∧
      TraceGrows m2 m3 ∧
      (m2.find_completion = none → m3.current_ = b.initial_ ∧ r = Ret.ok none) := by
  refine ⟨_, _, _, rfl, Prod.mk.eta.symm, ?_,
    process_completions_rel traceGrows_frame.toCompletionFrame _, ?_⟩
  · exact construct_body_of_enter fuel _ hfuel rfl rfl c1 henter
  · intro hn
    have h := process_completions_at_rest _ rfl hn
    rw [h]
    exact ⟨rfl, rfl⟩

/-- The `enter_exit` builder: after `build`, the log is `enter:Idle`, the only call made
is `on_enter(ctx, Idle, Idle, nullptr)`, and the state is the initial state. -/
theorem build_enters_then_completes_witness :
    Examples.hookBuilder.build 1 [] =
      some ({ Examples.hookMachine Examples.HState.Idle ["enter:Idle"] with
              trace := [Call.on_enter Examples.HState.Idle Examples.HState.Idle none] },
            Ret.ok ()) := by
  obtain ⟨m2, m3, r, h2, hpc, hb, _, _⟩ := build_enters_then_completes 1 Examples.hookBuilder []
    ["enter:Idle"] (by decide) (by rfl)
  have h3 : (m3, r) =
      (({ Examples.hookMachine Examples.HState.Idle ["enter:Idle"] with
          trace := [Call.on_enter Examples.HState.Idle Examples.HState.Idle none] } :
          MachineImpl Examples.HState Examples.HInput String (List String)),
        (Ret.ok none : Ret (Option String))) := by
    rw [← hpc, h2]
    rfl
  cases h3
  exact hb

end Construction

end MachineImpl

namespace MachineImpl

section Fixpoint

variable {S I O C : Type} [DecidableEq S]

theorem andThen_eq_ok {M α β : Type} (r : M × Ret α) (k : M → α → M × Ret β) (m1 : M) (b : β)
    (h : andThen r k = (m1, Ret.ok b)) :
    ∃ m0 a, r = (m0, Ret.ok a) ∧ k m0 a = (m1, Ret.ok b) := by
  obtain ⟨m0, o⟩ := r
  cases o with
  | ok a => exact ⟨m0, a, rfl, h⟩
  | raised x => simp [andThen] at h
  | aborted => simp [andThen] at h

theorem andThenF_eq_ok {M α β : Type} (r : Option (M × Ret α))
    (k : M → α → Option (M × Ret β)) (m1 : M) (b : β)
    (h : andThenF r k = some (m1, Ret.ok b)) :
    ∃ m0 a, r = some (m0, Ret.ok a) ∧ k m0 a = some (m1, Ret.ok b) := by
  cases r with
  | none => simp at h
  | some r0 =>
    obtain ⟨m0, o⟩ := r0
    cases o with
    | ok a => exact ⟨m0, a, rfl, h⟩
    | raised x => simp at h
    | aborted => simp at h

theorem tryFinally_eq_ok {M α : Type} (r : M × Ret α) (cleanup : M → M) (m1 : M) (a : α)
    (h : tryFinally r cleanup = (m1, Ret.ok a)) :
    ∃ m0, r = (m0, Ret.ok a) ∧ m1 = cleanup m0 := by
  obtain ⟨m0, o⟩ := r
  cases o with
  | ok a0 =>
    simp only [tryFinally, Prod.mk.injEq, Ret.ok.injEq] at h
    obtain ⟨h1, h2⟩ := h
    subst h2
    exact ⟨m0, rfl, h1.symm⟩
  | raised x => simp [tryFinally] at h
  | aborted => simp [tryFinally] at h

theorem quiet_append_left {limit : Nat} {l1 l2 : List (Call S I)}
    (h : Quiet limit (l1 ++ l2)) : Quiet limit l1 := by
  obtain ⟨hc, hu⟩ := h
  rw [List.countP_append] at hc
  exact ⟨by omega, fun c hcm => hu c (List.mem_append_left _ hcm)⟩

theorem quiet_append_right {limit : Nat} {l1 l2 : List (Call S I)}
    (h : Quiet limit (l1 ++ l2)) : Quiet limit l2 := by
  obtain ⟨hc, hu⟩ := h
  rw [List.countP_append] at hc
  exact ⟨by omega, fun c hcm => hu c (List.mem_append_right _ hcm)⟩

theorem moves_refl (m : MachineImpl S I O C) : Moves m m :=
  ⟨sameConfig_frame.refl m, rfl, List.prefix_refl _⟩

theorem moves_trans {a b c : MachineImpl S I O C} (h1 : Moves a b) (h2 : Moves b c) :
    Moves a c :=
  ⟨sameConfig_frame.trans _ _ _ h1.1 h2.1, h2.2.1.trans h1.2.1,
    List.IsPrefix.trans h1.2.2 h2.2.2⟩

theorem atRest_of_moves {a b : MachineImpl S I O C} (h : Moves a b) (ha : AtRest a) :
    AtRest b := by
  obtain ⟨⟨_, _, _, hc, _, _, hl, _⟩, hp, _⟩ := h
  refine ⟨hp.trans ha.1, ?_⟩
  intro h0
  rw [hc]
  exact ha.2 (hl ▸ h0)

theorem trace_split {a b c : MachineImpl S I O C} (h1 : Moves a b) (h2 : Moves b c)
    (l : List (Call S I)) (hl : c.trace = a.trace ++ l) :
    ∃ l1 l2, b.trace = a.trace ++ l1 ∧ c.trace = b.trace ++ l2 ∧ l = l1 ++ l2 := by
  obtain ⟨l1, h1'⟩ := h1.2.2
  obtain ⟨l2, h2'⟩ := h2.2.2
  refine ⟨l1, l2, h1'.symm, h2'.symm, ?_⟩
  have : a.trace ++ l = a.trace ++ (l1 ++ l2) := by
    rw [← hl, ← h2', ← h1', List.append_assoc]
  exact List.append_cancel_left this

theorem settles_of_moves_settles {a b c : MachineImpl S I O C} (h1 : Moves a b)
    (h2 : Settles b c) : Settles a c := by
  refine ⟨moves_trans h1 h2.1, ?_⟩
  intro l hl hq
  obtain ⟨l1, l2, _, hbc, rfl⟩ := trace_split h1 h2.1 l hl
  have hlim : b.completion_limit_ = a.completion_limit_ := h1.1.2.2.2.2.2.2.1
  exact h2.2 l2 hbc (hlim ▸ quiet_append_right hq)

theorem settles_of_settles_keeps {a b c : MachineImpl S I O C} (h1 : Settles a b)
    (h2 : Keeps b c) : Settles a c := by
  refine ⟨moves_trans h1.1 h2.1, ?_⟩
  intro l hl hq
  obtain ⟨l1, l2, hab, hbc, rfl⟩ := trace_split h1.1 h2.1 l hl
  have hlim : b.completion_limit_ = a.completion_limit_ := h1.1.1.2.2.2.2.2.2.1
  exact h2.2 l2 hbc (hlim ▸ quiet_append_right hq) (h1.2 l1 hab (quiet_append_left hq))

theorem keeps_trans {a b c : MachineImpl S I O C} (h1 : Keeps a b) (h2 : Keeps b c) :
    Keeps a c := by
  refine ⟨moves_trans h1.1 h2.1, ?_⟩
  intro l hl hq hfa
  obtain ⟨l1, l2, hab, hbc, rfl⟩ := trace_split h1.1 h2.1 l hl
  have hlim : b.completion_limit_ = a.completion_limit_ := h1.1.1.2.2.2.2.2.2.1
  exact h2.2 l2 hbc (hlim ▸ quiet_append_right hq)
    (h1.2 l1 hab (quiet_append_left hq) hfa)

theorem keeps_of_settles {a b : MachineImpl S I O C} (h : Settles a b) : Keeps a b :=
  ⟨h.1, fun l hl hq _ => h.2 l hl hq⟩

theorem keeps_refl (m : MachineImpl S I O C) : Keeps m m :=
  ⟨moves_refl m, fun _ _ _ h => h⟩

theorem moves_commitFrame : CommitFrame (Moves (S := S) (I := I) (O := O) (C := C)) where
  refl := moves_refl
  trans := fun _ _ _ h1 h2 => moves_trans h1 h2
  ctx_trace := fun m c l =>
    ⟨sameConfig_frame.ctx_trace m c l, rfl, traceGrows_frame.ctx_trace m c l⟩
  state_trace := fun m s l =>
    ⟨sameConfig_frame.state_trace m s l, rfl, traceGrows_frame.state_trace m s l⟩

theorem find_completion_congr (a b : MachineImpl S I O C) (h1 : b.current_ = a.current_)
    (h2 : b.ctx_ = a.ctx_) (h3 : b.completion_transitions_ = a.completion_transitions_) :
    b.find_completion = a.find_completion := by
  simp only [find_completion, state, context, h1, h2, h3]

theorem apply_completion_after_marker (m : MachineImpl S I O C) (c : Completion S O C) :
    TraceGrows { m with trace := m.trace ++ [Call.completion m.current_ c.to_] }
      (m.apply_completion c).1 := by
  have hP := (traceGrows_frame (S := S) (I := I) (O := O) (C := C)).toCompletionFrame.toCommitFrame
  unfold apply_completion
  simp only [state]
  refine andThen_rel TraceGrows _ _ _ ?_ ?_
  · split
    · exact hP.refl _
    · exact call_exit_rel hP _ _ _ _
  · intro m1 _ h1
    refine andThen_rel TraceGrows _ _ _ ?_ ?_
    · exact hP.trans _ _ _ h1 (invoke_completion_action_rel hP m1 c)
    · intro m2 out h2
      refine andThen_rel TraceGrows _ _ _ ?_ ?_
      · have h3 := hP.trans _ _ _ h2 (set_state_direct_rel hP m2 c.to_)
        split
        · exact h3
        · exact hP.trans _ _ _ h3 (call_enter_rel hP _ _ _ _ _)
      · intro m4 _ h4
        exact h4

theorem apply_completion_counts (m : MachineImpl S I O C) (c : Completion S O C)
    (l : List (Call S I)) (hl : (m.apply_completion c).1.trace = m.trace ++ l) :
    1 ≤ l.countP Call.is_completion := by
  obtain ⟨l2, h2⟩ := apply_completion_after_marker m c
  simp only at h2
  have : m.trace ++ l = m.trace ++ (Call.completion m.current_ c.to_ :: l2) := by
    rw [← hl, ← h2, List.append_assoc]
    rfl
  have hl' := List.append_cancel_left this
  subst hl'
  simp [List.countP_cons, Call.is_completion]

theorem completion_loop_settles (bound : Nat) :
    ∀ (output : Option O) (steps : Nat) (m m1 : MachineImpl S I O C) (out : Option O),
      m.completion_limit_ + 2 ≤ steps + bound →
      completion_loop output steps bound m = (m1, Ret.ok out) →
      Moves m m1 ∧ ∀ l, m1.trace = m.trace ++ l →
        m1.find_completion = none ∨
          m.completion_limit_ + 1 ≤ l.countP Call.is_completion + steps := by
  induction bound with
  | zero =>
    intro output steps m m1 out hb h
    simp only [completion_loop, Prod.mk.injEq] at h
    obtain ⟨h1, _⟩ := h
    subst h1
    exact ⟨moves_refl m, fun l _ => Or.inr (by omega)⟩
  | succ n ih =>
    intro output steps m m1 out hb h
    unfold completion_loop at h
    split at h
    · rename_i hnone
      simp only [Prod.mk.injEq] at h
      obtain ⟨h1, _⟩ := h
      subst h1
      exact ⟨moves_refl m, fun l _ => Or.inl hnone⟩
    · rename_i c hsome
      split at h
      · rename_i hgt
        simp only [Prod.mk.injEq] at h
        obtain ⟨h1, _⟩ := h
        subst h1
        exact ⟨moves_refl m, fun l _ => Or.inr (by omega)⟩
      · rename_i hle
        obtain ⟨m0, r, happ, hrest⟩ := andThen_eq_ok _ _ _ _ h
        have hmv : Moves m m0 := by
          have := apply_completion_rel moves_commitFrame m c
          rw [happ] at this
          exact this
        have hlim : m0.completion_limit_ = m.completion_limit_ := hmv.1.2.2.2.2.2.2.1
        obtain ⟨hmv2, hcount⟩ := ih _ (steps + 1) m0 m1 out (by omega) hrest
        refine ⟨moves_trans hmv hmv2, ?_⟩
        intro l hl
        obtain ⟨l1, l2, h1, h2, rfl⟩ := trace_split hmv hmv2 l hl
        have hone : 1 ≤ l1.countP Call.is_completion := by
          apply apply_completion_counts m c l1
          rw [happ]
          exact h1
        rcases hcount l2 h2 with hf | hc
        · exact Or.inl hf
        · right
          rw [List.countP_append]
          omega

theorem tbl_mem_of_find {K V : Type} [DecidableEq K] (tbl : List (K × V)) (k : K) (v : V)
    (h : Tbl.find tbl k = some v) : ∃ k1, (k1, v) ∈ tbl := by
  induction tbl with
  | nil => simp [Tbl.find] at h
  | cons entry rest ih =>
    obtain ⟨k0, v0⟩ := entry
    simp only [Tbl.find] at h
    split at h
    · simp only [Option.some.injEq] at h
      subst h
      exact ⟨k0, List.mem_cons_self _ _⟩
    · obtain ⟨k1, hk1⟩ := ih h
      exact ⟨k1, List.mem_cons_of_mem _ hk1⟩

theorem process_completions_settles (m m1 : MachineImpl S I O C) (out : Option O)
    (hrest : AtRest m) (h : m.process_completions = (m1, Ret.ok out)) : Settles m m1 := by
  unfold process_completions at h
  split at h
  · rename_i hc
    simp only [Prod.mk.injEq] at h
    obtain ⟨h1, _⟩ := h
    subst h1
    refine ⟨moves_refl m, ?_⟩
    intro l _ _
    have hzero : m.completion_limit_ = 0 := by
      cases hp : m.processing_completions_
      · simpa [hp] using hc
      · rw [hrest.1] at hp
        cases hp
    have hempty := hrest.2 hzero
    simp only [find_completion, state, context]
    cases hf : Tbl.find m.completion_transitions_ m.current_ with
    | none => rfl
    | some vec =>
      have hmem := tbl_mem_of_find _ _ _ hf
      obtain ⟨k, hk⟩ := hmem
      have := hempty (k, vec) hk
      simp only at this
      subst this
      rfl
  · split at h
    · simp at h
    · obtain ⟨m0, hloop, hm1⟩ := tryFinally_eq_ok _ _ _ _ h
      obtain ⟨hmv, hcount⟩ := completion_loop_settles _ _ 0 _ m0 out (by simp) hloop
      subst hm1
      have hmv' : Moves m { m0 with processing_completions_ := false } := by
        obtain ⟨hcfg, _, htr⟩ := hmv
        exact ⟨hcfg, hrest.1.symm, htr⟩
      refine ⟨hmv', ?_⟩
      intro l hl hq
      rcases hcount l hl with hf | hc
      · exact hf
      · have := hq.1
        simp only at hc
        omega

theorem notify_unhandled_keeps (m m1 : MachineImpl S I O C) (e : I) (out : Option O)
    (h : m.notify_unhandled e = (m1, Ret.ok out)) : Keeps m m1 := by
  have hmv : Moves m m1 := by
    have := notify_unhandled_rel (O := O) moves_commitFrame m e
    rw [h] at this
    exact this
  refine ⟨hmv, ?_⟩
  intro l hl hq hfind
  cases hs : m.state_unhandled_hook with
  | some f =>
    rw [notify_unhandled_state m e f hs] at h
    simp only [Prod.mk.injEq] at h
    obtain ⟨h1, _⟩ := h
    subst h1
    have := List.append_cancel_left hl
    subst this
    have hbad := hq.2 (Call.on_unhandled_state m.current_ e) (List.mem_singleton.2 rfl)
    simp [Call.is_unhandled] at hbad
  | none =>
    cases hmu : m.machine_unhandled_ with
    | some f =>
      rw [notify_unhandled_machine m e f hs hmu] at h
      simp only [Prod.mk.injEq] at h
      obtain ⟨h1, _⟩ := h
      subst h1
      have := List.append_cancel_left hl
      subst this
      have hbad := hq.2 (Call.on_unhandled_machine m.current_ e) (List.mem_singleton.2 rfl)
      simp [Call.is_unhandled] at hbad
    | none =>
      rw [notify_unhandled_nothing m e hs hmu] at h
      simp only [Prod.mk.injEq] at h
      obtain ⟨h1, _⟩ := h
      subst h1
      exact hfind

theorem keeps_draining (m : MachineImpl S I O C) (v : Bool) :
    Keeps m { m with draining_deferrals_ := v } :=
  ⟨⟨sameConfig_frame.draining m v, rfl, List.prefix_refl _⟩, fun _ _ _ h => h⟩

theorem keeps_deferrals (m : MachineImpl S I O C) (d : List (S × List I)) :
    Keeps m { m with deferrals_ := d } :=
  ⟨⟨sameConfig_frame.deferrals m d, rfl, List.prefix_refl _⟩, fun _ _ _ h => h⟩

theorem finalize_transition_with_settles
    (drain : MachineImpl S I O C → Option (MachineImpl S I O C × Ret Unit))
    (hd : ∀ m m1 a, AtRest m → drain m = some (m1, Ret.ok a) → Keeps m m1)
    (m m1 : MachineImpl S I O C) (result v : Option O) (hrest : AtRest m)
    (h : finalize_transition_with drain m result = some (m1, Ret.ok v)) : Settles m m1 := by
  unfold finalize_transition_with at h
  obtain ⟨m2, cout, hpc, h2⟩ := andThenF_eq_ok _ _ _ _ h
  simp only [Option.some.injEq] at hpc
  have hs := process_completions_settles m m2 cout hrest hpc
  obtain ⟨m3, u, hdr, h3⟩ := andThenF_eq_ok _ _ _ _ h2
  simp only [Option.some.injEq, Prod.mk.injEq] at h3
  obtain ⟨h3, _⟩ := h3
  subst h3
  exact settles_of_settles_keeps hs (hd m2 m3 u (atRest_of_moves hs.1 hrest) hdr)

theorem handle_input_with_keeps
    (drain : MachineImpl S I O C → Option (MachineImpl S I O C × Ret Unit))
    (hd : ∀ m m1 a, AtRest m → drain m = some (m1, Ret.ok a) → Keeps m m1)
    (m m1 : MachineImpl S I O C) (e : I) (v : Option O) (hrest : AtRest m)
    (h : handle_input_with drain m e = some (m1, Ret.ok v)) : Keeps m m1 := by
  simp only [handle_input_with] at h
  split at h
  · rename_i t ht
    split at h
    · obtain ⟨m2, out, happ, h2⟩ := andThenF_eq_ok _ _ _ _ h
      simp only [Option.some.injEq] at happ
      have hmv : Moves m m2 := by
        have h1 : Moves m (m.push_deferral t.to_ e) :=
          ⟨sameConfig_frame.deferrals m _, rfl, List.prefix_refl _⟩
        have h2 := apply_transition_rel moves_commitFrame (m.push_deferral t.to_ e) t
          (some e) false
        rw [happ] at h2
        exact moves_trans h1 h2
      exact keeps_of_settles (settles_of_moves_settles hmv
        (finalize_transition_with_settles drain hd m2 m1 none v (atRest_of_moves hmv hrest) h2))
    · obtain ⟨m2, out, happ, h2⟩ := andThenF_eq_ok _ _ _ _ h
      simp only [Option.some.injEq] at happ
      have hmv : Moves m m2 := by
        have h2 := apply_transition_rel moves_commitFrame m t (some e) true
        rw [happ] at h2
        exact h2
      exact keeps_of_settles (settles_of_moves_settles hmv
        (finalize_transition_with_settles drain hd m2 m1 out v (atRest_of_moves hmv hrest) h2))
  · simp only [Option.some.injEq] at h
    exact notify_unhandled_keeps m m1 e v h

theorem drain_with_keeps
    (loop : MachineImpl S I O C → Option (MachineImpl S I O C × Ret Unit))
    (hl : ∀ m m1 a, AtRest m → loop m = some (m1, Ret.ok a) → Keeps m m1)
    (m m1 : MachineImpl S I O C) (a : Unit) (hrest : AtRest m)
    (h : drain_with loop m = some (m1, Ret.ok a)) : Keeps m m1 := by
  unfold drain_with at h
  split at h
  · simp only [Option.some.injEq, Prod.mk.injEq] at h
    obtain ⟨h1, _⟩ := h
    subst h1
    exact keeps_refl m
  · unfold tryFinallyF at h
    split at h
    · simp at h
    · rename_i p hp
      simp only [Option.some.injEq] at h
      obtain ⟨m0, hp0, hm1⟩ := tryFinally_eq_ok _ _ _ _ h
      subst hp0
      subst hm1
      have h1 := keeps_draining m true
      have h2 := hl _ m0 a (atRest_of_moves h1.1 hrest) hp
      exact keeps_trans (keeps_trans h1 h2) (keeps_draining m0 false)

theorem drain_loop_keeps (fuel : Nat) :
    ∀ (m m1 : MachineImpl S I O C) (a : Unit), AtRest m →
      drain_loop fuel m = some (m1, Ret.ok a) → Keeps m m1 := by
  induction fuel with
  | zero => intro m m1 a _ h; simp [drain_loop] at h
  | succ n ih =>
    intro m m1 a hrest h
    unfold drain_loop at h
    split at h
    · simp only [Option.some.injEq, Prod.mk.injEq] at h
      obtain ⟨h1, _⟩ := h
      subst h1
      exact keeps_refl m
    · simp only [Option.some.injEq, Prod.mk.injEq] at h
      obtain ⟨h1, _⟩ := h
      subst h1
      exact keeps_refl m
    · rename_i next rest hq
      obtain ⟨m2, v, hh, h2⟩ := andThenF_eq_ok _ _ _ _ h
      have h0 := keeps_deferrals m (Tbl.modify [] List.tail m.deferrals_ m.current_)
      have h1 := handle_input_with_keeps _ (drain_with_keeps _ ih) _ m2 next v
        (atRest_of_moves h0.1 hrest) hh
      have h01 := keeps_trans h0 h1
      exact keeps_trans h01 (ih m2 m1 a (atRest_of_moves h01.1 hrest) h2)

theorem drain_deferrals_keeps (fuel : Nat) (m m1 : MachineImpl S I O C) (a : Unit)
    (hrest : AtRest m) (h : m.drain_deferrals_for_current_state fuel = some (m1, Ret.ok a)) :
    Keeps m m1 :=
  drain_with_keeps _ (drain_loop_keeps fuel) m m1 a hrest h

theorem dispatch_settles (fuel : Nat) (m m1 : MachineImpl S I O C) (e : I)
    (t : Transition S I O C) (v : Option O) (hsel : m.find_transition e = some t)
    (hrest : AtRest m) (h : m.dispatch fuel e = some (m1, Ret.ok v)) : Settles m m1 := by
  rw [dispatch_of_selected fuel m e t hsel] at h
  split at h
  · obtain ⟨m2, out, happ, h2⟩ := andThenF_eq_ok _ _ _ _ h
    simp only [Option.some.injEq] at happ
    have hmv : Moves m m2 := by
      have h1 : Moves m (m.push_deferral t.to_ e) :=
        ⟨sameConfig_frame.deferrals m _, rfl, List.prefix_refl _⟩
      have h2 := apply_transition_rel moves_commitFrame (m.push_deferral t.to_ e) t
        (some e) false
      rw [happ] at h2
      exact moves_trans h1 h2
    exact settles_of_moves_settles hmv
      (finalize_transition_with_settles _ (drain_deferrals_keeps fuel) m2 m1 none v
        (atRest_of_moves hmv hrest) h2)
  · obtain ⟨m2, out, happ, h2⟩ := andThenF_eq_ok _ _ _ _ h
    simp only [Option.some.injEq] at happ
    have hmv : Moves m m2 := by
      have h2 := apply_transition_rel moves_commitFrame m t (some e) true
      rw [happ] at h2
      exact h2
    exact settles_of_moves_settles hmv
      (finalize_transition_with_settles _ (drain_deferrals_keeps fuel) m2 m1 out v
        (atRest_of_moves hmv hrest) h2)

theorem construct_body_atRest (fuel : Nat) (m0 m : MachineImpl S I O C)
    (hp : m0.processing_completions_ = false)
    (h : construct_body fuel m0 = some (m, Ret.ok ())) : AtRest m := by
  unfold construct_body at h
  obtain ⟨m1, u, henter, h2⟩ := andThenF_eq_ok _ _ _ _ h
  simp only [Option.some.injEq] at henter
  have hmv : Moves m0 m1 := by
    have := call_enter_rel moves_commitFrame m0 m0.current_ m0.current_ m0.current_ none
    rw [henter] at this
    exact this
  obtain ⟨m3, v, hfin, h3⟩ := andThenF_eq_ok _ _ _ _ h2
  simp only [Option.some.injEq, Prod.mk.injEq] at h3
  obtain ⟨h3, _⟩ := h3
  subst h3
  have hrest2 : AtRest { m1 with completion_limit_ :=
      if (m1.completion_transitions_.map (fun entry => entry.2.length)).sum = 0 then 0
      else (m1.completion_transitions_.map (fun entry => entry.2.length)).sum + 1 } := by
    refine ⟨hmv.2.1.trans hp, ?_⟩
    intro hzero entry hentry
    simp only at hzero hentry
    have hsum : (m1.completion_transitions_.map (fun entry => entry.2.length)).sum = 0 := by
      by_contra hne
      rw [if_neg hne] at hzero
      omega
    have hlen : entry.2.length = 0 := by
      have hmem : entry.2.length ∈ m1.completion_transitions_.map (fun entry => entry.2.length) :=
        List.mem_map.2 ⟨entry, hentry, rfl⟩
      have hle := List.single_le_sum (fun _ _ => Nat.zero_le _) _ hmem
      omega
    exact List.length_eq_zero.1 hlen
  have hs := finalize_transition_with_settles _ (drain_deferrals_keeps fuel) _ m3 none v
    hrest2 hfin
  exact atRest_of_moves hs.1 hrest2

/-- C5 (amended): for a machine that is outside completion processing and whose
`completion_limit_` is zero only when no completion is declared, if `dispatch(e)`
selects a transition and returns normally, at most `completion_limit_` completions
were applied during the call, and no `on_unhandled` hook was called during it, then
no completion declared for the resulting state has an absent or true guard:
`find_completion` on the resulting machine yields nothing. -/
theorem completion_fixpoint_unless_cut (fuel : Nat) (m m1 : MachineImpl S I O C) (e : I)
    (t : Transition S I O C) (v : Option O) (l : List (Call S I))
    (hsel : m.find_transition e = some t)
    (hproc : m.processing_completions_ = false)
    (hlimit : m.completion_limit_ = 0 → ∀ entry ∈ m.completion_transitions_, entry.2 = [])
    (hret : m.dispatch fuel e = some (m1, Ret.ok v))
    (hl : m1.trace = m.trace ++ l)
    (hcount : l.countP Call.is_completion ≤ m.completion_limit_)
    (hquiet : ∀ c ∈ l, Call.is_unhandled c = false) :
    m1.find_completion = none :=
  (dispatch_settles fuel m m1 e t v hsel ⟨hproc, hlimit⟩ hret).2 l hl ⟨hcount, hquiet⟩

/-- The `value_completion_sort` machine, dispatching `Token`: one completion is applied,
within the limit of 5, and the machine comes to rest in `Finish`. -/
theorem completion_fixpoint_unless_cut_witness :
    MachineImpl.find_completion
      ({ Examples.valueMachine with
          current_ := Examples.VState.Finish, ctx_ := 12,
          trace := [Call.action Examples.VState.BranchB Examples.VInput.Token,
                    Call.set_state Examples.VState.BranchB,
                    Call.completion Examples.VState.BranchB Examples.VState.Finish,
                    Call.completion_action Examples.VState.BranchB Examples.VState.Finish,
                    Call.set_state Examples.VState.Finish] } :
        MachineImpl Examples.VState Examples.VInput String Int) = none :=
  completion_fixpoint_unless_cut 0 Examples.valueMachine _ Examples.VInput.Token
    Examples.tokenB (some "second")
    [Call.action Examples.VState.BranchB Examples.VInput.Token,
     Call.set_state Examples.VState.BranchB,
     Call.completion Examples.VState.BranchB Examples.VState.Finish,
     Call.completion_action Examples.VState.BranchB Examples.VState.Finish,
     Call.set_state Examples.VState.Finish]
    (by rfl) (by rfl) (by intro h; cases h) (by rfl) (by rfl) (by decide) (by decide)

/-- C5 (counterexample): the machine built by `make_loop` with one transition added.
`build` returns it in `LoopA`; `dispatch` of the event selects the transition and
returns normally with `none`, in state `LoopA`; yet `find_completion` on the resulting
machine yields the unguarded completion `LoopA -> LoopB`. -/
theorem completion_fixpoint_counterexample :
    Examples.loopBuilder.build 1 () = some (Examples.loopMachine, Ret.ok ()) ∧
    (Examples.loopMachine.find_transition ()).isSome = true ∧
    (Examples.loopMachine.dispatch 1 ()).map
        (fun r => (r.2, r.1.current_, r.1.find_completion.isSome))
      = some (Ret.ok none, Examples.LState.LoopA, true) :=
  ⟨by rfl, by rfl, by rfl⟩

end Fixpoint

end MachineImpl

namespace MachineImpl

section Queues

variable {S I O C : Type} [DecidableEq S]

theorem handle_input_eq_dispatch (fuel : Nat) (m : MachineImpl S I O C) (e : I) :
    m.handle_input fuel e = m.dispatch fuel e := by
  unfold handle_input handle_input_with dispatch commit select Selection.valid_ Selection.get
  cases m.find_transition e with
  | none => rfl
  | some t =>
    simp only [Option.isSome_some, if_true]
    rfl

theorem samePending_dispatchFrame :
    DispatchFrame (SamePending (S := S) (I := I) (O := O) (C := C)) where
  refl := fun _ => rfl
  trans := fun _ _ _ h1 h2 => Eq.trans h2 h1
  ctx_trace := fun _ _ _ => rfl
  state_trace := fun _ _ _ => rfl
  processing := fun _ _ => rfl
  draining := fun _ _ => rfl
  push := fun _ _ _ => rfl
  pop := fun _ => rfl

theorem dispatch_keeps_pending (fuel : Nat) (m m1 : MachineImpl S I O C) (e : I)
    (r : Ret (Option O)) (h : m.dispatch fuel e = some (m1, r)) :
    m1.pending_inputs_ = m.pending_inputs_ :=
  dispatch_rel samePending_dispatchFrame fuel e m (m1, r) h

theorem dispatch_all_loop_eq (fuel : Nat) :
    ∀ (rounds : Nat) (m : MachineImpl S I O C) (outputs : List O),
      m.pending_inputs_.length < rounds →
      dispatch_all_loop fuel rounds m outputs =
        andThenF (dispatch_in_order fuel m m.pending_inputs_) fun m1 outs =>
          some (m1, Ret.ok (outputs ++ outs)) := by
  intro rounds
  induction rounds with
  | zero => intro m outputs h; cases h
  | succ n ih =>
    intro m outputs h
    unfold dispatch_all_loop
    cases hq : m.pending_inputs_ with
    | nil => simp [dispatch_in_order, andThenF]
    | cons next rest =>
      simp only [dispatch_in_order, handle_input_eq_dispatch]
      cases hd : dispatch fuel { m with pending_inputs_ := rest } next with
      | none => rfl
      | some p =>
        obtain ⟨m1, r⟩ := p
        have hp : m1.pending_inputs_ = rest := dispatch_keeps_pending fuel _ m1 next r hd
        cases r with
        | raised x => rfl
        | aborted => rfl
        | ok out =>
          simp only [andThenF]
          have hlen : m1.pending_inputs_.length < n := by
            rw [hp]
            rw [hq] at h
            simp only [List.length_cons] at h
            omega
          rw [ih m1 _ hlen, hp]
          cases dispatch_in_order fuel m1 rest with
          | none => rfl
          | some p2 =>
            obtain ⟨m2, r2⟩ := p2
            cases r2 with
            | raised x => rfl
            | aborted => rfl
            | ok outs =>
              cases out <;> simp [andThenF]

theorem dispatch_in_order_pending (fuel : Nat) :
    ∀ (es : List I) (m m1 : MachineImpl S I O C) (outs : List O),
      m.pending_inputs_ = es → dispatch_in_order fuel m es = some (m1, Ret.ok outs) →
      m1.pending_inputs_ = [] := by
  intro es
  induction es with
  | nil =>
    intro m m1 outs hq h
    simp only [dispatch_in_order, Option.some.injEq, Prod.mk.injEq] at h
    rw [← h.1]
    exact hq
  | cons e es ih =>
    intro m m1 outs _ h
    simp only [dispatch_in_order] at h
    obtain ⟨m2, out, hd, h2⟩ := andThenF_eq_ok _ _ _ _ h
    obtain ⟨m3, outs2, hd2, h3⟩ := andThenF_eq_ok _ _ _ _ h2
    simp only [Option.some.injEq, Prod.mk.injEq] at h3
    rw [← h3.1]
    exact ih m2 m3 outs2 (dispatch_keeps_pending fuel _ m2 e _ hd) hd2

end Queues

end MachineImpl

namespace MachineImpl

section QueueClaims

variable {S I O C : Type} [DecidableEq S]

theorem andThenF_pure {M α : Type} (r : Option (M × Ret α)) :
    andThenF r (fun m a => some (m, Ret.ok a)) = r := by
  cases r with
  | none => rfl
  | some p =>
    obtain ⟨m, o⟩ := p
    cases o <;> rfl

theorem dispatch_all_nothing_pending (fuel : Nat) (m : MachineImpl S I O C)
    (hq : m.pending_inputs_ = []) (hfuel : 0 < fuel) :
    m.dispatch_all fuel = some (m, Ret.ok []) := by
  obtain ⟨n, rfl⟩ : ∃ n, fuel = n + 1 := ⟨fuel - 1, by omega⟩
  unfold dispatch_all dispatch_all_loop
  simp only [hq]

/-- C11: `dispatch_all()` on a machine whose pending queue is `[e1, ..., en]`, with fuel
for `n + 1` loop tests.  The call does what dispatching `e1`, ..., `en` one after the
other does, each event taken off the front of the queue and dispatched on the machine
the previous one left: it runs, raises or runs out of fuel exactly when that sequence
of dispatches does, leaves the same machine, and returns the outputs those dispatches
produced, in their order, a dispatch that returned nothing contributing nothing.  When
it returns, the pending queue is empty and a `dispatch_all()` that follows at once
returns the empty vector and leaves the machine as it is.  The callables of the model
have no access to the machine, so nothing is enqueued during the call. -/
theorem dispatch_all_in_queue_order (fuel : Nat) (m : MachineImpl S I O C)
    (hfuel : m.pending_inputs_.length < fuel) :
    m.dispatch_all fuel = dispatch_in_order fuel m m.pending_inputs_ ∧
    ∀ m1 outs, m.dispatch_all fuel = some (m1, Ret.ok outs) →
      m1.pending_inputs_ = [] ∧ m1.dispatch_all fuel = some (m1, Ret.ok []) := by
  have heq : m.dispatch_all fuel = dispatch_in_order fuel m m.pending_inputs_ := by
    unfold dispatch_all
    rw [dispatch_all_loop_eq fuel fuel m [] hfuel]
    simp only [List.nil_append]
    exact andThenF_pure _
  refine ⟨heq, ?_⟩
  intro m1 outs h
  rw [heq] at h
  have hp : m1.pending_inputs_ = [] := dispatch_in_order_pending fuel _ m m1 outs rfl h
  exact ⟨hp, dispatch_all_nothing_pending fuel m1 hp (by omega)⟩

/-- The `enter_exit` machine in `Idle` with `Go` and `Loop` enqueued: `dispatch_all`
handles `Go`, which returns `"went"`, then `Loop`, which returns nothing, and returns
`["went"]` with the pending queue empty. -/
theorem dispatch_all_in_queue_order_witness :
    (((Examples.hookMachine Examples.HState.Idle []).enqueue Examples.HInput.Go).enqueue
        Examples.HInput.Loop).pending_inputs_.length < 3 ∧
    ((((Examples.hookMachine Examples.HState.Idle []).enqueue Examples.HInput.Go).enqueue
        Examples.HInput.Loop).dispatch_all 3 =
      dispatch_in_order 3
        (((Examples.hookMachine Examples.HState.Idle []).enqueue Examples.HInput.Go).enqueue
          Examples.HInput.Loop) [Examples.HInput.Go, Examples.HInput.Loop]) ∧
    ((((Examples.hookMachine Examples.HState.Idle []).enqueue Examples.HInput.Go).enqueue
        Examples.HInput.Loop).dispatch_all 3).map (fun r => (r.1.pending_inputs_, r.2)) =
      some ([], Ret.ok ["went"]) :=
  ⟨by decide,
    (dispatch_all_in_queue_order 3
      (((Examples.hookMachine Examples.HState.Idle []).enqueue Examples.HInput.Go).enqueue
        Examples.HInput.Loop) (by decide)).1,
    by rfl⟩

theorem enqueue_dispatch_all_plain (fuel : Nat) (m : MachineImpl S I O C) (e : I)
    (hq : m.pending_inputs_ = []) (hfuel : 1 < fuel) :
    (m.enqueue e).dispatch_all fuel =
      andThenF (m.dispatch fuel e) fun m1 out => some (m1, Ret.ok out.toList) := by
  obtain ⟨n, rfl⟩ : ∃ n, fuel = n + 2 := ⟨fuel - 2, by omega⟩
  have hback : ({ m.enqueue e with pending_inputs_ := [] } : MachineImpl S I O C) = m := by
    cases m
    simp only at hq
    subst hq
    rfl
  have hpend : (m.enqueue e).pending_inputs_ = [e] := by
    simp only [enqueue, hq, List.nil_append]
  unfold dispatch_all
  rw [dispatch_all_loop]
  simp only [hpend]
  rw [hback, handle_input_eq_dispatch]
  cases hd : m.dispatch (n + 2) e with
  | none => rfl
  | some p =>
    obtain ⟨m1, r⟩ := p
    have hp : m1.pending_inputs_ = [] :=
      (dispatch_keeps_pending (n + 2) m m1 e r hd).trans hq
    cases r with
    | raised x => rfl
    | aborted => rfl
    | ok out =>
      simp only [andThenF]
      rw [dispatch_all_loop]
      simp only [hp]
      cases out <;> rfl

end QueueClaims

end MachineImpl

namespace MachineImpl

section Replay

variable {S I O C : Type} [DecidableEq S]

theorem waiting_push (m : MachineImpl S I O C) (s s1 : S) (e : I) :
    (m.push_deferral s e).waiting s1 = m.waiting s1 ++ (if s1 = s then [e] else []) := by
  unfold waiting push_deferral
  by_cases h : s1 = s
  · subst h
    simp only [tbl_find_modify_self, Option.getD_some, if_true]
  · simp only [tbl_find_modify_other _ _ _ _ _ h, h, if_false, List.append_nil]

theorem waiting_pop (m : MachineImpl S I O C) (s : S) :
    waiting { m with deferrals_ := Tbl.modify [] List.tail m.deferrals_ m.current_ } s =
      if s = m.current_ then (m.waiting s).tail else m.waiting s := by
  unfold waiting
  by_cases h : s = m.current_
  · subst h
    simp only [tbl_find_modify_self, Option.getD_some, if_true]
  · simp only [tbl_find_modify_other _ _ _ _ _ h, h, if_false]

theorem onlyAppends_pushFrame :
    PushFrame (OnlyAppends (S := S) (I := I) (O := O) (C := C)) where
  refl := fun _ h => ⟨h, fun _ => ⟨[], (List.append_nil _).symm⟩⟩
  trans := by
    intro a b c h1 h2 ha
    obtain ⟨hb, hab⟩ := h1 ha
    obtain ⟨hc, hbc⟩ := h2 hb
    refine ⟨hc, fun s => ?_⟩
    obtain ⟨l1, e1⟩ := hab s
    obtain ⟨l2, e2⟩ := hbc s
    exact ⟨l1 ++ l2, by rw [e2, e1, List.append_assoc]⟩
  ctx_trace := fun _ _ _ h => ⟨h, fun _ => ⟨[], (List.append_nil _).symm⟩⟩
  state_trace := fun _ _ _ h => ⟨h, fun _ => ⟨[], (List.append_nil _).symm⟩⟩
  processing := fun _ _ h => ⟨h, fun _ => ⟨[], (List.append_nil _).symm⟩⟩
  push := fun m s e h => ⟨h, fun s1 => ⟨_, waiting_push m s s1 e⟩⟩

theorem drain_with_onlyAppends
    (loop : MachineImpl S I O C → Option (MachineImpl S I O C × Ret Unit)) :
    RespectsF OnlyAppends (drain_with loop) := by
  intro m r h hd
  unfold drain_with at h
  simp only [hd, Bool.or_true, if_true] at h
  cases h
  exact ⟨hd, fun _ => ⟨[], (List.append_nil _).symm⟩⟩

theorem handle_input_onlyAppends (fuel : Nat) (e : I) :
    RespectsF OnlyAppends (fun m : MachineImpl S I O C => handle_input (O := O) fuel m e) :=
  handle_input_with_rel onlyAppends_pushFrame _ (drain_with_onlyAppends _) e

theorem replayed_for_cons (s s1 : S) (e : I) (log : List (S × I)) :
    replayed_for s ((s1, e) :: log) = (if s1 = s then [e] else []) ++ replayed_for s log := by
  unfold replayed_for
  by_cases h : s1 = s
  · simp [List.filter_cons, h]
  · simp [List.filter_cons, h]

theorem drain_loop_replays (fuel : Nat) :
    ∀ (m m1 : MachineImpl S I O C) (r : Ret Unit), m.draining_deferrals_ = true →
      drain_loop fuel m = some (m1, r) →
      ∃ log, replay_order (O := O) fuel m = some log ∧ m1.draining_deferrals_ = true ∧
        ∀ s, ∃ added : List I, replayed_for s log ++ m1.waiting s = m.waiting s ++ added := by
  induction fuel with
  | zero => intro m m1 r _ h; simp [drain_loop] at h
  | succ n ih =>
    intro m m1 r hd h
    unfold drain_loop at h
    unfold replay_order
    cases hq : Tbl.find m.deferrals_ m.current_ with
    | none =>
      simp only [hq, Option.some.injEq, Prod.mk.injEq] at h
      obtain ⟨rfl, _⟩ := h
      exact ⟨[], rfl, hd, fun s => ⟨[], by simp [replayed_for]⟩⟩
    | some q =>
      cases q with
      | nil =>
        simp only [hq, Option.some.injEq, Prod.mk.injEq] at h
        obtain ⟨rfl, _⟩ := h
        exact ⟨[], rfl, hd, fun s => ⟨[], by simp [replayed_for]⟩⟩
      | cons next rest =>
        simp only [hq] at h
        have hw : m.waiting m.current_ = next :: rest := by
          simp only [waiting, hq, Option.getD_some]
        change andThenF (handle_input n
          { m with deferrals_ := Tbl.modify [] List.tail m.deferrals_ m.current_ } next)
          (fun m2 _ => drain_loop n m2) = some (m1, r) at h
        cases hh : handle_input n
            { m with deferrals_ := Tbl.modify [] List.tail m.deferrals_ m.current_ } next with
        | none => rw [hh] at h; simp [andThenF] at h
        | some p =>
          obtain ⟨m2, r2⟩ := p
          obtain ⟨hd2, happ⟩ := handle_input_onlyAppends n next _ _ hh hd
          simp only at hd2 happ
          have hstep : ∀ s, ∃ added : List I,
              (if m.current_ = s then [next] else []) ++ m2.waiting s = m.waiting s ++ added := by
            intro s
            obtain ⟨l, hl⟩ := happ s
            rw [waiting_pop] at hl
            refine ⟨l, ?_⟩
            by_cases hs : s = m.current_
            · subst hs
              simp only [if_true] at hl ⊢
              rw [hl, hw]
              rfl
            · have hs1 : ¬ m.current_ = s := fun h1 => hs h1.symm
              simp only [hs, hs1, if_false] at hl ⊢
              rw [hl]
              rfl
          rw [hh] at h
          cases r2 with
          | raised x =>
            simp only [andThenF, Option.some.injEq, Prod.mk.injEq] at h
            obtain ⟨rfl, _⟩ := h
            refine ⟨[(m.current_, next)], by simp only [hh], hd2, fun s => ?_⟩
            obtain ⟨l, hl⟩ := hstep s
            exact ⟨l, by rw [replayed_for_cons]; simpa [replayed_for] using hl⟩
          | aborted =>
            simp only [andThenF, Option.some.injEq, Prod.mk.injEq] at h
            obtain ⟨rfl, _⟩ := h
            refine ⟨[(m.current_, next)], by simp only [hh], hd2, fun s => ?_⟩
            obtain ⟨l, hl⟩ := hstep s
            exact ⟨l, by rw [replayed_for_cons]; simpa [replayed_for] using hl⟩
          | ok u =>
            simp only [andThenF] at h
            obtain ⟨log, hlog, hd1, hrest⟩ := ih m2 m1 r hd2 h
            refine ⟨(m.current_, next) :: log, by simp only [hh, hlog, Option.map_some'], hd1,
              fun s => ?_⟩
            obtain ⟨l, hl⟩ := hstep s
            obtain ⟨l2, hl2⟩ := hrest s
            refine ⟨l ++ l2, ?_⟩
            rw [replayed_for_cons, List.append_assoc, hl2, ← List.append_assoc, hl,
              List.append_assoc]

end Replay

end MachineImpl

namespace MachineImpl

section ReplayClaim

variable {S I O C : Type} [DecidableEq S]

theorem replay_order_head (fuel : Nat) (m : MachineImpl S I O C) (e1 : I) (rest : List I)
    (log : List (S × I)) (hq : m.waiting m.current_ = e1 :: rest)
    (hlog : replay_order (O := O) fuel m = some log) :
    log.head? = some (m.current_, e1) := by
  cases fuel with
  | zero => simp [replay_order] at hlog
  | succ n =>
    unfold waiting at hq
    cases hf : Tbl.find m.deferrals_ m.current_ with
    | none => rw [hf] at hq; cases hq
    | some q =>
      rw [hf] at hq
      simp only [Option.getD_some] at hq
      subst hq
      unfold replay_order at hlog
      simp only [hf] at hlog
      cases hh : handle_input (O := O) n
          { m with deferrals_ := Tbl.modify [] List.tail m.deferrals_ m.current_ } e1 with
      | none => simp only [hh] at hlog; cases hlog
      | some p =>
        obtain ⟨m2, r2⟩ := p
        cases r2 with
        | raised x => simp only [hh, Option.some.injEq] at hlog; subst hlog; rfl
        | aborted => simp only [hh, Option.some.injEq] at hlog; subst hlog; rfl
        | ok u =>
          simp only [hh] at hlog
          cases hr : replay_order (O := O) n m2 with
          | none => simp [hr] at hlog
          | some l => simp [hr] at hlog; subst hlog; rfl

theorem drain_deferrals_of_enabled (fuel : Nat) (m : MachineImpl S I O C)
    (hen : m.deferral_enabled_ = true) (hdr : m.draining_deferrals_ = false) :
    m.drain_deferrals_for_current_state fuel =
      tryFinallyF (drain_loop fuel { m with draining_deferrals_ := true })
        (fun m1 => { m1 with draining_deferrals_ := false }) := by
  unfold drain_deferrals_for_current_state drain_with
  split
  · rename_i h
    simp [hen, hdr] at h
  · rfl

/-- C13: a machine with deferral enabled that settles outside a drain, that is
`finalize_transition` called on the machine a transition left, completion processing
returning normally in the state `s` the cascade ended in (the state the transition
reached when no completion applied).  Completion processing leaves the deferral queues
alone, and the drain then makes the sequence `log` of `handle_input` calls, where for
every state `q` the events of `log` taken from the queue of `q`, in the order in which
they were handled, followed by the events still waiting for `q` afterwards, are the
events that were waiting for `q` before, in their queue order, followed by events
appended meanwhile.  So the events of one queue are handled in the order in which they
were appended, none before one queued ahead of it; and when `e1` is at the front of
the queue of `s`, the first call of the drain handles `e1`. -/
theorem deferred_events_replayed_fifo (fuel : Nat) (m0 m1 m2 : MachineImpl S I O C)
    (result cout : Option O) (r : Ret (Option O))
    (hen : m0.deferral_enabled_ = true) (hdr : m0.draining_deferrals_ = false)
    (hpc : m0.process_completions = (m1, Ret.ok cout))
    (hfin : m0.finalize_transition fuel result = some (m2, r)) :
    m1.deferrals_ = m0.deferrals_ ∧
    ∃ log, replay_order (O := O) fuel { m1 with draining_deferrals_ := true } = some log ∧
      (∀ q, ∃ added : List I, replayed_for q log ++ m2.waiting q = m0.waiting q ++ added) ∧
      (∀ e1 rest, m0.waiting m1.current_ = e1 :: rest →
        log.head? = some (m1.current_, e1)) := by
  have hsd : SameDeferrals m0 m1 := by
    have h := process_completions_rel sameDeferrals_completionFrame m0
    rw [hpc] at h
    exact h
  have hsc : SameConfig m0 m1 := by
    have h := process_completions_rel sameConfig_frame.toCompletionFrame m0
    rw [hpc] at h
    exact h
  have hen1 : m1.deferral_enabled_ = true := hsc.2.2.2.2.2.1.trans hen
  have hdr1 : m1.draining_deferrals_ = false := hsd.2.2.trans hdr
  have hw : ∀ q, waiting { m1 with draining_deferrals_ := true } q = m0.waiting q := by
    intro q
    simp only [waiting, hsd.1]
  refine ⟨hsd.1, ?_⟩
  simp only [finalize_transition, finalize_transition_with, hpc, andThenF_ok] at hfin
  rw [drain_deferrals_of_enabled fuel m1 hen1 hdr1] at hfin
  cases hl : drain_loop fuel { m1 with draining_deferrals_ := true } with
  | none => rw [hl] at hfin; simp [tryFinallyF, andThenF] at hfin
  | some p =>
    obtain ⟨m3, r3⟩ := p
    obtain ⟨log, hlog, _, hrest⟩ := drain_loop_replays fuel _ m3 r3 rfl hl
    have hm2 : ∀ q, m2.waiting q = m3.waiting q := by
      intro q
      rw [hl] at hfin
      cases r3 with
      | ok u =>
        simp only [tryFinallyF, tryFinally, andThenF, Option.some.injEq, Prod.mk.injEq] at hfin
        rw [← hfin.1]
        rfl
      | raised x =>
        simp only [tryFinallyF, tryFinally, andThenF, Option.some.injEq, Prod.mk.injEq] at hfin
        rw [← hfin.1]
        rfl
      | aborted =>
        simp only [tryFinallyF, tryFinally, andThenF, Option.some.injEq, Prod.mk.injEq] at hfin
        rw [← hfin.1]
    refine ⟨log, hlog, fun q => ?_, fun e1 rest hq => ?_⟩
    · obtain ⟨added, ha⟩ := hrest q
      exact ⟨added, by rw [hm2, ha, hw]⟩
    · exact replay_order_head fuel { m1 with draining_deferrals_ := true } e1 rest log
        (by rw [hw]; exact hq) hlog

/-- The machine of `tests/deferral.cpp` settling in `Stage` with `Job{1}` and `Job{2}`
waiting there: the drain handles `Job{1}`, which leads to `Active`, and `Job{2}` is
left at the front of the queue of `Stage`. -/
theorem deferred_events_replayed_fifo_witness :
    replay_order (O := String) 2 { Examples.queuedMachine with draining_deferrals_ := true }
      = some [(Examples.DState.Stage, Examples.DInput.Job 1)] ∧
    Examples.drainedMachine.waiting Examples.DState.Stage = [Examples.DInput.Job 2] ∧
    (Examples.queuedMachine.deferrals_ = Examples.queuedMachine.deferrals_ ∧
     ∃ log, replay_order (O := String) 2
        { Examples.queuedMachine with draining_deferrals_ := true } = some log ∧
      (∀ q, ∃ added : List Examples.DInput,
        replayed_for q log ++ Examples.drainedMachine.waiting q
          = Examples.queuedMachine.waiting q ++ added) ∧
      (∀ e1 rest, Examples.queuedMachine.waiting Examples.queuedMachine.current_ = e1 :: rest →
        log.head? = some (Examples.queuedMachine.current_, e1))) :=
  ⟨by rfl, by rfl,
    deferred_events_replayed_fifo 2 Examples.queuedMachine Examples.queuedMachine
      Examples.drainedMachine none none (Ret.ok none) (by rfl) (by rfl) (by rfl) (by rfl)⟩

end ReplayClaim

end MachineImpl

namespace MachineImpl

section DeferralTest

/-- C14: the machine of `tests/deferral.cpp`, with fuel for two tests of the drain loop.
`build({})` returns it in `Idle`.  `dispatch(Job{1})` returns `None` and leaves `Active`
with `order == [1]`: the event was queued for `Stage`, the state changed to `Stage`
without the action, and the replay there ran the action of `Stage -> Active` on
`Job{1}`, all in that one dispatch, leaving the queue of `Stage` empty.  `Job{2}` from
`Active` goes the same way and leaves `Active` with `order == [1, 2]`; `Reset` returns
`None` and leaves `Idle`; `Job{3}` returns `None` and leaves `Active` with
`order == [1, 2, 3]`. -/
theorem deferral_test_replays (n : Nat) :
    Examples.deferralBuilder.build (n + 2) [] =
      some (Examples.deferralMachine Examples.DState.Idle [], Ret.ok ()) ∧
    (Examples.deferralMachine Examples.DState.Idle []).dispatch (n + 2) (Examples.DInput.Job 1) =
      some (Examples.deferralAfter Examples.DState.Active [1] (Examples.replayedJob 1),
        Ret.ok none) ∧
    (Examples.deferralAfter Examples.DState.Active [1] (Examples.replayedJob 1)).dispatch
        (n + 2) (Examples.DInput.Job 2) =
      some (Examples.deferralAfter Examples.DState.Active [1, 2]
          (Examples.replayedJob 1 ++ Examples.replayedJob 2),
        Ret.ok none) ∧
    (Examples.deferralAfter Examples.DState.Active [1, 2]
        (Examples.replayedJob 1 ++ Examples.replayedJob 2)).dispatch
        (n + 2) Examples.DInput.Reset =
      some (Examples.deferralAfter Examples.DState.Idle [1, 2]
          (Examples.replayedJob 1 ++ Examples.replayedJob 2 ++
            [Call.action Examples.DState.Idle Examples.DInput.Reset,
             Call.set_state Examples.DState.Idle]),
        Ret.ok none) ∧
    (Examples.deferralAfter Examples.DState.Idle [1, 2]
        (Examples.replayedJob 1 ++ Examples.replayedJob 2 ++
          [Call.action Examples.DState.Idle Examples.DInput.Reset,
           Call.set_state Examples.DState.Idle])).dispatch
        (n + 2) (Examples.DInput.Job 3) =
      some (Examples.deferralAfter Examples.DState.Active [1, 2, 3]
          (Examples.replayedJob 1 ++ Examples.replayedJob 2 ++
            [Call.action Examples.DState.Idle Examples.DInput.Reset,
             Call.set_state Examples.DState.Idle] ++ Examples.replayedJob 3),
        Ret.ok none) :=
  ⟨by rfl, by rfl, by rfl, by rfl, by rfl⟩

end DeferralTest

end MachineImpl

namespace MachineImpl

section Settled

variable {S I O C : Type} [DecidableEq S]

theorem apply_transition_state (m m0 : MachineImpl S I O C) (t : Transition S I O C)
    (input : Option I) (inv : Bool) (out : Option O)
    (h : m.apply_transition t input inv = (m0, Ret.ok out)) : m0.current_ = t.to_ := by
  unfold apply_transition at h
  obtain ⟨ma, _, _, h1⟩ := andThen_eq_ok _ _ _ _ h
  obtain ⟨mb, _, _, h2⟩ := andThen_eq_ok _ _ _ _ h1
  obtain ⟨mc, _, h3, h4⟩ := andThen_eq_ok _ _ _ _ h2
  simp only [Prod.mk.injEq] at h4
  rw [← h4.1]
  split at h3
  · simp only [Prod.mk.injEq] at h3
    rw [← h3.1]
    rfl
  · rw [call_enter_eq] at h3
    simp only [Prod.mk.injEq] at h3
    rw [← h3.1]
    rfl

theorem finalize_transition_idle (fuel : Nat) (m : MachineImpl S I O C) (result : Option O)
    (hc : m.find_completion = none) (ha : m.async_inflight_ = false)
    (hq : m.deferral_enabled_ = false ∨
      (0 < fuel ∧ m.draining_deferrals_ = false ∧ m.waiting m.current_ = [])) :
    m.finalize_transition fuel result = some (m, Ret.ok result) := by
  have hdrain : m.drain_deferrals_for_current_state fuel = some (m, Ret.ok ()) := by
    rcases hq with hq | ⟨hfuel, hdr, hw⟩
    · unfold drain_deferrals_for_current_state drain_with
      simp only [hq, Bool.not_false, Bool.true_or, if_true]
    · refine drain_nothing_queued fuel m hfuel ?_ hdr
      unfold waiting at hw
      cases hf : Tbl.find m.deferrals_ m.current_ with
      | none => exact Or.inl rfl
      | some q =>
        rw [hf] at hw
        simp only [Option.getD_some] at hw
        subst hw
        exact Or.inr rfl
  simp only [finalize_transition, finalize_transition_with,
    process_completions_at_rest m ha hc, andThenF_ok]
  change andThenF (m.drain_deferrals_for_current_state fuel) _ = _
  rw [hdrain]
  simp

theorem finalize_transition_idle_inv (fuel : Nat) (m m1 : MachineImpl S I O C)
    (result : Option O) (r : Ret (Option O))
    (hfin : m.finalize_transition fuel result = some (m1, r))
    (hc : m.find_completion = none) (ha : m.async_inflight_ = false)
    (hq : m.deferral_enabled_ = false ∨
      (0 < fuel ∧ m.draining_deferrals_ = false ∧ m.waiting m.current_ = [])) :
    m1 = m ∧ r = Ret.ok result := by
  rw [finalize_transition_idle fuel m result hc ha hq] at hfin
  simp only [Option.some.injEq, Prod.mk.injEq] at hfin
  exact ⟨hfin.1.symm, hfin.2.symm⟩

end Settled

end MachineImpl

namespace Adapter

section Async

variable {S I O C : Type} [DecidableEq S]

theorem commit_selected (fuel : Nat) (m : MachineImpl S I O C) (e : I)
    (t : Transition S I O C) (hsel : m.find_transition e = some t) :
    m.commit fuel (m.select e) (some e) = m.dispatch fuel e := by
  simp [MachineImpl.dispatch, MachineImpl.select, Selection.valid_, hsel]

theorem dispatch_async_of_bound (fuel : Nat) (a : Adapter S I O C) (e : I)
    (t : Transition S I O C) (action : CoAction S I O C) (rest : List (CoAction S I O C))
    (hsel : a.machine_.find_transition e = some t)
    (hreg : a.registry_.find a.machine_.current_ t.to_ = some (action :: rest)) :
    a.dispatch_async fuel e =
      andThenF (a.with_machine (a.machine_.commit fuel (a.machine_.select e) (some e)))
        fun a1 completion_out =>
          andThenF
            (some (tryFinally
              (await_action { a1 with machine_ := a1.machine_.begin_async_effect }
                action a.machine_.current_ t.to_ e)
              (fun a2 => { a2 with machine_ := a2.machine_.end_async_effect })))
            fun a3 effect_out =>
              some (a3, Ret.ok (if effect_out.isSome then effect_out else completion_out)) := by
  have hget : (a.machine_.select e).get = some t := hsel
  unfold dispatch_async
  simp only [hget, MachineImpl.state, hreg]

theorem dispatch_async_of_commit (fuel : Nat) (a : Adapter S I O C) (e : I)
    (t : Transition S I O C) (action : CoAction S I O C) (rest : List (CoAction S I O C))
    (m1 : MachineImpl S I O C) (cout : Option O)
    (hsel : a.machine_.find_transition e = some t)
    (hreg : a.registry_.find a.machine_.current_ t.to_ = some (action :: rest))
    (hcommit : a.machine_.commit fuel (a.machine_.select e) (some e) = some (m1, Ret.ok cout)) :
    a.dispatch_async fuel e =
      some ({ machine_ :=
                { m1 with
                  ctx_ := (action e m1.current_ m1.ctx_ { src := a.global_cancel_.isSome }
                    (a.global_cancel_.getD {})).1.1,
                  async_inflight_ := false,
                  trace := m1.trace ++ [Call.co_action a.machine_.current_ t.to_ e] },
              registry_ := a.registry_,
              global_cancel_ := a.global_cancel_.map (fun _ =>
                (action e m1.current_ m1.ctx_ { src := a.global_cancel_.isSome }
                  (a.global_cancel_.getD {})).1.2) },
        match (action e m1.current_ m1.ctx_ { src := a.global_cancel_.isSome }
            (a.global_cancel_.getD {})).2 with
        | Except.ok effect_out => Ret.ok (if effect_out.isSome then effect_out else cout)
        | Except.error x => Ret.raised x) := by
  rw [dispatch_async_of_bound fuel a e t action rest hsel hreg, hcommit]
  simp only [with_machine, andThenF, await_action, MachineImpl.begin_async_effect,
    MachineImpl.end_async_effect, MachineImpl.state]
  cases (action e m1.current_ m1.ctx_ { src := a.global_cancel_.isSome }
      (a.global_cancel_.getD {})).2 with
  | ok effect_out => rfl
  | error x => rfl

end Async

end Adapter

namespace Adapter

section AsyncClaims

variable {S I O C : Type} [DecidableEq S]

/-- C15 (counterexample): the machine of `tests/cosm_adapter_pipeline.cpp`, which `build`
returns in `Idle`, with the effect of `test_commit_before_effect` bound to
`(Idle, Active)`.  `dispatch_async(Kick)` selects the transition to `Active` and takes
the async path, yet the effect does not read `Active` from `state()` when it starts: it
stores `-1`, because the base commit has already applied the completion
`Active -> Done`. -/
theorem dispatch_async_effect_state_counterexample :
    Examples.pipelineBuilder.build 1 0 = some (Examples.pipelineMachine, Ret.ok ()) ∧
    (Examples.pipelineMachine.find_transition Examples.CInput.Kick).map (fun t => t.to_)
      = some Examples.CState.Active ∧
    (((Examples.pipelineAdapter Examples.observeActive).registry_.find
        Examples.CState.Idle Examples.CState.Active).map List.length) = some 1 ∧
    ((Examples.pipelineAdapter Examples.observeActive).dispatch_async 1
        Examples.CInput.Kick).map
        (fun r => (r.2, r.1.machine_.ctx_, r.1.machine_.current_))
      = some (Ret.ok none, -1, Examples.CState.Done) :=
  ⟨by rfl, by rfl, by rfl, by rfl⟩

/-- C15 (amended): `dispatch_async(e)` selects `t`, not deferred and with hooks not
suppressed, an effect is bound to `(from, to)`, the exit hook, the action and the enter
hook return normally, and the rest of the base commit (completion processing and the
deferral drain) returns normally leaving the machine `m1`.  Then the effect is called
once, after all of that: it reads `m1`'s state from `state()` and works on `m1`'s
context, the trace it is appended to is `m1`'s, and that trace starts with the exit
hook, the action, the state change to `to` and the enter hook, in this order.  The
state the effect reads is `to` when no completion qualifies once the transition is
applied and no deferred event is waiting for `to`; otherwise it is the state the
completion cascade and the drain reached. -/
theorem dispatch_async_effect_after_commit (fuel : Nat) (a : Adapter S I O C) (e : I)
    (t : Transition S I O C) (action : CoAction S I O C) (rest : List (CoAction S I O C))
    (c1 c2 c3 : C) (out cout : Option O) (m1 : MachineImpl S I O C)
    (hsel : a.machine_.find_transition e = some t)
    (hreg : a.registry_.find a.machine_.current_ t.to_ = some (action :: rest))
    (hdefer : (a.machine_.deferral_enabled_ && t.defer) = false)
    (hskip : (t.suppress_enter_exit && decide (t.to_ = a.machine_.current_)) = false)
    (hexit : run_hook (MachineImpl.exit_hook a.machine_.handlers_ a.machine_.current_)
      a.machine_.ctx_ a.machine_.current_ t.to_ (some e) = (c1, Except.ok ()))
    (hact : run_action t.action e c1 = (c2, Except.ok out))
    (henter : run_hook (MachineImpl.enter_hook a.machine_.handlers_ t.to_) c2
      a.machine_.current_ t.to_ (some e) = (c3, Except.ok ()))
    (hfin : MachineImpl.finalize_transition fuel
      { a.machine_ with
        current_ := t.to_, ctx_ := c3,
        trace := a.machine_.trace ++
          (calls_of (MachineImpl.exit_hook a.machine_.handlers_ a.machine_.current_)
              (Call.on_exit a.machine_.current_ t.to_ (some e)) ++
           calls_of t.action (Call.action t.to_ e) ++
           [Call.set_state t.to_] ++
           calls_of (MachineImpl.enter_hook a.machine_.handlers_ t.to_)
              (Call.on_enter a.machine_.current_ t.to_ (some e))) } out
      = some (m1, Ret.ok cout)) :
    a.dispatch_async fuel e =
      some ({ machine_ :=
                { m1 with
                  ctx_ := (action e m1.current_ m1.ctx_ { src := a.global_cancel_.isSome }
                    (a.global_cancel_.getD {})).1.1,
                  async_inflight_ := false,
                  trace := m1.trace ++ [Call.co_action a.machine_.current_ t.to_ e] },
              registry_ := a.registry_,
              global_cancel_ := a.global_cancel_.map (fun _ =>
                (action e m1.current_ m1.ctx_ { src := a.global_cancel_.isSome }
                  (a.global_cancel_.getD {})).1.2) },
        match (action e m1.current_ m1.ctx_ { src := a.global_cancel_.isSome }
            (a.global_cancel_.getD {})).2 with
        | Except.ok effect_out => Ret.ok (if effect_out.isSome then effect_out else cout)
        | Except.error x => Ret.raised x) ∧
    (a.machine_.trace ++
        (calls_of (MachineImpl.exit_hook a.machine_.handlers_ a.machine_.current_)
            (Call.on_exit a.machine_.current_ t.to_ (some e)) ++
         calls_of t.action (Call.action t.to_ e) ++
         [Call.set_state t.to_] ++
         calls_of (MachineImpl.enter_hook a.machine_.handlers_ t.to_)
            (Call.on_enter a.machine_.current_ t.to_ (some e)))) <+: m1.trace ∧
    (MachineImpl.find_completion
        ({ a.machine_ with current_ := t.to_, ctx_ := c3 } : MachineImpl S I O C) = none →
      a.machine_.async_inflight_ = false →
      (a.machine_.deferral_enabled_ = false ∨
        (0 < fuel ∧ a.machine_.draining_deferrals_ = false ∧ a.machine_.waiting t.to_ = [])) →
      m1.current_ = t.to_) := by
  have hcommit : a.machine_.commit fuel (a.machine_.select e) (some e)
      = some (m1, Ret.ok cout) := by
    rw [commit_selected fuel a.machine_ e t hsel,
      MachineImpl.dispatch_of_selected fuel a.machine_ e t hsel, hdefer,
      MachineImpl.apply_transition_normal a.machine_ e t c1 c2 c3 out hskip hexit hact henter]
    exact hfin
  refine ⟨dispatch_async_of_commit fuel a e t action rest m1 cout hsel hreg hcommit, ?_, ?_⟩
  · exact MachineImpl.finalize_transition_rel
      (MachineImpl.dispatchFrame_of_frame MachineImpl.traceGrows_frame) fuel out _ _ hfin
  · intro hc ha hq
    rw [(MachineImpl.finalize_transition_idle_inv fuel _ m1 out _ hfin hc ha hq).1]

/-- The machine and the effect of `test_commit_before_effect`: the effect reads `Active`
from `state()` and stores `1`; the `Task` returns `None` and leaves `Active`. -/
theorem dispatch_async_effect_after_commit_witness :
    ((Examples.basicAdapter Examples.observeActive none).dispatch_async 1
        Examples.CInput.Start).map
        (fun r => (r.2, r.1.machine_.ctx_, r.1.machine_.current_,
          r.1.machine_.async_inflight_, r.1.machine_.trace))
      = some (Ret.ok none, 1, Examples.CState.Active, false,
          [Call.action Examples.CState.Active Examples.CInput.Start,
           Call.set_state Examples.CState.Active,
           Call.co_action Examples.CState.Idle Examples.CState.Active
             Examples.CInput.Start]) := by
  rw [(dispatch_async_effect_after_commit 1
    (Examples.basicAdapter Examples.observeActive none) Examples.CInput.Start
    Examples.startActive Examples.observeActive [] 0 0 0 none none
    { Examples.basicMachine with
      current_ := Examples.CState.Active,
      trace := [Call.action Examples.CState.Active Examples.CInput.Start,
                Call.set_state Examples.CState.Active] }
    (by rfl) (by rfl) (by rfl) (by rfl) (by rfl) (by rfl) (by rfl) (by rfl)).1]
  rfl

end AsyncClaims

end Adapter

namespace Adapter

section AsyncResults

variable {S I O C : Type} [DecidableEq S]

/-- C16: `dispatch_async(e)` selects `t`, an effect is bound to `(from, to)`, the base
commit returns `cout` (which is what the synchronous `dispatch(e)` returns: the action
output, else the completion output, else `None`) and the effect returns `eout`
normally.  Then the `Task` returns normally, and its result is `Some v` when the effect
returned `Some v`, whatever `cout` is, and exactly `cout` when the effect returned
`None`. -/
theorem dispatch_async_result (fuel : Nat) (a : Adapter S I O C) (e : I)
    (t : Transition S I O C) (action : CoAction S I O C) (rest : List (CoAction S I O C))
    (m1 : MachineImpl S I O C) (cout eout : Option O) (c1 : C) (src1 : CancelSource)
    (hsel : a.machine_.find_transition e = some t)
    (hreg : a.registry_.find a.machine_.current_ t.to_ = some (action :: rest))
    (hcommit : a.machine_.commit fuel (a.machine_.select e) (some e) = some (m1, Ret.ok cout))
    (heff : action e m1.current_ m1.ctx_ { src := a.global_cancel_.isSome }
      (a.global_cancel_.getD {}) = ((c1, src1), Except.ok eout)) :
    a.machine_.dispatch fuel e = some (m1, Ret.ok cout) ∧
    a.dispatch_async fuel e =
      some ({ machine_ :=
                { m1 with
                  ctx_ := c1, async_inflight_ := false,
                  trace := m1.trace ++ [Call.co_action a.machine_.current_ t.to_ e] },
              registry_ := a.registry_,
              global_cancel_ := a.global_cancel_.map (fun _ => src1) },
        Ret.ok (if eout.isSome then eout else cout)) ∧
    (∀ v, eout = some v → (if eout.isSome then eout else cout) = some v) ∧
    (eout = none → (if eout.isSome then eout else cout) = cout) := by
  refine ⟨(commit_selected fuel a.machine_ e t hsel).symm.trans hcommit, ?_, ?_, ?_⟩
  · rw [dispatch_async_of_commit fuel a e t action rest m1 cout hsel hreg hcommit, heff]
  · intro v hv
    subst hv
    rfl
  · intro hv
    subst hv
    rfl

/-- The pipeline machine with an effect that returns `99`: the base commit returns
`None`, the `Task` returns `Some 99`. -/
theorem dispatch_async_result_witness :
    Examples.pipelineMachine.dispatch 1 Examples.CInput.Kick =
      some ({ Examples.pipelineMachine with
              current_ := Examples.CState.Done,
              trace := [Call.action Examples.CState.Active Examples.CInput.Kick,
                        Call.set_state Examples.CState.Active,
                        Call.completion Examples.CState.Active Examples.CState.Done,
                        Call.set_state Examples.CState.Done] }, Ret.ok none) ∧
    ((Examples.pipelineAdapter (Examples.emitValue 99)).dispatch_async 1
        Examples.CInput.Kick).map (fun r => r.2) = some (Ret.ok (some 99)) :=
  ⟨(dispatch_async_result 1 (Examples.pipelineAdapter (Examples.emitValue 99))
      Examples.CInput.Kick Examples.kickActive (Examples.emitValue 99) []
      { Examples.pipelineMachine with
        current_ := Examples.CState.Done,
        trace := [Call.action Examples.CState.Active Examples.CInput.Kick,
                  Call.set_state Examples.CState.Active,
                  Call.completion Examples.CState.Active Examples.CState.Done,
                  Call.set_state Examples.CState.Done] }
      none (some 99) 0 {} (by rfl) (by rfl) (by rfl) (by rfl)).1,
    by rfl⟩

/-- C17 (counterexample): the machine of `tests/cosm_adapter_pipeline.cpp` with an effect
bound to `(Idle, Active)`.  `dispatch_async(Kick)` takes the async path, and when the
`Task` has completed the completion `Active -> Done` declared for the target has been
applied, before the effect was called, and `state()` is `Done`, not `Active`. -/
theorem dispatch_async_completions_counterexample :
    ((Examples.pipelineAdapter (Examples.emitValue 99)).dispatch_async 1
        Examples.CInput.Kick).map
        (fun r => (r.2, r.1.machine_.current_, r.1.machine_.trace))
      = some (Ret.ok (some 99), Examples.CState.Done,
          [Call.action Examples.CState.Active Examples.CInput.Kick,
           Call.set_state Examples.CState.Active,
           Call.completion Examples.CState.Active Examples.CState.Done,
           Call.set_state Examples.CState.Done,
           Call.co_action Examples.CState.Idle Examples.CState.Active
             Examples.CInput.Kick]) := by
  rfl

/-- C17 (amended): when `dispatch_async(e)` takes the async path, the base commit is the
synchronous `dispatch(e)`, completion processing included.  If that dispatch runs out
of fuel or throws, so does the `Task`, leaving the machine the dispatch leaves, and the
effect is not called.  If it returns, the `Task` leaves the machine the dispatch leaves,
with the context as the effect leaves it and the effect's call appended to the trace:
the completions applied are those the synchronous dispatch applies, all before the
effect, and `state()` is the state the synchronous dispatch reaches.  That state is
`to`, with no completion applied, when no completion qualifies once the transition is
applied and no deferred event is waiting for `to`. -/
theorem dispatch_async_runs_completions (fuel : Nat) (a : Adapter S I O C) (e : I)
    (t : Transition S I O C) (action : CoAction S I O C) (rest : List (CoAction S I O C))
    (hsel : a.machine_.find_transition e = some t)
    (hreg : a.registry_.find a.machine_.current_ t.to_ = some (action :: rest)) :
    (a.machine_.dispatch fuel e = none → a.dispatch_async fuel e = none) ∧
    (∀ m1 x, a.machine_.dispatch fuel e = some (m1, Ret.raised x) →
      a.dispatch_async fuel e = some ({ a with machine_ := m1 }, Ret.raised x)) ∧
    (∀ m1 cout, a.machine_.dispatch fuel e = some (m1, Ret.ok cout) →
      ∃ a1 r, a.dispatch_async fuel e = some (a1, r) ∧
        a1.machine_.current_ = m1.current_ ∧
        a1.machine_.trace = m1.trace ++ [Call.co_action a.machine_.current_ t.to_ e] ∧
        a1.machine_.deferrals_ = m1.deferrals_ ∧
        a1.machine_.pending_inputs_ = m1.pending_inputs_ ∧
        ∀ m0 out,
          (if a.machine_.deferral_enabled_ && t.defer then
              (a.machine_.push_deferral t.to_ e).apply_transition t (some e) false
            else a.machine_.apply_transition t (some e) true) = (m0, Ret.ok out) →
          m0.find_completion = none → m0.async_inflight_ = false →
          (m0.deferral_enabled_ = false ∨
            (0 < fuel ∧ m0.draining_deferrals_ = false ∧ m0.waiting m0.current_ = [])) →
          m1 = m0 ∧ a1.machine_.current_ = t.to_) := by
  have hd := commit_selected fuel a.machine_ e t hsel
  refine ⟨?_, ?_, ?_⟩
  · intro h
    rw [dispatch_async_of_bound fuel a e t action rest hsel hreg, hd, h]
    rfl
  · intro m1 x h
    rw [dispatch_async_of_bound fuel a e t action rest hsel hreg, hd, h]
    rfl
  · intro m1 cout h
    refine ⟨_, _, dispatch_async_of_commit fuel a e t action rest m1 cout hsel hreg
      (hd.trans h), rfl, rfl, rfl, rfl, ?_⟩
    intro m0 out hstep hc ha hq
    rw [MachineImpl.dispatch_of_selected fuel a.machine_ e t hsel] at h
    have hto : m0.current_ = t.to_ := by
      split at hstep
      · exact MachineImpl.apply_transition_state _ m0 t _ _ out hstep
      · exact MachineImpl.apply_transition_state _ m0 t _ _ out hstep
    have hm : m1 = m0 := by
      split at h
      · rename_i hdef
        rw [if_pos hdef] at hstep
        rw [hstep] at h
        exact (MachineImpl.finalize_transition_idle_inv fuel m0 m1 _ _ h hc ha hq).1
      · rename_i hdef
        rw [if_neg hdef] at hstep
        rw [hstep] at h
        exact (MachineImpl.finalize_transition_idle_inv fuel m0 m1 _ _ h hc ha hq).1
    exact ⟨hm, by rw [hm]; exact hto⟩

/-- The machine of `tests/coroutine_semantics.cpp`, which declares no completion: the
`Task` leaves it in `Active`, the target of the selected transition, as the synchronous
dispatch does. -/
theorem dispatch_async_runs_completions_witness :
    ∃ a1 r, (Examples.basicAdapter (Examples.emitValue 5) none).dispatch_async 1
        Examples.CInput.Start = some (a1, r) ∧
      a1.machine_.current_ = Examples.CState.Active ∧
      a1.machine_.trace =
        [Call.action Examples.CState.Active Examples.CInput.Start,
         Call.set_state Examples.CState.Active,
         Call.co_action Examples.CState.Idle Examples.CState.Active Examples.CInput.Start] := by
  obtain ⟨a1, r, h1, h2, h3, _⟩ :=
    (dispatch_async_runs_completions 1 (Examples.basicAdapter (Examples.emitValue 5) none)
      Examples.CInput.Start Examples.startActive (Examples.emitValue 5) []
      (by rfl) (by rfl)).2.2
      { Examples.basicMachine with
        current_ := Examples.CState.Active,
        trace := [Call.action Examples.CState.Active Examples.CInput.Start,
                  Call.set_state Examples.CState.Active] }
      none (by rfl)
  exact ⟨a1, r, h1, h2, h3⟩

/-- C18: when `dispatch_async(e)` finds no transition for `e`, the `Task` returns `None`
and the adapter and its machine are left exactly as they were: state, context, both
queues and the trace are unchanged, so no callable, synchronous or asynchronous, was
called. -/
theorem dispatch_async_no_match (fuel : Nat) (a : Adapter S I O C) (e : I)
    (hsel : a.machine_.find_transition e = none) :
    a.dispatch_async fuel e = some (a, Ret.ok none) := by
  have hget : (a.machine_.select e).get = none := hsel
  unfold dispatch_async
  simp only [hget]

/-- The pipeline machine has no transition for `Start`. -/
theorem dispatch_async_no_match_witness :
    Examples.pipelineMachine.find_transition Examples.CInput.Start = none ∧
    (Examples.pipelineAdapter (Examples.emitValue 99)).dispatch_async 1 Examples.CInput.Start =
      some (Examples.pipelineAdapter (Examples.emitValue 99), Ret.ok none) :=
  ⟨by rfl,
    dispatch_async_no_match 1 (Examples.pipelineAdapter (Examples.emitValue 99))
      Examples.CInput.Start (by rfl)⟩

/-- C19: when `dispatch_async(e)` selects `t` and the registry has nothing, or an empty
vector, under `(current state, t.to)`, the `Task` does what the synchronous `dispatch(e)`
does on the adapter's machine: it runs out of fuel, throws or returns exactly when
`dispatch(e)` does, with the same result, and leaves the same machine (state, context,
queues, flags and trace). -/
theorem dispatch_async_unbound (fuel : Nat) (a : Adapter S I O C) (e : I)
    (t : Transition S I O C)
    (hsel : a.machine_.find_transition e = some t)
    (hreg : a.registry_.find a.machine_.current_ t.to_ = none ∨
      a.registry_.find a.machine_.current_ t.to_ = some []) :
    a.dispatch_async fuel e = a.with_machine (a.machine_.dispatch fuel e) := by
  have hget : (a.machine_.select e).get = some t := hsel
  rw [← commit_selected fuel a.machine_ e t hsel]
  unfold dispatch_async
  rcases hreg with hreg | hreg
  · simp only [hget, MachineImpl.state, hreg]
  · simp only [hget, MachineImpl.state, hreg]

/-- The pipeline machine, `Unknown` in `Idle`: the transition `Idle -> Idle` has no
binding, and the `Task` does what `dispatch(Unknown)` does. -/
theorem dispatch_async_unbound_witness :
    (Examples.pipelineAdapter (Examples.emitValue 99)).registry_.find
      Examples.CState.Idle Examples.CState.Idle = none ∧
    (Examples.pipelineAdapter (Examples.emitValue 99)).dispatch_async 1
        Examples.CInput.Unknown =
      (Examples.pipelineAdapter (Examples.emitValue 99)).with_machine
        (Examples.pipelineMachine.dispatch 1 Examples.CInput.Unknown) :=
  ⟨by rfl,
    dispatch_async_unbound 1 (Examples.pipelineAdapter (Examples.emitValue 99))
      Examples.CInput.Unknown Examples.unknownIdle (by rfl) (Or.inl (by rfl))⟩

/-- C20: `dispatch_async(e)` takes the async path, the base commit returns normally
leaving the machine `m1`, and the effect throws `x` after bringing the context to `c1`.
Then the `Task` throws the same `x`, and the machine is `m1` with the context `c1`: the
state is the one the commit reached, the deferral and pending queues are the ones the
commit left, the context keeps what the effect wrote before it threw, and the
in-flight flag is cleared. -/
theorem dispatch_async_effect_raises (fuel : Nat) (a : Adapter S I O C) (e : I)
    (t : Transition S I O C) (action : CoAction S I O C) (rest : List (CoAction S I O C))
    (m1 : MachineImpl S I O C) (cout : Option O) (c1 : C) (src1 : CancelSource) (x : Exn)
    (hsel : a.machine_.find_transition e = some t)
    (hreg : a.registry_.find a.machine_.current_ t.to_ = some (action :: rest))
    (hcommit : a.machine_.commit fuel (a.machine_.select e) (some e) = some (m1, Ret.ok cout))
    (heff : action e m1.current_ m1.ctx_ { src := a.global_cancel_.isSome }
      (a.global_cancel_.getD {}) = ((c1, src1), Except.error x)) :
    a.dispatch_async fuel e =
      some ({ machine_ :=
                { m1 with
                  ctx_ := c1, async_inflight_ := false,
                  trace := m1.trace ++ [Call.co_action a.machine_.current_ t.to_ e] },
              registry_ := a.registry_,
              global_cancel_ := a.global_cancel_.map (fun _ => src1) },
        Ret.raised x) := by
  rw [dispatch_async_of_commit fuel a e t action rest m1 cout hsel hreg hcommit, heff]

/-- The machine and the effect of `test_cancellation_propagates`: the `Task` throws
`cancelled_error`, the state stays `Active` and the context keeps the `7` the effect
wrote before it threw. -/
theorem dispatch_async_effect_raises_witness :
    ((Examples.basicAdapter Examples.stopThenThrow (some {})).dispatch_async 1
        Examples.CInput.Start).map
        (fun r => (r.2, r.1.machine_.current_, r.1.machine_.ctx_))
      = some (Ret.raised cancelled_error, Examples.CState.Active, 7) := by
  rw [dispatch_async_effect_raises 1 (Examples.basicAdapter Examples.stopThenThrow (some {}))
    Examples.CInput.Start Examples.startActive Examples.stopThenThrow []
    { Examples.basicMachine with
      current_ := Examples.CState.Active,
      trace := [Call.action Examples.CState.Active Examples.CInput.Start,
                Call.set_state Examples.CState.Active] }
    none 7 { stop := true } cancelled_error (by rfl) (by rfl) (by rfl) (by rfl)]
  rfl

end AsyncResults

end Adapter

namespace MachineImpl

section CompletionBound

variable {S I O C : Type} [DecidableEq S]

theorem noCompletion_refl (m : MachineImpl S I O C) : NoCompletionApplied m m :=
  ⟨[], (List.append_nil _).symm, rfl⟩

theorem noCompletion_trans {a b c : MachineImpl S I O C} (h1 : NoCompletionApplied a b)
    (h2 : NoCompletionApplied b c) : NoCompletionApplied a c := by
  obtain ⟨l1, e1, c1⟩ := h1
  obtain ⟨l2, e2, c2⟩ := h2
  refine ⟨l1 ++ l2, by rw [e2, e1, List.append_assoc], ?_⟩
  simp only [applied_completions, List.countP_append] at c1 c2 ⊢
  omega

theorem applied_calls_of {F : Type} (h : Option F) (entry : Call S I)
    (hne : Call.is_completion entry = false) : applied_completions (calls_of h entry) = 0 := by
  cases h with
  | none => rfl
  | some f => simp [calls_of, applied_completions, hne]

theorem call_exit_noCompletion (m : MachineImpl S I O C) (f t : S) (i : Option I) :
    NoCompletionApplied m (m.call_exit f t i).1 := by
  rw [call_exit_eq]
  exact ⟨_, rfl, applied_calls_of _ _ rfl⟩

theorem call_enter_noCompletion (m : MachineImpl S I O C) (k f t : S) (i : Option I) :
    NoCompletionApplied m (m.call_enter k f t i).1 := by
  rw [call_enter_eq]
  exact ⟨_, rfl, applied_calls_of _ _ rfl⟩

theorem invoke_completion_action_noCompletion (m : MachineImpl S I O C)
    (c : Completion S O C) : NoCompletionApplied m (m.invoke_completion_action c).1 := by
  rw [invoke_completion_action_eq]
  exact ⟨_, rfl, applied_calls_of _ _ rfl⟩

theorem set_state_direct_noCompletion (m : MachineImpl S I O C) (s : S) :
    NoCompletionApplied m (m.set_state_direct s) :=
  ⟨[Call.set_state s], rfl, rfl⟩

theorem apply_completion_applies_one (m : MachineImpl S I O C) (c : Completion S O C) :
    ∃ l, (m.apply_completion c).1.trace = m.trace ++ l ∧ applied_completions l = 1 := by
  have h : NoCompletionApplied { m with trace := m.trace ++ [Call.completion m.current_ c.to_] }
      (m.apply_completion c).1 := by
    unfold apply_completion
    simp only [state]
    refine andThen_rel NoCompletionApplied _ _ _ ?_ ?_
    · split
      · exact noCompletion_refl _
      · exact call_exit_noCompletion _ _ _ _
    · intro m1 _ h1
      refine andThen_rel NoCompletionApplied _ _ _ ?_ ?_
      · exact noCompletion_trans h1 (invoke_completion_action_noCompletion m1 c)
      · intro m2 out h2
        refine andThen_rel NoCompletionApplied _ _ _ ?_ ?_
        · have h3 := noCompletion_trans h2 (set_state_direct_noCompletion m2 c.to_)
          split
          · exact h3
          · exact noCompletion_trans h3 (call_enter_noCompletion _ _ _ _ _)
        · intro m4 _ h4
          exact h4
  obtain ⟨l, hl, hc⟩ := h
  refine ⟨Call.completion m.current_ c.to_ :: l, ?_, ?_⟩
  · rw [hl]
    simp
  · simp only [applied_completions, List.countP_cons, Call.is_completion] at hc ⊢
    simp [hc]

theorem apply_completion_limit (m : MachineImpl S I O C) (c : Completion S O C) :
    (m.apply_completion c).1.completion_limit_ = m.completion_limit_ :=
  (apply_completion_rel sameConfig_frame.toCompletionFrame.toCommitFrame m c).2.2.2.2.2.2.1

theorem completion_loop_applies (bound : Nat) :
    ∀ (output : Option O) (steps : Nat) (m : MachineImpl S I O C),
      steps ≤ m.completion_limit_ + 1 →
      ∃ l, (completion_loop output steps bound m).1.trace = m.trace ++ l ∧
        applied_completions l + steps ≤ m.completion_limit_ + 1 := by
  induction bound with
  | zero =>
    intro output steps m hs
    exact ⟨[], by simp [completion_loop], by simpa [applied_completions] using hs⟩
  | succ n ih =>
    intro output steps m hs
    unfold completion_loop
    split
    · exact ⟨[], by simp, by simpa [applied_completions] using hs⟩
    · rename_i c _
      split
      · exact ⟨[], by simp, by simpa [applied_completions] using hs⟩
      · rename_i hle
        obtain ⟨l1, h1, c1⟩ := apply_completion_applies_one m c
        have hlim := apply_completion_limit m c
        generalize m.apply_completion c = p at h1 hlim
        obtain ⟨m1, r⟩ := p
        simp only at h1 hlim
        cases r with
        | raised x => exact ⟨l1, h1, by simp only [c1]; omega⟩
        | aborted => exact ⟨l1, h1, by simp only [c1]; omega⟩
        | ok result =>
          simp only [andThen_ok]
          obtain ⟨l2, h2, c2⟩ := ih (if result.isSome then result else output) (steps + 1) m1
            (by rw [hlim]; omega)
          refine ⟨l1 ++ l2, by rw [h2, h1, List.append_assoc], ?_⟩
          rw [hlim] at c2
          simp only [applied_completions, List.countP_append] at c1 c2 ⊢
          omega

theorem process_completions_applies (m : MachineImpl S I O C) :
    ∃ l, m.process_completions.1.trace = m.trace ++ l ∧
      applied_completions l ≤ m.completion_limit_ + 1 ∧
      (m.completion_limit_ = 0 → l = []) := by
  unfold process_completions
  split
  · exact ⟨[], by simp, by simp [applied_completions], fun _ => rfl⟩
  · rename_i hc
    have hne : m.completion_limit_ ≠ 0 := by
      intro h0
      simp [h0] at hc
    split
    · exact ⟨[], by simp, by simp [applied_completions], fun _ => rfl⟩
    · obtain ⟨l, hl, hcount⟩ := completion_loop_applies (m.completion_limit_ + 2)
        (none : Option O) 0 { m with processing_completions_ := true } (Nat.zero_le _)
      simp only at hl hcount
      generalize completion_loop none 0 (m.completion_limit_ + 2)
        { m with processing_completions_ := true } = p at hl
      obtain ⟨m1, r⟩ := p
      refine ⟨l, ?_, by omega, fun h0 => absurd h0 hne⟩
      cases r <;> exact hl

theorem completion_loop_bound_free (bound : Nat) :
    ∀ (extra : Nat) (output : Option O) (steps : Nat) (m : MachineImpl S I O C),
      m.completion_limit_ + 2 ≤ steps + bound →
      completion_loop output steps (bound + extra) m = completion_loop output steps bound m := by
  induction bound with
  | zero =>
    intro extra output steps m hb
    cases extra with
    | zero => rfl
    | succ k =>
      simp only [Nat.zero_add]
      unfold completion_loop
      split
      · rfl
      · rw [if_pos (by omega)]
  | succ n ih =>
    intro extra output steps m hb
    have hshape : n + 1 + extra = (n + extra) + 1 := by omega
    rw [hshape]
    unfold completion_loop
    split
    · rfl
    · rename_i c _
      split
      · rfl
      · have hlim := apply_completion_limit m c
        generalize m.apply_completion c = p at hlim
        obtain ⟨m1, r⟩ := p
        cases r with
        | raised x => rfl
        | aborted => rfl
        | ok result =>
          simp only [andThen_ok]
          exact ih extra _ (steps + 1) m1 (by simp only at hlim; rw [hlim]; omega)

end CompletionBound

end MachineImpl

namespace MachineImpl

section CompletionClaims

variable {S I O C : Type} [DecidableEq S]

theorem last_some_eq_none {O : Type} (l : List (Option O)) :
    last_some l = none ↔ ∀ x ∈ l, x = none := by
  induction l with
  | nil => simp [last_some]
  | cons x xs ih =>
    unfold last_some
    cases hxs : last_some xs with
    | some w =>
      simp only [false_iff, reduceCtorEq]
      intro hall
      have := ih.2 (fun y hy => hall y (List.mem_cons_of_mem _ hy))
      rw [hxs] at this
      cases this
    | none =>
      simp only
      constructor
      · intro hx y hy
        rcases List.mem_cons.1 hy with rfl | hy
        · exact hx
        · exact ih.1 hxs y hy
      · intro hall
        exact hall x (List.mem_cons_self _ _)

theorem last_some_eq_some {O : Type} (l : List (Option O)) (v : O) :
    last_some l = some v ↔
      ∃ pre post, l = pre ++ some v :: post ∧ ∀ x ∈ post, x = none := by
  induction l with
  | nil => simp [last_some]
  | cons x xs ih =>
    unfold last_some
    cases hxs : last_some xs with
    | some w =>
      simp only [Option.some.injEq]
      constructor
      · intro hw
        subst hw
        obtain ⟨pre, post, hl, hp⟩ := ih.1 hxs
        exact ⟨x :: pre, post, by rw [hl]; rfl, hp⟩
      · rintro ⟨pre, post, hl, hp⟩
        cases pre with
        | nil =>
          simp only [List.nil_append, List.cons.injEq] at hl
          have hnone : last_some xs = none := by
            rw [hl.2]
            exact (last_some_eq_none post).2 hp
          rw [hnone] at hxs
          cases hxs
        | cons p pre' =>
          simp only [List.cons_append, List.cons.injEq] at hl
          have := ih.2 ⟨pre', post, hl.2, hp⟩
          rw [hxs] at this
          exact Option.some.inj this
    | none =>
      simp only
      have hall := (last_some_eq_none xs).1 hxs
      constructor
      · intro hx
        exact ⟨[], xs, by rw [hx]; rfl, hall⟩
      · rintro ⟨pre, post, hl, hp⟩
        cases pre with
        | nil =>
          simp only [List.nil_append, List.cons.injEq] at hl
          exact hl.1
        | cons p pre' =>
          simp only [List.cons_append, List.cons.injEq] at hl
          have hmem : some v ∈ xs := by rw [hl.2]; simp
          cases hall _ hmem

theorem last_some_cons {O : Type} (x : Option O) (xs : List (Option O)) :
    last_some (x :: xs) = (last_some xs).or x := by
  rw [last_some]
  cases last_some xs <;> rfl

theorem completion_loop_output (bound : Nat) :
    ∀ (output : Option O) (steps : Nat) (m m1 : MachineImpl S I O C) (out : Option O),
      completion_loop output steps bound m = (m1, Ret.ok out) →
      out = (last_some (cascade_outputs steps bound m)).or output := by
  induction bound with
  | zero =>
    intro output steps m m1 out h
    simp only [completion_loop, Prod.mk.injEq, Ret.ok.injEq] at h
    simp [cascade_outputs, last_some, h.2]
  | succ n ih =>
    intro output steps m m1 out h
    unfold completion_loop at h
    unfold cascade_outputs
    split at h
    · simp only [Prod.mk.injEq, Ret.ok.injEq] at h
      simp [last_some, h.2]
    · rename_i c hsome
      split at h
      · rename_i hgt
        simp only [Prod.mk.injEq, Ret.ok.injEq] at h
        simp [hgt, last_some, h.2]
      · rename_i hle
        rw [if_neg hle]
        obtain ⟨m0, result, happ, hrest⟩ := andThen_eq_ok _ _ _ _ h
        rw [happ]
        simp only
        have := ih _ (steps + 1) m0 m1 out hrest
        rw [this, last_some_cons]
        generalize last_some (cascade_outputs (steps + 1) n m0) = ls
        cases ls <;> cases result <;> rfl

theorem process_completions_output (m m1 : MachineImpl S I O C) (out : Option O)
    (hl : m.completion_limit_ ≠ 0) (hp : m.processing_completions_ = false)
    (h : m.process_completions = (m1, Ret.ok out)) :
    out = last_some (cascade_outputs 0 (m.completion_limit_ + 2)
      { m with processing_completions_ := true }) := by
  unfold process_completions at h
  split at h
  · rename_i hc
    simp [hl, hp] at hc
  · split at h
    · simp at h
    · obtain ⟨m0, hloop, _⟩ := tryFinally_eq_ok _ _ _ _ h
      have := completion_loop_output _ _ _ _ _ _ hloop
      simpa using this

end CompletionClaims

end MachineImpl

namespace MachineImpl

section CompletionResults

variable {S I O C : Type} [DecidableEq S]

theorem construct_body_limit (fuel : Nat) (m0 m : MachineImpl S I O C)
    (h : construct_body fuel m0 = some (m, Ret.ok ())) :
    m.completion_limit_ =
      if (m0.completion_transitions_.map (fun entry => entry.2.length)).sum = 0 then 0
      else (m0.completion_transitions_.map (fun entry => entry.2.length)).sum + 1 := by
  unfold construct_body at h
  obtain ⟨m1, u, henter, h2⟩ := andThenF_eq_ok _ _ _ _ h
  simp only [Option.some.injEq] at henter
  have hcfg : SameConfig m0 m1 := by
    have := call_enter_rel sameConfig_frame.toCompletionFrame.toCommitFrame m0
      m0.current_ m0.current_ m0.current_ none
    rw [henter] at this
    exact this
  obtain ⟨m3, v, hfin, h3⟩ := andThenF_eq_ok _ _ _ _ h2
  simp only [Option.some.injEq, Prod.mk.injEq] at h3
  have hcfg2 := finalize_transition_rel (dispatchFrame_of_frame sameConfig_frame) fuel none
    _ _ hfin
  rw [← h3.1, hcfg2.2.2.2.2.2.2.1, ← hcfg.2.2.2.1]

/-- C25: completion processing ends by the tests of its own loop, whatever the
completion table: the loop that `process_completions` runs gives the same result when
it is allowed any number of further tests beyond `completion_limit_ + 2`, so it never
runs on; it applies at most `completion_limit_ + 1` completions; and when it returns,
it returns the last output that a completion of the cascade produced.  The machine of
`make_loop`, whose only completions are the unguarded `LoopA -> LoopB` and
`LoopB -> LoopA`, is built, and `state()` is `LoopA` after construction. -/
theorem completion_processing_halts (m : MachineImpl S I O C) (extra : Nat) :
    completion_loop (none : Option O) 0 (m.completion_limit_ + 2 + extra)
        { m with processing_completions_ := true } =
      completion_loop none 0 (m.completion_limit_ + 2)
        { m with processing_completions_ := true } ∧
    (∃ l, m.process_completions.1.trace = m.trace ++ l ∧
      applied_completions l ≤ m.completion_limit_ + 1) ∧
    (∀ m1 out, m.completion_limit_ ≠ 0 → m.processing_completions_ = false →
      m.process_completions = (m1, Ret.ok out) →
      out = last_some (cascade_outputs 0 (m.completion_limit_ + 2)
        { m with processing_completions_ := true })) ∧
    Examples.makeLoopBuilder.build 1 () = some (Examples.madeLoopMachine, Ret.ok ()) ∧
    Examples.madeLoopMachine.state = Examples.LState.LoopA := by
  refine ⟨completion_loop_bound_free _ extra none 0 _ (by simp), ?_, ?_, by rfl, rfl⟩
  · obtain ⟨l, hl, hc, _⟩ := process_completions_applies m
    exact ⟨l, hl, hc⟩
  · intro m1 out hl hp h
    exact process_completions_output m m1 out hl hp h

/-- C30: a finalize call whose completion processing runs (the limit is not zero and the
call is not nested in completion processing) and returns normally with `out`.  Then
`out` is the last output set among the results of the completions applied, in the
order of their application: it is `Some v` exactly when some completion of the cascade
returned `Some v` and every later one returned `None`, and it is `None` exactly when
every completion applied returned `None`, in particular when none was applied. -/
theorem completion_output_is_last_some (m m1 : MachineImpl S I O C) (out : Option O)
    (hl : m.completion_limit_ ≠ 0) (hp : m.processing_completions_ = false)
    (h : m.process_completions = (m1, Ret.ok out)) :
    out = last_some (cascade_outputs 0 (m.completion_limit_ + 2)
      { m with processing_completions_ := true }) ∧
    (∀ v, out = some v ↔
      ∃ pre post, cascade_outputs 0 (m.completion_limit_ + 2)
          { m with processing_completions_ := true } = pre ++ some v :: post ∧
        ∀ x ∈ post, x = none) ∧
    (out = none ↔
      ∀ x ∈ cascade_outputs (O := O) 0 (m.completion_limit_ + 2)
        { m with processing_completions_ := true }, x = none) := by
  have hout := process_completions_output m m1 out hl hp h
  refine ⟨hout, fun v => ?_, ?_⟩
  · rw [hout]
    exact last_some_eq_some _ v
  · rw [hout]
    exact last_some_eq_none _

/-- A machine whose cascade is `Idle -> Active`, which returns `7`, then
`Active -> Done`, which returns nothing: the completion output is `7`. -/
theorem completion_output_is_last_some_witness :
    cascade_outputs 0 5 { Examples.cascadeMachine with processing_completions_ := true }
      = [some 7, none] ∧
    Examples.cascadeMachine.process_completions.2 = Ret.ok (some 7) ∧
    (some 7 = last_some (cascade_outputs 0 (Examples.cascadeMachine.completion_limit_ + 2)
      { Examples.cascadeMachine with processing_completions_ := true })) :=
  ⟨by rfl, by rfl,
    (completion_output_is_last_some Examples.cascadeMachine
      { Examples.cascadeMachine with
        current_ := Examples.CState.Done,
        trace := [Call.completion Examples.CState.Idle Examples.CState.Active,
                  Call.completion_action Examples.CState.Idle Examples.CState.Active,
                  Call.set_state Examples.CState.Active,
                  Call.completion Examples.CState.Active Examples.CState.Done,
                  Call.set_state Examples.CState.Done] }
      (some 7) (by decide) rfl (by rfl)).1⟩

/-- C26: `commit` against `dispatch`.  When `select(e)` is valid,
`commit(select(e), &e)` is `dispatch(e)`: the same result (or exception) and the same
machine, state, context, queues and trace.  `commit` of an invalid selection returns
`None` and leaves the machine as it is. -/
theorem commit_select_is_dispatch (fuel : Nat) (m : MachineImpl S I O C) (e : I) :
    ((m.select e).valid_ = true → m.commit fuel (m.select e) (some e) = m.dispatch fuel e) ∧
    (∀ (sel : Selection S I O C) (inptr : Option I), sel.valid_ = false →
      m.commit fuel sel inptr = some (m, Ret.ok none)) := by
  constructor
  · intro hv
    simp only [dispatch, hv, if_true]
  · intro sel inptr hv
    unfold commit
    cases hg : sel.get with
    | none => rfl
    | some t =>
      simp only [Selection.valid_, Selection.get] at hv hg
      rw [hg] at hv
      cases hv

/-- The machine of `tests/select_commit.cpp`: the selection for `Go` in `A` is valid, and
committing it returns `"ok"` and leaves `B`, as `dispatch(Go)` does. -/
theorem commit_select_is_dispatch_witness :
    ((Examples.selectMachine Examples.SState.A).select ()).valid_ = true ∧
    (Examples.selectMachine Examples.SState.A).commit 1
        ((Examples.selectMachine Examples.SState.A).select ()) (some ()) =
      (Examples.selectMachine Examples.SState.A).dispatch 1 () ∧
    ((Examples.selectMachine Examples.SState.A).commit 1
        ((Examples.selectMachine Examples.SState.A).select ()) (some ())).map
        (fun r => (r.2, r.1.current_)) = some (Ret.ok (some "ok"), Examples.SState.B) :=
  ⟨by rfl,
    (commit_select_is_dispatch 1 (Examples.selectMachine Examples.SState.A) ()).1 (by rfl),
    by rfl⟩

end CompletionResults

end MachineImpl

namespace MachineImpl

section Guards

variable {S I O C : Type} [DecidableEq S]

theorem notify_unhandled_summary (m : MachineImpl S I O C) (e : I) :
    ∃ l, (m.notify_unhandled e : MachineImpl S I O C × Ret (Option O)).2 = Ret.ok none ∧
      (m.notify_unhandled e : MachineImpl S I O C × Ret (Option O)).1.current_ = m.current_ ∧
      (m.notify_unhandled e : MachineImpl S I O C × Ret (Option O)).1.trace = m.trace ++ l ∧
      ∀ c ∈ l, Call.is_unhandled c = true := by
  cases hs : m.state_unhandled_hook with
  | some f =>
    rw [notify_unhandled_state m e f hs]
    exact ⟨[Call.on_unhandled_state m.current_ e], rfl, rfl, rfl, by simp [Call.is_unhandled]⟩
  | none =>
    cases hm : m.machine_unhandled_ with
    | some f =>
      rw [notify_unhandled_machine m e f hs hm]
      exact ⟨[Call.on_unhandled_machine m.current_ e], rfl, rfl, rfl,
        by simp [Call.is_unhandled]⟩
    | none =>
      rw [notify_unhandled_nothing m e hs hm]
      exact ⟨[], rfl, rfl, (List.append_nil _).symm, by simp⟩

theorem find_transition_none_of_rejected (m : MachineImpl S I O C) (e : I)
    (hown : ∀ vec, Tbl.find m.transitions_ m.current_ = some vec →
      ∀ t ∈ vec, guard_passes t e m.ctx_ = false)
    (hany : ∀ t ∈ m.any_transitions_, guard_passes t e m.ctx_ = false) :
    m.find_transition e = none := by
  have hfind : ∀ l : List (Transition S I O C), (∀ t ∈ l, guard_passes t e m.ctx_ = false) →
      l.find? (fun candidate => guard_passes candidate e m.ctx_) = none := by
    intro l hl
    rw [List.find?_eq_none]
    intro t ht
    simp [hl t ht]
  unfold find_transition
  simp only [state, context]
  cases hf : Tbl.find m.transitions_ m.current_ with
  | none => simp only [hfind _ hany]
  | some vec => simp only [hfind _ (hown vec hf), hfind _ hany]

/-- C27: the guard that `on<T>(from, to, action, guard)` installs passes on `(e, c)`
exactly when `e` holds the alternative `T` and `guard(e, c)` is true (when `e` holds `T`,
if no guard is given), and the guard that `on_value` installs passes exactly when `e`
equals the configured value and `guard(e, c)` is true; `find_transition` takes a
transition as a candidate exactly when its guard passes.  When every transition declared
for the current state and every any-source transition is rejected, `dispatch(e)` returns
`None` and leaves the state as it is, and the only callable it may call is an
`on_unhandled` hook, never an action.  In `tests/guard_combined.cpp`, `dispatch(Trigger)`
with `allow == false` returns `None` and changes nothing, and after `allow` is set the
same dispatch takes the transition to `Next`. -/
theorem guard_decides_candidate :
    (∀ (T : Type) (alt : I → Option T) (from_ to_ : S)
        (action : Option (T → C → C × Except Exn (Option O))) (g : I → C → Bool)
        (priority : Int) (suppress defer : Bool) (e : I) (c : C),
      guard_passes (Builder.variant_transition alt from_ to_ action (some g) priority
          suppress defer) e c = ((alt e).isSome && g e c) ∧
      guard_passes (Builder.variant_transition alt from_ to_ action none priority
          suppress defer) e c = (alt e).isSome) ∧
    (∀ [DecidableEq I] (from_ to_ : S) (v : I)
        (action : Option (I → C → C × Except Exn (Option O))) (g : I → C → Bool)
        (priority : Int) (suppress defer : Bool) (e : I) (c : C),
      guard_passes (Builder.value_transition from_ to_ v action (some g) priority
          suppress defer) e c = (decide (e = v) && g e c) ∧
      guard_passes (Builder.value_transition from_ to_ v action none priority
          suppress defer) e c = decide (e = v)) ∧
    (∀ (fuel : Nat) (m : MachineImpl S I O C) (e : I),
      (∀ vec, Tbl.find m.transitions_ m.current_ = some vec →
        ∀ t ∈ vec, guard_passes t e m.ctx_ = false) →
      (∀ t ∈ m.any_transitions_, guard_passes t e m.ctx_ = false) →
      ∃ m1 l, m.dispatch fuel e = some (m1, Ret.ok none) ∧ m1.current_ = m.current_ ∧
        m1.trace = m.trace ++ l ∧ ∀ c ∈ l, Call.is_unhandled c = true) ∧
    Examples.guardBuilder.build 1 false =
      some (Examples.guardMachine Examples.GState.Idle false, Ret.ok ()) ∧
    (Examples.guardMachine Examples.GState.Idle false).dispatch 1 Examples.GInput.Trigger =
      some (Examples.guardMachine Examples.GState.Idle false, Ret.ok none) ∧
    (Examples.guardMachine Examples.GState.Idle true).dispatch 1 Examples.GInput.Trigger =
      some ({ Examples.guardMachine Examples.GState.Next true with
              trace := [Call.action Examples.GState.Next Examples.GInput.Trigger,
                        Call.set_state Examples.GState.Next] }, Ret.ok none) := by
  refine ⟨?_, ?_, ?_, by rfl, by rfl, by rfl⟩
  · intro T alt from_ to_ action g priority suppress defer e c
    exact ⟨rfl, rfl⟩
  · intro _ from_ to_ v action g priority suppress defer e c
    exact ⟨rfl, rfl⟩
  · intro fuel m e hown hany
    have hsel := find_transition_none_of_rejected m e hown hany
    obtain ⟨l, h1, h2, h3, h4⟩ := notify_unhandled_summary (O := O) m e
    refine ⟨(m.notify_unhandled e : MachineImpl S I O C × Ret (Option O)).1, l, ?_, h2, h3, h4⟩
    rw [dispatch_of_unselected fuel m e hsel, ← h1]

end Guards

end MachineImpl

namespace MachineImpl

section DrainExtent

variable {S I O C : Type} [DecidableEq S]

theorem drain_loop_ends_empty (fuel : Nat) :
    ∀ (m m1 : MachineImpl S I O C), drain_loop fuel m = some (m1, Ret.ok ()) →
      m1.waiting m1.current_ = [] := by
  induction fuel with
  | zero => intro m m1 h; simp [drain_loop] at h
  | succ n ih =>
    intro m m1 h
    unfold drain_loop at h
    cases hq : Tbl.find m.deferrals_ m.current_ with
    | none =>
      simp only [hq, Option.some.injEq, Prod.mk.injEq] at h
      rw [← h.1]
      simp only [waiting, hq, Option.getD_none]
    | some q =>
      cases q with
      | nil =>
        simp only [hq, Option.some.injEq, Prod.mk.injEq] at h
        rw [← h.1]
        simp only [waiting, hq, Option.getD_some]
      | cons next rest =>
        simp only [hq] at h
        obtain ⟨m2, _, _, h2⟩ := andThenF_eq_ok _ _ _ _ h
        exact ih m2 m1 h2

theorem drain_loop_step (n : Nat) (m : MachineImpl S I O C) (e1 : I) (rest : List I)
    (hq : Tbl.find m.deferrals_ m.current_ = some (e1 :: rest)) :
    drain_loop n.succ m =
      andThenF (handle_input (O := O) n
          { m with deferrals_ := Tbl.modify [] List.tail m.deferrals_ m.current_ } e1)
        (fun m2 _ => drain_loop n m2) := by
  rw [drain_loop]
  simp only [hq]
  rfl

/-- C29 (counterexample): the relay machine, which `build` returns in `A`, defers its one
event on the way to `B` and again on the way to `C`.  `dispatch` of the event settles in
`B`; the drain replays the event there, which moves the machine to `C` with the event
queued for `C`, and the same drain then replays it from the queue of `C`: the action of
`C -> D` runs and the dispatch ends in `D` with the queue of `C` empty. -/
theorem drain_extent_counterexample :
    Examples.relayBuilder.build 1 [] = some (Examples.relayMachine, Ret.ok ()) ∧
    (Examples.relayMachine.dispatch 3 ()).map
        (fun r => (r.2, r.1.current_, r.1.ctx_, r.1.waiting Examples.RState.C))
      = some (Ret.ok none, Examples.RState.D, ["C->D"], []) ∧
    replay_order (O := String) 3 { Examples.relaySettled with draining_deferrals_ := true }
      = some [(Examples.RState.B, ()), (Examples.RState.C, ())] :=
  ⟨by rfl, by rfl, by rfl⟩

/-- C29 (amended): when a dispatch settles at `s` with deferral enabled and outside a
drain, the drain replays the front event of the queue of the state the machine is in,
and after each replay goes on from the machine that replay left, in whatever state it
is: it takes the first event from the queue of `s`, then from the queue of the state
the replay led to, and so on.  When the drain returns normally, the queue of the state
the machine is then in is empty. -/
theorem drain_follows_current_state (fuel : Nat) (m m1 : MachineImpl S I O C)
    (hen : m.deferral_enabled_ = true) (hdr : m.draining_deferrals_ = false)
    (h : m.drain_deferrals_for_current_state fuel = some (m1, Ret.ok ())) :
    m1.waiting m1.current_ = [] ∧
    (∃ log, replay_order (O := O) fuel { m with draining_deferrals_ := true } = some log ∧
      ∀ e1 rest, m.waiting m.current_ = e1 :: rest → log.head? = some (m.current_, e1)) ∧
    (∀ (n : Nat) (m2 : MachineImpl S I O C) (e1 : I) (rest : List I),
      Tbl.find m2.deferrals_ m2.current_ = some (e1 :: rest) →
      drain_loop n.succ m2 =
        andThenF (handle_input (O := O) n
            { m2 with deferrals_ := Tbl.modify [] List.tail m2.deferrals_ m2.current_ } e1)
          (fun m3 _ => drain_loop n m3)) := by
  rw [drain_deferrals_of_enabled fuel m hen hdr] at h
  cases hl : drain_loop fuel { m with draining_deferrals_ := true } with
  | none => rw [hl] at h; simp [tryFinallyF] at h
  | some p =>
    obtain ⟨m0, r0⟩ := p
    rw [hl] at h
    cases r0 with
    | raised x => simp [tryFinallyF, tryFinally] at h
    | aborted => simp [tryFinallyF, tryFinally] at h
    | ok u =>
      simp only [tryFinallyF, tryFinally, Option.some.injEq, Prod.mk.injEq] at h
      obtain ⟨log, hlog, _, _⟩ := drain_loop_replays (O := O) fuel _ m0 (Ret.ok u) rfl hl
      refine ⟨?_, ⟨log, hlog, fun e1 rest hq => ?_⟩, fun n m2 e1 rest hq =>
        drain_loop_step n m2 e1 rest hq⟩
      · rw [← h.1]
        exact drain_loop_ends_empty fuel _ m0 hl
      · exact replay_order_head fuel { m with draining_deferrals_ := true } e1 rest log hq hlog

/-- The relay machine settled in `B`: the drain replays the event in `B` and then in `C`,
and returns in `D`, whose queue is empty. -/
theorem drain_follows_current_state_witness :
    Examples.relayDone.waiting Examples.relayDone.current_ = [] ∧
    ∃ log, replay_order (O := String) 3
        { Examples.relaySettled with draining_deferrals_ := true } = some log ∧
      ∀ e1 rest, Examples.relaySettled.waiting Examples.relaySettled.current_ = e1 :: rest →
        log.head? = some (Examples.relaySettled.current_, e1) :=
  ⟨(drain_follows_current_state 3 Examples.relaySettled Examples.relayDone
      (by rfl) (by rfl) (by rfl)).1,
    (drain_follows_current_state 3 Examples.relaySettled Examples.relayDone
      (by rfl) (by rfl) (by rfl)).2.1⟩

end DrainExtent

end MachineImpl

namespace MachineImpl

section Flags

variable {S I O C : Type} [DecidableEq S]

theorem flagsKept_refl (m : MachineImpl S I O C) : FlagsKept m m := ⟨rfl, rfl, rfl⟩

theorem flagsKept_trans {a b c : MachineImpl S I O C} (h1 : FlagsKept a b)
    (h2 : FlagsKept b c) : FlagsKept a c :=
  ⟨h2.1.trans h1.1, h2.2.1.trans h1.2.1, h2.2.2.trans h1.2.2⟩

theorem ofExcept_ne_aborted {α : Type} (r : Except Exn α) : Ret.ofExcept r ≠ Ret.aborted := by
  cases r <;> simp [Ret.ofExcept]

theorem calm_pure {α : Type} (m : MachineImpl S I O C) (a : α) : Calm m (m, Ret.ok a) :=
  ⟨by simp, flagsKept_refl m⟩

theorem calm_andThen {α β : Type} (m : MachineImpl S I O C)
    (r : MachineImpl S I O C × Ret α) (k : MachineImpl S I O C → α → MachineImpl S I O C × Ret β)
    (h1 : Calm m r) (h2 : ∀ m1 a, Calm m1 (k m1 a)) : Calm m (andThen r k) := by
  obtain ⟨m1, o⟩ := r
  cases o with
  | ok a => exact ⟨(h2 m1 a).1, flagsKept_trans h1.2 (h2 m1 a).2⟩
  | raised x => exact ⟨by simp [andThen], h1.2⟩
  | aborted => exact absurd rfl h1.1

theorem call_exit_calm (m : MachineImpl S I O C) (f t : S) (i : Option I) :
    Calm m (m.call_exit f t i) := by
  rw [call_exit_eq]
  exact ⟨ofExcept_ne_aborted _, rfl, rfl, rfl⟩

theorem call_enter_calm (m : MachineImpl S I O C) (k f t : S) (i : Option I) :
    Calm m (m.call_enter k f t i) := by
  rw [call_enter_eq]
  exact ⟨ofExcept_ne_aborted _, rfl, rfl, rfl⟩

theorem invoke_transition_action_calm (m : MachineImpl S I O C) (t : Transition S I O C)
    (i : I) : Calm m (m.invoke_transition_action t i) := by
  rw [invoke_transition_action_eq]
  exact ⟨ofExcept_ne_aborted _, rfl, rfl, rfl⟩

theorem invoke_completion_action_calm (m : MachineImpl S I O C) (c : Completion S O C) :
    Calm m (m.invoke_completion_action c) := by
  rw [invoke_completion_action_eq]
  exact ⟨ofExcept_ne_aborted _, rfl, rfl, rfl⟩

theorem apply_transition_calm (m : MachineImpl S I O C) (t : Transition S I O C)
    (i : Option I) (inv : Bool) : Calm m (m.apply_transition t i inv) := by
  unfold apply_transition
  simp only [state]
  refine calm_andThen _ _ _ ?_ ?_
  · split
    · exact calm_pure _ _
    · exact call_exit_calm _ _ _ _
  · intro m1 _
    refine calm_andThen _ _ _ ?_ ?_
    · split
      · exact invoke_transition_action_calm _ _ _
      · exact calm_pure _ _
    · intro m2 out
      refine calm_andThen _ _ _ ?_ ?_
      · split
        · exact ⟨by simp, rfl, rfl, rfl⟩
        · have h := call_enter_calm (m2.set_state_direct t.to_) t.to_ m.current_ t.to_ i
          exact ⟨h.1, h.2⟩
      · intro m4 _
        exact calm_pure _ _

theorem apply_completion_calm (m : MachineImpl S I O C) (c : Completion S O C) :
    Calm m (m.apply_completion c) := by
  unfold apply_completion
  simp only [state]
  refine calm_andThen _ _ _ ?_ ?_
  · split
    · exact ⟨by simp, rfl, rfl, rfl⟩
    · have h := call_exit_calm
        ({ m with trace := m.trace ++ [Call.completion m.current_ c.to_] } :
          MachineImpl S I O C) m.current_ c.to_ none
      exact ⟨h.1, h.2⟩
  · intro m1 _
    refine calm_andThen _ _ _ (invoke_completion_action_calm _ _) ?_
    intro m2 out
    refine calm_andThen _ _ _ ?_ ?_
    · split
      · exact ⟨by simp, rfl, rfl, rfl⟩
      · have h := call_enter_calm (m2.set_state_direct c.to_) c.to_ m.current_ c.to_ none
        exact ⟨h.1, h.2⟩
    · intro m4 _
      exact calm_pure _ _

theorem completion_loop_calm (bound : Nat) :
    ∀ (output : Option O) (steps : Nat) (m : MachineImpl S I O C),
      Calm m (completion_loop output steps bound m) := by
  induction bound with
  | zero => intro output steps m; exact calm_pure _ _
  | succ n ih =>
    intro output steps m
    unfold completion_loop
    split
    · exact calm_pure _ _
    · split
      · exact calm_pure _ _
      · exact calm_andThen _ _ _ (apply_completion_calm _ _) (fun m1 result => ih _ _ m1)

theorem notify_unhandled_calm (m : MachineImpl S I O C) (e : I) :
    Calm m (m.notify_unhandled e : MachineImpl S I O C × Ret (Option O)) := by
  obtain ⟨l, h1, _, _, _⟩ := notify_unhandled_summary (O := O) m e
  refine ⟨by rw [h1]; simp, ?_⟩
  have hq := notify_unhandled_rel (O := O) sameQueues_commitFrame m e
  have hc := notify_unhandled_rel (O := O)
    sameConfig_frame.toCompletionFrame.toCommitFrame m e
  exact ⟨hc.2.2.2.2.2.2.2, hq.2.2.2, hq.2.2.1⟩

theorem process_completions_unwinds (m : MachineImpl S I O C) :
    Unwinds m (m.process_completions : MachineImpl S I O C × Ret (Option O)) := by
  intro ha
  unfold process_completions
  split
  · exact calm_pure _ _
  · rename_i hc
    have hp : m.processing_completions_ = false := by
      cases hpc : m.processing_completions_
      · rfl
      · simp [hpc] at hc
    split
    · rename_i hai
      rw [ha] at hai
      cases hai
    · have h := completion_loop_calm (O := O) (m.completion_limit_ + 2) none 0
        { m with processing_completions_ := true }
      generalize completion_loop none 0 (m.completion_limit_ + 2)
        { m with processing_completions_ := true } = p at h
      obtain ⟨m1, r⟩ := p
      obtain ⟨hne, h1, _, h3⟩ := h
      simp only at hne h1 h3
      cases r with
      | ok a => exact ⟨by simp [tryFinally], h1, hp.symm, h3⟩
      | raised x => exact ⟨by simp [tryFinally], h1, hp.symm, h3⟩
      | aborted => exact absurd rfl hne

end Flags

end MachineImpl

namespace MachineImpl

section FlagsFuel

variable {S I O C : Type} [DecidableEq S]

theorem unwindsF_some {α : Type} (m : MachineImpl S I O C)
    (r : MachineImpl S I O C × Ret α) (h : Unwinds m r) : UnwindsF m (some r) := by
  intro p hp
  cases hp
  exact h

theorem unwinds_of_calm {α : Type} (m : MachineImpl S I O C)
    (r : MachineImpl S I O C × Ret α) (h : Calm m r) : Unwinds m r := fun _ => h

theorem unwindsF_of_kept {α : Type} (m m1 : MachineImpl S I O C)
    (r : Option (MachineImpl S I O C × Ret α)) (hk : FlagsKept m m1) (h : UnwindsF m1 r) :
    UnwindsF m r := by
  intro p hp ha
  have := h p hp (hk.1.trans ha)
  exact ⟨this.1, flagsKept_trans hk this.2⟩

theorem unwindsF_andThenF {α β : Type} (m : MachineImpl S I O C)
    (r : Option (MachineImpl S I O C × Ret α))
    (k : MachineImpl S I O C → α → Option (MachineImpl S I O C × Ret β))
    (h1 : UnwindsF m r) (h2 : ∀ m1 a, UnwindsF m1 (k m1 a)) : UnwindsF m (andThenF r k) := by
  intro p hp ha
  cases r with
  | none => simp [andThenF] at hp
  | some r0 =>
    obtain ⟨m1, o⟩ := r0
    have hc := h1 (m1, o) rfl ha
    cases o with
    | ok a =>
      simp only [andThenF_ok] at hp
      have := h2 m1 a p hp (hc.2.1.trans ha)
      exact ⟨this.1, flagsKept_trans hc.2 this.2⟩
    | raised x =>
      simp only [andThenF_raised, Option.some.injEq] at hp
      subst hp
      exact ⟨by simp, hc.2⟩
    | aborted => exact absurd rfl hc.1

theorem finalize_transition_with_unwinds
    (drain : MachineImpl S I O C → Option (MachineImpl S I O C × Ret Unit))
    (hd : ∀ m, UnwindsF m (drain m)) (m : MachineImpl S I O C) (result : Option O) :
    UnwindsF m (finalize_transition_with drain m result) := by
  unfold finalize_transition_with
  refine unwindsF_andThenF _ _ _ (unwindsF_some _ _ (process_completions_unwinds m)) ?_
  intro m1 cout
  refine unwindsF_andThenF _ _ _ (hd m1) ?_
  intro m2 _
  exact unwindsF_some _ _ (unwinds_of_calm _ _ (calm_pure _ _))

theorem handle_input_with_unwinds
    (drain : MachineImpl S I O C → Option (MachineImpl S I O C × Ret Unit))
    (hd : ∀ m, UnwindsF m (drain m)) (m : MachineImpl S I O C) (e : I) :
    UnwindsF m (handle_input_with (O := O) drain m e) := by
  unfold handle_input_with
  split
  · rename_i t _
    split
    · refine unwindsF_andThenF _ _ _ ?_ (fun m1 _ => finalize_transition_with_unwinds drain hd m1 none)
      refine unwindsF_of_kept m (m.push_deferral t.to_ e) _ ⟨rfl, rfl, rfl⟩ ?_
      exact unwindsF_some _ _ (unwinds_of_calm _ _ (apply_transition_calm _ _ _ _))
    · refine unwindsF_andThenF _ _ _ ?_ (fun m1 out => finalize_transition_with_unwinds drain hd m1 out)
      exact unwindsF_some _ _ (unwinds_of_calm _ _ (apply_transition_calm _ _ _ _))
  · exact unwindsF_some _ _ (unwinds_of_calm _ _ (notify_unhandled_calm m e))

theorem drain_with_unwinds
    (loop : MachineImpl S I O C → Option (MachineImpl S I O C × Ret Unit))
    (hl : ∀ m, UnwindsF m (loop m)) (m : MachineImpl S I O C) :
    UnwindsF m (drain_with loop m) := by
  unfold drain_with
  split
  · exact unwindsF_some _ _ (unwinds_of_calm _ _ (calm_pure _ _))
  · rename_i hc
    have hdr : m.draining_deferrals_ = false := by
      cases hd : m.draining_deferrals_
      · rfl
      · simp [hd] at hc
    intro p hp ha
    unfold tryFinallyF at hp
    split at hp
    · cases hp
    · rename_i p0 hp0
      simp only [Option.some.injEq] at hp
      subst hp
      obtain ⟨hne, h1, h2, _⟩ := hl _ p0 hp0 ha
      obtain ⟨m1, r⟩ := p0
      simp only at hne h1 h2
      cases r with
      | ok a => exact ⟨by simp [tryFinally], h1, h2, hdr.symm⟩
      | raised x => exact ⟨by simp [tryFinally], h1, h2, hdr.symm⟩
      | aborted => exact absurd rfl hne

theorem drain_loop_unwinds (fuel : Nat) :
    ∀ m : MachineImpl S I O C, UnwindsF m (drain_loop fuel m) := by
  induction fuel with
  | zero => intro m p hp; simp [drain_loop] at hp
  | succ n ih =>
    intro m
    unfold drain_loop
    split
    · exact unwindsF_some _ _ (unwinds_of_calm _ _ (calm_pure _ _))
    · exact unwindsF_some _ _ (unwinds_of_calm _ _ (calm_pure _ _))
    · rename_i next rest hq
      refine unwindsF_andThenF _ _ _ ?_ (fun m2 _ => ih m2)
      refine unwindsF_of_kept m _ _ ⟨rfl, rfl, rfl⟩ ?_
      exact handle_input_with_unwinds _ (drain_with_unwinds _ ih) _ next

theorem drain_deferrals_unwinds (fuel : Nat) (m : MachineImpl S I O C) :
    UnwindsF m (m.drain_deferrals_for_current_state fuel) :=
  drain_with_unwinds _ (drain_loop_unwinds fuel) m

theorem finalize_transition_unwinds (fuel : Nat) (m : MachineImpl S I O C)
    (result : Option O) : UnwindsF m (m.finalize_transition fuel result) :=
  finalize_transition_with_unwinds _ (drain_deferrals_unwinds fuel) m result

theorem handle_input_unwinds (fuel : Nat) (m : MachineImpl S I O C) (e : I) :
    UnwindsF m (m.handle_input (O := O) fuel e) :=
  handle_input_with_unwinds _ (drain_deferrals_unwinds fuel) m e

theorem dispatch_unwinds (fuel : Nat) (m : MachineImpl S I O C) (e : I) :
    UnwindsF m (m.dispatch (O := O) fuel e) := by
  rw [← handle_input_eq_dispatch]
  exact handle_input_unwinds fuel m e

theorem commit_unwinds (fuel : Nat) (m : MachineImpl S I O C) (sel : Selection S I O C)
    (inptr : Option I) : UnwindsF m (m.commit fuel sel inptr) := by
  unfold commit
  split
  · exact unwindsF_some _ _ (unwinds_of_calm _ _ (calm_pure _ _))
  · rename_i t _
    split
    · rename_i input
      split
      · refine unwindsF_andThenF _ _ _ ?_ (fun m1 _ => finalize_transition_unwinds fuel m1 none)
        refine unwindsF_of_kept m (m.push_deferral t.to_ input) _ ⟨rfl, rfl, rfl⟩ ?_
        exact unwindsF_some _ _ (unwinds_of_calm _ _ (apply_transition_calm _ _ _ _))
      · refine unwindsF_andThenF _ _ _ ?_ (fun m1 out => finalize_transition_unwinds fuel m1 out)
        exact unwindsF_some _ _ (unwinds_of_calm _ _ (apply_transition_calm _ _ _ _))
    · refine unwindsF_andThenF _ _ _ ?_ (fun m1 out => finalize_transition_unwinds fuel m1 out)
      exact unwindsF_some _ _ (unwinds_of_calm _ _ (apply_transition_calm _ _ _ _))

theorem dispatch_all_loop_unwinds (fuel : Nat) (rounds : Nat) :
    ∀ (m : MachineImpl S I O C) (outputs : List O),
      UnwindsF m (dispatch_all_loop fuel rounds m outputs) := by
  induction rounds with
  | zero => intro m outputs p hp; simp [dispatch_all_loop] at hp
  | succ n ih =>
    intro m outputs
    unfold dispatch_all_loop
    split
    · exact unwindsF_some _ _ (unwinds_of_calm _ _ (calm_pure _ _))
    · rename_i next rest _
      refine unwindsF_andThenF _ _ _ ?_ (fun m1 out => ih m1 _)
      refine unwindsF_of_kept m _ _ ⟨rfl, rfl, rfl⟩ ?_
      exact handle_input_unwinds fuel _ next

end FlagsFuel

end MachineImpl

namespace Adapter

section FlagsAsync

variable {S I O C : Type} [DecidableEq S]

theorem with_machine_eq_some {α : Type} (a a1 : Adapter S I O C)
    (r : Option (MachineImpl S I O C × Ret α)) (o : Ret α)
    (h : a.with_machine r = some (a1, o)) :
    ∃ m1, r = some (m1, o) ∧ a1 = { a with machine_ := m1 } := by
  cases r with
  | none => simp [with_machine] at h
  | some p =>
    simp only [with_machine, Option.some.injEq, Prod.mk.injEq] at h
    exact ⟨p.1, by rw [← h.2], h.1.symm⟩

theorem dispatch_async_unwinds (fuel : Nat) (a a1 : Adapter S I O C) (e : I)
    (o : Ret (Option O)) (ha : a.machine_.async_inflight_ = false)
    (h : a.dispatch_async fuel e = some (a1, o)) :
    o ≠ Ret.aborted ∧ FlagsKept a.machine_ a1.machine_ := by
  have hcommit := MachineImpl.commit_unwinds fuel a.machine_ (a.machine_.select e) (some e)
  cases hg : (a.machine_.select e).get with
  | none =>
    unfold dispatch_async at h
    simp only [hg, Option.some.injEq, Prod.mk.injEq] at h
    rw [← h.1, ← h.2]
    exact ⟨by simp, MachineImpl.flagsKept_refl _⟩
  | some t =>
    have hplain : ∀ a2 o2,
        a.with_machine (a.machine_.commit fuel (a.machine_.select e) (some e)) = some (a2, o2) →
        o2 ≠ Ret.aborted ∧ FlagsKept a.machine_ a2.machine_ := by
      intro a2 o2 h2
      obtain ⟨m1, hm1, ha2⟩ := with_machine_eq_some a a2 _ o2 h2
      have := hcommit (m1, o2) hm1 ha
      rw [ha2]
      exact this
    cases hreg : a.registry_.find a.machine_.current_ t.to_ with
    | none =>
      unfold dispatch_async at h
      simp only [hg, MachineImpl.state, hreg] at h
      exact hplain a1 o h
    | some actions =>
      cases actions with
      | nil =>
        unfold dispatch_async at h
        simp only [hg, MachineImpl.state, hreg] at h
        exact hplain a1 o h
      | cons action rest =>
        rw [dispatch_async_of_bound fuel a e t action rest hg hreg] at h
        cases hc : a.machine_.commit fuel (a.machine_.select e) (some e) with
        | none => rw [hc] at h; simp [with_machine, andThenF] at h
        | some p =>
          obtain ⟨m1, r1⟩ := p
          have hcalm := hcommit (m1, r1) hc ha
          rw [hc] at h
          cases r1 with
          | raised x =>
            simp only [with_machine, andThenF, Option.some.injEq, Prod.mk.injEq] at h
            rw [← h.1, ← h.2]
            exact ⟨by simp, hcalm.2⟩
          | aborted => exact absurd rfl hcalm.1
          | ok cout =>
            rw [← hc] at h
            rw [← dispatch_async_of_bound fuel a e t action rest hg hreg] at h
            rw [dispatch_async_of_commit fuel a e t action rest m1 cout hg hreg hc] at h
            simp only [Option.some.injEq, Prod.mk.injEq] at h
            rw [← h.1, ← h.2]
            refine ⟨?_, ha.symm, hcalm.2.2.1, hcalm.2.2.2⟩
            cases (action e m1.current_ m1.ctx_ { src := a.global_cancel_.isSome }
              (a.global_cancel_.getD {})).2 <;> simp

end FlagsAsync

end Adapter

namespace MachineImpl

section FlagsClaim

variable {S I O C : Type} [DecidableEq S]

end FlagsClaim

end MachineImpl

namespace MachineImpl

section FlagsCleared

variable {S I O C : Type} [DecidableEq S]

end FlagsCleared

end MachineImpl

namespace ToStage

section Fragments

variable {S I O C : Type} [DecidableEq S]

theorem run_fragments_running (input : I) (s : S) (tok : CancelToken) :
    ∀ (fs : List (CoAction S I O C)) (c : C) (src : CancelSource),
      (∀ f ∈ fs, KeepsRunning tok f) → tok.stop_requested src = false →
      tok.stop_requested (run_fragments input s tok fs c src).1.2 = false := by
  intro fs
  induction fs with
  | nil => intro c src _ h0; exact h0
  | cons f rest ih =>
    intro c src hseq h0
    have hf := hseq f (List.mem_cons_self _ _) input s c src h0
    have hrest : ∀ g ∈ rest, KeepsRunning tok g := fun g hg => hseq g (List.mem_cons_of_mem _ hg)
    unfold run_fragments
    generalize f input s c tok src = p at hf
    obtain ⟨⟨c1, s1⟩, r⟩ := p
    cases r with
    | error x => exact hf
    | ok v =>
      simp only at hf ⊢
      have := ih c1 s1 hrest hf
      generalize run_fragments input s tok rest c1 s1 = q at this ⊢
      obtain ⟨cs, r2⟩ := q
      cases r2 <;> exact this

theorem run_fragments_length (input : I) (s : S) (tok : CancelToken) :
    ∀ (fs : List (CoAction S I O C)) (c : C) (src : CancelSource) (cs : C × CancelSource)
      (outs : List (Option O)),
      run_fragments input s tok fs c src = (cs, Except.ok outs) → outs.length = fs.length := by
  intro fs
  induction fs with
  | nil =>
    intro c src cs outs h
    simp only [run_fragments, Prod.mk.injEq, Except.ok.injEq] at h
    rw [← h.2]
    rfl
  | cons f rest ih =>
    intro c src cs outs h
    unfold run_fragments at h
    generalize f input s c tok src = p at h
    obtain ⟨⟨c1, s1⟩, r⟩ := p
    cases r with
    | error x => simp at h
    | ok v =>
      simp only at h
      have := ih c1 s1
      generalize run_fragments input s tok rest c1 s1 = q at h this
      obtain ⟨cs2, r2⟩ := q
      cases r2 with
      | error x => simp at h
      | ok outs2 =>
        simp only [Prod.mk.injEq, Except.ok.injEq] at h
        rw [← h.2, List.length_cons, List.length_cons, this cs2 outs2 rfl]

theorem attach_loop_eq (input : I) (s : S) (tok : CancelToken) :
    ∀ (fs : List (CoAction S I O C)) (output : Option O) (c : C) (src : CancelSource),
      (∀ f ∈ fs, KeepsRunning tok f) → tok.stop_requested src = false →
      attach_loop input s tok fs output c src =
        match run_fragments input s tok fs c src with
        | (cs, Except.ok outs) => (cs, Except.ok ((last_some outs).or output))
        | (cs, Except.error x) => (cs, Except.error x) := by
  intro fs
  induction fs with
  | nil =>
    intro output c src _ _
    simp [attach_loop, run_fragments, last_some]
  | cons f rest ih =>
    intro output c src hseq h0
    have hf := hseq f (List.mem_cons_self _ _) input s c src h0
    have hrest : ∀ g ∈ rest, KeepsRunning tok g := fun g hg => hseq g (List.mem_cons_of_mem _ hg)
    unfold attach_loop run_fragments
    generalize f input s c tok src = p at hf
    obtain ⟨⟨c1, s1⟩, r⟩ := p
    cases r with
    | error x => rfl
    | ok v =>
      simp only at hf ⊢
      rw [if_neg (by rw [hf]; simp), ih _ c1 s1 hrest hf]
      generalize run_fragments input s tok rest c1 s1 = q
      obtain ⟨cs2, r2⟩ := q
      cases r2 with
      | error x => rfl
      | ok outs =>
        simp only [MachineImpl.last_some_cons]
        generalize last_some outs = ls
        cases ls <;> cases v <;> rfl

theorem retry_steps_eq (input : I) (s : S) (tok : CancelToken) :
    ∀ (fs : List (CoAction S I O C)) (result : Option O) (c : C) (src : CancelSource),
      (∀ f ∈ fs, KeepsRunning tok f) → tok.stop_requested src = false →
      retry_steps input s tok fs result c src =
        match run_fragments input s tok fs c src with
        | (cs, Except.ok outs) => (cs, Except.ok (Attempt.finished ((last_some outs).or result)))
        | (cs, Except.error x) => (cs, Except.error x) := by
  intro fs
  induction fs with
  | nil =>
    intro result c src _ _
    simp [retry_steps, run_fragments, last_some]
  | cons f rest ih =>
    intro result c src hseq h0
    have hf := hseq f (List.mem_cons_self _ _) input s c src h0
    have hrest : ∀ g ∈ rest, KeepsRunning tok g := fun g hg => hseq g (List.mem_cons_of_mem _ hg)
    unfold retry_steps run_fragments
    generalize f input s c tok src = p at hf
    obtain ⟨⟨c1, s1⟩, r⟩ := p
    cases r with
    | error x => rfl
    | ok v =>
      simp only at hf ⊢
      rw [if_neg (by rw [hf]; simp), ih _ c1 s1 hrest hf]
      generalize run_fragments input s tok rest c1 s1 = q
      obtain ⟨cs2, r2⟩ := q
      cases r2 with
      | error x => rfl
      | ok outs =>
        simp only [MachineImpl.last_some_cons]
        generalize last_some outs = ls
        cases ls <;> cases v <;> rfl

end Fragments

end ToStage

namespace ToStage

section Retry

variable {S I O C : Type} [DecidableEq S]

theorem retry_in_order_running (sequence : List (CoAction S I O C))
    (backoff : Backoff S I C) (input : I) (s : S) (tok : CancelToken)
    (hseq : ∀ f ∈ sequence, KeepsRunning tok f)
    (hb : ∀ attempt, KeepsRunning tok (backoff attempt)) :
    ∀ (left : Nat) (attempt : Int) (c : C) (src : CancelSource),
      tok.stop_requested src = false →
      tok.stop_requested
        (retry_in_order sequence backoff input s tok left attempt c src).1.2 = false := by
  intro left
  induction left with
  | zero => intro attempt c src h0; exact h0
  | succ n ih =>
    intro attempt c src h0
    have hrun := run_fragments_running input s tok sequence c src hseq h0
    unfold retry_in_order
    generalize run_fragments input s tok sequence c src = p at hrun
    obtain ⟨⟨c1, s1⟩, r⟩ := p
    cases r with
    | error x => exact hrun
    | ok outs =>
      simp only at hrun ⊢
      cases last_some outs with
      | some v => exact hrun
      | none =>
        simp only
        split
        · exact hrun
        · have hbk := hb attempt input s c1 s1 hrun
          generalize backoff attempt input s c1 tok s1 = q at hbk
          obtain ⟨⟨c2, s2⟩, r2⟩ := q
          cases r2 with
          | error x => exact hbk
          | ok u => exact ih (attempt + 1) c2 s2 hbk

theorem retry_loop_eq (sequence : List (CoAction S I O C)) (backoff : Backoff S I C)
    (attempts : Int) (input : I) (s : S) (tok : CancelToken)
    (hseq : ∀ f ∈ sequence, KeepsRunning tok f)
    (hb : ∀ attempt, KeepsRunning tok (backoff attempt)) :
    ∀ (left : Nat) (attempt : Int) (c : C) (src : CancelSource),
      attempt + (left : Int) = attempts + 1 → tok.stop_requested src = false →
      retry_loop sequence backoff attempts input s tok left attempt c src =
        retry_in_order sequence backoff input s tok left attempt c src := by
  intro left
  induction left with
  | zero => intro attempt c src _ _; rfl
  | succ n ih =>
    intro attempt c src hinv h0
    have hrun := run_fragments_running input s tok sequence c src hseq h0
    unfold retry_loop retry_in_order
    rw [retry_steps_eq input s tok sequence none c src hseq h0]
    generalize run_fragments input s tok sequence c src = p at hrun
    obtain ⟨⟨c1, s1⟩, r⟩ := p
    cases r with
    | error x => rfl
    | ok outs =>
      simp only at hrun ⊢
      cases hls : last_some outs with
      | some v => simp
      | none =>
        simp only [Option.or_none, Option.isSome_none, Bool.false_eq_true, if_false]
        by_cases hn : n = 0
        · subst hn
          have hlt : ¬ attempt < attempts := by
            simp only [Nat.cast_zero, zero_add, Nat.cast_one] at hinv
            omega
          rw [if_neg hlt, if_pos rfl]
          simp only [hrun, Bool.false_eq_true, if_false]
          rfl
        · have hlt : attempt < attempts := by
            have : (1 : Int) ≤ (n : Int) := by omega
            push_cast at hinv
            omega
          rw [if_pos hlt, if_neg hn]
          have hbk := hb attempt input s c1 s1 hrun
          generalize backoff attempt input s c1 tok s1 = q at hbk
          obtain ⟨⟨c2, s2⟩, r2⟩ := q
          cases r2 with
          | error x => rfl
          | ok u =>
            simp only at hbk ⊢
            rw [if_neg (by rw [hbk]; simp)]
            exact ih (attempt + 1) c2 s2 (by push_cast at hinv ⊢; omega) hbk

theorem retry_fragment_keepsRunning (sequence : List (CoAction S I O C))
    (backoff : Backoff S I C) (n : Nat) (tok : CancelToken)
    (hseq : ∀ f ∈ sequence, KeepsRunning tok f)
    (hb : ∀ attempt, KeepsRunning tok (backoff attempt)) :
    KeepsRunning tok (retry_fragment sequence (n : Int) backoff) := by
  intro input s c src h0
  unfold retry_fragment
  simp only [Int.toNat_ofNat]
  rw [retry_loop_eq sequence backoff n input s tok hseq hb n 1 c src (by omega) h0]
  exact retry_in_order_running sequence backoff input s tok hseq hb n 1 c src h0

theorem retry_steps_append (input : I) (s : S) (tok : CancelToken)
    (l : List (CoAction S I O C)) :
    ∀ (pre : List (CoAction S I O C)) (result : Option O) (c : C) (src : CancelSource),
      retry_steps input s tok (pre ++ l) result c src =
        match retry_steps input s tok pre result c src with
        | ((c0, s0), Except.ok (Attempt.finished r0)) => retry_steps input s tok l r0 c0 s0
        | other => other := by
  intro pre
  induction pre with
  | nil => intro result c src; rfl
  | cons f rest ih =>
    intro result c src
    simp only [List.cons_append]
    rw [retry_steps, retry_steps]
    generalize f input s c tok src = p
    obtain ⟨⟨c1, s1⟩, r⟩ := p
    cases r with
    | error x => rfl
    | ok v =>
      simp only
      split
      · rfl
      · exact ih _ c1 s1

end Retry

end ToStage

namespace ToStage

section FragmentClaims

variable {S I O C : Type} [DecidableEq S]

theorem keepsRunning_await
    (fn : I → S → C → CancelToken → CancelSource → (C × CancelSource) × Except Exn Unit)
    (tok : CancelToken) (h : KeepsRunning tok fn) :
    KeepsRunning tok (await_fragment (O := O) fn) := by
  intro input s c src h0
  have := h input s c src h0
  unfold await_fragment
  generalize fn input s c tok src = p at this
  obtain ⟨cs, r⟩ := p
  cases r <;> exact this

theorem keepsRunning_emit (fn : I → C → C × Except Exn O) (tok : CancelToken) :
    KeepsRunning tok (emit_fragment (S := S) fn) := by
  intro input s c src h0
  unfold emit_fragment
  generalize fn input c = p
  obtain ⟨c1, r⟩ := p
  cases r <;> exact h0

/-- C22: a pipeline whose stage holds the fragments `f1, ..., fn` is attached to an
adapter that has no binding for `(from, to)` yet, and no cancellation is requested:
the token reports no stop at the start and none when a fragment has finished.  Then
the effect bound for `(from, to)` is the composed effect, and it does what running
`f1, ..., fn` once each in declaration order does: it leaves the context and the cancel
source the last of them leaves, and returns the last output that is set among the `n`
outputs they yielded, `None` when none is set; if a fragment throws, the exception
leaves the composed effect and the later fragments do not run. -/
theorem pipeline_runs_fragments_in_order (st : ToStage S I O C) (input : I) (s : S)
    (c : C) (tok : CancelToken) (src : CancelSource)
    (hreg : st.adapter_.registry_.find st.from_ st.to_ = none)
    (hseq : ∀ f ∈ st.fragments_, KeepsRunning tok f)
    (h0 : tok.stop_requested src = false) :
    st.attach.registry_.find st.from_ st.to_ = some [composed st.fragments_] ∧
    composed st.fragments_ input s c tok src =
      (match run_fragments input s tok st.fragments_ c src with
       | (cs, Except.ok outs) => (cs, Except.ok (last_some outs))
       | (cs, Except.error x) => (cs, Except.error x)) ∧
    (∀ cs outs, run_fragments input s tok st.fragments_ c src = (cs, Except.ok outs) →
      outs.length = st.fragments_.length) := by
  refine ⟨?_, ?_, fun cs outs h => run_fragments_length input s tok _ c src cs outs h⟩
  · simp only [attach, Adapter.bind_async, Registry.add, Registry.find] at hreg ⊢
    rw [MachineImpl.tbl_find_modify_self, hreg]
    rfl
  · unfold composed
    rw [attach_loop_eq input s tok _ none c src hseq h0]
    generalize run_fragments input s tok st.fragments_ c src = p
    obtain ⟨cs, r⟩ := p
    cases r with
    | error x => rfl
    | ok outs => simp

/-- The pipeline of `tests/cosm_adapter_pipeline.cpp`, with its cancel source not
stopped: the retry fragment yields `42` on its third attempt, the `emit` fragment then
yields `99`, and the composed effect returns `99`. -/
theorem pipeline_runs_fragments_in_order_witness :
    run_fragments Examples.CInput.Kick Examples.CState.Done { src := true }
        Examples.pipeStage.fragments_ {} {} =
      ((({ attempts := 3, awaited := 3, emitted := 99, backoffs := [1, 2] } :
          Examples.PipeCtx), {}), Except.ok [some 42, some 99]) ∧
    composed Examples.pipeStage.fragments_ Examples.CInput.Kick Examples.CState.Done {}
        { src := true } {} =
      (match run_fragments Examples.CInput.Kick Examples.CState.Done { src := true }
          Examples.pipeStage.fragments_ {} {} with
       | (cs, Except.ok outs) => (cs, Except.ok (last_some outs))
       | (cs, Except.error x) => (cs, Except.error x)) :=
  ⟨by rfl,
    (pipeline_runs_fragments_in_order Examples.pipeStage Examples.CInput.Kick
      Examples.CState.Done {} { src := true } {} (by rfl)
      (by
        intro f hf
        simp only [Examples.pipeStage, emit, retry, then_, await, Adapter.to_stage,
          List.nil_append, List.cons_append, List.mem_cons, List.mem_singleton,
          List.not_mem_nil, or_false] at hf
        rcases hf with rfl | rfl
        · refine retry_fragment_keepsRunning _ _ 3 _ ?_ (fun _ _ _ _ _ h => h)
          intro g hg
          simp only [List.mem_cons, List.mem_singleton, List.not_mem_nil, or_false] at hg
          rcases hg with rfl | rfl
          · exact keepsRunning_await _ _ (fun _ _ _ _ h => h)
          · exact fun _ _ _ _ h => h
        · exact keepsRunning_emit _ _)
      (by rfl)).2.1⟩

/-- C23: `retry(n, backoff)` around a sequence of fragments, when no cancellation is
requested: the token reports no stop at the start, none when a step has finished and
none when `backoff` has finished.  The retry fragment then does what the attempts
`1, 2, ...` in order do: an attempt runs the sequence once; the first attempt whose
sequence yields an output ends the loop with the last output it yielded; after an
attempt `k < n` that yielded none, `backoff(k)` runs once and attempt `k + 1` follows;
after attempt `n` no backoff runs, and when all `n` attempts yielded none the result is
`None`. -/
theorem retry_runs_attempts_in_order (sequence : List (CoAction S I O C))
    (backoff : Backoff S I C) (n : Nat) (input : I) (s : S) (c : C) (tok : CancelToken)
    (src : CancelSource)
    (hseq : ∀ f ∈ sequence, KeepsRunning tok f)
    (hb : ∀ attempt, KeepsRunning tok (backoff attempt))
    (h0 : tok.stop_requested src = false) :
    retry_fragment sequence (n : Int) backoff input s c tok src =
      retry_in_order sequence backoff input s tok n 1 c src := by
  unfold retry_fragment
  simp only [Int.toNat_ofNat]
  exact retry_loop_eq sequence backoff n input s tok hseq hb n 1 c src (by omega) h0

/-- The retry fragment of `tests/cosm_adapter_pipeline.cpp`, `retry(3, backoff)` around
`await` and `then`: the sequence runs three times, `backoff` runs after the attempts `1`
and `2`, and the third attempt yields `42`. -/
theorem retry_runs_attempts_in_order_witness :
    retry_in_order [await_fragment Examples.pipeAwait, Examples.pipeThen]
        Examples.pipeBackoff Examples.CInput.Kick Examples.CState.Done { src := true } 3 1
        {} {} =
      ((({ attempts := 3, awaited := 3, backoffs := [1, 2] } : Examples.PipeCtx), {}),
        Except.ok (some 42)) ∧
    retry_fragment [await_fragment Examples.pipeAwait, Examples.pipeThen] ((3 : Nat) : Int)
        Examples.pipeBackoff Examples.CInput.Kick Examples.CState.Done {} { src := true } {} =
      retry_in_order [await_fragment Examples.pipeAwait, Examples.pipeThen]
        Examples.pipeBackoff Examples.CInput.Kick Examples.CState.Done { src := true } 3 1
        {} {} :=
  ⟨by rfl,
    retry_runs_attempts_in_order [await_fragment Examples.pipeAwait, Examples.pipeThen]
      Examples.pipeBackoff 3 Examples.CInput.Kick Examples.CState.Done {} { src := true } {}
      (by
        intro g hg
        simp only [List.mem_cons, List.mem_singleton, List.not_mem_nil, or_false] at hg
        rcases hg with rfl | rfl
        · exact keepsRunning_await _ _ (fun _ _ _ _ h => h)
        · exact fun _ _ _ _ h => h)
      (fun _ _ _ _ _ h => h) (by rfl)⟩

end FragmentClaims

end ToStage

namespace ToStage

section Cancellation

variable {S I O C : Type} [DecidableEq S]

/-- C24: the retry fragment and a stop request.  If the token reports a stop when an
inner step has finished, whatever that step and the steps before it in the attempt
yielded, the retry fragment returns `None` there, with the context and the cancel
source as that step left them: neither the steps after it nor `backoff` play any part.
If the token reports a stop when `backoff` has finished, the fragment returns `None`
there, with the context and the cancel source as `backoff` left them.  And when a
fragment of a pipeline returns with the token reporting a stop, the composed effect
returns at once, with the output it has so far, and the later fragments play no
part. -/
theorem retry_returns_none_on_stop (input : I) (s : S) (tok : CancelToken)
    (backoff : Backoff S I C) (attempts : Int) :
    (∀ (pre : List (CoAction S I O C)) (step : CoAction S I O C)
        (rest : List (CoAction S I O C)) (left : Nat) (attempt : Int) (c c0 c1 : C)
        (src s0 s1 : CancelSource) (r0 v : Option O),
      retry_steps input s tok pre none c src = ((c0, s0), Except.ok (Attempt.finished r0)) →
      step input s c0 tok s0 = ((c1, s1), Except.ok v) →
      tok.stop_requested s1 = true →
      retry_loop (pre ++ step :: rest) backoff attempts input s tok left.succ attempt c src =
        ((c1, s1), Except.ok none)) ∧
    (∀ (sequence : List (CoAction S I O C)) (left : Nat) (attempt : Int) (c c1 c2 : C)
        (src s1 s2 : CancelSource),
      retry_steps input s tok sequence none c src =
        ((c1, s1), Except.ok (Attempt.finished none)) →
      attempt < attempts →
      backoff attempt input s c1 tok s1 = ((c2, s2), Except.ok ()) →
      tok.stop_requested s2 = true →
      retry_loop sequence backoff attempts input s tok left.succ attempt c src =
        ((c2, s2), Except.ok none)) ∧
    (∀ (fragment : CoAction S I O C) (later : List (CoAction S I O C))
        (output v : Option O) (c c1 : C) (src s1 : CancelSource),
      fragment input s c tok src = ((c1, s1), Except.ok v) →
      tok.stop_requested s1 = true →
      attach_loop input s tok (fragment :: later) output c src =
        ((c1, s1), Except.ok (if v.isSome then v else output))) := by
  refine ⟨?_, ?_, ?_⟩
  · intro pre step rest left attempt c c0 c1 src s0 s1 r0 v hpre hstep hstop
    rw [retry_loop, retry_steps_append, hpre]
    simp only
    rw [retry_steps, hstep]
    simp only [hstop, if_true]
  · intro sequence left attempt c c1 c2 src s1 s2 hsteps hlt hbk hstop
    rw [retry_loop, hsteps]
    simp only [Option.isSome_none, Bool.false_eq_true, if_false, hlt, if_true, hbk, hstop]
  · intro fragment later output v c c1 src s1 hfrag hstop
    rw [attach_loop, hfrag]
    simp only [hstop, if_true]

/-- The pipeline of `attach_pipeline` in `tests/cosm_branch_coverage.cpp` with
`stop_in_await` set: the `await` step requests the stop, the retry fragment returns
`None` there, `then` has not run (`attempts == 0`), and the composed effect returns
`None` with the stop still requested. -/
theorem retry_returns_none_on_stop_witness :
    retry_loop ([] ++ await_fragment Examples.branchAwait :: [Examples.branchThen])
        Examples.branchBackoff 2 Examples.CInput.Kick Examples.CState.Active { src := true }
        2 1 ({ stop_in_await := true } : Examples.BranchCtx) {} =
      ((({ awaited := 1, stop_in_await := true } : Examples.BranchCtx), { stop := true }),
        Except.ok (none : Option Int)) ∧
    composed (Examples.branchStage (Examples.branchAdapter { stop_in_await := true })).fragments_
        Examples.CInput.Kick Examples.CState.Active { stop_in_await := true } { src := true }
        {} =
      ((({ awaited := 1, stop_in_await := true } : Examples.BranchCtx), { stop := true }),
        Except.ok none) :=
  ⟨(retry_returns_none_on_stop Examples.CInput.Kick Examples.CState.Active { src := true }
      Examples.branchBackoff 2).1 [] (await_fragment Examples.branchAwait)
      [Examples.branchThen] 1 1 { stop_in_await := true } { stop_in_await := true }
      { awaited := 1, stop_in_await := true } {} {} { stop := true } none none
      (by rfl) (by rfl) (by rfl),
    by rfl⟩

end Cancellation

end ToStage


section StableSort

variable {T : Type} (prio : T → Int)

theorem insert_by_priority_perm (x : T) (ys : List T) :
    (insert_by_priority prio x ys).Perm (x :: ys) := by
  induction ys with
  | nil => exact List.Perm.refl _
  | cons y ys ih =>
    unfold insert_by_priority
    split
    · exact (List.Perm.cons y ih).trans (List.Perm.swap x y ys)
    · exact List.Perm.refl _

theorem stable_sort_perm (l : List T) : (stable_sort prio l).Perm l := by
  induction l with
  | nil => exact List.Perm.refl _
  | cons x xs ih =>
    unfold stable_sort
    exact (insert_by_priority_perm prio x _).trans (List.Perm.cons x ih)

theorem insert_by_priority_filter (p : Int) (x : T) (ys : List T) :
    (insert_by_priority prio x ys).filter (fun u => decide (prio u = p)) =
      (x :: ys).filter (fun u => decide (prio u = p)) := by
  induction ys with
  | nil => rfl
  | cons y ys ih =>
    unfold insert_by_priority
    split
    · rename_i hgt
      rw [List.filter_cons, ih]
      by_cases hx : prio x = p
      · have hy : ¬ prio y = p := by omega
        simp [List.filter_cons, hx, hy]
      · simp [List.filter_cons, hx]
    · rfl

theorem stable_sort_filter (p : Int) (l : List T) :
    (stable_sort prio l).filter (fun u => decide (prio u = p)) =
      l.filter (fun u => decide (prio u = p)) := by
  induction l with
  | nil => rfl
  | cons x xs ih =>
    unfold stable_sort
    rw [insert_by_priority_filter, List.filter_cons, List.filter_cons, ih]

theorem isStableSort_stable_sort (l : List T) : IsStableSort prio l (stable_sort prio l) :=
  ⟨stable_sort_perm prio l, stable_sort_sorted prio l, fun p => stable_sort_filter prio p l⟩

end StableSort

section Declarations

variable {S I O C : Type} [DecidableEq S]

theorem declare_all_transitions (s : S) (decls : List (Declaration S I O C)) :
    ∀ b : Builder S I O C,
      (Tbl.find (b.declare_all decls).trans_ s).getD [] =
        (Tbl.find b.trans_ s).getD [] ++ declared_transitions s decls := by
  induction decls with
  | nil => intro b; simp [Builder.declare_all, declared_transitions]
  | cons d rest ih =>
    intro b
    have hstep : b.declare_all (d :: rest) = (b.declare d).declare_all rest := rfl
    rw [hstep, ih]
    cases d with
    | transition t =>
      simp only [Builder.declare, Builder.add_transition, declared_transitions]
      by_cases hs : t.from_ = s
      · subst hs
        rw [MachineImpl.tbl_find_modify_self]
        simp
      · rw [MachineImpl.tbl_find_modify_other _ _ _ _ _ (fun h => hs h.symm)]
        simp [hs]
    | any_transition t => rfl
    | completion c => rfl

theorem declare_all_any (decls : List (Declaration S I O C)) :
    ∀ b : Builder S I O C, (b.declare_all decls).any_ = b.any_ ++ declared_any decls := by
  induction decls with
  | nil => intro b; simp [Builder.declare_all, declared_any]
  | cons d rest ih =>
    intro b
    have hstep : b.declare_all (d :: rest) = (b.declare d).declare_all rest := rfl
    rw [hstep, ih]
    cases d with
    | transition t => rfl
    | any_transition t =>
      simp [Builder.declare, Builder.add_transition_any, declared_any]
    | completion c => rfl

theorem declare_all_completions (s : S) (decls : List (Declaration S I O C)) :
    ∀ b : Builder S I O C,
      (Tbl.find (b.declare_all decls).completions_ s).getD [] =
        (Tbl.find b.completions_ s).getD [] ++ declared_completions s decls := by
  induction decls with
  | nil => intro b; simp [Builder.declare_all, declared_completions]
  | cons d rest ih =>
    intro b
    have hstep : b.declare_all (d :: rest) = (b.declare d).declare_all rest := rfl
    rw [hstep, ih]
    cases d with
    | transition t => rfl
    | any_transition t => rfl
    | completion c =>
      simp only [Builder.declare, Builder.add_completion, declared_completions]
      by_cases hs : c.from_ = s
      · subst hs
        rw [MachineImpl.tbl_find_modify_self]
        simp
      · rw [MachineImpl.tbl_find_modify_other _ _ _ _ _ (fun h => hs h.symm)]
        simp [hs]

theorem getD_find_sort_each {T : Type} (prio : T → Int) (tbl : List (S × List T)) (s : S) :
    (Tbl.find (Builder.sort_each prio tbl) s).getD [] =
      stable_sort prio ((Tbl.find tbl s).getD []) := by
  rw [tbl_find_sort_each]
  cases Tbl.find tbl s <;> rfl

end Declarations


section SortedTables

variable {S I O C : Type} [DecidableEq S] [Inhabited S]

/-- C32: take a builder `b0` to which no record was added yet, and any sequence `decls`
of calls of `add_transition`, `add_transition(any_state, ..)` and `add_completion`, to
which `on<T>`, `on_any<T>` and `on_completion` reduce.  In the machine that `build`
returns, the transition list of every source state `s`, the any-source list and the
completion list of every state `s` hold exactly the records that the calls added to
them, each as often as it was added, ordered by non-increasing priority, the records
of any one priority in the order in which they were added. -/
theorem build_sorts_declarations (b0 : Builder S I O C)
    (decls : List (Declaration S I O C)) (ctx0 : C) (fuel : Nat) (m : MachineImpl S I O C)
    (hfresh : b0.trans_ = [] ∧ b0.any_ = [] ∧ b0.completions_ = [])
    (hb : (b0.declare_all decls).build fuel ctx0 = some (m, Ret.ok ())) :
    (∀ s, IsStableSort Transition.priority (declared_transitions s decls)
      ((Tbl.find m.transitions_ s).getD [])) ∧
    IsStableSort Transition.priority (declared_any decls) m.any_transitions_ ∧
    (∀ s, IsStableSort Completion.priority (declared_completions s decls)
      ((Tbl.find m.completion_transitions_ s).getD [])) ∧
    (∀ (b : Builder S I O C) (T : Type) (alt : I → Option T) (from_ to_ : S)
        (action_fn : Option (T → C → C × Except Exn (Option O)))
        (guard_fn : Option (I → C → Bool)) (priority : Int) (suppress defer : Bool),
      b.on_ alt from_ to_ action_fn guard_fn priority suppress defer =
          b.declare (Declaration.transition
            (Builder.variant_transition alt from_ to_ action_fn guard_fn priority suppress
              defer)) ∧
      b.on_any alt to_ action_fn guard_fn priority suppress defer =
          b.declare (Declaration.any_transition
            (Builder.variant_any_transition alt to_ action_fn guard_fn priority suppress
              defer))) := by
  obtain ⟨h1, h2, h3⟩ := hfresh
  obtain ⟨_, ht, ha, hc, _, _⟩ := MachineImpl.construct_body_tables _ _ m _ hb
  refine ⟨?_, ?_, ?_, fun _ _ _ _ _ _ _ _ _ _ => ⟨rfl, rfl⟩⟩
  · intro s
    rw [ht, getD_find_sort_each, declare_all_transitions, h1]
    exact isStableSort_stable_sort _ _
  · rw [ha, declare_all_any, h2]
    exact isStableSort_stable_sort _ _
  · intro s
    rw [hc, getD_find_sort_each, declare_all_completions, h3]
    exact isStableSort_stable_sort _ _

theorem build_sorts_declarations_witness :
    (({ initial_ := Examples.VState.Idle } :
        Builder Examples.VState Examples.VInput String Int).declare_all
      Examples.valueDecls).build 1 0 = some (Examples.valueMachine, Ret.ok ()) ∧
    IsStableSort Transition.priority [Examples.tokenA, Examples.tokenB]
      [Examples.tokenB, Examples.tokenA] ∧
    IsStableSort Completion.priority [Examples.completeB, Examples.lateB]
      [Examples.completeB, Examples.lateB] :=
  have _ : Inhabited Examples.VState := ⟨Examples.VState.Idle⟩
  ⟨by rfl,
    (build_sorts_declarations { initial_ := Examples.VState.Idle } Examples.valueDecls 0 1
      Examples.valueMachine ⟨rfl, rfl, rfl⟩ (by rfl)).1 Examples.VState.Idle,
    (build_sorts_declarations { initial_ := Examples.VState.Idle } Examples.valueDecls 0 1
      Examples.valueMachine ⟨rfl, rfl, rfl⟩ (by rfl)).2.2.1 Examples.VState.BranchB⟩

end SortedTables


section DeclaredCompletions

variable {S I O C : Type} [DecidableEq S]

theorem mem_declared_completions (s : S) (decls : List (Declaration S I O C))
    (c : Completion S O C) (h : c ∈ declared_completions s decls) : c.from_ = s := by
  induction decls with
  | nil => simp [declared_completions] at h
  | cons d rest ih =>
    cases d with
    | transition t => exact ih h
    | any_transition t => exact ih h
    | completion c1 =>
      simp only [declared_completions] at h
      split at h
      · rename_i hs
        cases List.mem_cons.mp h with
        | inl heq => rw [heq]; exact hs
        | inr hmem => exact ih hmem
      · exact ih h

theorem isChoice_mem {T : Type} (prio : T → Int) (q : T → Bool) (decl : List T) (t : T)
    (h : IsChoice prio q decl (some t)) : t ∈ decl := by
  obtain ⟨_, pre, post, hd, _⟩ := h
  rw [hd]
  simp

end DeclaredCompletions

namespace MachineImpl

section CompletionChoice

variable {S I O C : Type} [DecidableEq S]

theorem apply_completion_state (m m0 : MachineImpl S I O C) (c : Completion S O C)
    (out : Option O) (h : m.apply_completion c = (m0, Ret.ok out)) : m0.current_ = c.to_ := by
  unfold apply_completion at h
  obtain ⟨ma, _, _, h1⟩ := andThen_eq_ok _ _ _ _ h
  obtain ⟨mb, _, _, h2⟩ := andThen_eq_ok _ _ _ _ h1
  obtain ⟨mc, _, h3, h4⟩ := andThen_eq_ok _ _ _ _ h2
  simp only [Prod.mk.injEq] at h4
  rw [← h4.1]
  split at h3
  · simp only [Prod.mk.injEq] at h3
    rw [← h3.1]
    rfl
  · rw [call_enter_eq] at h3
    simp only [Prod.mk.injEq] at h3
    rw [← h3.1]
    rfl

theorem find_completion_of_built (b0 : Builder S I O C) (decls : List (Declaration S I O C))
    (ctx0 : C) (fuel : Nat) (m : MachineImpl S I O C)
    (hfresh : b0.completions_ = [])
    (hb : (b0.declare_all decls).build fuel ctx0 = some (m, Ret.ok ()))
    (m1 : MachineImpl S I O C)
    (htab : m1.completion_transitions_ = m.completion_transitions_) :
    m1.find_completion =
      (stable_sort Completion.priority (declared_completions m1.current_ decls)).find?
        (fun u => completion_guard_passes u m1.ctx_) := by
  obtain ⟨_, _, _, hc, _, _⟩ := MachineImpl.construct_body_tables _ _ m _ hb
  have hlist := getD_find_sort_each Completion.priority (b0.declare_all decls).completions_
    m1.current_
  rw [declare_all_completions, hfresh] at hlist
  simp only [Tbl.find, Option.getD_none, List.nil_append] at hlist
  rw [← hlist]
  simp only [find_completion, context, state, htab, hc]
  cases Tbl.find (Builder.sort_each Completion.priority (b0.declare_all decls).completions_)
    m1.current_ <;> rfl

end CompletionChoice

end MachineImpl


namespace MachineImpl

section CompletionChoiceClaim

variable {S I O C : Type} [DecidableEq S]

/-- C31: let `m` be the machine `build` returns after the calls `decls`, and `m1` any
machine with its completion table (every machine the cascade passes through is one).
The completion `find_completion` yields on `m1` is chosen among the completions declared
with source `m1.current_`, in declaration order: it is the one of highest priority among
those whose guard is absent or true on the context, the earliest declared among equals,
and there is none exactly when no such completion qualifies.  Its source is the current
state, and the lists of the other states play no part: a machine that differs from `m1`
in them yields the same completion.  The loop of `process_completions` applies the
completion found and goes on from the machine this leaves, which is in the target state
of that completion and has the same table, so that the next step is chosen in the same
way among the completions declared for the new state. -/
theorem completion_chosen_by_priority (b0 : Builder S I O C)
    (decls : List (Declaration S I O C)) (ctx0 : C) (fuel : Nat) (m : MachineImpl S I O C)
    (hfresh : b0.completions_ = [])
    (hb : (b0.declare_all decls).build fuel ctx0 = some (m, Ret.ok ()))
    (m1 : MachineImpl S I O C)
    (htab : m1.completion_transitions_ = m.completion_transitions_) :
    IsChoice Completion.priority (fun u => completion_guard_passes u m1.ctx_)
      (declared_completions m1.current_ decls) m1.find_completion ∧
    (∀ c, m1.find_completion = some c → c.from_ = m1.current_) ∧
    (∀ m2 : MachineImpl S I O C, m2.current_ = m1.current_ → m2.ctx_ = m1.ctx_ →
      Tbl.find m2.completion_transitions_ m1.current_ =
        Tbl.find m1.completion_transitions_ m1.current_ →
      m2.find_completion = m1.find_completion) ∧
    (∀ (output : Option O) (steps bound : Nat),
      completion_loop output steps (bound + 1) m1 =
        match m1.find_completion with
        | none => (m1, Ret.ok output)
        | some c =>
            if steps > m1.completion_limit_ then (m1, Ret.ok output)
            else
              andThen (m1.apply_completion c) fun m2 result =>
                completion_loop (if result.isSome then result else output) (steps + 1)
                  bound m2) ∧
    (∀ c m2 result, m1.apply_completion c = (m2, Ret.ok result) →
      m2.current_ = c.to_ ∧ m2.completion_transitions_ = m.completion_transitions_) := by
  have hfind := find_completion_of_built b0 decls ctx0 fuel m hfresh hb m1 htab
  have hchoice : IsChoice Completion.priority (fun u => completion_guard_passes u m1.ctx_)
      (declared_completions m1.current_ decls) m1.find_completion := by
    rw [hfind]
    exact isChoice_stable_sort _ _ _
  refine ⟨hchoice, ?_, ?_, ?_, ?_⟩
  · intro c hc
    rw [hc] at hchoice
    exact mem_declared_completions _ _ _ (isChoice_mem _ _ _ _ hchoice)
  · intro m2 hcur hctx htbl
    simp only [find_completion, context, state, hcur, hctx, htbl]
  · intro output steps bound
    rfl
  · intro c m2 result happ
    refine ⟨apply_completion_state m1 m2 c result happ, ?_⟩
    have hcfg : SameConfig m1 m2 := by
      have h := apply_completion_rel sameConfig_frame.toCompletionFrame.toCommitFrame m1 c
      rw [happ] at h
      exact h
    rw [hcfg.2.2.2.1, htab]

theorem completion_chosen_by_priority_witness :
    (({ initial_ := Examples.VState.Idle } :
        Builder Examples.VState Examples.VInput String Int).declare_all
      Examples.valueDecls).build 1 0 = some (Examples.valueMachine, Ret.ok ()) ∧
    IsChoice Completion.priority (fun u => completion_guard_passes u (2 : Int))
      [Examples.completeB, Examples.lateB]
      (find_completion
        { Examples.valueMachine with current_ := Examples.VState.BranchB, ctx_ := 2 }) ∧
    find_completion
        { Examples.valueMachine with current_ := Examples.VState.BranchB, ctx_ := 2 } =
      some Examples.completeB ∧
    (Examples.valueMachine.dispatch 1 Examples.VInput.Token).map
        (fun p => (p.1.current_, p.1.ctx_, p.2)) =
      some (Examples.VState.Finish, 12, Ret.ok (some "second")) ∧
    (Examples.routerBuilder.build 1 ()).bind
        (fun p => (p.1.dispatch 1 ()).map (fun q => (q.1.current_, q.2))) =
      some (Examples.QState.PathA, Ret.ok (some "A")) :=
  ⟨by rfl,
    (completion_chosen_by_priority { initial_ := Examples.VState.Idle } Examples.valueDecls
      0 1 Examples.valueMachine rfl (by rfl)
      { Examples.valueMachine with current_ := Examples.VState.BranchB, ctx_ := 2 } rfl).1,
    by rfl, by rfl, by rfl⟩

end CompletionChoiceClaim

end MachineImpl


namespace MachineImpl

section ReplayOutputs

variable {S I O C : Type} [DecidableEq S]

theorem finalize_transition_with_split
    (drain : MachineImpl S I O C → Option (MachineImpl S I O C × Ret Unit))
    (m : MachineImpl S I O C) (result : Option O) :
    finalize_transition_with drain m result =
      andThenF (finalize_transition_with (fun m0 => some (m0, Ret.ok ())) m result)
        fun m1 out => andThenF (drain m1) fun m2 _ => some (m2, Ret.ok out) := by
  unfold finalize_transition_with
  generalize m.process_completions = r
  obtain ⟨m1, o⟩ := r
  cases o <;> rfl

theorem andThenF_assoc {M α β γ : Type} (r : Option (M × Ret α))
    (k : M → α → Option (M × Ret β)) (k1 : M → β → Option (M × Ret γ)) :
    andThenF (andThenF r k) k1 = andThenF r (fun m a => andThenF (k m a) k1) := by
  cases r with
  | none => rfl
  | some p =>
    obtain ⟨m, o⟩ := p
    cases o <;> rfl

theorem handle_input_with_split
    (drain : MachineImpl S I O C → Option (MachineImpl S I O C × Ret Unit))
    (m : MachineImpl S I O C) (e : I) :
    handle_input_with drain m e =
      andThenF (m.handle_input_undrained e) fun m1 out =>
        if (m.find_transition e).isSome then
          andThenF (drain m1) fun m2 _ => some (m2, Ret.ok out)
        else some (m1, Ret.ok out) := by
  unfold handle_input_undrained handle_input_with
  cases hsel : m.find_transition e with
  | none =>
    simp only [Option.isSome_none]
    generalize m.notify_unhandled e = r
    obtain ⟨m1, o⟩ := r
    cases o <;> rfl
  | some t =>
    simp only [Option.isSome_some, if_true]
    split
    · rw [andThenF_assoc]
      congr 1
      funext m1 _
      exact finalize_transition_with_split drain m1 none
    · rw [andThenF_assoc]
      congr 1
      funext m1 out
      exact finalize_transition_with_split drain m1 out

end ReplayOutputs

end MachineImpl


namespace MachineImpl

section ReplayOutputsClaim

variable {S I O C : Type} [DecidableEq S]

/-- C33: the value `dispatch(e)` (and `handle_input(e)`, which `dispatch_all` calls for
each pending event) reports is fixed before the deferral drain starts.  The call is the
call up to the drain, followed, when a transition was selected, by the drain on the
machine this leaves, and the value reported is the one the first part produced: the drain
changes the machine, not the value.  That value is the output of the transition's own
action when it is set, otherwise the output of the completion cascade that follows the
state change, and the output of that cascade alone when the transition is deferred.
Inside the drain, the loop calls `handle_input(next)` for the event it replays and drops
what the call returns.  In `tests/machine_deferral_replay.cpp` the replay of `Start{3}`
runs the action of `Working -> Working`, which records `3` in the context and returns
`3`, yet `dispatch_all` returns `[99]`. -/
theorem replay_outputs_not_returned (fuel : Nat) (m : MachineImpl S I O C) (e : I) :
    m.dispatch fuel e =
      andThenF (m.handle_input_undrained e) (fun m1 out =>
        if (m.find_transition e).isSome then
          andThenF (m1.drain_deferrals_for_current_state fuel) fun m2 _ =>
            some (m2, Ret.ok out)
        else some (m1, Ret.ok out)) ∧
    m.handle_input fuel e = m.dispatch fuel e ∧
    (∀ t, m.find_transition e = some t → (m.deferral_enabled_ && t.defer) = false →
      m.handle_input_undrained e =
        andThenF (some (m.apply_transition t (some e) true)) fun m1 out =>
          andThenF (some m1.process_completions) fun m2 completion_out =>
            some (m2, Ret.ok (if out.isNone && completion_out.isSome then completion_out
              else out))) ∧
    (∀ t, m.find_transition e = some t → (m.deferral_enabled_ && t.defer) = true →
      m.handle_input_undrained e =
        andThenF (some ((m.push_deferral t.to_ e).apply_transition t (some e) false))
          fun m1 _ =>
            andThenF (some m1.process_completions) fun m2 completion_out =>
              some (m2, Ret.ok (if completion_out.isSome then completion_out else none))) ∧
    (∀ (n : Nat) (e1 : I) (rest : List I),
      Tbl.find m.deferrals_ m.current_ = some (e1 :: rest) →
      drain_loop n.succ m =
        andThenF (handle_input (O := O) n
            { m with deferrals_ := Tbl.modify [] List.tail m.deferrals_ m.current_ } e1)
          (fun m2 _ => drain_loop n m2)) ∧
    (Examples.replayBuilder.build 2 {}).bind
        (fun p => ((Examples.replayEvents.foldl enqueue p.1).dispatch_all 5).map
          (fun q => (q.1.current_, q.1.ctx_, q.1.trace, q.2))) =
      some (Examples.WState.Idle,
        { replayed := [3, 99], outputs := [3, 99], idle_unhandled := 1,
          machine_unhandled := 1 },
        [Call.on_unhandled_state Examples.WState.Idle (Examples.WInput.Unknown 7),
         Call.set_state Examples.WState.Working,
         Call.action Examples.WState.Working (Examples.WInput.Start 3),
         Call.set_state Examples.WState.Working,
         Call.on_unhandled_machine Examples.WState.Working (Examples.WInput.Unknown 9),
         Call.action Examples.WState.Idle Examples.WInput.Tick,
         Call.set_state Examples.WState.Idle],
        Ret.ok [99]) ∧
    (∀ ctx : Examples.WCtx, (Examples.workingStart 3 ctx).2 = Except.ok (some 3)) := by
  have hd : m.handle_input fuel e = m.dispatch fuel e := handle_input_eq_dispatch fuel m e
  refine ⟨?_, hd, ?_, ?_, ?_, by rfl, fun _ => rfl⟩
  · rw [← hd]
    exact handle_input_with_split _ m e
  · intro t hsel hdef
    simp only [handle_input_undrained, handle_input_with, hsel, hdef]
    rfl
  · intro t hsel hdef
    simp only [handle_input_undrained, handle_input_with, hsel, hdef]
    rfl
  · intro n e1 rest hq
    exact drain_loop_step n m e1 rest hq

end ReplayOutputsClaim

end MachineImpl


namespace MachineImpl

section InflightLemmas

variable {S I O C : Type} [DecidableEq S]

theorem construct_body_async (fuel : Nat) (m0 m : MachineImpl S I O C) (r : Ret Unit)
    (h : construct_body fuel m0 = some (m, r)) :
    m.async_inflight_ = m0.async_inflight_ := by
  let Q : MachineImpl S I O C → MachineImpl S I O C → Prop := fun a b =>
    b.async_inflight_ = a.async_inflight_
  have weaken : ∀ a b : MachineImpl S I O C, SameConfig a b → Q a b := by
    intro a b ⟨_, _, _, _, _, _, _, h8⟩
    exact h8
  unfold construct_body at h
  refine andThenF_rel Q m0 _ _ (m, r) ?_ ?_ h
  · intro r0 hr0
    cases hr0
    exact weaken _ _
      (call_enter_rel sameConfig_frame.toCompletionFrame.toCommitFrame m0 _ _ _ _)
  · intro m1 _ r1 h1 h2
    refine andThenF_rel Q m0 _ _ r1 ?_ ?_ h2
    · intro r0 hr0
      have e1 : Q _ r0.1 := weaken _ _
        (finalize_transition_rel (dispatchFrame_of_frame sameConfig_frame) fuel none _ r0 hr0)
      exact Eq.trans e1 h1
    · intro m3 _ r3 h3 h4
      cases h4
      exact h3

theorem process_completions_aborted_iff (m : MachineImpl S I O C) :
    (m.process_completions : MachineImpl S I O C × Ret (Option O)).2 = Ret.aborted ↔
      (m.completion_limit_ ≠ 0 ∧ m.processing_completions_ = false ∧
        m.async_inflight_ = true) := by
  unfold process_completions
  constructor
  · intro h
    split at h
    · cases h
    · rename_i hc
      simp only [Bool.or_eq_true, decide_eq_true_eq, not_or, Bool.not_eq_true] at hc
      split at h
      · rename_i ha
        exact ⟨hc.1, hc.2, ha⟩
      · exfalso
        have hcalm := completion_loop_calm (O := O) (m.completion_limit_ + 2) none 0
          { m with processing_completions_ := true }
        generalize completion_loop (O := O) none 0 (m.completion_limit_ + 2)
          { m with processing_completions_ := true } = r at h hcalm
        obtain ⟨m1, o⟩ := r
        cases o with
        | ok a => cases h
        | raised x => cases h
        | aborted => exact hcalm.1 rfl
  · intro ⟨h1, h2, h3⟩
    simp [h1, h2, h3]

end InflightLemmas

end MachineImpl

namespace Adapter

section Inflight

variable {S I O C : Type} [DecidableEq S]

theorem driven_async_clear (a0 a : Adapter S I O C)
    (h0 : a0.machine_.async_inflight_ = false) (hrun : Driven a0 a) :
    a.machine_.async_inflight_ = false := by
  induction hrun with
  | start => exact h0
  | dispatch fuel a e m1 r _ hcall _ ih =>
    exact ((MachineImpl.dispatch_unwinds fuel a.machine_ e _ hcall ih).2.1).trans ih
  | dispatch_all fuel a m1 r _ hcall _ ih =>
    exact ((MachineImpl.dispatch_all_loop_unwinds fuel fuel a.machine_ [] _ hcall ih).2.1).trans
      ih
  | commit fuel a sel inptr m1 r _ hcall _ ih =>
    exact ((MachineImpl.commit_unwinds fuel a.machine_ sel inptr _ hcall ih).2.1).trans ih
  | bind_async a from_ to_ action _ ih => exact ih
  | dispatch_async fuel a a1 e r _ hcall _ ih =>
    exact ((dispatch_async_unwinds fuel a a1 e r ih hcall).2.1).trans ih

theorem await_action_window (a1 : Adapter S I O C) (action : CoAction S I O C)
    (from_ to_ : S) (e : I) :
    (tryFinally
        (await_action { a1 with machine_ := a1.machine_.begin_async_effect } action from_ to_ e)
        (fun a2 => { a2 with machine_ := a2.machine_.end_async_effect })).2 ≠ Ret.aborted ∧
    (tryFinally
        (await_action { a1 with machine_ := a1.machine_.begin_async_effect } action from_ to_ e)
        (fun a2 => { a2 with machine_ := a2.machine_.end_async_effect })).1.machine_.async_inflight_
      = false ∧
    (tryFinally
        (await_action { a1 with machine_ := a1.machine_.begin_async_effect } action from_ to_ e)
        (fun a2 => { a2 with machine_ := a2.machine_.end_async_effect })).1.machine_.trace
      = a1.machine_.trace ++ [Call.co_action from_ to_ e] := by
  unfold await_action
  generalize (action e _ _ _ _) = r
  obtain ⟨cs, o⟩ := r
  cases o <;> exact ⟨by simp [tryFinally, Ret.ofExcept], rfl, rfl⟩

end Inflight

end Adapter


namespace Adapter

section InflightClaim

variable {S I O C : Type} [DecidableEq S]

/-- C34 (counterexample): the adapter `gateAdapter`, on the built machine of
`tests/cosm_adapter_pipeline.cpp`, whose async-inflight flag is false.  The client calls
`dispatch_async(Unknown)` and starts the `Task`: the transition `Idle -> Idle` is
committed, the flag is set, and the effect suspends at its gate.  The client has not
called `begin_async_effect` and the effect has called nothing.  With the `Task`
suspended the client calls `dispatch(Kick)`: the commit step moves to `Active`, and
`process_completions`, whose limit is `2`, gets past its first test with the flag set, so
the assertion `!async_inflight_` fails. -/
theorem no_completion_while_inflight_counterexample :
    Examples.pipelineBuilder.build 1 0 = some (Examples.pipelineMachine, Ret.ok ()) ∧
    Examples.gateAdapter.machine_ = Examples.pipelineMachine ∧
    Examples.gateAdapter.machine_.async_inflight_ = false ∧
    Examples.gateAdapter.dispatch_async_suspended 2 Examples.CInput.Unknown
      = some (Examples.gateSuspended, Ret.ok ()) ∧
    DrivenLazily Examples.gateAdapter Examples.gateSuspended ∧
    Examples.gateSuspended.machine_.async_inflight_ = true ∧
    Examples.gateSuspended.machine_.completion_limit_ = 2 ∧
    (Examples.gateSuspended.machine_.dispatch 2 Examples.CInput.Kick).map
        (fun p => (p.2, p.1.current_, p.1.async_inflight_))
      = some (Ret.aborted, Examples.CState.Active, true) :=
  ⟨by rfl, rfl, rfl, by rfl,
    DrivenLazily.suspended 2 Examples.gateAdapter Examples.gateSuspended
      Examples.CInput.Unknown DrivenLazily.start (by rfl),
    rfl, rfl, by rfl⟩

/-- C34 (amended): take an adapter on a machine whose async-inflight flag is false, as
it is in every machine `build` returns, and any run of `dispatch`, `dispatch_all`,
`commit` on the machine and `bind_async`, `dispatch_async` on the adapter, in which calls
may throw and in which every `Task` that `dispatch_async` returns is run to its end
before the client's next call (the runs of `Driven`: the client does not call
`begin_async_effect`, the effects do not call back into the machine, and no `Task` is
left suspended in its effect or destroyed there).  At every point of the run between
two calls the flag is false, and none of the calls fails the assertion
`!async_inflight_` of `process_completions` (the failed assertion is the one way a call
ends in `aborted`: `process_completions` ends so exactly when it gets past its first test
with the flag set).  The reason is the shape of `dispatch_async`: for a bound selection
it runs `commit` to its end first, and only then sets the flag, awaits the effect (which
runs no member function of the machine: it adds its one entry to the trace) and clears
the flag, whether the effect returned or threw. -/
theorem no_completion_while_inflight (a0 a : Adapter S I O C)
    (h0 : a0.machine_.async_inflight_ = false) (hrun : Driven a0 a) :
    a.machine_.async_inflight_ = false ∧
    (∀ fuel e m1 (r : Ret (Option O)), a.machine_.dispatch fuel e = some (m1, r) →
      r ≠ Ret.aborted ∧ m1.async_inflight_ = false) ∧
    (∀ fuel m1 (r : Ret (List O)), a.machine_.dispatch_all fuel = some (m1, r) →
      r ≠ Ret.aborted ∧ m1.async_inflight_ = false) ∧
    (∀ fuel sel inptr m1 (r : Ret (Option O)),
      a.machine_.commit fuel sel inptr = some (m1, r) →
      r ≠ Ret.aborted ∧ m1.async_inflight_ = false) ∧
    (∀ fuel e a1 (r : Ret (Option O)), a.dispatch_async fuel e = some (a1, r) →
      r ≠ Ret.aborted ∧ a1.machine_.async_inflight_ = false) ∧
    (∀ m : MachineImpl S I O C,
      (m.process_completions : MachineImpl S I O C × Ret (Option O)).2 = Ret.aborted ↔
        (m.completion_limit_ ≠ 0 ∧ m.processing_completions_ = false ∧
          m.async_inflight_ = true)) ∧
    (∀ fuel e (t : Transition S I O C) action rest,
      a.machine_.find_transition e = some t →
      a.registry_.find a.machine_.current_ t.to_ = some (action :: rest) →
      a.dispatch_async fuel e =
        andThenF (a.with_machine (a.machine_.commit fuel (a.machine_.select e) (some e)))
          fun a1 completion_out =>
            andThenF
              (some (tryFinally
                (await_action { a1 with machine_ := a1.machine_.begin_async_effect }
                  action a.machine_.current_ t.to_ e)
                (fun a2 => { a2 with machine_ := a2.machine_.end_async_effect })))
              fun a3 effect_out =>
                some (a3, Ret.ok (if effect_out.isSome then effect_out
                  else completion_out))) ∧
    (∀ (a1 : Adapter S I O C) (action : CoAction S I O C) (from_ to_ : S) (e : I),
      (tryFinally
          (await_action { a1 with machine_ := a1.machine_.begin_async_effect } action
            from_ to_ e)
          (fun a2 => { a2 with machine_ := a2.machine_.end_async_effect })).2
        ≠ Ret.aborted ∧
      (tryFinally
          (await_action { a1 with machine_ := a1.machine_.begin_async_effect } action
            from_ to_ e)
          (fun a2 => { a2 with machine_ := a2.machine_.end_async_effect })).1.machine_.async_inflight_
        = false ∧
      (tryFinally
          (await_action { a1 with machine_ := a1.machine_.begin_async_effect } action
            from_ to_ e)
          (fun a2 => { a2 with machine_ := a2.machine_.end_async_effect })).1.machine_.trace
        = a1.machine_.trace ++ [Call.co_action from_ to_ e]) ∧
    (∀ (b : Builder S I O C) fuel ctx0 m r, b.build fuel ctx0 = some (m, r) →
      m.async_inflight_ = false) := by
  have ha := driven_async_clear a0 a h0 hrun
  refine ⟨ha, ?_, ?_, ?_, ?_, MachineImpl.process_completions_aborted_iff, ?_,
    await_action_window, ?_⟩
  · intro fuel e m1 r hcall
    have h := MachineImpl.dispatch_unwinds fuel a.machine_ e _ hcall ha
    exact ⟨h.1, h.2.1.trans ha⟩
  · intro fuel m1 r hcall
    have h := MachineImpl.dispatch_all_loop_unwinds fuel fuel a.machine_ [] _ hcall ha
    exact ⟨h.1, h.2.1.trans ha⟩
  · intro fuel sel inptr m1 r hcall
    have h := MachineImpl.commit_unwinds fuel a.machine_ sel inptr _ hcall ha
    exact ⟨h.1, h.2.1.trans ha⟩
  · intro fuel e a1 r hcall
    have h := dispatch_async_unwinds fuel a a1 e r ha hcall
    exact ⟨h.1, h.2.1.trans ha⟩
  · intro fuel e t action rest hsel hreg
    exact dispatch_async_of_bound fuel a e t action rest hsel hreg
  · intro b fuel ctx0 m r hb
    exact MachineImpl.construct_body_async fuel _ m r hb

theorem no_completion_while_inflight_witness :
    (Examples.pipelineAdapter Examples.stopThenThrow).machine_.async_inflight_ = false ∧
    ∀ p, (Examples.pipelineAdapter Examples.stopThenThrow).dispatch_async 2
        Examples.CInput.Kick = some p →
      p.2 = Ret.raised cancelled_error ∧ p.1.machine_.async_inflight_ = false ∧
      ∀ fuel e a1 (r : Ret (Option Int)), p.1.dispatch_async fuel e = some (a1, r) →
        r ≠ Ret.aborted ∧ a1.machine_.async_inflight_ = false := by
  refine ⟨rfl, ?_⟩
  intro p hp
  have hfirst := (no_completion_while_inflight _ _ rfl
    (Driven.start : Driven (Examples.pipelineAdapter Examples.stopThenThrow)
      (Examples.pipelineAdapter Examples.stopThenThrow))).2.2.2.2.1
      2 Examples.CInput.Kick p.1 p.2 hp
  have hval : (Examples.pipelineAdapter Examples.stopThenThrow).dispatch_async 2
      Examples.CInput.Kick = some p → p.2 = Ret.raised cancelled_error := by
    intro h
    have hr : ((Examples.pipelineAdapter Examples.stopThenThrow).dispatch_async 2
        Examples.CInput.Kick).map (fun q => q.2) = some (Ret.raised cancelled_error) := by rfl
    rw [h] at hr
    exact Option.some.inj hr
  exact ⟨hval hp, hfirst.2,
    (no_completion_while_inflight (Examples.pipelineAdapter Examples.stopThenThrow) p.1 rfl
      (Driven.dispatch_async 2 _ p.1 Examples.CInput.Kick p.2 Driven.start hp hfirst.1)).2.2.2.2.1⟩

end InflightClaim

end Adapter


namespace MachineImpl

section QueueInvariant

variable {S I O C : Type} [DecidableEq S]

theorem queueSettled_of_empty (m : MachineImpl S I O C) (hdr : m.draining_deferrals_ = false)
    (hd : m.deferrals_ = []) : m.QueueSettled := by
  refine ⟨hdr, ?_, fun _ => hd⟩
  simp [waiting, hd, Tbl.find]

theorem finalize_transition_settled (fuel : Nat) (m m2 : MachineImpl S I O C)
    (result out : Option O) (hdr : m.draining_deferrals_ = false)
    (hq : m.deferral_enabled_ = false → m.deferrals_ = [])
    (h : m.finalize_transition fuel result = some (m2, Ret.ok out)) : m2.QueueSettled := by
  unfold finalize_transition finalize_transition_with at h
  obtain ⟨m1, cout, hpc, h1⟩ := andThenF_eq_ok _ _ _ _ h
  obtain ⟨m3, _, hdrain, h2⟩ := andThenF_eq_ok _ _ _ _ h1
  simp only [Option.some.injEq, Prod.mk.injEq] at h2
  obtain ⟨h2, _⟩ := h2
  subst h2
  have hm1 : (m.process_completions : MachineImpl S I O C × Ret (Option O)).1 = m1 := by
    rw [Option.some.inj hpc]
  have hsd : SameDeferrals m m1 := by
    rw [← hm1]
    exact process_completions_rel sameDeferrals_completionFrame m
  have hsc : SameConfig m m1 := by
    rw [← hm1]
    exact process_completions_rel sameConfig_frame.toCompletionFrame m
  have hdr1 : m1.draining_deferrals_ = false := hsd.2.2.trans hdr
  cases hen : m1.deferral_enabled_ with
  | false =>
    have hret : m1.drain_deferrals_for_current_state fuel = some (m1, Ret.ok ()) := by
      unfold drain_deferrals_for_current_state drain_with
      simp [hen]
    rw [hret] at hdrain
    simp only [Option.some.injEq, Prod.mk.injEq, and_true] at hdrain
    subst hdrain
    exact queueSettled_of_empty _ hdr1 (hsd.1.trans (hq (hsc.2.2.2.2.2.1.symm.trans hen)))
  | true =>
    rw [drain_deferrals_of_enabled fuel m1 hen hdr1] at hdrain
    cases hl : drain_loop fuel { m1 with draining_deferrals_ := true } with
    | none =>
      rw [hl] at hdrain
      simp [tryFinallyF] at hdrain
    | some p =>
      rw [hl] at hdrain
      simp only [tryFinallyF, Option.some.injEq] at hdrain
      obtain ⟨m0, hp, hm3⟩ := tryFinally_eq_ok _ _ _ _ hdrain
      subst hp
      have hempty := drain_loop_ends_empty fuel _ m0 hl
      have hcfg : SameConfig { m1 with draining_deferrals_ := true } m0 :=
        drain_loop_rel (dispatchFrame_of_frame sameConfig_frame) fuel _ _ hl
      subst hm3
      refine ⟨rfl, hempty, ?_⟩
      intro hoff
      have : m0.deferral_enabled_ = true := hcfg.2.2.2.2.2.1.trans hen
      rw [this] at hoff
      cases hoff

end QueueInvariant

end MachineImpl


namespace MachineImpl

section QueueInvariantSteps

variable {S I O C : Type} [DecidableEq S]

theorem apply_transition_keeps_queues (m m1 : MachineImpl S I O C) (t : Transition S I O C)
    (input : Option I) (inv : Bool) (r : Ret (Option O))
    (h : m.apply_transition t input inv = (m1, r)) :
    m1.deferrals_ = m.deferrals_ ∧ m1.draining_deferrals_ = m.draining_deferrals_ ∧
    m1.deferral_enabled_ = m.deferral_enabled_ := by
  have hsd : SameDeferrals m (m.apply_transition t input inv).1 :=
    apply_transition_rel sameDeferrals_completionFrame.toCommitFrame m t input inv
  have hsc : SameConfig m (m.apply_transition t input inv).1 :=
    apply_transition_rel sameConfig_frame.toCompletionFrame.toCommitFrame m t input inv
  rw [h] at hsd hsc
  exact ⟨hsd.1, hsd.2.2, hsc.2.2.2.2.2.1⟩

theorem commit_settled (fuel : Nat) (m m1 : MachineImpl S I O C) (sel : Selection S I O C)
    (inptr : Option I) (out : Option O) (hs : m.QueueSettled)
    (h : m.commit fuel sel inptr = some (m1, Ret.ok out)) : m1.QueueSettled := by
  obtain ⟨hdr, hw, hoff⟩ := hs
  unfold commit at h
  split at h
  · simp only [Option.some.injEq, Prod.mk.injEq] at h
    rw [← h.1]
    exact ⟨hdr, hw, hoff⟩
  · rename_i t _
    split at h
    · rename_i input
      split at h
      · rename_i hdef
        obtain ⟨ma, a, happ, hfin⟩ := andThenF_eq_ok _ _ _ _ h
        obtain ⟨k1, k2, k3⟩ := apply_transition_keeps_queues _ ma t _ _ _
          (Option.some.inj happ)
        simp only [Bool.and_eq_true] at hdef
        refine finalize_transition_settled fuel ma m1 none out (k2.trans hdr) ?_ hfin
        intro hen
        have : ma.deferral_enabled_ = true := k3.trans hdef.1
        rw [this] at hen
        cases hen
      · obtain ⟨ma, a, happ, hfin⟩ := andThenF_eq_ok _ _ _ _ h
        obtain ⟨k1, k2, k3⟩ := apply_transition_keeps_queues _ ma t _ _ _
          (Option.some.inj happ)
        exact finalize_transition_settled fuel ma m1 a out (k2.trans hdr)
          (fun hen => k1.trans (hoff (k3.symm.trans hen))) hfin
    · obtain ⟨ma, a, happ, hfin⟩ := andThenF_eq_ok _ _ _ _ h
      obtain ⟨k1, k2, k3⟩ := apply_transition_keeps_queues _ ma t _ _ _
        (Option.some.inj happ)
      exact finalize_transition_settled fuel ma m1 a out (k2.trans hdr)
        (fun hen => k1.trans (hoff (k3.symm.trans hen))) hfin

theorem notify_unhandled_settled (m : MachineImpl S I O C) (e : I) (hs : m.QueueSettled) :
    (m.notify_unhandled e : MachineImpl S I O C × Ret (Option O)).1.QueueSettled := by
  obtain ⟨hdr, hw, hoff⟩ := hs
  obtain ⟨l, _, hcur, _, _⟩ := notify_unhandled_summary (O := O) m e
  have hsd : SameDeferrals m (m.notify_unhandled e : MachineImpl S I O C × Ret (Option O)).1 :=
    notify_unhandled_rel sameDeferrals_completionFrame.toCommitFrame m e
  have hsc : SameConfig m (m.notify_unhandled e : MachineImpl S I O C × Ret (Option O)).1 :=
    notify_unhandled_rel sameConfig_frame.toCompletionFrame.toCommitFrame m e
  refine ⟨hsd.2.2.trans hdr, ?_, fun hen => hsd.1.trans (hoff (hsc.2.2.2.2.2.1.symm.trans hen))⟩
  unfold waiting at hw ⊢
  rw [hsd.1, hcur]
  exact hw

theorem dispatch_settled (fuel : Nat) (m m1 : MachineImpl S I O C) (e : I) (out : Option O)
    (hs : m.QueueSettled) (h : m.dispatch fuel e = some (m1, Ret.ok out)) :
    m1.QueueSettled := by
  simp only [dispatch] at h
  split at h
  · exact commit_settled fuel m m1 _ _ out hs h
  · simp only [Option.some.injEq] at h
    have := notify_unhandled_settled (O := O) m e hs
    rw [h] at this
    exact this

theorem dispatch_all_loop_settled (fuel : Nat) (rounds : Nat) :
    ∀ (m m1 : MachineImpl S I O C) (outputs outs : List O), m.QueueSettled →
      dispatch_all_loop fuel rounds m outputs = some (m1, Ret.ok outs) → m1.QueueSettled := by
  induction rounds with
  | zero => intro m m1 outputs outs _ h; simp [dispatch_all_loop] at h
  | succ n ih =>
    intro m m1 outputs outs hs h
    unfold dispatch_all_loop at h
    split at h
    · simp only [Option.some.injEq, Prod.mk.injEq] at h
      rw [← h.1]
      exact hs
    · rename_i next rest _
      obtain ⟨ma, a, hstep, hrest⟩ := andThenF_eq_ok _ _ _ _ h
      rw [handle_input_eq_dispatch] at hstep
      have hs1 : QueueSettled { m with pending_inputs_ := rest } := hs
      exact ih ma m1 _ outs (dispatch_settled fuel _ ma next a hs1 hstep) hrest

theorem update_settled (m m1 : MachineImpl S I O C) (r : Ret (Option O))
    (hs : m.QueueSettled) (h : m.update = (m1, r)) : m1.QueueSettled := by
  unfold update at h
  split at h
  · split at h
    · simp only [Prod.mk.injEq] at h
      rw [← h.1]
      exact hs
    · simp only [Prod.mk.injEq] at h
      rw [← h.1]
      exact hs
  · simp only [Prod.mk.injEq] at h
    rw [← h.1]
    exact hs

theorem construct_body_settled (fuel : Nat) (m0 m : MachineImpl S I O C)
    (hd : m0.deferrals_ = []) (hdr : m0.draining_deferrals_ = false)
    (h : construct_body fuel m0 = some (m, Ret.ok ())) : m.QueueSettled := by
  unfold construct_body at h
  obtain ⟨ma, _, henter, h1⟩ := andThenF_eq_ok _ _ _ _ h
  obtain ⟨mb, _, hfin, h2⟩ := andThenF_eq_ok _ _ _ _ h1
  simp only [Option.some.injEq, Prod.mk.injEq, and_true] at h2
  subst h2
  have hsd : SameDeferrals m0 (m0.call_enter m0.current_ m0.current_ m0.current_ none).1 :=
    call_enter_rel sameDeferrals_completionFrame.toCommitFrame m0 _ _ _ _
  rw [Option.some.inj henter] at hsd
  refine finalize_transition_settled fuel _ mb none _ ?_ ?_ hfin
  · exact hsd.2.2.trans hdr
  · intro _
    exact hsd.1.trans hd

theorem build_settled (b : Builder S I O C) (fuel : Nat) (ctx0 : C)
    (m : MachineImpl S I O C) (h : b.build fuel ctx0 = some (m, Ret.ok ())) :
    m.QueueSettled :=
  construct_body_settled fuel _ m rfl rfl h

end QueueInvariantSteps

end MachineImpl


namespace MachineImpl

section QueueInvariantClaim

variable {S I O C : Type} [DecidableEq S]

theorem reachable_settled (b : Builder S I O C) (ctx0 : C) (m : MachineImpl S I O C)
    (hr : Reachable b ctx0 m) : m.QueueSettled := by
  induction hr with
  | build fuel m hb => exact build_settled b fuel ctx0 m hb
  | dispatch fuel m m1 e out _ hcall ih => exact dispatch_settled fuel m m1 e out ih hcall
  | enqueue m e _ ih => exact ih
  | dispatch_all fuel m m1 outs _ hcall ih =>
    exact dispatch_all_loop_settled fuel fuel m m1 [] outs ih hcall
  | update m m1 out _ hcall ih => exact update_settled m m1 _ ih hcall
  | commit fuel m m1 sel inptr out _ hcall ih =>
    exact commit_settled fuel m m1 sel inptr out ih hcall

/-- C35: in every machine reached from `build` by calls of `dispatch`, `enqueue`,
`dispatch_all`, `update` and `commit` that return normally, no event waits in the
deferral queue of the current state: every event held in the deferral store is queued
for another state.  No drain is in progress in such a machine. -/
theorem current_queue_empty_when_reachable (b : Builder S I O C) (ctx0 : C)
    (m : MachineImpl S I O C) (hr : Reachable b ctx0 m) :
    m.waiting m.current_ = [] ∧
    (∀ s e, e ∈ m.waiting s → s ≠ m.current_) ∧
    m.draining_deferrals_ = false := by
  obtain ⟨hdr, hw, _⟩ := reachable_settled b ctx0 m hr
  refine ⟨hw, ?_, hdr⟩
  intro s e he hs
  rw [hs, hw] at he
  cases he

theorem current_queue_empty_when_reachable_witness :
    Reachable Examples.deferralBuilder []
      (Examples.deferralAfter Examples.DState.Active [1] (Examples.replayedJob 1)) ∧
    (Examples.deferralAfter Examples.DState.Active [1] (Examples.replayedJob 1)).waiting
      Examples.DState.Active = [] :=
  have hr : Reachable Examples.deferralBuilder []
      (Examples.deferralAfter Examples.DState.Active [1] (Examples.replayedJob 1)) :=
    Reachable.dispatch 2 (Examples.deferralMachine Examples.DState.Idle []) _
      (Examples.DInput.Job 1) none (Reachable.build 2 _ (by rfl)) (by rfl)
  ⟨hr, (current_queue_empty_when_reachable Examples.deferralBuilder [] _ hr).1⟩

end QueueInvariantClaim

end MachineImpl


namespace MachineImpl

section DrainTermination

variable {S I O C : Type} [DecidableEq S]

theorem sum_lengths_pop {K V : Type} [DecidableEq K] (tbl : List (K × List V)) (k : K)
    (x : V) (rest : List V) (h : Tbl.find tbl k = some (x :: rest)) :
    ((Tbl.modify [] List.tail tbl k).map (fun entry => entry.2.length)).sum + 1 =
      (tbl.map (fun entry => entry.2.length)).sum := by
  induction tbl with
  | nil => simp [Tbl.find] at h
  | cons p tl ih =>
    obtain ⟨k1, v⟩ := p
    simp only [Tbl.find] at h
    simp only [Tbl.modify]
    split at h
    · rename_i hk
      simp only [Option.some.injEq] at h
      subst h
      simp only [hk, if_true, List.map_cons, List.sum_cons, List.tail_cons, List.length_cons]
      omega
    · rename_i hk
      simp only [hk, if_false, List.map_cons, List.sum_cons]
      have := ih h
      omega

theorem stored_pop (m : MachineImpl S I O C) (next : I) (rest : List I)
    (hq : Tbl.find m.deferrals_ m.current_ = some (next :: rest)) :
    stored { m with deferrals_ := Tbl.modify [] List.tail m.deferrals_ m.current_ } + 1 =
      m.stored :=
  sum_lengths_pop m.deferrals_ m.current_ next rest hq

theorem finalize_undrained_machine (m : MachineImpl S I O C) (result : Option O) :
    ∃ out, finalize_transition_with (fun m0 => some (m0, Ret.ok ())) m result =
      some ((m.process_completions : MachineImpl S I O C × Ret (Option O)).1, out) := by
  unfold finalize_transition_with
  generalize m.process_completions = r
  obtain ⟨m1, o⟩ := r
  cases o with
  | ok a => exact ⟨_, rfl⟩
  | raised x => exact ⟨_, rfl⟩
  | aborted => exact ⟨_, rfl⟩

theorem handle_input_undrained_total (m : MachineImpl S I O C) (e : I) :
    ∃ r, m.handle_input_undrained (O := O) e = some r := by
  unfold handle_input_undrained handle_input_with
  split
  · rename_i t _
    split
    · generalize (m.push_deferral t.to_ e).apply_transition t (some e) false = r
      obtain ⟨m1, o⟩ := r
      cases o with
      | ok a =>
        obtain ⟨out, h⟩ := finalize_undrained_machine (O := O) m1 none
        exact ⟨_, h⟩
      | raised x => exact ⟨_, rfl⟩
      | aborted => exact ⟨_, rfl⟩
    · generalize m.apply_transition t (some e) true = r
      obtain ⟨m1, o⟩ := r
      cases o with
      | ok a =>
        obtain ⟨out, h⟩ := finalize_undrained_machine (O := O) m1 a
        exact ⟨_, h⟩
      | raised x => exact ⟨_, rfl⟩
      | aborted => exact ⟨_, rfl⟩
  · exact ⟨_, rfl⟩

theorem handle_input_undrained_keeps_store (m m1 : MachineImpl S I O C) (e : I)
    (r : Ret (Option O))
    (hplain : ∀ t, m.find_transition e = some t → t.defer = false)
    (h : m.handle_input_undrained e = some (m1, r)) : m1.deferrals_ = m.deferrals_ := by
  unfold handle_input_undrained handle_input_with at h
  split at h
  · rename_i t hsel
    have hdef : (m.deferral_enabled_ && t.defer) = false := by
      rw [hplain t hsel]
      simp
    simp only [hdef] at h
    have hrel : SameDeferrals m (m1, r).1 := by
      refine andThenF_rel SameDeferrals m _ _ (m1, r) ?_ ?_ h
      · intro r0 hr0
        cases hr0
        exact apply_transition_rel sameDeferrals_completionFrame.toCommitFrame m t _ _
      · intro ma a r1 h1 h2
        obtain ⟨out, hfin⟩ := finalize_undrained_machine (O := O) ma a
        rw [hfin] at h2
        cases h2
        exact sameDeferrals_completionFrame.trans _ _ _ h1
          (process_completions_rel sameDeferrals_completionFrame ma)
    exact hrel.1
  · simp only [Option.some.injEq] at h
    have hrel : SameDeferrals m (m.notify_unhandled e : MachineImpl S I O C × Ret (Option O)).1 :=
      notify_unhandled_rel sameDeferrals_completionFrame.toCommitFrame m e
    rw [h] at hrel
    exact hrel.1

theorem handle_input_undrained_draining (m m1 : MachineImpl S I O C) (e : I)
    (r : Ret (Option O)) (hdr : m.draining_deferrals_ = true)
    (h : m.handle_input_undrained e = some (m1, r)) : m1.draining_deferrals_ = true := by
  have hrel := handle_input_with_rel onlyAppends_pushFrame
    (fun m0 : MachineImpl S I O C => some (m0, Ret.ok ()))
    (by intro m0 r0 h0; cases h0; exact onlyAppends_pushFrame.refl m0) e m (m1, r) h
  exact (hrel hdr).1

theorem handle_input_while_draining (fuel : Nat) (m : MachineImpl S I O C) (e : I)
    (hdr : m.draining_deferrals_ = true) :
    m.handle_input (O := O) fuel e = m.handle_input_undrained e := by
  unfold handle_input
  rw [handle_input_with_split]
  obtain ⟨⟨m1, r⟩, hr⟩ := handle_input_undrained_total (O := O) m e
  rw [hr]
  cases r with
  | ok out =>
    have hd1 := handle_input_undrained_draining m m1 e _ hdr hr
    have hdrain : m1.drain_deferrals_for_current_state fuel = some (m1, Ret.ok ()) := by
      unfold drain_deferrals_for_current_state drain_with
      simp [hd1]
    simp only [andThenF, hdrain]
    split <;> rfl
  | raised x => rfl
  | aborted => rfl

end DrainTermination

end MachineImpl


namespace MachineImpl

section DrainTerminationLoop

variable {S I O C : Type} [DecidableEq S]

theorem drain_loop_terminates (n : Nat) :
    ∀ (m : MachineImpl S I O C) (fuel : Nat), m.draining_deferrals_ = true → m.stored = n →
      m.replays_undeferred n = true → n < fuel →
      ∃ m1 r log, drain_loop fuel m = some (m1, r) ∧
        replay_order (O := O) fuel m = some log ∧ m1.stored + log.length = m.stored := by
  induction n with
  | zero =>
    intro m fuel hdr hst _ hf
    obtain ⟨f, rfl⟩ : ∃ f, fuel = f + 1 := ⟨fuel - 1, by omega⟩
    cases hq : Tbl.find m.deferrals_ m.current_ with
    | none =>
      exact ⟨m, Ret.ok (), [], by simp [drain_loop, hq], by simp [replay_order, hq], rfl⟩
    | some q =>
      cases q with
      | nil =>
        exact ⟨m, Ret.ok (), [], by simp [drain_loop, hq], by simp [replay_order, hq], rfl⟩
      | cons next rest =>
        have := stored_pop m next rest hq
        omega
  | succ n ih =>
    intro m fuel hdr hst hplain hf
    obtain ⟨f, rfl⟩ : ∃ f, fuel = f + 1 := ⟨fuel - 1, by omega⟩
    cases hq : Tbl.find m.deferrals_ m.current_ with
    | none =>
      exact ⟨m, Ret.ok (), [], by simp [drain_loop, hq], by simp [replay_order, hq], rfl⟩
    | some q =>
      cases q with
      | nil =>
        exact ⟨m, Ret.ok (), [], by simp [drain_loop, hq], by simp [replay_order, hq], rfl⟩
      | cons next rest =>
        have hpop := stored_pop m next rest hq
        simp only [replays_undeferred, hq, Bool.and_eq_true] at hplain
        obtain ⟨hp1, hp2⟩ := hplain
        have hplain0 : ∀ t, find_transition
            { m with deferrals_ := Tbl.modify [] List.tail m.deferrals_ m.current_ } next
              = some t → t.defer = false := by
          intro t ht
          rw [ht] at hp1
          simpa using hp1
        obtain ⟨⟨m2, r2⟩, hu⟩ := handle_input_undrained_total (O := O)
          { m with deferrals_ := Tbl.modify [] List.tail m.deferrals_ m.current_ } next
        have hh : handle_input (O := O) f
            { m with deferrals_ := Tbl.modify [] List.tail m.deferrals_ m.current_ } next
              = some (m2, r2) := by
          rw [handle_input_while_draining f
            { m with deferrals_ := Tbl.modify [] List.tail m.deferrals_ m.current_ } next hdr]
          exact hu
        have hkeep := handle_input_undrained_keeps_store
          { m with deferrals_ := Tbl.modify [] List.tail m.deferrals_ m.current_ } m2 next r2
          hplain0 hu
        have hs2 : m2.stored = n := by
          have : m2.stored =
              stored { m with deferrals_ := Tbl.modify [] List.tail m.deferrals_ m.current_ } := by
            unfold stored
            rw [hkeep]
          omega
        have hd2 := handle_input_undrained_draining
          { m with deferrals_ := Tbl.modify [] List.tail m.deferrals_ m.current_ } m2 next r2
          hdr hu
        rw [drain_loop_step f m next rest hq, hh]
        unfold replay_order
        simp only [hq, hh]
        cases r2 with
        | ok out =>
          rw [hu] at hp2
          obtain ⟨m1, r, log, h1, h2, h3⟩ := ih m2 f hd2 hs2 hp2 (by omega)
          refine ⟨m1, r, (m.current_, next) :: log, h1, ?_, ?_⟩
          · simp [h2]
          · simp only [List.length_cons]
            omega
        | raised x =>
          exact ⟨m2, Ret.raised x, [(m.current_, next)], rfl, rfl, by simp; omega⟩
        | aborted =>
          exact ⟨m2, Ret.aborted, [(m.current_, next)], rfl, rfl, by simp; omega⟩

end DrainTerminationLoop

end MachineImpl


namespace MachineImpl

section DrainTerminationClaim

variable {S I O C : Type} [DecidableEq S]

/-- C36: let `m` hold `m.stored` deferred events, and let none of the events the drain
replays when it starts on `m` select a transition with `defer` set.  Then
`drain_deferrals_for_current_state` returns (normally, or with the exception of a replay)
as soon as it is given more loop tests than there are stored events.  It makes at most
`m.stored` replays, and the number of stored events it leaves is the number before minus
the number of replays made.  Each iteration, as long as the replayed event selects no
deferred transition, takes exactly one event out of the store and adds none. -/
theorem drain_terminates_without_deferral (fuel : Nat) (m : MachineImpl S I O C)
    (hfuel : m.stored < fuel)
    (hplain : replays_undeferred m.stored { m with draining_deferrals_ := true } = true) :
    (∃ m1 r, m.drain_deferrals_for_current_state fuel = some (m1, r) ∧
      m1.stored ≤ m.stored ∧
      (m.deferral_enabled_ = true → m.draining_deferrals_ = false →
        ∃ log, replay_order (O := O) fuel { m with draining_deferrals_ := true } = some log ∧
          log.length ≤ m.stored ∧ m1.stored + log.length = m.stored)) ∧
    (∀ (m0 m2 : MachineImpl S I O C) (next : I) (rest : List I) (r : Ret (Option O)),
      m0.draining_deferrals_ = true →
      Tbl.find m0.deferrals_ m0.current_ = some (next :: rest) →
      (∀ t, find_transition
          { m0 with deferrals_ := Tbl.modify [] List.tail m0.deferrals_ m0.current_ } next
            = some t → t.defer = false) →
      handle_input fuel
          { m0 with deferrals_ := Tbl.modify [] List.tail m0.deferrals_ m0.current_ } next
        = some (m2, r) →
      m2.stored + 1 = m0.stored) := by
  constructor
  · by_cases hgo : m.deferral_enabled_ = true ∧ m.draining_deferrals_ = false
    · obtain ⟨hen, hdr⟩ := hgo
      obtain ⟨m1, r, log, h1, h2, h3⟩ := drain_loop_terminates (O := O) m.stored
        { m with draining_deferrals_ := true } fuel rfl rfl hplain hfuel
      have h3' : m1.stored + log.length = m.stored := h3
      rw [drain_deferrals_of_enabled fuel m hen hdr, h1]
      refine ⟨(tryFinally (m1, r) (fun m1 => { m1 with draining_deferrals_ := false })).1,
        (tryFinally (m1, r) (fun m1 => { m1 with draining_deferrals_ := false })).2, rfl, ?_, ?_⟩
      · have : (tryFinally (m1, r)
            (fun m1 => { m1 with draining_deferrals_ := false })).1.stored = m1.stored := by
          cases r <;> rfl
        omega
      · intro _ _
        refine ⟨log, h2, by omega, ?_⟩
        have : (tryFinally (m1, r)
            (fun m1 => { m1 with draining_deferrals_ := false })).1.stored = m1.stored := by
          cases r <;> rfl
        omega
    · refine ⟨m, Ret.ok (), ?_, le_refl _, ?_⟩
      · unfold drain_deferrals_for_current_state drain_with
        have : (!m.deferral_enabled_ || m.draining_deferrals_) = true := by
          cases h1 : m.deferral_enabled_ <;> cases h2 : m.draining_deferrals_ <;> simp_all
        simp [this]
      · intro hen hdr
        exact absurd ⟨hen, hdr⟩ hgo
  · intro m0 m2 next rest r hdr hq hplain0 hh
    rw [handle_input_while_draining fuel
      { m0 with deferrals_ := Tbl.modify [] List.tail m0.deferrals_ m0.current_ } next hdr]
      at hh
    have hkeep := handle_input_undrained_keeps_store
      { m0 with deferrals_ := Tbl.modify [] List.tail m0.deferrals_ m0.current_ } m2 next r
      hplain0 hh
    have hpop := stored_pop m0 next rest hq
    have : m2.stored =
        stored { m0 with deferrals_ := Tbl.modify [] List.tail m0.deferrals_ m0.current_ } := by
      unfold stored
      rw [hkeep]
    omega

theorem drain_terminates_without_deferral_witness :
    Examples.queuedMachine.stored = 2 ∧
    ∃ m1 r, Examples.queuedMachine.drain_deferrals_for_current_state 3 = some (m1, r) ∧
      m1.stored ≤ Examples.queuedMachine.stored ∧
      (Examples.queuedMachine.deferral_enabled_ = true →
        Examples.queuedMachine.draining_deferrals_ = false →
        ∃ log, replay_order (O := String) 3
            { Examples.queuedMachine with draining_deferrals_ := true } = some log ∧
          log.length ≤ Examples.queuedMachine.stored ∧
          m1.stored + log.length = Examples.queuedMachine.stored) :=
  ⟨rfl, (drain_terminates_without_deferral 3 Examples.queuedMachine (by decide) (by rfl)).1⟩

end DrainTerminationClaim

end MachineImpl


namespace MachineImpl

section NoAction

variable {S I O C : Type} [DecidableEq S]

theorem noAction_refl (m : MachineImpl S I O C) : NoActionCalled m m :=
  ⟨[], (List.append_nil _).symm, by simp⟩

theorem noAction_trans {a b c : MachineImpl S I O C} (h1 : NoActionCalled a b)
    (h2 : NoActionCalled b c) : NoActionCalled a c := by
  obtain ⟨l1, e1, c1⟩ := h1
  obtain ⟨l2, e2, c2⟩ := h2
  refine ⟨l1 ++ l2, by rw [e2, e1, List.append_assoc], ?_⟩
  intro x hx
  cases List.mem_append.mp hx with
  | inl h => exact c1 x h
  | inr h => exact c2 x h

theorem noAction_calls_of {F : Type} (h : Option F) (entry : Call S I)
    (hne : Call.is_action entry = false) : ∀ c ∈ calls_of h entry, Call.is_action c = false := by
  cases h with
  | none => simp [calls_of]
  | some f => simp [calls_of, hne]

theorem call_exit_noAction (m : MachineImpl S I O C) (f t : S) (i : Option I) :
    NoActionCalled m (m.call_exit f t i).1 := by
  rw [call_exit_eq]
  exact ⟨_, rfl, noAction_calls_of _ _ rfl⟩

theorem call_enter_noAction (m : MachineImpl S I O C) (k f t : S) (i : Option I) :
    NoActionCalled m (m.call_enter k f t i).1 := by
  rw [call_enter_eq]
  exact ⟨_, rfl, noAction_calls_of _ _ rfl⟩

theorem invoke_completion_action_noAction (m : MachineImpl S I O C)
    (c : Completion S O C) : NoActionCalled m (m.invoke_completion_action c).1 := by
  rw [invoke_completion_action_eq]
  exact ⟨_, rfl, noAction_calls_of _ _ rfl⟩

theorem set_state_direct_noAction (m : MachineImpl S I O C) (s : S) :
    NoActionCalled m (m.set_state_direct s) :=
  ⟨[Call.set_state s], rfl, by simp [Call.is_action]⟩

theorem apply_completion_noAction (m : MachineImpl S I O C) (c : Completion S O C) :
    NoActionCalled m (m.apply_completion c).1 := by
  have h0 : NoActionCalled m { m with trace := m.trace ++ [Call.completion m.current_ c.to_] } :=
    ⟨[Call.completion m.current_ c.to_], rfl, by simp [Call.is_action]⟩
  refine noAction_trans h0 ?_
  unfold apply_completion
  simp only [state]
  refine andThen_rel NoActionCalled _ _ _ ?_ ?_
  · split
    · exact noAction_refl _
    · exact call_exit_noAction _ _ _ _
  · intro m1 _ h1
    refine andThen_rel NoActionCalled _ _ _ ?_ ?_
    · exact noAction_trans h1 (invoke_completion_action_noAction m1 c)
    · intro m2 out h2
      refine andThen_rel NoActionCalled _ _ _ ?_ ?_
      · have h3 := noAction_trans h2 (set_state_direct_noAction m2 c.to_)
        split
        · exact h3
        · exact noAction_trans h3 (call_enter_noAction _ _ _ _ _)
      · intro m4 _ h4
        exact h4

theorem completion_loop_noAction (bound : Nat) :
    ∀ (output : Option O) (steps : Nat) (m : MachineImpl S I O C),
      NoActionCalled m (completion_loop output steps bound m).1 := by
  induction bound with
  | zero => intro output steps m; exact noAction_refl m
  | succ n ih =>
    intro output steps m
    unfold completion_loop
    split
    · exact noAction_refl m
    · rename_i c _
      split
      · exact noAction_refl m
      · refine andThen_rel NoActionCalled m _ _ (apply_completion_noAction m c) ?_
        intro m1 result h1
        exact noAction_trans h1 (ih _ _ m1)

theorem process_completions_noAction (m : MachineImpl S I O C) :
    NoActionCalled m (m.process_completions : MachineImpl S I O C × Ret (Option O)).1 := by
  unfold process_completions
  split
  · exact noAction_refl m
  · split
    · exact noAction_refl m
    · have h := completion_loop_noAction (O := O) (m.completion_limit_ + 2) none 0
        { m with processing_completions_ := true }
      generalize completion_loop (O := O) none 0 (m.completion_limit_ + 2)
        { m with processing_completions_ := true } = p at h
      obtain ⟨m1, r⟩ := p
      cases r <;> exact h

theorem drain_empty_store (fuel : Nat) (m m1 : MachineImpl S I O C) (r : Ret Unit)
    (hd : m.deferrals_ = [])
    (h : m.drain_deferrals_for_current_state fuel = some (m1, r)) :
    r = Ret.ok () ∧ m1.trace = m.trace ∧ m1.deferrals_ = [] ∧ m1.current_ = m.current_ := by
  unfold drain_deferrals_for_current_state drain_with at h
  split at h
  · simp only [Option.some.injEq, Prod.mk.injEq] at h
    obtain ⟨h1, h2⟩ := h
    subst h1
    exact ⟨h2.symm, rfl, hd, rfl⟩
  · cases fuel with
    | zero => simp [drain_loop, tryFinallyF] at h
    | succ f =>
      have hl : drain_loop (O := O) (f + 1) { m with draining_deferrals_ := true } =
          some ({ m with draining_deferrals_ := true }, Ret.ok ()) := by
        unfold drain_loop
        simp [hd, Tbl.find]
      rw [hl] at h
      simp only [tryFinallyF, tryFinally, Option.some.injEq, Prod.mk.injEq] at h
      obtain ⟨h1, h2⟩ := h
      subst h1
      exact ⟨h2.symm, rfl, hd, rfl⟩

end NoAction

end MachineImpl


namespace MachineImpl

section CommitWithoutEvent

variable {S I O C : Type} [DecidableEq S]

theorem apply_transition_null_noAction (m : MachineImpl S I O C) (t : Transition S I O C) :
    NoActionCalled m (m.apply_transition t none true).1 := by
  have hsame : m.apply_transition t none true = m.apply_transition t none false := rfl
  rw [hsame]
  obtain ⟨l, hl, hc⟩ := apply_transition_no_action m t none
  refine ⟨l, hl, ?_⟩
  intro c hmem
  cases c with
  | action to_ ev => exact absurd rfl (hc _ hmem to_ ev)
  | _ => rfl

theorem finalize_empty_store (fuel : Nat) (m m3 : MachineImpl S I O C) (result : Option O)
    (r : Ret (Option O)) (hd : m.deferrals_ = [])
    (h : m.finalize_transition fuel result = some (m3, r)) :
    m3.deferrals_ = [] ∧ NoActionCalled m m3 := by
  unfold finalize_transition finalize_transition_with at h
  refine andThenF_rel (fun a b : MachineImpl S I O C => b.deferrals_ = [] ∧ NoActionCalled a b)
    m _ _ (m3, r) ?_ ?_ h
  · intro r0 hr0
    cases hr0
    exact ⟨((process_completions_rel sameDeferrals_completionFrame m).1).trans hd,
      process_completions_noAction m⟩
  · intro m1 a r1 h1 h2
    cases hdrain : m1.drain_deferrals_for_current_state fuel with
    | none => rw [hdrain] at h2; simp at h2
    | some p =>
      obtain ⟨m2, r2⟩ := p
      obtain ⟨e1, e2, e3, _⟩ := drain_empty_store fuel m1 m2 r2 h1.1 hdrain
      subst e1
      rw [hdrain] at h2
      simp only [andThenF, Option.some.injEq] at h2
      subst h2
      obtain ⟨l, hl, hc⟩ := h1.2
      exact ⟨e3, l, e2.trans hl, hc⟩

end CommitWithoutEvent

end MachineImpl


namespace Adapter

section FirstBinding

variable {S I O C : Type} [DecidableEq S]

theorem dispatch_async_registry (fuel : Nat) (a : Adapter S I O C)
    (reg : Registry S I O C) (e : I)
    (h : ∀ f t, (reg.find f t).bind List.head? = (a.registry_.find f t).bind List.head?) :
    dispatch_async fuel { a with registry_ := reg } e =
      (a.dispatch_async fuel e).map (fun p => ({ p.1 with registry_ := reg }, p.2)) := by
  unfold dispatch_async
  simp only
  cases hg : (a.machine_.select e).get with
  | none => rfl
  | some t =>
    simp only
    have hh := h a.machine_.state t.to_
    have hcommit : with_machine { a with registry_ := reg }
          (a.machine_.commit fuel (a.machine_.select e) (some e)) =
        (a.with_machine (a.machine_.commit fuel (a.machine_.select e) (some e))).map
          (fun p => ({ p.1 with registry_ := reg }, p.2)) := by
      cases a.machine_.commit fuel (a.machine_.select e) (some e) <;> rfl
    have hbound : ∀ action : CoAction S I O C,
        (andThenF (with_machine { a with registry_ := reg }
            (a.machine_.commit fuel (a.machine_.select e) (some e)))
          fun a1 completion_out =>
            andThenF
              (some (tryFinally
                (await_action { a1 with machine_ := a1.machine_.begin_async_effect }
                  action a.machine_.state t.to_ e)
                (fun a2 => { a2 with machine_ := a2.machine_.end_async_effect })))
              fun a3 effect_out =>
                some (a3, Ret.ok (if effect_out.isSome then effect_out else completion_out))) =
        (andThenF (a.with_machine (a.machine_.commit fuel (a.machine_.select e) (some e)))
          fun a1 completion_out =>
            andThenF
              (some (tryFinally
                (await_action { a1 with machine_ := a1.machine_.begin_async_effect }
                  action a.machine_.state t.to_ e)
                (fun a2 => { a2 with machine_ := a2.machine_.end_async_effect })))
              fun a3 effect_out =>
                some (a3, Ret.ok (if effect_out.isSome then effect_out
                  else completion_out))).map
          (fun p => ({ p.1 with registry_ := reg }, p.2)) := by
      intro action
      cases a.machine_.commit fuel (a.machine_.select e) (some e) with
      | none => rfl
      | some p =>
        obtain ⟨m1, r⟩ := p
        cases r with
        | raised x => rfl
        | aborted => rfl
        | ok cout =>
          simp only [with_machine, andThenF, await_action]
          generalize (action e _ _ _ _) = res
          obtain ⟨cs, o⟩ := res
          cases o <;> rfl
    cases h1 : a.registry_.find a.machine_.state t.to_ with
    | none =>
      rw [h1] at hh
      cases h2 : reg.find a.machine_.state t.to_ with
      | none => simpa using hcommit
      | some l =>
        cases l with
        | nil => simpa using hcommit
        | cons x xs => rw [h2] at hh; simp at hh
    | some l1 =>
      cases l1 with
      | nil =>
        rw [h1] at hh
        cases h2 : reg.find a.machine_.state t.to_ with
        | none => simpa using hcommit
        | some l =>
          cases l with
          | nil => simpa using hcommit
          | cons x xs => rw [h2] at hh; simp at hh
      | cons act rest =>
        rw [h1] at hh
        cases h2 : reg.find a.machine_.state t.to_ with
        | none => rw [h2] at hh; simp at hh
        | some l =>
          cases l with
          | nil => rw [h2] at hh; simp at hh
          | cons x xs =>
            rw [h2] at hh
            simp only [Option.some_bind, List.head?_cons, Option.some.injEq] at hh
            subst hh
            simpa using hbound x

theorem find_add_head (r : Registry S I O C) (from_ to_ : S) (act : CoAction S I O C)
    (x : CoAction S I O C) (xs : List (CoAction S I O C))
    (hb : r.find from_ to_ = some (x :: xs)) :
    (r.add from_ to_ act).find from_ to_ = some (x :: (xs ++ [act])) ∧
    ∀ f t, ((r.add from_ to_ act).find f t).bind List.head? = (r.find f t).bind List.head? := by
  have hself : (r.add from_ to_ act).find from_ to_ = some (x :: (xs ++ [act])) := by
    unfold Registry.find Registry.add at *
    simp only
    rw [MachineImpl.tbl_find_modify_self, hb]
    rfl
  refine ⟨hself, ?_⟩
  intro f t
  by_cases hk : (f, t) = (from_, to_)
  · simp only [Prod.mk.injEq] at hk
    obtain ⟨h1, h2⟩ := hk
    subst h1
    subst h2
    rw [hself, hb]
    rfl
  · unfold Registry.find Registry.add
    simp only
    rw [MachineImpl.tbl_find_modify_other _ _ _ _ _ hk]

theorem bind_later_keeps_head (from_ to_ : S) (later : List (CoAction S I O C)) :
    ∀ (a1 : Adapter S I O C) (x : CoAction S I O C) (xs : List (CoAction S I O C)),
      a1.registry_.find from_ to_ = some (x :: xs) →
      (later.foldl (fun y act => y.bind_async from_ to_ act) a1).registry_.find from_ to_ =
        some (x :: (xs ++ later)) ∧
      (∀ f t, ((later.foldl (fun y act => y.bind_async from_ to_ act) a1).registry_.find f
        t).bind List.head? = (a1.registry_.find f t).bind List.head?) ∧
      later.foldl (fun y act => y.bind_async from_ to_ act) a1 =
        { a1 with
          registry_ := (later.foldl (fun y act => y.bind_async from_ to_ act) a1).registry_ } := by
  induction later with
  | nil =>
    intro a1 x xs hb
    exact ⟨by simpa using hb, fun _ _ => rfl, rfl⟩
  | cons act rest ih =>
    intro a1 x xs hb
    obtain ⟨h1, h2⟩ := find_add_head a1.registry_ from_ to_ act x xs hb
    obtain ⟨g1, g2, g3⟩ := ih (a1.bind_async from_ to_ act) x (xs ++ [act]) h1
    simp only [List.foldl_cons]
    refine ⟨by rw [g1]; simp, fun f t => (g2 f t).trans (h2 f t), ?_⟩
    rw [g3]
    rfl

end FirstBinding

end Adapter


namespace Adapter

section FirstBindingClaim

variable {S I O C : Type} [DecidableEq S]

/-- C38: let `first` be the first action bound to `(from, to)` on the adapter `a`, and let
the actions of `later` be bound to the same pair after it, in order.  The registry then
holds `first` followed by `later` under the pair, and `dispatch_async` on the adapter
with all the bindings is `dispatch_async` on the adapter with the binding of `first`
alone, for every event: same outcome, same machine, same cancel source, the two
adapters differing in the registry only.  When the selection goes from `from` to `to`,
the effect awaited is `first`. -/
theorem dispatch_async_uses_first_binding (fuel : Nat) (a : Adapter S I O C)
    (from_ to_ : S) (first : CoAction S I O C) (later : List (CoAction S I O C)) (e : I)
    (hfresh : a.registry_.find from_ to_ = none) :
    (later.foldl (fun y act => y.bind_async from_ to_ act)
        (a.bind_async from_ to_ first)).registry_.find from_ to_ = some (first :: later) ∧
    (later.foldl (fun y act => y.bind_async from_ to_ act)
        (a.bind_async from_ to_ first)).dispatch_async fuel e =
      ((a.bind_async from_ to_ first).dispatch_async fuel e).map
        (fun p => ({ p.1 with
          registry_ := (later.foldl (fun y act => y.bind_async from_ to_ act)
            (a.bind_async from_ to_ first)).registry_ }, p.2)) ∧
    (∀ t, a.machine_.find_transition e = some t → a.machine_.current_ = from_ →
      t.to_ = to_ →
      (a.bind_async from_ to_ first).dispatch_async fuel e =
        andThenF ((a.bind_async from_ to_ first).with_machine
            (a.machine_.commit fuel (a.machine_.select e) (some e)))
          fun a1 completion_out =>
            andThenF
              (some (tryFinally
                (await_action { a1 with machine_ := a1.machine_.begin_async_effect }
                  first from_ to_ e)
                (fun a2 => { a2 with machine_ := a2.machine_.end_async_effect })))
              fun a3 effect_out =>
                some (a3, Ret.ok (if effect_out.isSome then effect_out
                  else completion_out))) := by
  have hfirst : (a.bind_async from_ to_ first).registry_.find from_ to_ = some [first] := by
    unfold bind_async Registry.find Registry.add
    simp only
    rw [MachineImpl.tbl_find_modify_self]
    unfold Registry.find at hfresh
    rw [hfresh]
    rfl
  obtain ⟨g1, g2, g3⟩ := bind_later_keeps_head from_ to_ later
    (a.bind_async from_ to_ first) first [] hfirst
  refine ⟨by simpa using g1, ?_, ?_⟩
  · rw [g3]
    exact dispatch_async_registry fuel (a.bind_async from_ to_ first) _ e g2
  · intro t hsel hcur hto
    subst hcur
    subst hto
    exact dispatch_async_of_bound fuel (a.bind_async a.machine_.current_ t.to_ first) e t
      first [] hsel hfirst

theorem dispatch_async_uses_first_binding_witness :
    ([Examples.emitValue 2, Examples.stopThenThrow].foldl
        (fun y act => y.bind_async Examples.CState.Idle Examples.CState.Active act)
        (Examples.pipelineAdapter (Examples.emitValue 1))).registry_.find
        Examples.CState.Idle Examples.CState.Active =
      some [Examples.emitValue 1, Examples.emitValue 2, Examples.stopThenThrow] ∧
    (([Examples.emitValue 2, Examples.stopThenThrow].foldl
        (fun y act => y.bind_async Examples.CState.Idle Examples.CState.Active act)
        (Examples.pipelineAdapter (Examples.emitValue 1))).dispatch_async 2
        Examples.CInput.Kick).map (fun p => p.2) = some (Ret.ok (some 1)) :=
  ⟨(dispatch_async_uses_first_binding 2
      ({ machine_ := Examples.pipelineMachine, global_cancel_ := some {} } :
        Adapter Examples.CState Examples.CInput Int Int)
      Examples.CState.Idle Examples.CState.Active (Examples.emitValue 1)
      [Examples.emitValue 2, Examples.stopThenThrow] Examples.CInput.Kick rfl).1,
    by rfl⟩

end FirstBindingClaim

end Adapter


namespace ToStage

section StopAfterFragment

variable {S I O C : Type} [DecidableEq S]

theorem attach_loop_split (input : I) (s : S) (tok : CancelToken)
    (rest : List (CoAction S I O C)) :
    ∀ (pre : List (CoAction S I O C)) (output : Option O) (c : C) (src : CancelSource)
      (c0 : C) (s0 : CancelSource) (outs : List (Option O)),
      runs_unstopped input s tok pre c src = some ((c0, s0), outs) →
      attach_loop input s tok (pre ++ rest) output c src =
        attach_loop input s tok rest ((last_some outs).or output) c0 s0 := by
  intro pre
  induction pre with
  | nil =>
    intro output c src c0 s0 outs h
    simp only [runs_unstopped, Option.some.injEq, Prod.mk.injEq] at h
    obtain ⟨⟨h1, h2⟩, h3⟩ := h
    subst h1
    subst h2
    subst h3
    rfl
  | cons g gs ih =>
    intro output c src c0 s0 outs h
    simp only [runs_unstopped] at h
    simp only [List.cons_append]
    rw [attach_loop]
    generalize g input s c tok src = res at h
    obtain ⟨⟨c1, s1⟩, o⟩ := res
    cases o with
    | error x => simp at h
    | ok v =>
      simp only at h ⊢
      cases hs : tok.stop_requested s1 with
      | true => simp [hs] at h
      | false =>
        simp only [hs, Bool.false_eq_true, if_false] at h ⊢
        cases hr : runs_unstopped input s tok gs c1 s1 with
        | none => simp [hr] at h
        | some p =>
          obtain ⟨⟨c2, s2⟩, outs1⟩ := p
          rw [hr] at h
          simp only [Option.map_some', Option.some.injEq, Prod.mk.injEq] at h
          obtain ⟨⟨h1, h2⟩, h3⟩ := h
          subst h1
          subst h2
          subst h3
          rw [ih _ c1 s1 c2 s2 outs1 hr, MachineImpl.last_some_cons]
          cases last_some outs1 <;> cases v <;> rfl

theorem last_some_append_singleton {O : Type} (outs : List (Option O)) (v : Option O) :
    last_some (outs ++ [v]) = if v.isSome then v else last_some outs := by
  induction outs with
  | nil => cases v <;> rfl
  | cons x xs ih =>
    simp only [List.cons_append]
    rw [MachineImpl.last_some_cons, MachineImpl.last_some_cons, ih]
    cases v <;> simp

end StopAfterFragment

end ToStage


namespace ToStage

section StopAfterFragmentClaim

variable {S I O C : Type} [DecidableEq S]

/-- C39: in the effect that `attach()` composes (in `Adapter::ToStage` and in
`CoBuilder::ToStage` alike), let the fragments of `pre` run to their ends with no stop
reported after any of them, yielding the outputs `outs`, and let the next fragment `f`
return `v` with the token reporting a stop when it has finished.  Then the effect returns
at that point, with the context and the cancel source as `f` left them, whatever the
fragments `rest` that follow are: none of them is called.  The value returned is the last
output set among those of `pre` and `f`, so it is set, not `None`, as soon as one of
these fragments produced an output. -/
theorem pipeline_stops_after_fragment (input : I) (s : S) (tok : CancelToken)
    (pre rest : List (CoAction S I O C)) (f : CoAction S I O C)
    (c c0 c1 : C) (src s0 s1 : CancelSource) (outs : List (Option O)) (v : Option O)
    (hpre : runs_unstopped input s tok pre c src = some ((c0, s0), outs))
    (hf : f input s c0 tok s0 = ((c1, s1), Except.ok v))
    (hstop : tok.stop_requested s1 = true) :
    composed (pre ++ f :: rest) input s c tok src =
      ((c1, s1), Except.ok (last_some (outs ++ [v]))) ∧
    composed (pre ++ f :: rest) input s c tok src = composed (pre ++ [f]) input s c tok src ∧
    ((∃ x ∈ outs ++ [v], x ≠ none) → last_some (outs ++ [v]) ≠ none) ∧
    (∀ st : ToStage S I O C, st.fragments_ = pre ++ f :: rest →
      st.attach.registry_.find st.from_ st.to_ =
        some ((st.adapter_.registry_.find st.from_ st.to_).getD [] ++
          [composed (pre ++ f :: rest)])) := by
  have hrun : ∀ tail : List (CoAction S I O C),
      composed (pre ++ f :: tail) input s c tok src =
        ((c1, s1), Except.ok (last_some (outs ++ [v]))) := by
    intro tail
    unfold composed
    rw [attach_loop_split input s tok (f :: tail) pre none c src c0 s0 outs hpre, attach_loop,
      hf]
    simp only [hstop, if_true]
    rw [last_some_append_singleton]
    cases v <;> cases last_some outs <;> rfl
  refine ⟨hrun rest, (hrun rest).trans (hrun []).symm, ?_, ?_⟩
  · intro hex hnone
    obtain ⟨x, hx, hne⟩ := hex
    exact hne ((MachineImpl.last_some_eq_none _).mp hnone x hx)
  · intro st hfr
    unfold attach Adapter.bind_async Registry.find Registry.add
    simp only
    rw [MachineImpl.tbl_find_modify_self, hfr]

theorem pipeline_stops_after_fragment_witness :
    Examples.stoppedStage.fragments_ =
      [emit_fragment (fun _ ctx => (ctx, Except.ok 7))] ++
        await_fragment Examples.requestStop ::
          [emit_fragment (fun _ ctx => (ctx, Except.ok 9))] ∧
    composed Examples.stoppedStage.fragments_ Examples.CInput.Kick Examples.CState.Active
        (0 : Int) { src := true } {} =
      (((0 : Int), { stop := true }), Except.ok (some 7)) ∧
    (Examples.stoppedStage.attach.dispatch_async 2 Examples.CInput.Kick).map
        (fun p => (p.2, p.1.global_cancel_, p.1.machine_.current_)) =
      some (Ret.ok (some 7), some { stop := true }, Examples.CState.Done) :=
  ⟨rfl,
    (pipeline_stops_after_fragment Examples.CInput.Kick Examples.CState.Active { src := true }
      [emit_fragment (fun _ ctx => (ctx, Except.ok 7))]
      [emit_fragment (fun _ ctx => (ctx, Except.ok 9))]
      (await_fragment Examples.requestStop) (0 : Int) 0 0 {} {} { stop := true }
      [some 7] none rfl rfl rfl).1,
    by rfl⟩

end StopAfterFragmentClaim

end ToStage


namespace MachineImpl

section DeferredNotAtomic

variable {S I O C : Type} [DecidableEq S]

/-- C40: with deferral enabled, let `dispatch(e)` select a transition `t` with `defer`
set whose hooks are not skipped, and let the `on_exit` hook of the current state throw
`x`.  Then `dispatch(e)` throws `x` and the current state is unchanged: the hook was the
one callable called, no state change was made and the target's `on_enter` was not
called.  But `e` was appended to the deferral queue of `t.to` before the hook ran and is
still there, at the back of that queue; the other queues are as they were. -/
theorem deferred_dispatch_not_atomic (fuel : Nat) (m : MachineImpl S I O C) (e : I)
    (t : Transition S I O C) (h : EnterExitSig S I C) (c1 : C) (x : Exn)
    (hen : m.deferral_enabled_ = true) (hsel : m.find_transition e = some t)
    (hdef : t.defer = true)
    (hskip : (t.suppress_enter_exit && decide (t.to_ = m.current_)) = false)
    (hexit : exit_hook m.handlers_ m.current_ = some h)
    (hraise : h m.ctx_ m.current_ t.to_ (some e) = (c1, Except.error x)) :
    ∃ m1, m.dispatch fuel e = some (m1, Ret.raised x) ∧
      m1.current_ = m.current_ ∧
      m1.waiting t.to_ = m.waiting t.to_ ++ [e] ∧
      (∀ s, s ≠ t.to_ → m1.waiting s = m.waiting s) ∧
      m1.ctx_ = c1 ∧
      m1.trace = m.trace ++ [Call.on_exit m.current_ t.to_ (some e)] := by
  refine ⟨{ m.push_deferral t.to_ e with
      ctx_ := c1, trace := m.trace ++ [Call.on_exit m.current_ t.to_ (some e)] },
    ?_, rfl, ?_, ?_, rfl, rfl⟩
  · rw [dispatch_of_selected fuel m e t hsel]
    simp only [hen, hdef, Bool.and_self, if_true]
    have happ : (m.push_deferral t.to_ e).apply_transition t (some e) false =
        ({ m.push_deferral t.to_ e with
            ctx_ := c1, trace := m.trace ++ [Call.on_exit m.current_ t.to_ (some e)] },
          Ret.raised x) := by
      unfold apply_transition
      have hs : (t.suppress_enter_exit && decide (t.to_ = (m.push_deferral t.to_ e).state))
          = false := hskip
      have hcall : (m.push_deferral t.to_ e).call_exit (m.push_deferral t.to_ e).state t.to_
          (some e) =
          ({ m.push_deferral t.to_ e with
              ctx_ := c1, trace := m.trace ++ [Call.on_exit m.current_ t.to_ (some e)] },
            Ret.raised x) := by
        unfold call_exit
        have hx : exit_hook (m.push_deferral t.to_ e).handlers_
            (m.push_deferral t.to_ e).state = some h := hexit
        rw [hx]
        have hr : h (m.push_deferral t.to_ e).ctx_ (m.push_deferral t.to_ e).state t.to_
            (some e) = (c1, Except.error x) := hraise
        simp only [hr]
        rfl
      simp only [hs, Bool.false_eq_true, if_false, hcall]
      rfl
    rw [happ]
    rfl
  · have := waiting_push m t.to_ t.to_ e
    simp only [if_true] at this
    exact this
  · intro s hs
    have := waiting_push m t.to_ s e
    simp only [hs, if_false, List.append_nil] at this
    exact this

theorem deferred_dispatch_not_atomic_witness :
    ∃ m1, Examples.exitThrowsMachine.dispatch 2 (Examples.DInput.Job 1) =
        some (m1, Ret.raised 9) ∧
      m1.current_ = Examples.DState.Idle ∧
      m1.waiting Examples.DState.Stage = [Examples.DInput.Job 1] := by
  obtain ⟨m1, h1, h2, h3, _⟩ := deferred_dispatch_not_atomic 2 Examples.exitThrowsMachine
    (Examples.DInput.Job 1) Examples.idleStage (fun ctx _ _ _ => (ctx, Except.error 9)) [] 9
    (by rfl) (by rfl) (by rfl) (by rfl) (by rfl) (by rfl)
  exact ⟨m1, h1, h2, h3⟩

end DeferredNotAtomic

end MachineImpl


namespace MachineImpl

section StoredEvents

variable {S I O C : Type} [DecidableEq S]

theorem join_modify_push {K V : Type} [DecidableEq K] (tbl : List (K × List V)) (k : K)
    (e : V) :
    (((Tbl.modify [] (fun q => q ++ [e]) tbl k).map (fun entry => entry.2)).flatten).Perm
      (e :: (tbl.map (fun entry => entry.2)).flatten) := by
  induction tbl with
  | nil => simp [Tbl.modify]
  | cons p tl ih =>
    obtain ⟨k1, v⟩ := p
    simp only [Tbl.modify]
    split
    · simp only [List.map_cons, List.flatten_cons, List.append_assoc, List.singleton_append]
      exact List.perm_middle
    · simp only [List.map_cons, List.flatten_cons]
      exact (List.Perm.append_left v ih).trans List.perm_middle

theorem join_modify_pop {K V : Type} [DecidableEq K] (tbl : List (K × List V)) (k : K)
    (x : V) (rest : List V) (h : Tbl.find tbl k = some (x :: rest)) :
    ((tbl.map (fun entry => entry.2)).flatten).Perm
      (x :: ((Tbl.modify [] List.tail tbl k).map (fun entry => entry.2)).flatten) := by
  induction tbl with
  | nil => simp [Tbl.find] at h
  | cons p tl ih =>
    obtain ⟨k1, v⟩ := p
    simp only [Tbl.find] at h
    simp only [Tbl.modify]
    split at h
    · rename_i hk
      simp only [Option.some.injEq] at h
      subst h
      simp only [hk, if_true, List.map_cons, List.flatten_cons, List.tail_cons, List.cons_append]
      exact List.Perm.refl _
    · rename_i hk
      simp only [hk, if_false, List.map_cons, List.flatten_cons]
      exact (List.Perm.append_left v (ih h)).trans List.perm_middle

theorem stored_events_push (m : MachineImpl S I O C) (s : S) (e : I) :
    (m.push_deferral s e).stored_events.Perm (e :: m.stored_events) :=
  join_modify_push m.deferrals_ s e

theorem stored_events_pop (m : MachineImpl S I O C) (next : I) (rest : List I)
    (hq : Tbl.find m.deferrals_ m.current_ = some (next :: rest)) :
    m.stored_events.Perm
      (next :: stored_events
        { m with deferrals_ := Tbl.modify [] List.tail m.deferrals_ m.current_ }) :=
  join_modify_pop m.deferrals_ m.current_ next rest hq

theorem storesNothingNew_of_eq (m m1 : MachineImpl S I O C)
    (h : m1.deferrals_ = m.deferrals_) : StoresNothingNew m m1 := by
  unfold StoresNothingNew stored_events
  rw [h]

theorem storesNothingNew_completionFrame :
    CompletionFrame (StoresNothingNew (S := S) (I := I) (O := O) (C := C)) where
  refl := fun _ => List.Subperm.refl _
  trans := fun _ _ _ h1 h2 => List.Subperm.trans h2 h1
  ctx_trace := fun _ _ _ => List.Subperm.refl _
  state_trace := fun _ _ _ => List.Subperm.refl _
  processing := fun _ _ => List.Subperm.refl _

theorem finalize_transition_with_store
    (drain : MachineImpl S I O C → Option (MachineImpl S I O C × Ret Unit))
    (hd : RespectsF StoresNothingNew drain) (result : Option O) :
    RespectsF StoresNothingNew (fun m => finalize_transition_with drain m result) := by
  intro m r h
  unfold finalize_transition_with at h
  refine andThenF_rel StoresNothingNew m _ _ r ?_ ?_ h
  · intro r0 h0
    cases h0
    exact process_completions_rel storesNothingNew_completionFrame m
  · intro m1 cout r1 h1 h2
    refine andThenF_rel StoresNothingNew m _ _ r1 ?_ ?_ h2
    · intro r0 h0
      exact storesNothingNew_completionFrame.trans _ _ _ h1 (hd m1 r0 h0)
    · intro m2 _ r2 h3 h4
      cases h4
      exact h3

theorem handle_input_with_store
    (drain : MachineImpl S I O C → Option (MachineImpl S I O C × Ret Unit))
    (hd : RespectsF StoresNothingNew drain) (e : I) (m : MachineImpl S I O C)
    (r : MachineImpl S I O C × Ret (Option O))
    (h : handle_input_with drain m e = some r) :
    r.1.stored_events.Subperm (e :: m.stored_events) := by
  have hkeep : ∀ m1 : MachineImpl S I O C, m1.deferrals_ = m.deferrals_ →
      m1.stored_events.Subperm (e :: m.stored_events) := by
    intro m1 h1
    have : m1.stored_events = m.stored_events := by
      unfold stored_events
      rw [h1]
    rw [this]
    exact (List.sublist_cons_self e _).subperm
  simp only [handle_input_with] at h
  split at h
  · rename_i t ht
    split at h
    · refine andThenF_rel
        (fun a b : MachineImpl S I O C => b.stored_events.Subperm (e :: a.stored_events))
        m _ _ r ?_ ?_ h
      · intro r0 h0
        cases h0
        have hq := (apply_transition_rel sameDeferrals_completionFrame.toCommitFrame
          (m.push_deferral t.to_ e) t (some e) false).1
        have : ((m.push_deferral t.to_ e).apply_transition t (some e) false).1.stored_events
            = (m.push_deferral t.to_ e).stored_events := by
          unfold stored_events
          rw [hq]
        rw [this]
        exact (stored_events_push m t.to_ e).subperm
      · intro m1 _ r1 h1 h2
        exact List.Subperm.trans (finalize_transition_with_store drain hd none m1 r1 h2) h1
    · refine andThenF_rel
        (fun a b : MachineImpl S I O C => b.stored_events.Subperm (e :: a.stored_events))
        m _ _ r ?_ ?_ h
      · intro r0 h0
        cases h0
        exact hkeep _ (apply_transition_rel sameDeferrals_completionFrame.toCommitFrame
          m t (some e) true).1
      · intro m1 out r1 h1 h2
        exact List.Subperm.trans (finalize_transition_with_store drain hd out m1 r1 h2) h1
  · cases h
    exact hkeep _ (notify_unhandled_rel sameDeferrals_completionFrame.toCommitFrame m e).1

theorem drain_with_store
    (loop : MachineImpl S I O C → Option (MachineImpl S I O C × Ret Unit))
    (hl : RespectsF StoresNothingNew loop) : RespectsF StoresNothingNew (drain_with loop) := by
  intro m r h
  unfold drain_with at h
  split at h
  · cases h
    exact List.Subperm.refl _
  · unfold tryFinallyF at h
    split at h
    · simp at h
    · rename_i p hp
      cases h
      refine tryFinally_rel StoresNothingNew m p _ ?_ ?_
      · exact storesNothingNew_completionFrame.trans _ _ _
          (storesNothingNew_of_eq m { m with draining_deferrals_ := true } rfl) (hl _ p hp)
      · intro m1 h1
        exact h1

theorem drain_loop_store (fuel : Nat) :
    RespectsF StoresNothingNew (drain_loop (S := S) (I := I) (O := O) (C := C) fuel) := by
  induction fuel with
  | zero => intro m r h; simp [drain_loop] at h
  | succ n ih =>
    intro m r h
    unfold drain_loop at h
    split at h
    · cases h; exact List.Subperm.refl _
    · cases h; exact List.Subperm.refl _
    · rename_i next rest hq
      refine andThenF_rel StoresNothingNew m _ _ r ?_ ?_ h
      · intro r0 h0
        have h1 := handle_input_with_store _ (drain_with_store _ ih) next _ r0 h0
        exact List.Subperm.trans h1 (stored_events_pop m next rest hq).symm.subperm
      · intro m2 _ r1 h1 h2
        exact storesNothingNew_completionFrame.trans _ _ _ h1 (ih m2 r1 h2)

theorem drain_deferrals_store (fuel : Nat) :
    RespectsF StoresNothingNew
      (drain_deferrals_for_current_state (S := S) (I := I) (O := O) (C := C) fuel) :=
  drain_with_store _ (drain_loop_store fuel)

theorem finalize_transition_store (fuel : Nat) (result : Option O) :
    RespectsF StoresNothingNew
      (fun m : MachineImpl S I O C => finalize_transition fuel m result) :=
  finalize_transition_with_store _ (drain_deferrals_store fuel) result

theorem commit_step_store (fuel : Nat) (m : MachineImpl S I O C) (t : Transition S I O C)
    (inptr : Option I) (r : MachineImpl S I O C × Ret (Option O))
    (h : andThenF (some (m.apply_transition t inptr true))
      (fun m1 out => finalize_transition fuel m1 out) = some r) :
    StoresNothingNew m r.1 := by
  refine andThenF_rel StoresNothingNew m _ _ r ?_ ?_ h
  · intro r0 h0
    cases h0
    exact storesNothingNew_of_eq m _
      (apply_transition_rel sameDeferrals_completionFrame.toCommitFrame m t inptr true).1
  · intro m1 out r1 h1 h2
    exact storesNothingNew_completionFrame.trans _ _ _ h1
      (finalize_transition_store fuel out m1 r1 h2)

end StoredEvents

end MachineImpl


namespace MachineImpl

section DeferOrActClaim

variable {S I O C : Type} [DecidableEq S]

theorem finalize_disabled_keeps (fuel : Nat) (m m2 : MachineImpl S I O C) (result : Option O)
    (r : Ret (Option O)) (hen : m.deferral_enabled_ = false)
    (h : m.finalize_transition fuel result = some (m2, r)) : m2.deferrals_ = m.deferrals_ := by
  unfold finalize_transition finalize_transition_with at h
  have hrel : SameDeferrals m (m2, r).1 ∧ SameConfig m (m2, r).1 := by
    refine andThenF_rel (fun a b : MachineImpl S I O C => SameDeferrals a b ∧ SameConfig a b)
      m _ _ (m2, r) ?_ ?_ h
    · intro r0 h0
      cases h0
      exact ⟨process_completions_rel sameDeferrals_completionFrame m,
        process_completions_rel sameConfig_frame.toCompletionFrame m⟩
    · intro m1 cout r1 h1 h2
      have hdrain : m1.drain_deferrals_for_current_state fuel = some (m1, Ret.ok ()) := by
        unfold drain_deferrals_for_current_state drain_with
        have : m1.deferral_enabled_ = false := h1.2.2.2.2.2.2.1.trans hen
        simp [this]
      rw [hdrain] at h2
      simp only [andThenF, Option.some.injEq] at h2
      subst h2
      exact h1
  exact hrel.1.1

/-- C3 (counterexample): the machine of `bounceBuilder`, built with the context `0` and
given `dispatch(X)`, is `bounceHeld`: in `A`, with `X` stored for `B`.  There `dispatch(Y)`
selects `goAB`, which is not deferred, and runs its action; yet when the call returns,
`X` is in the deferral queue of `C`, which held no event before: the drain of this
dispatch replayed `X` in `B`, where it selected the deferred `holdBC`. -/
theorem dispatch_defer_or_act_counterexample :
    (Examples.bounceBuilder.build 2 0).bind (fun r => r.1.dispatch 2 Examples.BInput.X)
      = some (Examples.bounceHeld, Ret.ok none) ∧
    Examples.bounceHeld.find_transition Examples.BInput.Y = some Examples.goAB ∧
    Examples.goAB.defer = false ∧
    Examples.bounceHeld.waiting Examples.BState.C = [] ∧
    (Examples.bounceHeld.dispatch 2 Examples.BInput.Y).map
        (fun r => (r.2, r.1.current_, r.1.waiting Examples.BState.B,
          r.1.waiting Examples.BState.C, r.1.trace.drop 4))
      = some (Ret.ok (some "go"), Examples.BState.D, [], [Examples.BInput.X],
          [Call.action Examples.BState.B Examples.BInput.Y, Call.set_state Examples.BState.B,
           Call.set_state Examples.BState.C,
           Call.completion Examples.BState.C Examples.BState.D,
           Call.set_state Examples.BState.D]) :=
  ⟨by rfl, by rfl, rfl, by rfl, by rfl⟩

/-- C3 (amended): when `dispatch(e)` selects `t`.  With deferral enabled and `t.defer`
set, the commit step works on the machine in which `e` has been appended at the back of
`deferrals[t.to]` (every other deferral queue as it was), records no action call, and,
when the hooks are not suppressed and return normally, calls `on_exit`, sets the
current state to `t.to` and calls `on_enter`; no transition action is called up to the
deferral drain that ends the dispatch, and when `dispatch` returns or throws the stored
events are, counted with multiplicity, among `e` and the events stored before.  As this
holds on every machine, it holds for the events that a drain replays: the action of a
deferred transition is not called for them either.  With deferral disabled or `t.defer`
unset, the commit step leaves every deferral queue as it was and reaches the call of
`t`'s action whenever the exit hook does not throw; when all callables return normally
the action runs on `(e, ctx)` between the exit hook and the state change.  In this
second case no event is added to any deferral queue before the deferral drain that ends
the dispatch: the machine completion processing hands to the drain has the deferral
queues `dispatch` found.  The drain stores no new event either: the events stored when
`dispatch` returns or throws are, counted with multiplicity, among the events stored
before, so `e` is not added and the drain can only move an event stored earlier to
another queue, by replaying it into a deferred transition.  With deferral disabled the
deferral queues are the same when `dispatch` returns. -/
theorem dispatch_defer_or_act (fuel : Nat) (m : MachineImpl S I O C) (e : I)
    (t : Transition S I O C) (hsel : m.find_transition e = some t) :
    (m.deferral_enabled_ = true → t.defer = true →
      m.dispatch fuel e =
        andThenF (some ((m.push_deferral t.to_ e).apply_transition t (some e) false))
          (fun m1 _ => finalize_transition fuel m1 none) ∧
      Tbl.find ((m.push_deferral t.to_ e).apply_transition t (some e) false).1.deferrals_ t.to_
        = some ((Tbl.find m.deferrals_ t.to_).getD [] ++ [e]) ∧
      (∀ s, s ≠ t.to_ →
        Tbl.find ((m.push_deferral t.to_ e).apply_transition t (some e) false).1.deferrals_ s
          = Tbl.find m.deferrals_ s) ∧
      (∃ l, ((m.push_deferral t.to_ e).apply_transition t (some e) false).1.trace
          = m.trace ++ l ∧ ∀ c ∈ l, ∀ to_ ev, c ≠ Call.action to_ ev) ∧
      (∀ c1 c3 : C,
        (t.suppress_enter_exit && decide (t.to_ = m.current_)) = false →
        run_hook (exit_hook m.handlers_ m.current_) m.ctx_ m.current_ t.to_ (some e)
          = (c1, Except.ok ()) →
        run_hook (enter_hook m.handlers_ t.to_) c1 m.current_ t.to_ (some e) = (c3, Except.ok ()) →
        (m.push_deferral t.to_ e).apply_transition t (some e) false =
          (({ m with
              current_ := t.to_, ctx_ := c3,
              deferrals_ := Tbl.modify [] (fun q => q ++ [e]) m.deferrals_ t.to_,
              trace := m.trace ++
                (calls_of (exit_hook m.handlers_ m.current_) (Call.on_exit m.current_ t.to_ (some e)) ++
                 [Call.set_state t.to_] ++
                 calls_of (enter_hook m.handlers_ t.to_) (Call.on_enter m.current_ t.to_ (some e))) } :
              MachineImpl S I O C),
            (Ret.ok none : Ret (Option O)))) ∧
      NoActionCalled m
        (((m.push_deferral t.to_ e).apply_transition t (some e) false).1.process_completions :
          MachineImpl S I O C × Ret (Option O)).1 ∧
      (∀ m2 r, m.dispatch fuel e = some (m2, r) →
        m2.stored_events.Subperm (e :: m.stored_events))) ∧
    ((m.deferral_enabled_ = false ∨ t.defer = false) →
      m.dispatch fuel e =
        andThenF (some (m.apply_transition t (some e) true))
          (fun m1 out => finalize_transition fuel m1 out) ∧
      (m.apply_transition t (some e) true).1.deferrals_ = m.deferrals_ ∧
      (∀ f, t.action = some f →
        (∀ x, (run_hook (exit_hook m.handlers_ m.current_) m.ctx_ m.current_ t.to_ (some e)).2
          ≠ Except.error x) →
        ∃ l1 l2, (m.apply_transition t (some e) true).1.trace =
          m.trace ++ l1 ++ Call.action t.to_ e :: l2) ∧
      (∀ (c1 c2 c3 : C) (out : Option O),
        (t.suppress_enter_exit && decide (t.to_ = m.current_)) = false →
        run_hook (exit_hook m.handlers_ m.current_) m.ctx_ m.current_ t.to_ (some e)
          = (c1, Except.ok ()) →
        run_action t.action e c1 = (c2, Except.ok out) →
        run_hook (enter_hook m.handlers_ t.to_) c2 m.current_ t.to_ (some e) = (c3, Except.ok ()) →
        m.apply_transition t (some e) true =
          ({ m with
              current_ := t.to_, ctx_ := c3,
              trace := m.trace ++
                (calls_of (exit_hook m.handlers_ m.current_) (Call.on_exit m.current_ t.to_ (some e)) ++
                 calls_of t.action (Call.action t.to_ e) ++
                 [Call.set_state t.to_] ++
                 calls_of (enter_hook m.handlers_ t.to_) (Call.on_enter m.current_ t.to_ (some e))) },
            Ret.ok out)) ∧
      ((m.apply_transition t (some e) true).1.process_completions :
          MachineImpl S I O C × Ret (Option O)).1.deferrals_ = m.deferrals_ ∧
      (∀ m2 r, m.dispatch fuel e = some (m2, r) → StoresNothingNew m m2) ∧
      (m.deferral_enabled_ = false → ∀ m2 r, m.dispatch fuel e = some (m2, r) →
        m2.deferrals_ = m.deferrals_)) := by
  constructor
  · intro hen hdef
    have hq := (apply_transition_rel sameQueues_commitFrame (m.push_deferral t.to_ e) t
      (some e) false).1
    refine ⟨?_, ?_, ?_, ?_, ?_, ?_, ?_⟩
    · rw [dispatch_of_selected fuel m e t hsel, hen, hdef]
      rfl
    · rw [hq]
      exact tbl_find_modify_self _ _ _ _
    · intro s hs
      rw [hq]
      exact tbl_find_modify_other _ _ _ _ _ hs
    · exact apply_transition_no_action (m.push_deferral t.to_ e) t (some e)
    · intro c1 c3 hskip hexit henter
      exact apply_transition_deferred_normal m e t c1 c3 hskip hexit henter
    · obtain ⟨l, hl, hc⟩ := apply_transition_no_action (m.push_deferral t.to_ e) t (some e)
      have hstep : NoActionCalled m
          ((m.push_deferral t.to_ e).apply_transition t (some e) false).1 := by
        refine ⟨l, hl, ?_⟩
        intro c hmem
        cases c with
        | action to_ ev => exact absurd rfl (hc _ hmem to_ ev)
        | _ => rfl
      exact noAction_trans hstep (process_completions_noAction _)
    · intro m2 r h
      rw [← handle_input_eq_dispatch] at h
      exact handle_input_with_store _ (drain_deferrals_store fuel) e m (m2, r) h
  · intro hno
    have hcond : (m.deferral_enabled_ && t.defer) = false := by
      rcases hno with h | h <;> simp [h]
    have hshape : m.dispatch fuel e =
        andThenF (some (m.apply_transition t (some e) true))
          (fun m1 out => finalize_transition fuel m1 out) := by
      rw [dispatch_of_selected fuel m e t hsel, hcond]
      rfl
    have happ := (apply_transition_rel sameQueues_commitFrame m t (some e) true).1
    refine ⟨hshape, happ, ?_, ?_, ?_, ?_, ?_⟩
    · intro f hf hexit
      exact apply_transition_reaches_action m e t f hf hexit
    · intro c1 c2 c3 out hskip hexit hact henter
      exact apply_transition_normal m e t c1 c2 c3 out hskip hexit hact henter
    · exact ((process_completions_rel sameDeferrals_completionFrame
        (m.apply_transition t (some e) true).1).1).trans happ
    · intro m2 r h
      rw [hshape] at h
      exact commit_step_store fuel m t (some e) (m2, r) h
    · intro hen m2 r h
      rw [hshape] at h
      have hd1 := (apply_transition_rel sameQueues_commitFrame m t (some e) true).1
      have hc0 := (apply_transition_rel sameConfig_frame.toCompletionFrame.toCommitFrame m t
        (some e) true).2.2.2.2.2.1
      generalize m.apply_transition t (some e) true = p at h hd1 hc0
      obtain ⟨m1, o⟩ := p
      simp only at hd1 hc0
      have hc1 : m1.deferral_enabled_ = false := hc0.trans hen
      cases o with
      | ok out =>
        simp only [andThenF] at h
        exact (finalize_disabled_keeps fuel m1 m2 out r hc1 h).trans hd1
      | raised x =>
        simp only [andThenF, Option.some.injEq, Prod.mk.injEq] at h
        rw [← h.1]
        exact hd1
      | aborted =>
        simp only [andThenF, Option.some.injEq, Prod.mk.injEq] at h
        rw [← h.1]
        exact hd1

/-- The `deferral` machine, dispatching `Job{1}` in `Idle`: the event is stored for
`Stage` by the commit step. -/
theorem dispatch_defer_or_act_witness :
    (Examples.deferralMachine Examples.DState.Idle []).find_transition (Examples.DInput.Job 1)
      = some Examples.idleStage ∧
    Tbl.find (((Examples.deferralMachine Examples.DState.Idle []).push_deferral
        Examples.idleStage.to_ (Examples.DInput.Job 1)).apply_transition Examples.idleStage
        (some (Examples.DInput.Job 1)) false).1.deferrals_ Examples.idleStage.to_
      = some ((Tbl.find (Examples.deferralMachine Examples.DState.Idle []).deferrals_
          Examples.idleStage.to_).getD [] ++ [Examples.DInput.Job 1]) ∧
    (∀ m2 r, Examples.bounceHeld.dispatch 2 Examples.BInput.Y = some (m2, r) →
      StoresNothingNew Examples.bounceHeld m2) :=
  ⟨by rfl,
    ((dispatch_defer_or_act 2 (Examples.deferralMachine Examples.DState.Idle [])
      (Examples.DInput.Job 1) Examples.idleStage (by rfl)).1 (by rfl) (by rfl)).2.1,
    ((dispatch_defer_or_act 2 Examples.bounceHeld Examples.BInput.Y Examples.goAB
      (by rfl)).2 (Or.inr rfl)).2.2.2.2.2.1⟩

end DeferOrActClaim

end MachineImpl


namespace MachineImpl

section CommitWithoutEventClaim

variable {S I O C : Type} [DecidableEq S]

/-- C37 (counterexample): two machines with deferral enabled, each built and given
`dispatch(X)`, which leaves it in `A` with `X` stored for `B`.  On the first,
`select(Y)` is the any-source `anyB`, which has an action and is not deferred;
`commit(sel, nullptr)` moves to `B`, and its drain replays `X`, which selects `anyB` again:
the action of the committed transition is called, on `X`, and leaves the context at
`11`.  On the second, `select(Y)` is `goAB`; `commit(sel, nullptr)` moves to `B`, and its
drain replays `X` into the deferred `holdBC`: when `commit` returns, `X` is stored in the
queue of `C`, which was empty. -/
theorem commit_without_event_counterexample :
    (Examples.bounceAnyBuilder.build 2 0).bind (fun r => r.1.dispatch 2 Examples.BInput.X)
      = some (Examples.bounceAnyHeld, Ret.ok none) ∧
    (Examples.bounceAnyHeld.select Examples.BInput.Y).get = some Examples.anyB ∧
    (Examples.bounceAnyHeld.commit 2 (Examples.bounceAnyHeld.select Examples.BInput.Y) none).map
        (fun r => (r.2, r.1.current_, r.1.ctx_, r.1.trace.drop 4))
      = some (Ret.ok none, Examples.BState.B, 11,
          [Call.set_state Examples.BState.B,
           Call.action Examples.BState.B Examples.BInput.X,
           Call.set_state Examples.BState.B]) ∧
    (Examples.bounceBuilder.build 2 0).bind (fun r => r.1.dispatch 2 Examples.BInput.X)
      = some (Examples.bounceHeld, Ret.ok none) ∧
    (Examples.bounceHeld.select Examples.BInput.Y).get = some Examples.goAB ∧
    Examples.bounceHeld.waiting Examples.BState.C = [] ∧
    (Examples.bounceHeld.commit 2 (Examples.bounceHeld.select Examples.BInput.Y) none).map
        (fun r => (r.2, r.1.current_, r.1.waiting Examples.BState.C))
      = some (Ret.ok none, Examples.BState.D, [Examples.BInput.X]) :=
  ⟨by rfl, by rfl, by rfl, by rfl, by rfl, by rfl, by rfl⟩

/-- C37 (amended): `commit(sel, nullptr)` of a valid selection of `t` is
`apply_transition(t, nullptr)` followed by `finalize_transition`.  With the null event
`apply_transition` calls the exit hook with a null event (unless the hooks are skipped),
changes the state to the target and calls the enter hook with a null event, and its
output is `None`: it calls no action, whether `t` has one or not, and appends nothing to a
deferral queue, whether `t.defer` is set with deferral enabled or not.  The value `commit`
returns is the output of the completion cascade.  Up to the deferral drain that ends it,
`commit` calls no transition action and leaves every deferral queue as it was.  The drain
replays events that were stored before, and these replays can call transition actions,
that of `t` among them, and store the replayed event again; but the drain stores no new
event: the events stored when `commit` returns or throws are, counted with multiplicity,
among the events stored before.  When no event is stored, so that the drain has nothing
to replay, the whole `commit` calls no transition action and leaves the store empty. -/
theorem commit_without_event (fuel : Nat) (m : MachineImpl S I O C)
    (sel : Selection S I O C) (t : Transition S I O C) (hsel : sel.get = some t) :
    m.commit fuel sel none =
      andThenF (some (m.apply_transition t none true))
        (fun m1 out => finalize_transition fuel m1 out) ∧
    m.apply_transition t none true =
      (andThen (if (t.suppress_enter_exit && decide (t.to_ = m.current_)) = true
          then (m, Ret.ok ()) else m.call_exit m.current_ t.to_ none) fun m1 _ =>
        andThen (if (t.suppress_enter_exit && decide (t.to_ = m.current_)) = true
            then (m1.set_state_direct t.to_, Ret.ok ())
            else (m1.set_state_direct t.to_).call_enter t.to_ m.current_ t.to_ none)
          fun m4 _ => (m4, Ret.ok none)) ∧
    (∀ m1 r, m.apply_transition t none true = (m1, r) →
      m1.deferrals_ = m.deferrals_ ∧ NoActionCalled m m1 ∧
      ∀ out, r = Ret.ok out → out = none ∧ m1.current_ = t.to_) ∧
    (∀ m1, m.apply_transition t none true = (m1, Ret.ok none) →
      m.commit fuel sel none =
        andThenF (some m1.process_completions) fun m2 completion_out =>
          andThenF (m2.drain_deferrals_for_current_state fuel) fun m3 _ =>
            some (m3, Ret.ok completion_out)) ∧
    (∀ m1 out, m.apply_transition t none true = (m1, Ret.ok out) →
      NoActionCalled m (m1.process_completions : MachineImpl S I O C × Ret (Option O)).1 ∧
      (m1.process_completions : MachineImpl S I O C × Ret (Option O)).1.deferrals_ =
        m.deferrals_) ∧
    (∀ m3 r, m.commit fuel sel none = some (m3, r) → StoresNothingNew m m3) ∧
    (m.deferrals_ = [] → ∀ m3 r, m.commit fuel sel none = some (m3, r) →
      m3.deferrals_ = [] ∧ NoActionCalled m m3) := by
  have hcommit : m.commit fuel sel none =
      andThenF (some (m.apply_transition t none true))
        (fun m1 out => finalize_transition fuel m1 out) := by
    unfold commit
    rw [hsel]
  have hshape : m.apply_transition t none true =
      (andThen (if (t.suppress_enter_exit && decide (t.to_ = m.current_)) = true
          then (m, Ret.ok ()) else m.call_exit m.current_ t.to_ none) fun m1 _ =>
        andThen (if (t.suppress_enter_exit && decide (t.to_ = m.current_)) = true
            then (m1.set_state_direct t.to_, Ret.ok ())
            else (m1.set_state_direct t.to_).call_enter t.to_ m.current_ t.to_ none)
          fun m4 _ => (m4, Ret.ok none)) := rfl
  refine ⟨hcommit, hshape, ?_, ?_, ?_, ?_, ?_⟩
  · intro m1 r happ
    have hk := apply_transition_keeps_queues m m1 t none true r happ
    have hn := apply_transition_null_noAction m t
    rw [happ] at hn
    refine ⟨hk.1, hn, ?_⟩
    intro out hr
    subst hr
    refine ⟨?_, apply_transition_state m m1 t none true out happ⟩
    rw [hshape] at happ
    obtain ⟨ma, _, _, h1⟩ := andThen_eq_ok _ _ _ _ happ
    obtain ⟨mb, _, _, h2⟩ := andThen_eq_ok _ _ _ _ h1
    simp only [Prod.mk.injEq, Ret.ok.injEq] at h2
    exact h2.2.symm
  · intro m1 happ
    rw [hcommit, happ]
    simp only [andThenF, finalize_transition, finalize_transition_with]
    generalize m1.process_completions = p
    obtain ⟨m2, r2⟩ := p
    cases r2 with
    | ok cout =>
      simp only
      cases cout <;> rfl
    | raised x => rfl
    | aborted => rfl
  · intro m1 out happ
    have hk := apply_transition_keeps_queues m m1 t none true _ happ
    have hn := apply_transition_null_noAction m t
    rw [happ] at hn
    exact ⟨noAction_trans hn (process_completions_noAction m1),
      ((process_completions_rel sameDeferrals_completionFrame m1).1).trans hk.1⟩
  · intro m3 r h
    rw [hcommit] at h
    exact commit_step_store fuel m t none (m3, r) h
  · intro hd m3 r h
    rw [hcommit] at h
    refine andThenF_rel (fun a b : MachineImpl S I O C => b.deferrals_ = [] ∧ NoActionCalled a b)
      m _ _ (m3, r) ?_ ?_ h
    · intro r0 hr0
      cases hr0
      exact ⟨((apply_transition_rel sameDeferrals_completionFrame.toCommitFrame m t none
        true).1).trans hd, apply_transition_null_noAction m t⟩
    · intro m1 a r1 h1 h2
      obtain ⟨e1, e2⟩ := finalize_empty_store fuel m1 r1.1 a r1.2 h1.1 h2
      exact ⟨e1, noAction_trans h1.2 e2⟩

theorem commit_without_event_witness :
    Examples.idleStage.defer = true ∧ Examples.idleStage.action.isSome = true ∧
    (Examples.deferralMachine Examples.DState.Idle []).deferral_enabled_ = true ∧
    (Examples.deferralMachine Examples.DState.Idle []).commit 2
        { transition_ := some Examples.idleStage } none =
      some ({ Examples.deferralMachine Examples.DState.Stage [] with
          trace := [Call.set_state Examples.DState.Stage] }, Ret.ok none) ∧
    ∀ m3 r, (Examples.deferralMachine Examples.DState.Idle []).commit 2
        { transition_ := some Examples.idleStage } none = some (m3, r) →
      m3.deferrals_ = [] ∧ NoActionCalled (Examples.deferralMachine Examples.DState.Idle []) m3 :=
  ⟨rfl, rfl, rfl, by rfl,
    (commit_without_event 2 (Examples.deferralMachine Examples.DState.Idle [])
      { transition_ := some Examples.idleStage } Examples.idleStage rfl).2.2.2.2.2.2 rfl⟩

end CommitWithoutEventClaim

end MachineImpl


namespace MachineImpl

section FinalizeBound

variable {S I O C : Type} [DecidableEq S]

theorem appliesAtMost_trans {j k : Nat} {a b c : MachineImpl S I O C}
    (h1 : AppliesAtMost j a b) (h2 : AppliesAtMost k b c) : AppliesAtMost (j + k) a c := by
  obtain ⟨l1, e1, c1⟩ := h1
  obtain ⟨l2, e2, c2⟩ := h2
  refine ⟨l1 ++ l2, by rw [e2, e1, List.append_assoc], ?_⟩
  simp only [applied_completions, List.countP_append] at c1 c2 ⊢
  omega

theorem appliesAtMost_mono {j k : Nat} {a b : MachineImpl S I O C} (hjk : j ≤ k)
    (h : AppliesAtMost j a b) : AppliesAtMost k a b := by
  obtain ⟨l, e, c⟩ := h
  exact ⟨l, e, le_trans c hjk⟩

theorem appliesAtMost_of_noCompletion {a b : MachineImpl S I O C}
    (h : NoCompletionApplied a b) : AppliesAtMost 0 a b := by
  obtain ⟨l, e, c⟩ := h
  exact ⟨l, e, by omega⟩

theorem appliesAtMost_of_trace {k : Nat} {a b c : MachineImpl S I O C}
    (h : AppliesAtMost k a b) (ht : c.trace = b.trace) : AppliesAtMost k a c := by
  obtain ⟨l, e, hc⟩ := h
  exact ⟨l, ht.trans e, hc⟩

theorem invoke_transition_action_noCompletion (m : MachineImpl S I O C)
    (t : Transition S I O C) (i : I) :
    NoCompletionApplied m (m.invoke_transition_action t i).1 := by
  rw [invoke_transition_action_eq]
  exact ⟨_, rfl, applied_calls_of _ _ rfl⟩

theorem apply_transition_noCompletion (m : MachineImpl S I O C) (t : Transition S I O C)
    (i : Option I) (inv : Bool) : NoCompletionApplied m (m.apply_transition t i inv).1 := by
  unfold apply_transition
  simp only [state]
  refine andThen_rel NoCompletionApplied _ _ _ ?_ ?_
  · split
    · exact noCompletion_refl _
    · exact call_exit_noCompletion _ _ _ _
  · intro m1 _ h1
    refine andThen_rel NoCompletionApplied _ _ _ ?_ ?_
    · split
      · exact noCompletion_trans h1 (invoke_transition_action_noCompletion m1 t _)
      · exact h1
    · intro m2 out h2
      refine andThen_rel NoCompletionApplied _ _ _ ?_ ?_
      · have h3 := noCompletion_trans h2 (set_state_direct_noCompletion m2 t.to_)
        split
        · exact h3
        · exact noCompletion_trans h3 (call_enter_noCompletion _ _ _ _ _)
      · intro m4 _ h4
        exact h4

theorem notify_unhandled_noCompletion (m : MachineImpl S I O C) (i : I) :
    NoCompletionApplied m (m.notify_unhandled i : MachineImpl S I O C × Ret (Option O)).1 := by
  have hbody : NoCompletionApplied m (m.unhandled_body i).1 := by
    unfold unhandled_body
    split
    · exact ⟨[Call.on_unhandled_state m.current_ i], rfl, rfl⟩
    · split
      · exact ⟨[Call.on_unhandled_machine m.current_ i], rfl, rfl⟩
      · exact noCompletion_refl m
  unfold notify_unhandled
  generalize m.unhandled_body i = r at hbody
  obtain ⟨m1, o⟩ := r
  cases o <;> exact hbody

theorem process_completions_cap (m : MachineImpl S I O C) :
    AppliesAtMost (completion_cap m.completion_limit_) m
      (m.process_completions : MachineImpl S I O C × Ret (Option O)).1 := by
  obtain ⟨l, hl, hc, hzero⟩ := process_completions_applies m
  refine ⟨l, hl, ?_⟩
  unfold completion_cap
  split
  · rename_i h0
    rw [hzero h0]
    simp [applied_completions]
  · exact hc

theorem process_completions_limit (m : MachineImpl S I O C) :
    (m.process_completions : MachineImpl S I O C × Ret (Option O)).1.completion_limit_
      = m.completion_limit_ :=
  (process_completions_rel sameConfig_frame.toCompletionFrame m).2.2.2.2.2.2.1

theorem handle_input_undrained_applies (m m1 : MachineImpl S I O C) (e : I)
    (r : Ret (Option O)) (h : m.handle_input_undrained e = some (m1, r)) :
    AppliesAtMost (completion_cap m.completion_limit_) m m1 ∧
    m1.completion_limit_ = m.completion_limit_ := by
  have hfin : ∀ (ma : MachineImpl S I O C) (a : Option O) (r1 : MachineImpl S I O C × Ret (Option O)),
      NoCompletionApplied m ma → ma.completion_limit_ = m.completion_limit_ →
      finalize_transition_with (fun m0 => some (m0, Ret.ok ())) ma a = some r1 →
      AppliesAtMost (completion_cap m.completion_limit_) m r1.1 ∧
      r1.1.completion_limit_ = m.completion_limit_ := by
    intro ma a r1 hn hl h2
    obtain ⟨out, hf⟩ := finalize_undrained_machine (O := O) ma a
    rw [hf] at h2
    cases h2
    have hcap := process_completions_cap (O := O) ma
    rw [hl] at hcap
    have := appliesAtMost_trans (appliesAtMost_of_noCompletion hn) hcap
    rw [Nat.zero_add] at this
    exact ⟨this, (process_completions_limit ma).trans hl⟩
  have hnone : ∀ ma : MachineImpl S I O C, NoCompletionApplied m ma →
      ma.completion_limit_ = m.completion_limit_ →
      AppliesAtMost (completion_cap m.completion_limit_) m ma ∧
      ma.completion_limit_ = m.completion_limit_ := by
    intro ma hn hl
    exact ⟨appliesAtMost_mono (Nat.zero_le _) (appliesAtMost_of_noCompletion hn), hl⟩
  unfold handle_input_undrained handle_input_with at h
  split at h
  · rename_i t hsel
    split at h
    · have hn : NoCompletionApplied m
          ((m.push_deferral t.to_ e).apply_transition t (some e) false).1 :=
        apply_transition_noCompletion (m.push_deferral t.to_ e) t (some e) false
      have hl : ((m.push_deferral t.to_ e).apply_transition t (some e) false).1.completion_limit_
          = m.completion_limit_ :=
        (apply_transition_rel sameConfig_frame.toCompletionFrame.toCommitFrame
          (m.push_deferral t.to_ e) t (some e) false).2.2.2.2.2.2.1
      generalize (m.push_deferral t.to_ e).apply_transition t (some e) false = p at h hn hl
      obtain ⟨ma, o⟩ := p
      cases o with
      | ok a => exact hfin ma none (m1, r) hn hl h
      | raised x =>
        simp only [andThenF, Option.some.injEq, Prod.mk.injEq] at h
        obtain ⟨rfl, _⟩ := h
        exact hnone _ hn hl
      | aborted =>
        simp only [andThenF, Option.some.injEq, Prod.mk.injEq] at h
        obtain ⟨rfl, _⟩ := h
        exact hnone _ hn hl
    · have hn : NoCompletionApplied m (m.apply_transition t (some e) true).1 :=
        apply_transition_noCompletion m t (some e) true
      have hl : (m.apply_transition t (some e) true).1.completion_limit_
          = m.completion_limit_ :=
        (apply_transition_rel sameConfig_frame.toCompletionFrame.toCommitFrame
          m t (some e) true).2.2.2.2.2.2.1
      generalize m.apply_transition t (some e) true = p at h hn hl
      obtain ⟨ma, o⟩ := p
      cases o with
      | ok a => exact hfin ma a (m1, r) hn hl h
      | raised x =>
        simp only [andThenF, Option.some.injEq, Prod.mk.injEq] at h
        obtain ⟨rfl, _⟩ := h
        exact hnone _ hn hl
      | aborted =>
        simp only [andThenF, Option.some.injEq, Prod.mk.injEq] at h
        obtain ⟨rfl, _⟩ := h
        exact hnone _ hn hl
  · simp only [Option.some.injEq] at h
    have hn := notify_unhandled_noCompletion (O := O) m e
    have hl := (notify_unhandled_rel (O := O)
      sameConfig_frame.toCompletionFrame.toCommitFrame m e).2.2.2.2.2.2.1
    rw [h] at hn hl
    exact hnone _ hn hl

theorem drain_loop_applies (fuel : Nat) :
    ∀ (m m1 : MachineImpl S I O C) (r : Ret Unit), m.draining_deferrals_ = true →
      drain_loop fuel m = some (m1, r) →
      ∃ log, replay_order (O := O) fuel m = some log ∧
        AppliesAtMost (completion_cap m.completion_limit_ * log.length) m m1 := by
  induction fuel with
  | zero => intro m m1 r _ h; simp [drain_loop] at h
  | succ n ih =>
    intro m m1 r hdr h
    cases hq : Tbl.find m.deferrals_ m.current_ with
    | none =>
      simp only [drain_loop, hq, Option.some.injEq, Prod.mk.injEq] at h
      obtain ⟨rfl, _⟩ := h
      exact ⟨[], by simp [replay_order, hq], [], by simp, by simp [applied_completions]⟩
    | some q =>
      cases q with
      | nil =>
        simp only [drain_loop, hq, Option.some.injEq, Prod.mk.injEq] at h
        obtain ⟨rfl, _⟩ := h
        exact ⟨[], by simp [replay_order, hq], [], by simp, by simp [applied_completions]⟩
      | cons next rest =>
        rw [drain_loop_step n m next rest hq] at h
        obtain ⟨⟨m2, r2⟩, hu⟩ := handle_input_undrained_total (O := O)
          { m with deferrals_ := Tbl.modify [] List.tail m.deferrals_ m.current_ } next
        have hh : handle_input (O := O) n
            { m with deferrals_ := Tbl.modify [] List.tail m.deferrals_ m.current_ } next
              = some (m2, r2) := by
          rw [handle_input_while_draining n
            { m with deferrals_ := Tbl.modify [] List.tail m.deferrals_ m.current_ } next hdr]
          exact hu
        obtain ⟨hcap, hlim⟩ := handle_input_undrained_applies
          { m with deferrals_ := Tbl.modify [] List.tail m.deferrals_ m.current_ } m2 next r2 hu
        have hcap1 : AppliesAtMost (completion_cap m.completion_limit_) m m2 := hcap
        have hlim1 : m2.completion_limit_ = m.completion_limit_ := hlim
        have hd2 := handle_input_undrained_draining
          { m with deferrals_ := Tbl.modify [] List.tail m.deferrals_ m.current_ } m2 next r2
          hdr hu
        rw [hh] at h
        unfold replay_order
        simp only [hq, hh]
        cases r2 with
        | ok out =>
          simp only [andThenF] at h
          obtain ⟨log, hlog, hrest⟩ := ih m2 m1 r hd2 h
          refine ⟨(m.current_, next) :: log, by simp [hlog], ?_⟩
          rw [hlim1] at hrest
          have := appliesAtMost_trans hcap1 hrest
          refine appliesAtMost_mono ?_ this
          simp only [List.length_cons, Nat.mul_succ]
          omega
        | raised x =>
          simp only [andThenF, Option.some.injEq, Prod.mk.injEq] at h
          obtain ⟨rfl, _⟩ := h
          exact ⟨[(m.current_, next)], rfl, by simpa using hcap1⟩
        | aborted =>
          simp only [andThenF, Option.some.injEq, Prod.mk.injEq] at h
          obtain ⟨rfl, _⟩ := h
          exact ⟨[(m.current_, next)], rfl, by simpa using hcap1⟩

theorem finalize_transition_applies (fuel : Nat) (m m2 : MachineImpl S I O C)
    (result : Option O) (r : Ret (Option O))
    (h : m.finalize_transition fuel result = some (m2, r)) :
    ∃ log, m.finalize_replays fuel = some log ∧
      AppliesAtMost (completion_cap m.completion_limit_ * (1 + log.length)) m m2 := by
  have hcap := process_completions_cap (O := O) m
  have hlim := process_completions_limit (O := O) m
  unfold finalize_transition finalize_transition_with at h
  unfold finalize_replays
  generalize (m.process_completions : MachineImpl S I O C × Ret (Option O)) = p at h hcap hlim
  obtain ⟨m1, o⟩ := p
  simp only at hcap hlim
  cases o with
  | raised x =>
    simp only [andThenF, Option.some.injEq, Prod.mk.injEq] at h
    obtain ⟨rfl, _⟩ := h
    exact ⟨[], rfl, by simpa using hcap⟩
  | aborted =>
    simp only [andThenF, Option.some.injEq, Prod.mk.injEq] at h
    obtain ⟨rfl, _⟩ := h
    exact ⟨[], rfl, by simpa using hcap⟩
  | ok cout =>
    simp only [andThenF_ok] at h
    unfold drain_deferrals_for_current_state drain_with at h
    simp only
    split
    · rename_i hg
      rw [if_pos hg] at h
      simp only [andThenF, Option.some.injEq, Prod.mk.injEq] at h
      obtain ⟨rfl, _⟩ := h
      exact ⟨[], rfl, by simpa using hcap⟩
    · rename_i hg
      rw [if_neg hg] at h
      cases hl : drain_loop fuel { m1 with draining_deferrals_ := true } with
      | none => rw [hl] at h; simp [tryFinallyF, andThenF] at h
      | some p3 =>
        obtain ⟨m3, r3⟩ := p3
        obtain ⟨log, hlog, hrest⟩ := drain_loop_applies fuel
          { m1 with draining_deferrals_ := true } m3 r3 rfl hl
        have hrest1 : AppliesAtMost (completion_cap m.completion_limit_ * log.length) m1 m3 := by
          have : completion_limit_ { m1 with draining_deferrals_ := true }
              = m.completion_limit_ := hlim
          rw [this] at hrest
          exact hrest
        have htot := appliesAtMost_trans hcap hrest1
        have hbound : completion_cap m.completion_limit_ +
            completion_cap m.completion_limit_ * log.length =
            completion_cap m.completion_limit_ * (1 + log.length) := by
          rw [Nat.mul_add, Nat.mul_one]
        rw [hbound] at htot
        refine ⟨log, hlog, ?_⟩
        rw [hl] at h
        cases r3 with
        | ok u =>
          simp only [tryFinallyF, tryFinally, andThenF, Option.some.injEq, Prod.mk.injEq] at h
          exact appliesAtMost_of_trace htot (by rw [← h.1])
        | raised x =>
          simp only [tryFinallyF, tryFinally, andThenF, Option.some.injEq, Prod.mk.injEq] at h
          exact appliesAtMost_of_trace htot (by rw [← h.1])
        | aborted =>
          simp only [tryFinallyF, tryFinally, andThenF, Option.some.injEq, Prod.mk.injEq] at h
          exact appliesAtMost_of_trace htot (by rw [← h.1])

end FinalizeBound

end MachineImpl


namespace MachineImpl

section FinalizeBoundClaim

variable {S I O C : Type} [DecidableEq S]

/-- C28 (counterexample): the machine of `make_loop` declares two completions, so `L` is
`3`, and `build` leaves `completion_limit_ == 3`; yet the one finalize call of the
constructor applies four completion transitions, and so does one run of
`process_completions` on the built machine.  The orbit machine has the same two
completions and the same limit; the one finalize call on `orbitCommitted` applies eight:
four in its own run of `process_completions`, and four more in the run made for the one
event its drain replays. -/
theorem completion_bound_counterexample :
    (Examples.makeLoopBuilder.completions_.map (fun entry => entry.2.length)).sum + 1 = 3 ∧
    (Examples.makeLoopBuilder.build 1 ()).map
        (fun r => (r.2, r.1.completion_limit_, applied_completions r.1.trace))
      = some (Ret.ok (), 3, 4) ∧
    applied_completions
      (process_completions { Examples.madeLoopMachine with trace := [] }).1.trace = 4 ∧
    (Examples.orbitBuilder.completions_.map (fun entry => entry.2.length)).sum + 1 = 3 ∧
    Examples.orbitBuilder.build 1 () = some (Examples.orbitMachine, Ret.ok ()) ∧
    (Examples.orbitMachine.push_deferral Examples.OState.OrbitA ()).apply_transition
        Examples.orbitEnter (some ()) false = (Examples.orbitCommitted, Ret.ok none) ∧
    (finalize_transition 2 { Examples.orbitCommitted with trace := [] } none).map
        (fun r => (r.2, r.1.completion_limit_, applied_completions r.1.trace))
      = some (Ret.ok none, 3, 8) :=
  ⟨by rfl, by rfl, by rfl, by rfl, by rfl, by rfl, by rfl⟩

/-- C28 (amended): the constructor leaves `completion_limit_` at `L`, the total number of
declared completion transitions plus one when there is one, and at zero when there is
none.  On every machine with that limit one run of `process_completions` applies at most
`L + 1` completion transitions, and none when no completion is declared.  A finalize call
makes one such run itself and its deferral drain makes one more for each event it
replays, so a finalize call whose drain replays `n` events applies at most
`(L + 1) * (1 + n)` completion transitions, at most `L + 1` when the drain replays
nothing, and none when no completion is declared. -/
theorem finalize_completion_bound (fuel fuel1 : Nat) (m0 m m1 m2 : MachineImpl S I O C)
    (result : Option O) (r : Ret (Option O))
    (hbuild : construct_body fuel m0 = some (m, Ret.ok ()))
    (hlimit : m1.completion_limit_ = m.completion_limit_)
    (hfin : m1.finalize_transition fuel1 result = some (m2, r)) :
    m1.completion_limit_ =
      (if (m0.completion_transitions_.map (fun entry => entry.2.length)).sum = 0 then 0
       else (m0.completion_transitions_.map (fun entry => entry.2.length)).sum + 1) ∧
    (∃ l, m1.process_completions.1.trace = m1.trace ++ l ∧
      applied_completions l ≤
        ((m0.completion_transitions_.map (fun entry => entry.2.length)).sum + 1) + 1 ∧
      ((m0.completion_transitions_.map (fun entry => entry.2.length)).sum = 0 → l = [])) ∧
    ∃ l log, m2.trace = m1.trace ++ l ∧ m1.finalize_replays fuel1 = some log ∧
      applied_completions l ≤
        (((m0.completion_transitions_.map (fun entry => entry.2.length)).sum + 1) + 1)
          * (1 + log.length) ∧
      (log = [] → applied_completions l ≤
        ((m0.completion_transitions_.map (fun entry => entry.2.length)).sum + 1) + 1) ∧
      ((m0.completion_transitions_.map (fun entry => entry.2.length)).sum = 0 →
        applied_completions l = 0) := by
  have hlim := (hlimit.trans (construct_body_limit fuel m0 m hbuild))
  refine ⟨hlim, ?_, ?_⟩
  · obtain ⟨l, hl, hc, hzero⟩ := process_completions_applies m1
    refine ⟨l, hl, ?_, ?_⟩
    · rw [hlim] at hc
      split at hc <;> omega
    · intro htotal
      apply hzero
      rw [hlim, if_pos htotal]
  · obtain ⟨log, hlog, l, hl, hc⟩ := finalize_transition_applies fuel1 m1 m2 result r hfin
    have hcap : completion_cap m1.completion_limit_ ≤
        ((m0.completion_transitions_.map (fun entry => entry.2.length)).sum + 1) + 1 := by
      rw [hlim]
      unfold completion_cap
      split <;> split <;> omega
    have hbound : applied_completions l ≤
        (((m0.completion_transitions_.map (fun entry => entry.2.length)).sum + 1) + 1)
          * (1 + log.length) :=
      le_trans hc (Nat.mul_le_mul_right _ hcap)
    refine ⟨l, log, hl, hlog, hbound, ?_, ?_⟩
    · intro hnil
      rw [hnil] at hbound
      simpa using hbound
    · intro htotal
      have h0 : completion_cap m1.completion_limit_ = 0 := by
        rw [hlim, if_pos htotal]
        rfl
      rw [h0, Nat.zero_mul] at hc
      omega

/-- The orbit machine, built from the constructor's initial object: with two completions
declared the limit is `3`; the finalize call on `orbitCommitted` replays the one stored
event, and the eight completions it applies are within `(3 + 1) * (1 + 1)`. -/
theorem finalize_completion_bound_witness :
    Examples.orbitCommitted.completion_limit_ = 3 ∧
    Examples.orbitCommitted.finalize_replays 2 = some [(Examples.OState.OrbitA, ())] ∧
    applied_completions (Examples.orbitSettled.trace.drop 1) = 8 ∧
    ∃ l log, Examples.orbitSettled.trace = Examples.orbitCommitted.trace ++ l ∧
      Examples.orbitCommitted.finalize_replays 2 = some log ∧
      applied_completions l ≤ 4 * (1 + log.length) := by
  obtain ⟨h1, _, l, log, h2, h3, h4, _⟩ := finalize_completion_bound 1 2
    Examples.orbitInitial Examples.orbitMachine Examples.orbitCommitted Examples.orbitSettled
    none (Ret.ok none) (by rfl) rfl (by rfl)
  exact ⟨h1, by rfl, by rfl, l, log, h2, h3, h4⟩

end FinalizeBoundClaim

end MachineImpl


namespace MachineImpl

section EnqueuingClaim

variable {S I O C : Type} [DecidableEq S]

theorem deliver_enqueued_of_empty (m : MachineImpl S I O (C × List I))
    (hbox : m.ctx_.2 = []) : m.deliver_enqueued = m := by
  obtain ⟨cur, hs, ts, anys, cs, pend, ctx, mu, dq, de, dr, lim, pc, ai, tr⟩ := m
  obtain ⟨c, box⟩ := ctx
  simp only at hbox
  subst hbox
  simp [deliver_enqueued]

/-- C12 (counterexample): the machine of `examples/processing_queue.cpp`, built, with
nothing pending.  `dispatch(Start{3})` returns `"Started"` and leaves the machine in
`Processing` with `pending == 3` and the `Tick` its action enqueued in the pending
queue.  `enqueue(Start{3})` followed by `dispatch_all()` handles that `Tick` and the two
that follow it as well: it returns four outputs, not the one of `dispatch`, and leaves
the machine in `Done` with `pending == 0`. -/
theorem enqueue_dispatch_all_eq_dispatch_counterexample :
    Examples.jobBuilder.build 1 (0, []) = some (Examples.jobMachine, Ret.ok ()) ∧
    Examples.jobMachine.pending_inputs_ = [] ∧
    (Examples.jobMachine.dispatch_enqueuing 1 (Examples.JInput.Start 3)).map
        (fun p => (p.2, p.1.current_, p.1.ctx_, p.1.pending_inputs_))
      = some (Ret.ok (some "Started"), Examples.JState.Processing, (3, []),
          [Examples.JInput.Tick]) ∧
    ((Examples.jobMachine.enqueue (Examples.JInput.Start 3)).dispatch_all_enqueuing 5).map
        (fun p => (p.2, p.1.current_, p.1.ctx_, p.1.pending_inputs_))
      = some (Ret.ok ["Started", "Processed one", "Processed one", "All jobs complete"],
          Examples.JState.Done, (0, []), []) :=
  ⟨by rfl, rfl, by rfl, by rfl⟩

/-- C12 (amended): on a machine whose pending queue is empty, with fuel for two loop
tests, and for an event `e` during whose handling no callable enqueues an event (no
enqueued event is waiting when `dispatch(e)` has run), `enqueue(e)` followed by
`dispatch_all()` does what `dispatch(e)` does.  When `dispatch(e)` returns,
`dispatch_all()` returns and leaves the very same machine (state, context, deferral
queues, flags, and the same trace of hook and action calls, the pending queue empty
again), and its result is `[v]` when `dispatch(e)` returns `Some v` and the empty vector
when it returns `None`; when `dispatch(e)` throws, `dispatch_all()` throws the same
exception and leaves the same machine; it runs out of fuel exactly when `dispatch(e)`
does.  The same holds of the plain member functions on a machine, of any context type,
whose callables have no reference to it, so that none of them can enqueue. -/
theorem enqueue_dispatch_all_eq_dispatch (fuel : Nat) (m : MachineImpl S I O (C × List I))
    (e : I) (hq : m.pending_inputs_ = []) (hfuel : 1 < fuel)
    (hquiet : ∀ m1 r, m.dispatch fuel e = some (m1, r) → m1.ctx_.2 = []) :
    (m.enqueue e).dispatch_all_enqueuing fuel =
      andThenF (m.dispatch_enqueuing fuel e) (fun m1 out => some (m1, Ret.ok out.toList)) ∧
    m.dispatch_enqueuing fuel e = m.dispatch fuel e ∧
    (∀ m1 r, m.dispatch_enqueuing fuel e = some (m1, r) → m1.pending_inputs_ = []) ∧
    (∀ (K : Type) (m0 : MachineImpl S I O K), m0.pending_inputs_ = [] →
      (m0.enqueue e).dispatch_all fuel =
        andThenF (m0.dispatch fuel e) (fun m1 out => some (m1, Ret.ok out.toList))) := by
  have hplain : ∀ (K : Type) (m0 : MachineImpl S I O K), m0.pending_inputs_ = [] →
      (m0.enqueue e).dispatch_all fuel =
        andThenF (m0.dispatch fuel e) (fun m1 out => some (m1, Ret.ok out.toList)) :=
    fun K m0 h0 => enqueue_dispatch_all_plain fuel m0 e h0 hfuel
  obtain ⟨n, rfl⟩ : ∃ n, fuel = n + 2 := ⟨fuel - 2, by omega⟩
  have hback : ({ m.enqueue e with pending_inputs_ := [] } : MachineImpl S I O (C × List I))
      = m := by
    cases m
    simp only at hq
    subst hq
    rfl
  have hpend : (m.enqueue e).pending_inputs_ = [e] := by
    simp only [enqueue, hq, List.nil_append]
  have hsame : m.dispatch_enqueuing (n + 2) e = m.dispatch (n + 2) e := by
    unfold dispatch_enqueuing delivered
    cases hd : m.dispatch (n + 2) e with
    | none => rfl
    | some p =>
      obtain ⟨m1, r⟩ := p
      simp only [Option.map_some']
      rw [deliver_enqueued_of_empty m1 (hquiet m1 r hd)]
  refine ⟨?_, hsame, ?_, hplain⟩
  · unfold dispatch_all_enqueuing
    rw [dispatch_all_loop_enqueuing]
    simp only [hpend]
    rw [hback]
    have hin : m.handle_input_enqueuing (n + 2) e = m.dispatch (n + 2) e := by
      unfold handle_input_enqueuing
      rw [handle_input_eq_dispatch]
      exact hsame
    rw [hin, hsame]
    cases hd : m.dispatch (n + 2) e with
    | none => rfl
    | some p =>
      obtain ⟨m1, r⟩ := p
      have hp : m1.pending_inputs_ = [] :=
        (dispatch_keeps_pending (n + 2) m m1 e r hd).trans hq
      cases r with
      | raised x => rfl
      | aborted => rfl
      | ok out =>
        simp only [andThenF]
        rw [dispatch_all_loop_enqueuing]
        simp only [hp]
        cases out <;> rfl
  · intro m1 r h
    rw [hsame] at h
    exact (dispatch_keeps_pending (n + 2) m m1 e r h).trans hq

/-- The machine of `examples/processing_queue.cpp` in `Idle`: the action of `Start{0}`
schedules no `Tick`, and `enqueue(Start{0})` then `dispatch_all()` returns `["Started"]`
and leaves the machine `dispatch(Start{0})` leaves. -/
theorem enqueue_dispatch_all_eq_dispatch_witness :
    Examples.jobMachine.pending_inputs_ = [] ∧
    (Examples.jobMachine.enqueue (Examples.JInput.Start 0)).dispatch_all_enqueuing 2 =
      andThenF (Examples.jobMachine.dispatch_enqueuing 2 (Examples.JInput.Start 0))
        (fun m1 out => some (m1, Ret.ok out.toList)) ∧
    ((Examples.jobMachine.enqueue (Examples.JInput.Start 0)).dispatch_all_enqueuing 2).map
        (fun p => (p.2, p.1.current_, p.1.ctx_, p.1.pending_inputs_))
      = some (Ret.ok ["Started"], Examples.JState.Processing, (0, []), []) :=
  ⟨rfl,
    (enqueue_dispatch_all_eq_dispatch 2 Examples.jobMachine (Examples.JInput.Start 0) rfl
      (by decide)
      (fun m1 r h => by
        have hbox : (Examples.jobMachine.dispatch 2 (Examples.JInput.Start 0)).map
            (fun p => p.1.ctx_.2) = some [] := by rfl
        rw [h] at hbox
        exact Option.some.inj hbox)).1,
    by rfl⟩

end EnqueuingClaim

end MachineImpl

end LSM
